import Mathlib

/-!
# STM32F0 emulated EEPROM: a shallow embedding of `eeprom.c`

The flash region is modelled as `PAGE_NUM` pages of half-words, addressed by
page index and byte offset inside the page (`PAGE_BASE_ADDRESS(pg) + off` in
the source).  The functions below follow `src/eeprom.c` line by line; the
configuration macros of `eeprom_conf.h` and the external key table
`VirtAddVarTab` are collected in `Cfg`.
-/

namespace EEPROM

/-! ## Constants of `eeprom.h` -/

/-- Page status `ERASED`. -/
def ERASED : Nat := 0xFFFF
/-- Page status `RECEIVE_DATA`. -/
def RECEIVE_DATA : Nat := 0xEEEE
/-- Page status `VALID_PAGE`. -/
def VALID_PAGE : Nat := 0x0000
/-- Page status `PAGE_UNKNOWN`, the initial filling of the status array. -/
def PAGE_UNKNOWN : Nat := 0x0006
/-- Sentinel page index `NO_VALID_PAGE`. -/
def NO_VALID_PAGE : Nat := 0x00AB
/-- Status `PAGE_FULL`. -/
def PAGE_FULL : Nat := 0x80
/-- Operation selector `READ_FROM_VALID_PAGE`. -/
def READ_FROM_VALID_PAGE : Nat := 0x00
/-- Operation selector `WRITE_IN_VALID_PAGE`. -/
def WRITE_IN_VALID_PAGE : Nat := 0x01
/-- Page index `PAGE0`. -/
def PAGE0 : Nat := 0
/-- Modelled from the spec: the `Ok` status of the flash driver, whose header
is not part of the sources.  The vendor header `stm32f0xx_flash.h` numbers
`FLASH_BUSY = 1, FLASH_ERROR_WRP, FLASH_ERROR_PROGRAM, FLASH_COMPLETE,
FLASH_TIMEOUT`; the proofs only use that it differs from `PAGE_FULL` and
`NO_VALID_PAGE`. -/
def FLASH_COMPLETE : Nat := 4

/-! ## Flash memory -/

/-- Content of the flash region: page index, byte offset in the page, half-word. -/
abbrev Flash := Nat → Nat → Nat

/-- The 16-bit read `*(__IO uint16_t*)(PAGE_BASE_ADDRESS(pg) + off)`. -/
def hw (fl : Flash) (pg off : Nat) : Nat := fl pg off % 65536

/-- The 32-bit little-endian read `*(__IO uint32_t*)(PAGE_BASE_ADDRESS(pg) + off)`. -/
def read32 (fl : Flash) (pg off : Nat) : Nat := hw fl pg off + 65536 * hw fl pg (off + 2)

/-- A flash operation issued to the driver. -/
inductive FlashOp where
  | program (pg off val : Nat)
  | erase (pg : Nat)
  deriving DecidableEq, Repr

/-- Modelled from the spec: the flash driver is not part of the sources.
`program_halfword` writes a 2-byte value and only honours `1 → 0` bit
transitions (the new content is the bitwise AND of old content and value);
`erase_page` returns a whole page to all ones.  A page of the emulation is one
erase unit. -/
def FlashOp.apply : FlashOp → Flash → Flash
  | .program pg off val, fl =>
      fun p o => if p = pg ∧ o = off then hw fl pg off &&& (val % 65536) else fl p o
  | .erase pg, fl => fun p o => if p = pg then 0xFFFF else fl p o

/-- Effect of a sequence of flash operations, oldest first. -/
def applyOps : List FlashOp → Flash → Flash
  | [], fl => fl
  | op :: rest, fl => applyOps rest (op.apply fl)

/-- Configuration: the macros of `eeprom_conf.h`, the key table, and the
behaviour of the flash driver (`drv n` is the status returned by the `n`-th
flash operation issued since power-up). -/
structure Cfg where
  PAGE_NUM : Nat
  PAGE_SIZE : Nat
  VirtAddVarTab : List Nat
  drv : Nat → Nat

/-- The macro `NB_OF_VAR`: the length of the key table. -/
def Cfg.NB_OF_VAR (cfg : Cfg) : Nat := cfg.VirtAddVarTab.length

/-- Machine state: flash content, the global `DataVar`, and the log of flash
operations issued so far. -/
structure EE where
  flash : Flash
  DataVar : Nat
  ops : List FlashOp

/-- Modelled from the spec: a call into the flash driver, which is not part of
the sources.  It returns `Ok | ErrorCode`; the status of the `n`-th call is
`cfg.drv n`, the operation is logged, and it takes effect when the status is
`FLASH_COMPLETE`. -/
def flashOp (cfg : Cfg) (s : EE) (op : FlashOp) : Nat × EE :=
  (cfg.drv s.ops.length,
   { flash := if cfg.drv s.ops.length = FLASH_COMPLETE then op.apply s.flash else s.flash,
     DataVar := s.DataVar,
     ops := s.ops ++ [op] })

/-- Modelled from the spec: `FLASH_ProgramHalfWord(PAGE_BASE_ADDRESS(pg) + off, val)`,
the driver's `program_halfword`. -/
def FLASH_ProgramHalfWord (cfg : Cfg) (s : EE) (pg off val : Nat) : Nat × EE :=
  flashOp cfg s (.program pg off val)

/-- Modelled from the spec: `FLASH_ErasePage(PAGE_BASE_ADDRESS(pg))`, the
driver's `erase_page`. -/
def FLASH_ErasePage (cfg : Cfg) (s : EE) (pg : Nat) : Nat × EE :=
  flashOp cfg s (.erase pg)

/-! ## `EE_FindValidPage` -/

/-- `EE_FindValidPage(Operation)`: the loops return at the first page whose
header is `VALID_PAGE`. -/
def EE_FindValidPage (cfg : Cfg) (fl : Flash) (Operation : Nat) : Nat :=
  let page_status : Nat → Nat := fun page_idx => hw fl page_idx 0
  if Operation = WRITE_IN_VALID_PAGE then
    match (List.range cfg.PAGE_NUM).find? (fun page_idx => page_status page_idx = VALID_PAGE) with
    | some page_idx =>
        let next_page := (page_idx + 1) % cfg.PAGE_NUM
        if page_status next_page = RECEIVE_DATA then next_page else page_idx
    | none => NO_VALID_PAGE
  else if Operation = READ_FROM_VALID_PAGE then
    match (List.range cfg.PAGE_NUM).find? (fun page_idx => page_status page_idx = VALID_PAGE) with
    | some page_idx => page_idx
    | none => NO_VALID_PAGE
  else PAGE0

/-! ## `EE_ReadVariable` -/

/-- The `while (Address > PageStartAddress + 2)` loop of `EE_ReadVariable`,
`Address` being the byte offset in the page.  Result: `(ReadStatus, *Data)`.
With `PAGE_SIZE` a multiple of 4 the offsets visited are `PAGE_SIZE - 2`,
`PAGE_SIZE - 6`, ..., `6`, and the loop ends at offset `2`. -/
def EE_ReadVariable.scan (fl : Flash) (ValidPage VirtAddress Data : Nat) : Nat → Nat × Nat
  | Address + 4 =>
      if hw fl ValidPage (Address + 4) = VirtAddress then
        (0, hw fl ValidPage (Address + 2))
      else EE_ReadVariable.scan fl ValidPage VirtAddress Data Address
  | _ => (1, Data)

/-- `EE_ReadVariable(VirtAddress, Data)`: returns the status and the content
of `*Data` after the call (`Data` is its content before). -/
def EE_ReadVariable (cfg : Cfg) (fl : Flash) (VirtAddress Data : Nat) : Nat × Nat :=
  let ValidPage := EE_FindValidPage cfg fl READ_FROM_VALID_PAGE
  if ValidPage = NO_VALID_PAGE then (NO_VALID_PAGE, Data)
  else EE_ReadVariable.scan fl ValidPage VirtAddress Data (cfg.PAGE_SIZE - 2)

/-! ## `EE_VerifyPageFullWriteVariable` -/

/-- The `while (Address < PageEndAddress)` loop of
`EE_VerifyPageFullWriteVariable`.  Each round advances `Address` by 4, so
`PAGE_SIZE` rounds of fuel are never used up. -/
def EE_VerifyPageFullWriteVariable.scan (cfg : Cfg) (s : EE)
    (ValidPage PageEndAddress VirtAddress Data : Nat) : Nat → Nat → Nat × EE
  | 0, _ => (PAGE_FULL, s)
  | fuel + 1, Address =>
      if Address < PageEndAddress then
        if read32 s.flash ValidPage Address = 0xFFFFFFFF then
          let r := FLASH_ProgramHalfWord cfg s ValidPage Address Data
          if r.1 ≠ FLASH_COMPLETE then r
          else FLASH_ProgramHalfWord cfg r.2 ValidPage (Address + 2) VirtAddress
        else
          EE_VerifyPageFullWriteVariable.scan cfg s ValidPage PageEndAddress VirtAddress Data
            fuel (Address + 4)
      else (PAGE_FULL, s)

/-- `EE_VerifyPageFullWriteVariable(VirtAddress, Data)`. -/
def EE_VerifyPageFullWriteVariable (cfg : Cfg) (s : EE) (VirtAddress Data : Nat) : Nat × EE :=
  let ValidPage := EE_FindValidPage cfg s.flash WRITE_IN_VALID_PAGE
  if ValidPage = NO_VALID_PAGE then (NO_VALID_PAGE, s)
  else
    EE_VerifyPageFullWriteVariable.scan cfg s ValidPage (cfg.PAGE_SIZE - 2) VirtAddress Data
      cfg.PAGE_SIZE 0

/-! ## `EE_PageTransfer` and `EE_WriteVariable` -/

/-- The `for (VarIdx ...)` copy loop of `EE_PageTransfer` over the remaining
entries of the key table; `some st` is an early `return st`. -/
def EE_PageTransfer.loop (cfg : Cfg) (VirtAddress : Nat) : List Nat → EE → Option Nat × EE
  | [], s => (none, s)
  | t :: rest, s =>
      if t ≠ VirtAddress then
        let rd := EE_ReadVariable cfg s.flash t s.DataVar
        let s1 : EE := { flash := s.flash, DataVar := rd.2, ops := s.ops }
        if rd.1 ≠ 0x1 then
          let w := EE_VerifyPageFullWriteVariable cfg s1 t s1.DataVar
          if w.1 ≠ FLASH_COMPLETE then (some w.1, w.2)
          else EE_PageTransfer.loop cfg VirtAddress rest w.2
        else EE_PageTransfer.loop cfg VirtAddress rest s1
      else EE_PageTransfer.loop cfg VirtAddress rest s

/-- `EE_PageTransfer(VirtAddress, Data)`. -/
def EE_PageTransfer (cfg : Cfg) (s : EE) (VirtAddress Data : Nat) : Nat × EE :=
  let ValidPage := EE_FindValidPage cfg s.flash READ_FROM_VALID_PAGE
  if ValidPage ≠ NO_VALID_PAGE then
    let NewPage := (ValidPage + 1) % cfg.PAGE_NUM
    let OldPage := ValidPage
    let r1 := FLASH_ProgramHalfWord cfg s NewPage 0 RECEIVE_DATA
    if r1.1 ≠ FLASH_COMPLETE then r1
    else
      let r2 := EE_VerifyPageFullWriteVariable cfg r1.2 VirtAddress Data
      if r2.1 ≠ FLASH_COMPLETE then r2
      else
        let r3 := EE_PageTransfer.loop cfg VirtAddress cfg.VirtAddVarTab r2.2
        match r3.1 with
        | some st => (st, r3.2)
        | none =>
            let r4 := FLASH_ErasePage cfg r3.2 OldPage
            if r4.1 ≠ FLASH_COMPLETE then r4
            else
              let r5 := FLASH_ProgramHalfWord cfg r4.2 NewPage 0 VALID_PAGE
              if r5.1 ≠ FLASH_COMPLETE then r5
              else (r5.1, r5.2)
  else (NO_VALID_PAGE, s)

/-- `EE_WriteVariable(VirtAddress, Data)`. -/
def EE_WriteVariable (cfg : Cfg) (s : EE) (VirtAddress Data : Nat) : Nat × EE :=
  let r := EE_VerifyPageFullWriteVariable cfg s VirtAddress Data
  if r.1 = PAGE_FULL then EE_PageTransfer cfg r.2 VirtAddress Data
  else r

/-! ## `EE_Format` and `EE_Init` -/

/-- The `for (page_idx ...)` loop of `EE_Format`, with the local `FlashStatus`. -/
def EE_Format.loop (cfg : Cfg) (initial_page : Nat) : Nat → Nat → Nat → EE → Nat × EE
  | 0, _, FlashStatus, s => (FlashStatus, s)
  | fuel + 1, page_idx, FlashStatus, s =>
      if page_idx < cfg.PAGE_NUM then
        let r := FLASH_ErasePage cfg s page_idx
        if r.1 ≠ FLASH_COMPLETE then r
        else if page_idx = initial_page then
          let r2 := FLASH_ProgramHalfWord cfg r.2 page_idx 0 VALID_PAGE
          if r2.1 ≠ FLASH_COMPLETE then r2
          else EE_Format.loop cfg initial_page fuel (page_idx + 1) r2.1 r2.2
        else EE_Format.loop cfg initial_page fuel (page_idx + 1) r.1 r.2
      else (FlashStatus, s)

/-- `EE_Format(initial_page)`. -/
def EE_Format (cfg : Cfg) (s : EE) (initial_page : Nat) : Nat × EE :=
  EE_Format.loop cfg initial_page cfg.PAGE_NUM 0 FLASH_COMPLETE s

/-- The two header scans of `EE_Init` (for `VALID_PAGE`, then for
`RECEIVE_DATA`): result `(page_idx, current_page, is_pages_invalid)` when the
loop is left. -/
def EE_Init.scan (cfg : Cfg) (page_status : Nat → Nat) (target : Nat) :
    Nat → Nat → Nat → Nat × Nat × Bool
  | 0, page_idx, current_page => (page_idx, current_page, false)
  | fuel + 1, page_idx, current_page =>
      if page_idx < cfg.PAGE_NUM then
        if page_status page_idx = target then
          if current_page = NO_VALID_PAGE then
            EE_Init.scan cfg page_status target fuel (page_idx + 1) page_idx
          else (page_idx, current_page, true)
        else EE_Init.scan cfg page_status target fuel (page_idx + 1) current_page
      else (page_idx, current_page, false)

/-- The `for (VarIdx ...)` copy loop of `EE_Init` (case `VALID_PAGE` followed
by `RECEIVE_DATA`), with the local `x`; `some st` is an early `return st`. -/
def EE_Init.transfer (cfg : Cfg) (next_page : Nat) :
    List Nat → Nat → Int → EE → Option Nat × EE
  | [], _, _, s => (none, s)
  | t :: rest, VarIdx, x, s =>
      let x1 : Int := if hw s.flash next_page 6 = t then (VarIdx : Int) else x
      if (VarIdx : Int) ≠ x1 then
        let rd := EE_ReadVariable cfg s.flash t s.DataVar
        let s1 : EE := { flash := s.flash, DataVar := rd.2, ops := s.ops }
        if rd.1 ≠ 0x1 then
          let w := EE_VerifyPageFullWriteVariable cfg s1 t s1.DataVar
          if w.1 ≠ FLASH_COMPLETE then (some w.1, w.2)
          else EE_Init.transfer cfg next_page rest (VarIdx + 1) x1 w.2
        else EE_Init.transfer cfg next_page rest (VarIdx + 1) x1 s1
      else EE_Init.transfer cfg next_page rest (VarIdx + 1) x1 s

/-- `EE_Init()`. -/
def EE_Init (cfg : Cfg) (s : EE) : Nat × EE :=
  let page_status : Nat → Nat := fun page_idx => hw s.flash page_idx 0
  let l1 := EE_Init.scan cfg page_status VALID_PAGE cfg.PAGE_NUM 0 NO_VALID_PAGE
  let l2 :=
    if !l1.2.2 && l1.2.1 = NO_VALID_PAGE then
      EE_Init.scan cfg page_status RECEIVE_DATA cfg.PAGE_NUM 0 l1.2.1
    else l1
  let page_idx := l2.1
  let current_page := l2.2.1
  let is_pages_invalid := l2.2.2
  if is_pages_invalid || current_page = NO_VALID_PAGE then
    let current_page := if is_pages_invalid then page_idx else PAGE0
    let r := EE_Format cfg s current_page
    if r.1 ≠ FLASH_COMPLETE then r else (FLASH_COMPLETE, r.2)
  else
    let current_page_status := page_status current_page
    let next_page := (current_page + 1) % cfg.PAGE_NUM
    if current_page_status = ERASED then (FLASH_COMPLETE, s)
    else if current_page_status = RECEIVE_DATA then
      let r := FLASH_ProgramHalfWord cfg s current_page 0 VALID_PAGE
      if r.1 ≠ FLASH_COMPLETE then r
      else
        let r2 := FLASH_ErasePage cfg r.2 next_page
        if r2.1 ≠ FLASH_COMPLETE then r2 else (FLASH_COMPLETE, r2.2)
    else if current_page_status = VALID_PAGE then
      if page_status next_page = RECEIVE_DATA then
        let r3 := EE_Init.transfer cfg next_page cfg.VirtAddVarTab 0 (-1) s
        match r3.1 with
        | some st => (st, r3.2)
        | none =>
            let r4 := FLASH_ErasePage cfg r3.2 current_page
            if r4.1 ≠ FLASH_COMPLETE then r4
            else
              let r5 := FLASH_ProgramHalfWord cfg r4.2 next_page 0 VALID_PAGE
              if r5.1 ≠ FLASH_COMPLETE then r5 else (FLASH_COMPLETE, r5.2)
      else if page_status next_page = ERASED then
        let r := FLASH_ErasePage cfg s next_page
        if r.1 ≠ FLASH_COMPLETE then r else (FLASH_COMPLETE, r.2)
      else (FLASH_COMPLETE, s)
    else (FLASH_COMPLETE, s)


/-! ## Specification vocabulary -/

/-- Number of record slots of a page: the slots at byte offsets `4`, `8`, ...,
`PAGE_SIZE - 4` (value half-word first, address half-word 2 bytes later). -/
def Cfg.slots (cfg : Cfg) : Nat := cfg.PAGE_SIZE / 4 - 1

/-- Page geometry assumed throughout: pages are a whole number of 4-byte words. -/
def Cfg.Geom (cfg : Cfg) : Prop := 4 ≤ cfg.PAGE_SIZE ∧ cfg.PAGE_SIZE % 4 = 0

/-- The page count allowed by `eeprom.h` (`PAGE_NUM_MIN`, `PAGE_NUM_MAX`). -/
def Cfg.PagesOk (cfg : Cfg) : Prop := 2 ≤ cfg.PAGE_NUM ∧ cfg.PAGE_NUM ≤ 6

/-- Every flash operation succeeds. -/
def Cfg.FlashOk (cfg : Cfg) : Prop := ∀ n, cfg.drv n = FLASH_COMPLETE

/-- The key table holds 16-bit virtual addresses other than the prohibited `0xFFFF`. -/
def Cfg.TableOk (cfg : Cfg) : Prop := ∀ t ∈ cfg.VirtAddVarTab, t < 0xFFFF

instance (cfg : Cfg) : Decidable cfg.Geom := by unfold Cfg.Geom; infer_instance
instance (cfg : Cfg) : Decidable cfg.PagesOk := by unfold Cfg.PagesOk; infer_instance
instance (cfg : Cfg) : Decidable cfg.TableOk := by unfold Cfg.TableOk; infer_instance

/-- The record slots of a page in page order, as `(value, address)` pairs. -/
def pageRecords (cfg : Cfg) (fl : Flash) (pg : Nat) : List (Nat × Nat) :=
  (List.range cfg.slots).map (fun i => (hw fl pg (4 * i + 4), hw fl pg (4 * i + 6)))

/-- Value of the last record with address `t` in a list of records: scan from
the end and take the first record whose address equals `t`. -/
def lookupRec (recs : List (Nat × Nat)) (t : Nat) : Option Nat :=
  (recs.reverse.find? (fun r => r.2 = t)).map (fun r => r.1)

/-- Latest value stored for key `t` on page `pg`. -/
def latest (cfg : Cfg) (fl : Flash) (pg t : Nat) : Option Nat :=
  lookupRec (pageRecords cfg fl pg) t

/-- Outcome of a read reported to the caller whose variable held `d`. -/
def readResult (r : Option Nat) (d : Nat) : Nat × Nat :=
  match r with
  | some v => (0, v)
  | none => (1, d)

/-- Latest value for `t` among the first `j` record slots of page `pg`. -/
def lastRec (fl : Flash) (pg t : Nat) : Nat → Option Nat
  | 0 => none
  | j + 1 => if hw fl pg (4 * j + 6) = t then some (hw fl pg (4 * j + 4)) else lastRec fl pg t j

/-- The flash operations that append the records `recs` to page `pg` starting
at record slot `n`: value half-word first, then address half-word. -/
def appendOps (pg : Nat) : Nat → List (Nat × Nat) → List FlashOp
  | _, [] => []
  | n, r :: rest =>
      .program pg (4 * n + 4) r.1 :: .program pg (4 * n + 6) r.2 :: appendOps pg (n + 1) rest

/-- The body of page `pg` consists of the slots `recs` (none of them fully
erased) followed only by fully erased slots. -/
def PageHolds (cfg : Cfg) (fl : Flash) (pg : Nat) (recs : List (Nat × Nat)) : Prop :=
  recs.length ≤ cfg.slots ∧
  (∀ j, j < recs.length →
    hw fl pg (4 * j + 4) = (recs.getD j (0, 0)).1 ∧ hw fl pg (4 * j + 6) = (recs.getD j (0, 0)).2) ∧
  (∀ r ∈ recs, r.1 ≠ 0xFFFF ∨ r.2 ≠ 0xFFFF) ∧
  (∀ j, j < cfg.slots → recs.length ≤ j →
    hw fl pg (4 * j + 4) = 0xFFFF ∧ hw fl pg (4 * j + 6) = 0xFFFF)

instance (cfg : Cfg) (fl : Flash) (pg : Nat) (recs : List (Nat × Nat)) :
    Decidable (PageHolds cfg fl pg recs) := by
  unfold PageHolds; infer_instance

/-- Page `p` is the only page of the region whose header is `VALID_PAGE`. -/
def UniqueValid (cfg : Cfg) (fl : Flash) (p : Nat) : Prop :=
  p < cfg.PAGE_NUM ∧ hw fl p 0 = VALID_PAGE ∧
    ∀ q, q < cfg.PAGE_NUM → hw fl q 0 = VALID_PAGE → q = p

instance (cfg : Cfg) (fl : Flash) (p : Nat) : Decidable (UniqueValid cfg fl p) := by
  unfold UniqueValid; infer_instance

/-- Every half-word of page `pg` is `0xFFFF`. -/
def PageErased (cfg : Cfg) (fl : Flash) (pg : Nat) : Prop :=
  ∀ o, o < cfg.PAGE_SIZE → hw fl pg o = 0xFFFF

instance (cfg : Cfg) (fl : Flash) (pg : Nat) : Decidable (PageErased cfg fl pg) := by
  unfold PageErased; infer_instance

/-- A record as it can be appended: 16-bit halves, not the erased pattern. -/
def RecOk (r : Nat × Nat) : Prop := r.1 < 65536 ∧ r.2 < 65536 ∧ (r.1 ≠ 0xFFFF ∨ r.2 ≠ 0xFFFF)

instance (r : Nat × Nat) : Decidable (RecOk r) := by unfold RecOk; infer_instance

/-- A transfer is under way: `src` is the only valid page, its ring successor
`dst` is marked `RECEIVE_DATA` and holds the records `recs`. -/
def Mid (cfg : Cfg) (fl : Flash) (src dst : Nat) (recs : List (Nat × Nat)) : Prop :=
  UniqueValid cfg fl src ∧ dst = (src + 1) % cfg.PAGE_NUM ∧ hw fl dst 0 = RECEIVE_DATA ∧
    PageHolds cfg fl dst recs

/-- The records a transfer copies: for each entry `t ≠ k` of the table, in
table order, the record `(latest value, t)` when `t` has a value. -/
def copies (look : Nat → Option Nat) (k : Nat) (tab : List Nat) : List (Nat × Nat) :=
  (tab.filter (fun t => t ≠ k)).filterMap (fun t => (look t).map (fun w => (w, t)))

/-- The state between calls: `p` is the only valid page and holds the slots
`recs` followed by erased slots; every other page is fully erased. -/
def Steady (cfg : Cfg) (fl : Flash) (p : Nat) (recs : List (Nat × Nat)) : Prop :=
  UniqueValid cfg fl p ∧ PageHolds cfg fl p recs ∧
    ∀ q, q < cfg.PAGE_NUM → q ≠ p → PageErased cfg fl q

instance (cfg : Cfg) (fl : Flash) (p : Nat) (recs : List (Nat × Nat)) :
    Decidable (Steady cfg fl p recs) := by
  unfold Steady; infer_instance

/-- The flash operations of a complete page transfer from `src` to `dst` that
leaves the records `recs` on `dst`. -/
def rotateOps (src dst : Nat) (recs : List (Nat × Nat)) : List FlashOp :=
  .program dst 0 RECEIVE_DATA :: (appendOps dst 0 recs ++ [.erase src, .program dst 0 VALID_PAGE])

/-- The flash operations of `EE_Format(initial_page)` for the pages
`page_idx`, ..., `page_idx + n - 1`: erase each page, and mark `initial_page`
valid right after its erase. -/
def formatOps (initial_page : Nat) : Nat → Nat → List FlashOp
  | 0, _ => []
  | n + 1, page_idx =>
      if page_idx = initial_page then
        .erase page_idx :: .program page_idx 0 VALID_PAGE :: formatOps initial_page n (page_idx + 1)
      else .erase page_idx :: formatOps initial_page n (page_idx + 1)

/-- The region is formatted with `p` as valid page: the header of `p` is
`VALID_PAGE` and every other half-word of every page is `0xFFFF`. -/
def Formatted (cfg : Cfg) (fl : Flash) (p : Nat) : Prop :=
  ∀ q, q < cfg.PAGE_NUM → ∀ o, o < cfg.PAGE_SIZE →
    hw fl q o = if q = p ∧ o = 0 then VALID_PAGE else 0xFFFF

instance (cfg : Cfg) (fl : Flash) (p : Nat) : Decidable (Formatted cfg fl p) := by
  unfold Formatted; infer_instance

/-- The configuration of `eeprom_conf.h` (`PAGE_NUM = 6`, `PAGE_SIZE = 0x400`)
with a key table `tab` and a flash driver that always succeeds. -/
def repoCfg (tab : List Nat) : Cfg :=
  { PAGE_NUM := 6, PAGE_SIZE := 0x400, VirtAddVarTab := tab, drv := fun _ => FLASH_COMPLETE }

/-- A key table of `NB_OF_VAR = 22` virtual addresses `1`, ..., `22`. -/
def sampleTab : List Nat := List.range' 1 22

/-- A small configuration for worked examples: 3 pages of 16 bytes (3 record
slots each), keys `1` and `2`, a flash driver that always succeeds. -/
def demoCfg : Cfg :=
  { PAGE_NUM := 3, PAGE_SIZE := 16, VirtAddVarTab := [1, 2], drv := fun _ => FLASH_COMPLETE }

/-- A machine whose flash content is given page by page as lists of
half-words at byte offsets `0`, `2`, `4`, ...; everything else reads `0xFFFF`. -/
def stateOf (pages : List (List Nat)) : EE :=
  { flash := fun p o => if o % 2 = 0 then ((pages.getD p []).getD (o / 2) 0xFFFF) else 0xFFFF,
    DataVar := 0, ops := [] }

/-- The invariant between calls: exactly one page is `VALID_PAGE`, no page is
`RECEIVE_DATA`, every other page is fully erased, and the valid page consists
of well-formed records (address half-word other than `0xFFFF`) followed only by
fully erased slots. -/
def BetweenCalls (cfg : Cfg) (fl : Flash) : Prop :=
  ∃ p, UniqueValid cfg fl p ∧
    (∀ q, q < cfg.PAGE_NUM → hw fl q 0 ≠ RECEIVE_DATA) ∧
    (∀ q, q < cfg.PAGE_NUM → q ≠ p → PageErased cfg fl q) ∧
    ∃ recs, PageHolds cfg fl p recs ∧ ∀ r ∈ recs, r.2 ≠ 0xFFFF

/-- A sequence of `EE_WriteVariable(key, value)` calls: the statuses returned,
in order, and the final state. -/
def writeAll (cfg : Cfg) : EE → List (Nat × Nat) → List Nat × EE
  | s, [] => ([], s)
  | s, w :: ws =>
      (((EE_WriteVariable cfg s w.1 w.2).1 :: (writeAll cfg (EE_WriteVariable cfg s w.1 w.2).2 ws).1),
       (writeAll cfg (EE_WriteVariable cfg s w.1 w.2).2 ws).2)

/-- The value of the last write to key `k` in a sequence of `(key, value)` writes. -/
def lastWrite (ws : List (Nat × Nat)) (k : Nat) : Option Nat :=
  (ws.reverse.find? (fun w => w.1 = k)).map (fun w => w.2)

/-- The address half-word of the first record slot of a page holding `recs`
(`0xFFFF` when the page holds nothing). -/
def firstAddr : List (Nat × Nat) → Nat
  | [] => 0xFFFF
  | r :: _ => r.2

/-- The records the copy loop of `EE_Init` appends to a receiving page that
holds `recs`: a table entry equal to the address of the page's first record is
skipped, every other entry with a value on the valid page is copied. -/
def initAdd (look : Nat → Option Nat) : List Nat → List (Nat × Nat) → List (Nat × Nat)
  | [], _ => []
  | t :: rest, recs =>
      if firstAddr recs = t then initAdd look rest recs
      else match look t with
        | some w => (w, t) :: initAdd look rest (recs ++ [(w, t)])
        | none => initAdd look rest recs

/-- The small configuration with 32-byte pages (7 record slots each). -/
def wideCfg : Cfg :=
  { PAGE_NUM := 3, PAGE_SIZE := 32, VirtAddVarTab := [1, 2], drv := fun _ => FLASH_COMPLETE }

/-- The flash operations `EE_WriteVariable(k, v)` issues from state `s`, in order. -/
def issuedOps (cfg : Cfg) (s : EE) (k v : Nat) : List FlashOp :=
  ((EE_WriteVariable cfg s k v).2.ops).drop s.ops.length

/-- The operation programs the address half-word of a record slot (byte offset
`4j + 6`) with the virtual address `k`. -/
def programsAddress (k : Nat) : FlashOp → Bool
  | .program _ off val => off % 4 == 2 && val == k
  | .erase _ => false

/-- A state whose valid page 0 is full in the 7-slot configuration. -/
def fullState : EE := stateOf [[0, 0xFFFF, 7, 1, 9, 2, 8, 1, 3, 2, 4, 1, 5, 2, 6, 1]]

/-- The state after power fails 4 flash operations into the write of
`(2, 0xAAAA)` from `fullState`. -/
def cutState : EE :=
  { flash := applyOps ((issuedOps wideCfg fullState 2 0xAAAA).take 4) fullState.flash,
    DataVar := 0, ops := [] }

/-- Modelled from the spec: the flash driver, which is not part of the sources,
returns `Ok | ErrorCode`.  Its codes are `FLASH_Status` values (`1` to `5` in
the vendor header), so it never returns the emulation's own status
`PAGE_FULL`. -/
def Cfg.DriverOk (cfg : Cfg) : Prop := ∀ n, cfg.drv n ≠ PAGE_FULL

/-- The configuration of the concrete scenarios of the specification:
`PAGE_SIZE = 1024`, 3 pages, key table `[0x0001, 0x0002]`, a flash driver that
always succeeds. -/
def scenarioCfg : Cfg :=
  { PAGE_NUM := 3, PAGE_SIZE := 1024, VirtAddVarTab := [1, 2], drv := fun _ => FLASH_COMPLETE }

/-- The records a sequence of `(key, value)` writes appends: `(value, key)` each. -/
def recordsOf (ws : List (Nat × Nat)) : List (Nat × Nat) := ws.map (fun w => (w.2, w.1))

/-- Scenario 4 of the specification: 255 writes of key `0x0001` with the
distinct values `0`, `1`, ..., `254`. -/
def fillWrites : List (Nat × Nat) := (List.range 255).map (fun i => (1, i))

/-- A call that started with the operation log `ops0` and ended with result
`r` surfaces flash errors: it only added operations to the log, and if one of
the operations it issued returned a status other than `FLASH_COMPLETE`, that
operation is the last one issued and its status is the value returned. -/
def Surfaces (cfg : Cfg) (ops0 : List FlashOp) (r : Nat × EE) : Prop :=
  (∃ issued, r.2.ops = ops0 ++ issued) ∧
  ∀ n, ops0.length ≤ n → n < r.2.ops.length → cfg.drv n ≠ FLASH_COMPLETE →
    r.1 = cfg.drv n ∧ n + 1 = r.2.ops.length

/-- The same for a copy loop, whose result `some st` is an early `return st`
and whose result `none` is the normal end of the loop. -/
def SurfacesLoop (cfg : Cfg) (ops0 : List FlashOp) (r : Option Nat × EE) : Prop :=
  (∃ issued, r.2.ops = ops0 ++ issued) ∧
  ∀ n, ops0.length ≤ n → n < r.2.ops.length → cfg.drv n ≠ FLASH_COMPLETE →
    r.1 = some (cfg.drv n) ∧ n + 1 = r.2.ops.length

/-- The small configuration with a flash driver whose second operation fails
with `FLASH_ERROR_WRP` (2). -/
def faultyCfg : Cfg :=
  { PAGE_NUM := 3, PAGE_SIZE := 16, VirtAddVarTab := [1, 2],
    drv := fun n => if n = 1 then 2 else FLASH_COMPLETE }

/-- The record slots `j`, `j + 1`, ... of page `pg` are fully erased. -/
def TailFree (cfg : Cfg) (fl : Flash) (pg j : Nat) : Prop :=
  ∀ i, j ≤ i → i < cfg.slots → hw fl pg (4 * i + 4) = 0xFFFF ∧ hw fl pg (4 * i + 6) = 0xFFFF

/-- Page `dst`, the ring successor of the only valid page `src`, is marked
`RECEIVE_DATA` and its record slots from `j` on are fully erased; nothing is
assumed about the content of `src` or of the first `j` slots of `dst`. -/
def Receiving (cfg : Cfg) (fl : Flash) (src dst j : Nat) : Prop :=
  UniqueValid cfg fl src ∧ dst = (src + 1) % cfg.PAGE_NUM ∧ hw fl dst 0 = RECEIVE_DATA ∧
    TailFree cfg fl dst j

/-- The state `EE_Init` leaves alone: `p` is the only valid page and its ring
successor is not marked `RECEIVE_DATA` and, if its header is `ERASED`, is fully
erased. -/
def Settled (cfg : Cfg) (fl : Flash) (p : Nat) : Prop :=
  UniqueValid cfg fl p ∧ hw fl ((p + 1) % cfg.PAGE_NUM) 0 ≠ RECEIVE_DATA ∧
    (hw fl ((p + 1) % cfg.PAGE_NUM) 0 = ERASED → PageErased cfg fl ((p + 1) % cfg.PAGE_NUM))

/-- No append can succeed on flash content `fl`: whatever the record,
`EE_VerifyPageFullWriteVariable` returns `PAGE_FULL` and changes nothing. -/
def DstFull (cfg : Cfg) (fl : Flash) : Prop :=
  ∀ s : EE, s.flash = fl → ∀ k v, EE_VerifyPageFullWriteVariable cfg s k v = (PAGE_FULL, s)

/-- At most one page of the region has header `VALID_PAGE`. -/
def AtMostOneValid (cfg : Cfg) (fl : Flash) : Prop :=
  ∀ a, a < cfg.PAGE_NUM → ∀ b, b < cfg.PAGE_NUM →
    hw fl a 0 = VALID_PAGE → hw fl b 0 = VALID_PAGE → a = b

instance (cfg : Cfg) (fl : Flash) : Decidable (AtMostOneValid cfg fl) := by
  unfold AtMostOneValid; infer_instance

/-- The flash operations `EE_Init()` issues from state `s`, in order. -/
def initOps (cfg : Cfg) (s : EE) : List FlashOp := ((EE_Init cfg s).2.ops).drop s.ops.length

/-- Flash content after the driver has handled the operations `ops`, the first
of which is operation number `n` since power-up: as in `flashOp`, an operation
takes effect when the driver returns `FLASH_COMPLETE` for it. -/
def applyDrv (cfg : Cfg) : Nat → List FlashOp → Flash → Flash
  | _, [], fl => fl
  | n, op :: rest, fl =>
      applyDrv cfg (n + 1) rest (if cfg.drv n = FLASH_COMPLETE then op.apply fl else fl)

/-- The code that ran from state `s` to state `r` issued a sequence of flash
operations that accounts for the flash content of `r`, such that `P` holds of
the flash content before the first and after each of them, and `R` holds of
each operation and the flash content right before it. -/
def Run (cfg : Cfg) (P : Flash → Prop) (R : Flash → FlashOp → Prop) (s r : EE) : Prop :=
  ∃ issued, r.ops = s.ops ++ issued ∧
    r.flash = applyDrv cfg s.ops.length issued s.flash ∧
    (∀ n, P (applyDrv cfg s.ops.length (issued.take n) s.flash)) ∧
    (∀ i op, issued[i]? = some op → R (applyDrv cfg s.ops.length (issued.take i) s.flash) op)

/-- The flash contents have the same page headers. -/
def SameHeaders (fl fl' : Flash) : Prop := ∀ q, hw fl' q 0 = hw fl q 0

/-- The operation programs a half-word of a page body (not the header). -/
def BodyProgram (op : FlashOp) : Prop := ∃ pg off val, op = .program pg off val ∧ off ≠ 0

/-! ## Basic facts on half-words and flash operations -/

theorem hw_lt (fl : Flash) (pg off : Nat) : hw fl pg off < 65536 :=
  Nat.mod_lt _ (by decide)

theorem land_ffff (x : Nat) (h : x < 65536) : 65535 &&& x = x := by
  have h2 := Nat.and_pow_two_sub_one_eq_mod x 16
  rw [Nat.and_comm]
  simpa [Nat.mod_eq_of_lt h] using h2

theorem hw_program (fl : Flash) (pg off val p o : Nat) :
    hw (FlashOp.apply (.program pg off val) fl) p o
      = if p = pg ∧ o = off then hw fl pg off &&& (val % 65536) else hw fl p o := by
  unfold FlashOp.apply hw
  by_cases h : p = pg ∧ o = off
  · simp only [h, and_self, if_true]
    apply Nat.mod_eq_of_lt
    exact lt_of_le_of_lt Nat.and_le_left (Nat.mod_lt _ (by decide))
  · simp only [h, if_false]

theorem hw_erase (fl : Flash) (pg p o : Nat) :
    hw (FlashOp.apply (.erase pg) fl) p o = if p = pg then 0xFFFF else hw fl p o := by
  unfold FlashOp.apply hw
  by_cases h : p = pg
  · simp [h]
  · simp [h]

theorem applyOps_append (a b : List FlashOp) (fl : Flash) :
    applyOps (a ++ b) fl = applyOps b (applyOps a fl) := by
  induction a generalizing fl with
  | nil => rfl
  | cons op rest ih => simp [applyOps, ih]

theorem flashOp_ok {cfg : Cfg} (hd : cfg.FlashOk) (s : EE) (op : FlashOp) :
    flashOp cfg s op
      = (FLASH_COMPLETE, { flash := op.apply s.flash, DataVar := s.DataVar, ops := s.ops ++ [op] }) := by
  unfold flashOp
  simp [hd s.ops.length]

theorem geom_end {cfg : Cfg} (hg : cfg.Geom) : cfg.PAGE_SIZE - 2 = 4 * cfg.slots + 2 := by
  unfold Cfg.Geom at hg
  unfold Cfg.slots
  omega

/-! ## The read scan finds the latest record -/

theorem read_scan_eq (fl : Flash) (pg t d : Nat) (j : Nat) :
    EE_ReadVariable.scan fl pg t d (4 * j + 2) = readResult (lastRec fl pg t j) d := by
  induction j with
  | zero => simp [EE_ReadVariable.scan, lastRec, readResult]
  | succ j ih =>
    have e : 4 * (j + 1) + 2 = (4 * j + 2) + 4 := by omega
    rw [e, EE_ReadVariable.scan, lastRec]
    have e2 : 4 * j + 2 + 4 = 4 * j + 6 := by omega
    have e3 : 4 * j + 2 + 2 = 4 * j + 4 := by omega
    rw [e2, e3]
    by_cases h : hw fl pg (4 * j + 6) = t
    · simp [h, readResult]
    · simp [h, ih]

theorem lookupRec_append_one (recs : List (Nat × Nat)) (r : Nat × Nat) (t : Nat) :
    lookupRec (recs ++ [r]) t = if r.2 = t then some r.1 else lookupRec recs t := by
  unfold lookupRec
  rw [List.reverse_append]
  by_cases h : r.2 = t
  · simp [List.find?, h]
  · simp [List.find?, h]

theorem lastRec_eq_lookup (fl : Flash) (pg t : Nat) (n : Nat) :
    lastRec fl pg t n
      = lookupRec ((List.range n).map (fun i => (hw fl pg (4 * i + 4), hw fl pg (4 * i + 6)))) t := by
  induction n with
  | zero => simp [lastRec, lookupRec]
  | succ n ih =>
    rw [List.range_succ, List.map_append, List.map_singleton, lookupRec_append_one, lastRec, ih]

theorem latest_eq_lastRec (cfg : Cfg) (fl : Flash) (pg t : Nat) :
    latest cfg fl pg t = lastRec fl pg t cfg.slots := by
  unfold latest pageRecords
  rw [lastRec_eq_lookup]

/-! ## Page election -/

theorem find_first {cfg : Cfg} {fl : Flash} {p : Nat} (h : UniqueValid cfg fl p) :
    (List.range cfg.PAGE_NUM).find? (fun page_idx => hw fl page_idx 0 = VALID_PAGE) = some p := by
  obtain ⟨hp, hv, hu⟩ := h
  rw [List.find?_range_eq_some]
  refine ⟨by simpa using hv, List.mem_range.mpr hp, ?_⟩
  intro j hj
  have : hw fl j 0 ≠ VALID_PAGE := fun hc => by
    have := hu j (by omega) hc
    omega
  simpa using this

theorem find_none {cfg : Cfg} {fl : Flash}
    (h : ∀ q, q < cfg.PAGE_NUM → hw fl q 0 ≠ VALID_PAGE) :
    (List.range cfg.PAGE_NUM).find? (fun page_idx => hw fl page_idx 0 = VALID_PAGE) = none := by
  rw [List.find?_eq_none]
  intro x hx
  simpa using h x (List.mem_range.mp hx)

theorem find_read {cfg : Cfg} {fl : Flash} {p : Nat} (h : UniqueValid cfg fl p) :
    EE_FindValidPage cfg fl READ_FROM_VALID_PAGE = p := by
  unfold EE_FindValidPage
  simp only [find_first h]
  simp [READ_FROM_VALID_PAGE, WRITE_IN_VALID_PAGE]

theorem find_write {cfg : Cfg} {fl : Flash} {p : Nat} (h : UniqueValid cfg fl p) :
    EE_FindValidPage cfg fl WRITE_IN_VALID_PAGE
      = if hw fl ((p + 1) % cfg.PAGE_NUM) 0 = RECEIVE_DATA then (p + 1) % cfg.PAGE_NUM else p := by
  unfold EE_FindValidPage
  simp only [find_first h]
  simp

theorem find_read_none {cfg : Cfg} {fl : Flash}
    (h : ∀ q, q < cfg.PAGE_NUM → hw fl q 0 ≠ VALID_PAGE) :
    EE_FindValidPage cfg fl READ_FROM_VALID_PAGE = NO_VALID_PAGE := by
  unfold EE_FindValidPage
  simp only [find_none h]
  simp [READ_FROM_VALID_PAGE, WRITE_IN_VALID_PAGE]

theorem find_write_none {cfg : Cfg} {fl : Flash}
    (h : ∀ q, q < cfg.PAGE_NUM → hw fl q 0 ≠ VALID_PAGE) :
    EE_FindValidPage cfg fl WRITE_IN_VALID_PAGE = NO_VALID_PAGE := by
  unfold EE_FindValidPage
  simp only [find_none h]
  simp

theorem page_ne_sentinel {cfg : Cfg} (hp : cfg.PagesOk) {p : Nat} (h : p < cfg.PAGE_NUM) :
    p ≠ NO_VALID_PAGE := by
  unfold Cfg.PagesOk at hp
  unfold NO_VALID_PAGE
  omega

theorem next_lt {cfg : Cfg} (hp : cfg.PagesOk) (p : Nat) : (p + 1) % cfg.PAGE_NUM < cfg.PAGE_NUM :=
  Nat.mod_lt _ (by unfold Cfg.PagesOk at hp; omega)

theorem next_ne {cfg : Cfg} (hp : cfg.PagesOk) {p : Nat} (h : p < cfg.PAGE_NUM) :
    (p + 1) % cfg.PAGE_NUM ≠ p := by
  unfold Cfg.PagesOk at hp
  by_cases h1 : p + 1 < cfg.PAGE_NUM
  · rw [Nat.mod_eq_of_lt h1]; omega
  · have : p + 1 = cfg.PAGE_NUM := by omega
    rw [this, Nat.mod_self]; omega

/-! ## Reading -/

theorem read_eq {cfg : Cfg} (hg : cfg.Geom) (hp : cfg.PagesOk) {fl : Flash} {p : Nat}
    (h : UniqueValid cfg fl p) (t d : Nat) :
    EE_ReadVariable cfg fl t d = readResult (latest cfg fl p t) d := by
  unfold EE_ReadVariable
  simp only [find_read h]
  rw [if_neg (page_ne_sentinel hp h.1), geom_end hg, read_scan_eq, latest_eq_lastRec]

theorem read_none {cfg : Cfg} {fl : Flash}
    (h : ∀ q, q < cfg.PAGE_NUM → hw fl q 0 ≠ VALID_PAGE) (t d : Nat) :
    EE_ReadVariable cfg fl t d = (NO_VALID_PAGE, d) := by
  unfold EE_ReadVariable
  simp [find_read_none h]

/-! ## The append scan -/

theorem read32_free (fl : Flash) (pg o : Nat) :
    read32 fl pg o = 0xFFFFFFFF ↔ hw fl pg o = 0xFFFF ∧ hw fl pg (o + 2) = 0xFFFF := by
  unfold read32
  have h1 := hw_lt fl pg o
  have h2 := hw_lt fl pg (o + 2)
  omega

theorem write_scan_full (cfg : Cfg) (s : EE) (pg k v n : Nat)
    (fuel i : Nat)
    (hocc : ∀ j, i ≤ j → j ≤ n → read32 s.flash pg (4 * j) ≠ 0xFFFFFFFF) :
    EE_VerifyPageFullWriteVariable.scan cfg s pg (4 * n + 2) k v fuel (4 * i) = (PAGE_FULL, s) := by
  induction fuel generalizing i with
  | zero => rfl
  | succ fuel ih =>
    rw [EE_VerifyPageFullWriteVariable.scan]
    by_cases h : 4 * i < 4 * n + 2
    · rw [if_pos h, if_neg (hocc i (le_refl _) (by omega))]
      have e : 4 * i + 4 = 4 * (i + 1) := by omega
      rw [e]
      exact ih (i + 1) (fun j h1 h2 => hocc j (by omega) h2)
    · rw [if_neg h]

theorem write_scan_found {cfg : Cfg} (hd : cfg.FlashOk) (s : EE) (pg k v n : Nat)
    (fuel i j : Nat) (hij : i ≤ j) (hj : j ≤ n) (hfuel : j < i + fuel)
    (hocc : ∀ j', i ≤ j' → j' < j → read32 s.flash pg (4 * j') ≠ 0xFFFFFFFF)
    (hfree : read32 s.flash pg (4 * j) = 0xFFFFFFFF) :
    EE_VerifyPageFullWriteVariable.scan cfg s pg (4 * n + 2) k v fuel (4 * i)
      = (FLASH_COMPLETE,
          { flash := applyOps [.program pg (4 * j) v, .program pg (4 * j + 2) k] s.flash,
            DataVar := s.DataVar,
            ops := s.ops ++ [.program pg (4 * j) v, .program pg (4 * j + 2) k] }) := by
  induction fuel generalizing i with
  | zero => omega
  | succ fuel ih =>
    rw [EE_VerifyPageFullWriteVariable.scan]
    have h : 4 * i < 4 * n + 2 := by omega
    rw [if_pos h]
    by_cases hi : i = j
    · subst hi
      rw [if_pos hfree]
      simp [FLASH_ProgramHalfWord, flashOp_ok hd, applyOps]
    · rw [if_neg (hocc i (le_refl _) (by omega))]
      have e : 4 * i + 4 = 4 * (i + 1) := by omega
      rw [e]
      exact ih (i + 1) (by omega) (by omega) (fun j' h1 h2 => hocc j' (by omega) h2)

/-! ## Appending records to a page -/

theorem appendOps_frame (pg : Nat) (recs : List (Nat × Nat)) (n : Nat) (fl : Flash) (p o : Nat)
    (h : p ≠ pg ∨ o < 4 * n + 4 ∨ 4 * (n + recs.length) + 4 ≤ o) :
    hw (applyOps (appendOps pg n recs) fl) p o = hw fl p o := by
  induction recs generalizing n fl with
  | nil => rfl
  | cons r rest ih =>
    simp only [appendOps, applyOps]
    rw [ih (n + 1)]
    · simp only [List.length_cons] at h
      have h1 : ¬ (p = pg ∧ o = 4 * n + 6) := by omega
      have h2 : ¬ (p = pg ∧ o = 4 * n + 4) := by omega
      rw [hw_program, if_neg h1, hw_program, if_neg h2]
    · simp only [List.length_cons] at h
      omega

theorem appendOps_length (pg : Nat) (recs : List (Nat × Nat)) (n : Nat) :
    (appendOps pg n recs).length = 2 * recs.length := by
  induction recs generalizing n with
  | nil => rfl
  | cons r rest ih => simp only [appendOps, List.length_cons, ih]; omega

theorem appendOps_append (pg : Nat) (a b : List (Nat × Nat)) (n : Nat) :
    appendOps pg n (a ++ b) = appendOps pg n a ++ appendOps pg (n + a.length) b := by
  induction a generalizing n with
  | nil => simp [appendOps]
  | cons r rest ih =>
    have e : n + 1 + rest.length = n + (rest.length + 1) := by omega
    show appendOps pg n (r :: (rest ++ b)) = _
    rw [appendOps, ih, e]
    rfl

theorem appendOne_hw (pg n : Nat) (r : Nat × Nat) (fl : Flash) (p o : Nat) :
    hw (applyOps (appendOps pg n [r]) fl) p o
      = if p = pg ∧ o = 4 * n + 4 then hw fl pg (4 * n + 4) &&& (r.1 % 65536)
        else if p = pg ∧ o = 4 * n + 6 then hw fl pg (4 * n + 6) &&& (r.2 % 65536)
        else hw fl p o := by
  simp only [appendOps, applyOps]
  by_cases h1 : p = pg ∧ o = 4 * n + 4
  · have h2 : ¬ (p = pg ∧ o = 4 * n + 6) := by omega
    rw [hw_program, if_neg h2, hw_program, if_pos h1, if_pos h1]
  · rw [if_neg h1]
    by_cases h2 : p = pg ∧ o = 4 * n + 6
    · have h3 : ¬ (pg = pg ∧ 4 * n + 6 = 4 * n + 4) := by omega
      rw [hw_program, if_pos h2, if_pos h2, hw_program, if_neg h3]
    · rw [hw_program, if_neg h2, hw_program, if_neg h1, if_neg h2]

theorem holds_append_one {cfg : Cfg} {fl : Flash} {pg : Nat} {recs : List (Nat × Nat)}
    (h : PageHolds cfg fl pg recs) (hlen : recs.length < cfg.slots) (r : Nat × Nat) (hr : RecOk r) :
    PageHolds cfg (applyOps (appendOps pg recs.length [r]) fl) pg (recs ++ [r]) := by
  obtain ⟨h1, h2, h3, h4⟩ := h
  obtain ⟨r1, r2, r3⟩ := hr
  have hfree := h4 recs.length hlen (le_refl _)
  refine ⟨by simp; omega, ?_, ?_, ?_⟩
  · intro j hj
    simp only [List.length_append, List.length_singleton] at hj
    rw [appendOne_hw, appendOne_hw]
    by_cases hjn : j = recs.length
    · subst hjn
      have e1 : ¬ (pg = pg ∧ 4 * recs.length + 6 = 4 * recs.length + 4) := by omega
      rw [if_pos ⟨rfl, rfl⟩, if_neg e1, if_pos ⟨rfl, rfl⟩]
      rw [List.getD_append_right _ _ _ _ (le_refl _)]
      simp only [Nat.sub_self, List.getD_cons_zero]
      rw [hfree.1, hfree.2, Nat.mod_eq_of_lt r1, Nat.mod_eq_of_lt r2]
      exact ⟨land_ffff _ r1, land_ffff _ r2⟩
    · have hj2 : j < recs.length := by omega
      rw [List.getD_append _ _ _ _ hj2]
      have e1 : ¬ (pg = pg ∧ 4 * j + 4 = 4 * recs.length + 6) := by omega
      have e2 : ¬ (pg = pg ∧ 4 * j + 4 = 4 * recs.length + 4) := by omega
      have e3 : ¬ (pg = pg ∧ 4 * j + 6 = 4 * recs.length + 6) := by omega
      have e4 : ¬ (pg = pg ∧ 4 * j + 6 = 4 * recs.length + 4) := by omega
      rw [if_neg e2, if_neg e1, if_neg e4, if_neg e3]
      exact h2 j hj2
  · intro x hx
    rcases List.mem_append.mp hx with hx | hx
    · exact h3 x hx
    · rw [List.mem_singleton] at hx
      subst hx
      exact r3
  · intro j hj hle
    simp only [List.length_append, List.length_singleton] at hle
    rw [appendOps_frame _ _ _ _ _ _ (by simp only [List.length_singleton]; omega),
        appendOps_frame _ _ _ _ _ _ (by simp only [List.length_singleton]; omega)]
    exact h4 j hj (by omega)

theorem holds_append {cfg : Cfg} {pg : Nat} (new : List (Nat × Nat)) :
    ∀ {fl : Flash} {recs : List (Nat × Nat)}, PageHolds cfg fl pg recs →
      recs.length + new.length ≤ cfg.slots → (∀ r ∈ new, RecOk r) →
      PageHolds cfg (applyOps (appendOps pg recs.length new) fl) pg (recs ++ new) := by
  induction new with
  | nil => intro fl recs h _ _; simpa [appendOps, applyOps] using h
  | cons r rest ih =>
    intro fl recs h hlen hok
    simp only [List.length_cons] at hlen
    have h1 := holds_append_one h (by omega) r (hok r (List.mem_cons_self _ _))
    have h2 := ih h1 (by simp; omega) (fun x hx => hok x (List.mem_cons_of_mem _ hx))
    have e : appendOps pg recs.length (r :: rest)
        = appendOps pg recs.length [r] ++ appendOps pg (recs ++ [r]).length rest := by
      simp [appendOps]
    rw [e, applyOps_append]
    simpa using h2

theorem holds_records {cfg : Cfg} {fl : Flash} {pg : Nat} {recs : List (Nat × Nat)}
    (h : PageHolds cfg fl pg recs) :
    (List.range recs.length).map (fun i => (hw fl pg (4 * i + 4), hw fl pg (4 * i + 6))) = recs := by
  apply List.ext_getElem
  · simp
  · intro i h1 h2
    simp only [List.getElem_map, List.getElem_range]
    have := h.2.1 i h2
    rw [List.getD_eq_getElem _ _ h2] at this
    exact Prod.ext this.1 this.2

theorem lastRec_tail {cfg : Cfg} {fl : Flash} {pg : Nat} {recs : List (Nat × Nat)}
    (h : PageHolds cfg fl pg recs) {t : Nat} (ht : t ≠ 0xFFFF) (j : Nat)
    (h1 : recs.length ≤ j) (h2 : j ≤ cfg.slots) :
    lastRec fl pg t j = lastRec fl pg t recs.length := by
  induction j with
  | zero =>
    have : recs.length = 0 := by omega
    rw [this]
  | succ j ih =>
    by_cases hj : recs.length = j + 1
    · rw [hj]
    · rw [lastRec]
      have := (h.2.2.2 j (by omega) (by omega)).2
      rw [this, if_neg (fun hc => ht hc.symm)]
      exact ih (by omega) (by omega)

theorem latest_holds {cfg : Cfg} {fl : Flash} {pg : Nat} {recs : List (Nat × Nat)}
    (h : PageHolds cfg fl pg recs) {t : Nat} (ht : t ≠ 0xFFFF) :
    latest cfg fl pg t = lookupRec recs t := by
  rw [latest_eq_lastRec, lastRec_tail h ht cfg.slots h.1 (le_refl _), lastRec_eq_lookup,
    holds_records h]

/-! ## `EE_VerifyPageFullWriteVariable` on a page holding records -/

theorem slot_occupied {cfg : Cfg} {fl : Flash} {pg : Nat} {recs : List (Nat × Nat)}
    (h : PageHolds cfg fl pg recs) (hh : hw fl pg 0 ≠ 0xFFFF) (j : Nat) (hj : j ≤ recs.length) :
    read32 fl pg (4 * j) ≠ 0xFFFFFFFF := by
  rw [Ne, read32_free]
  rintro ⟨a, b⟩
  rcases Nat.eq_zero_or_pos j with h0 | h0
  · subst h0; exact hh a
  · obtain ⟨i, rfl⟩ : ∃ i, j = i + 1 := ⟨j - 1, by omega⟩
    have hi : i < recs.length := by omega
    have h2 := h.2.1 i hi
    have h3 := h.2.2.1 (recs.getD i (0, 0)) (by
      rw [List.getD_eq_getElem _ _ hi]; exact List.getElem_mem _)
    have e1 : 4 * (i + 1) = 4 * i + 4 := by omega
    have e2 : 4 * (i + 1) + 2 = 4 * i + 6 := by omega
    rw [e1] at a
    rw [e2] at b
    rw [← h2.1, ← h2.2] at h3
    omega

theorem VPF_append {cfg : Cfg} (hd : cfg.FlashOk) (hg : cfg.Geom) (s : EE) (k v : Nat)
    (recs : List (Nat × Nat))
    (hwp : EE_FindValidPage cfg s.flash WRITE_IN_VALID_PAGE ≠ NO_VALID_PAGE)
    (hh : hw s.flash (EE_FindValidPage cfg s.flash WRITE_IN_VALID_PAGE) 0 ≠ 0xFFFF)
    (h : PageHolds cfg s.flash (EE_FindValidPage cfg s.flash WRITE_IN_VALID_PAGE) recs)
    (hlen : recs.length < cfg.slots) :
    EE_VerifyPageFullWriteVariable cfg s k v
      = (FLASH_COMPLETE,
          { flash := applyOps (appendOps (EE_FindValidPage cfg s.flash WRITE_IN_VALID_PAGE)
                        recs.length [(v, k)]) s.flash,
            DataVar := s.DataVar,
            ops := s.ops ++ appendOps (EE_FindValidPage cfg s.flash WRITE_IN_VALID_PAGE)
                        recs.length [(v, k)] }) := by
  unfold EE_VerifyPageFullWriteVariable
  simp only [if_neg hwp]
  rw [geom_end hg]
  have hfree : read32 s.flash (EE_FindValidPage cfg s.flash WRITE_IN_VALID_PAGE)
      (4 * (recs.length + 1)) = 0xFFFFFFFF := by
    rw [read32_free]
    have := h.2.2.2 recs.length hlen (le_refl _)
    have e1 : 4 * (recs.length + 1) = 4 * recs.length + 4 := by omega
    have e2 : 4 * (recs.length + 1) + 2 = 4 * recs.length + 6 := by omega
    rw [e2, e1]
    exact this
  have hfuel : recs.length + 1 < 0 + cfg.PAGE_SIZE := by
    unfold Cfg.slots at hlen
    unfold Cfg.Geom at hg
    omega
  have := write_scan_found hd s (EE_FindValidPage cfg s.flash WRITE_IN_VALID_PAGE) k v cfg.slots
    cfg.PAGE_SIZE 0 (recs.length + 1) (by omega) (by omega) hfuel
    (fun j' _ h2 => slot_occupied h hh j' (by omega)) hfree
  rw [Nat.mul_zero] at this
  rw [this]
  have e1 : 4 * (recs.length + 1) = 4 * recs.length + 4 := by omega
  have e2 : 4 * (recs.length + 1) + 2 = 4 * recs.length + 6 := by omega
  simp only [appendOps, e2, e1]

theorem VPF_full {cfg : Cfg} (hg : cfg.Geom) (s : EE) (k v : Nat)
    (recs : List (Nat × Nat))
    (hwp : EE_FindValidPage cfg s.flash WRITE_IN_VALID_PAGE ≠ NO_VALID_PAGE)
    (hh : hw s.flash (EE_FindValidPage cfg s.flash WRITE_IN_VALID_PAGE) 0 ≠ 0xFFFF)
    (h : PageHolds cfg s.flash (EE_FindValidPage cfg s.flash WRITE_IN_VALID_PAGE) recs)
    (hlen : recs.length = cfg.slots) :
    EE_VerifyPageFullWriteVariable cfg s k v = (PAGE_FULL, s) := by
  unfold EE_VerifyPageFullWriteVariable
  simp only [if_neg hwp]
  rw [geom_end hg]
  have := write_scan_full cfg s (EE_FindValidPage cfg s.flash WRITE_IN_VALID_PAGE) k v cfg.slots
    cfg.PAGE_SIZE 0 (fun j _ h2 => slot_occupied h hh j (by omega))
  rw [Nat.mul_zero] at this
  exact this

/-! ## Congruence: what the predicates depend on -/

theorem holds_congr {cfg : Cfg} {fl fl' : Flash} {pg : Nat} {recs : List (Nat × Nat)}
    (h : PageHolds cfg fl pg recs) (he : ∀ o, 4 ≤ o → hw fl' pg o = hw fl pg o) :
    PageHolds cfg fl' pg recs := by
  obtain ⟨h1, h2, h3, h4⟩ := h
  refine ⟨h1, ?_, h3, ?_⟩
  · intro j hj
    rw [he _ (by omega), he _ (by omega)]
    exact h2 j hj
  · intro j hj hle
    rw [he _ (by omega), he _ (by omega)]
    exact h4 j hj hle

theorem latest_congr {cfg : Cfg} {fl fl' : Flash} {pg : Nat}
    (he : ∀ o, 4 ≤ o → hw fl' pg o = hw fl pg o) (t : Nat) :
    latest cfg fl' pg t = latest cfg fl pg t := by
  unfold latest pageRecords
  congr 1
  apply List.map_congr_left
  intro i _
  rw [he _ (by omega), he _ (by omega)]

theorem uniqueValid_congr {cfg : Cfg} {fl fl' : Flash} {p : Nat}
    (h : UniqueValid cfg fl p) (he : ∀ q, hw fl' q 0 = hw fl q 0) :
    UniqueValid cfg fl' p := by
  obtain ⟨h1, h2, h3⟩ := h
  refine ⟨h1, by rw [he]; exact h2, ?_⟩
  intro q hq hv
  rw [he] at hv
  exact h3 q hq hv

theorem lookupRec_mem {recs : List (Nat × Nat)} {t w : Nat} (h : lookupRec recs t = some w) :
    (w, t) ∈ recs := by
  unfold lookupRec at h
  rw [Option.map_eq_some'] at h
  obtain ⟨r, hr, hw1⟩ := h
  have h1 := List.find?_some hr
  have h2 := List.mem_of_find?_eq_some hr
  simp only [decide_eq_true_eq] at h1
  rw [List.mem_reverse] at h2
  have : r = (w, t) := Prod.ext hw1 h1
  rw [← this]
  exact h2

theorem lookupRec_none {recs : List (Nat × Nat)} {t : Nat} :
    lookupRec recs t = none ↔ ∀ r ∈ recs, r.2 ≠ t := by
  unfold lookupRec
  rw [Option.map_eq_none', List.find?_eq_none]
  simp

theorem latest_some_lt {cfg : Cfg} {fl : Flash} {pg t w : Nat}
    (h : latest cfg fl pg t = some w) : w < 65536 ∧ t < 65536 := by
  have := lookupRec_mem h
  unfold pageRecords at this
  rw [List.mem_map] at this
  obtain ⟨i, _, hi⟩ := this
  have h1 := hw_lt fl pg (4 * i + 4)
  have h2 := hw_lt fl pg (4 * i + 6)
  rw [Prod.mk.injEq] at hi
  omega

/-! ## The copy loop of `EE_PageTransfer` -/

theorem mid_find_write {cfg : Cfg} {fl : Flash} {src dst : Nat} {recs : List (Nat × Nat)}
    (h : Mid cfg fl src dst recs) : EE_FindValidPage cfg fl WRITE_IN_VALID_PAGE = dst := by
  obtain ⟨h1, h2, h3, _⟩ := h
  rw [find_write h1, ← h2, if_pos h3]

theorem mid_append {cfg : Cfg} {fl : Flash} {src dst : Nat}
    {recs : List (Nat × Nat)} (h : Mid cfg fl src dst recs) (new : List (Nat × Nat))
    (hfit : recs.length + new.length ≤ cfg.slots) (hok : ∀ r ∈ new, RecOk r) :
    Mid cfg (applyOps (appendOps dst recs.length new) fl) src dst (recs ++ new) := by
  obtain ⟨h1, h2, h3, h4⟩ := h
  refine ⟨uniqueValid_congr h1 (fun q => appendOps_frame _ _ _ _ _ _ (by omega)), h2, ?_,
    holds_append new h4 hfit hok⟩
  rw [appendOps_frame _ _ _ _ _ _ (by omega)]
  exact h3

theorem mid_latest_src {cfg : Cfg} (hp : cfg.PagesOk) {fl : Flash} {src dst : Nat}
    {recs : List (Nat × Nat)} (h : Mid cfg fl src dst recs) (n : Nat) (new : List (Nat × Nat))
    (t : Nat) :
    latest cfg (applyOps (appendOps dst n new) fl) src t = latest cfg fl src t := by
  apply latest_congr
  intro o _
  apply appendOps_frame
  left
  have := next_ne hp h.1.1
  rw [← h.2.1] at this
  exact fun hc => this hc.symm

theorem copies_cons (look : Nat → Option Nat) (k t : Nat) (rest : List Nat) :
    copies look k (t :: rest)
      = if t = k then copies look k rest
        else match look t with
          | some w => (w, t) :: copies look k rest
          | none => copies look k rest := by
  unfold copies
  by_cases h : t = k
  · simp [h]
  · cases hl : look t <;> simp [h, hl, List.filter_cons]

theorem transfer_loop {cfg : Cfg} (hd : cfg.FlashOk) (hg : cfg.Geom) (hp : cfg.PagesOk)
    (k : Nat) (look : Nat → Option Nat) (l : List Nat) :
    ∀ (s : EE) (src dst : Nat) (recs : List (Nat × Nat)),
      Mid cfg s.flash src dst recs → (∀ t, latest cfg s.flash src t = look t) →
      (∀ r ∈ copies look k l, r.2 ≠ 0xFFFF) →
      (recs.length + (copies look k l).length ≤ cfg.slots →
        ∃ dv, EE_PageTransfer.loop cfg k l s
          = (none, { flash := applyOps (appendOps dst recs.length (copies look k l)) s.flash,
                     DataVar := dv,
                     ops := s.ops ++ appendOps dst recs.length (copies look k l) })) ∧
      (¬ recs.length + (copies look k l).length ≤ cfg.slots →
        (EE_PageTransfer.loop cfg k l s).1 = some PAGE_FULL) := by
  induction l with
  | nil =>
    intro s src dst recs hm _ _
    have := hm.2.2.2.1
    simp only [copies, List.filter_nil, List.filterMap_nil, List.length_nil, Nat.add_zero,
      appendOps, applyOps, List.append_nil, EE_PageTransfer.loop]
    exact ⟨fun _ => ⟨s.DataVar, rfl⟩, fun h => absurd this h⟩
  | cons t rest ih =>
    intro s src dst recs hm hlook hne
    rw [EE_PageTransfer.loop]
    rw [copies_cons] at hne ⊢
    by_cases htk : t = k
    · rw [if_pos htk] at hne ⊢
      rw [if_neg (fun hc => hc htk)]
      exact ih s src dst recs hm hlook hne
    · rw [if_neg htk] at hne ⊢
      rw [if_pos htk]
      simp only [read_eq hg hp hm.1, hlook]
      cases hl : look t with
      | none =>
        simp only [hl] at hne ⊢
        simp only [readResult, ne_eq, not_true_eq_false, if_false]
        exact ih s src dst recs hm hlook hne
      | some w =>
        simp only [hl] at hne ⊢
        have e01 : ((0 : Nat) ≠ 1) := by decide
        simp only [readResult, if_pos e01]
        have hlt := latest_some_lt ((hlook t).trans hl)
        have hrec : RecOk (w, t) := ⟨hlt.1, hlt.2, Or.inr (hne (w, t) (List.mem_cons_self _ _))⟩
        have hwp := mid_find_write hm
        have hwp' : EE_FindValidPage cfg
            ({ flash := s.flash, DataVar := w, ops := s.ops } : EE).flash WRITE_IN_VALID_PAGE = dst := hwp
        have hdst : dst < cfg.PAGE_NUM := by rw [hm.2.1]; exact next_lt hp src
        by_cases hfull : recs.length < cfg.slots
        · have hv := VPF_append hd hg ({ flash := s.flash, DataVar := w, ops := s.ops } : EE) t w
            recs (by rw [hwp']; exact page_ne_sentinel hp hdst)
            (by rw [hwp']; show hw s.flash dst 0 ≠ 0xFFFF; rw [hm.2.2.1]; decide)
            (by rw [hwp']; exact hm.2.2.2) hfull
          rw [hwp'] at hv
          rw [hv]
          simp only [ne_eq, not_true_eq_false, if_false]
          have hm2 := mid_append hm [(w, t)] (by simp; omega)
            (by intro r hr; rw [List.mem_singleton] at hr; rw [hr]; exact hrec)
          have ih2 := ih { flash := applyOps (appendOps dst recs.length [(w, t)]) s.flash,
                           DataVar := w, ops := s.ops ++ appendOps dst recs.length [(w, t)] }
            src dst (recs ++ [(w, t)]) hm2
            (fun t' => by rw [← hlook t']; exact mid_latest_src hp hm _ _ t')
            (fun r hr => hne r (List.mem_cons_of_mem _ hr))
          have elen : (recs ++ [(w, t)]).length = recs.length + 1 := by simp
          rw [elen] at ih2
          simp only [List.length_cons]
          refine ⟨fun hfit => ?_, fun hfit => ?_⟩
          · obtain ⟨dv, hdv⟩ := ih2.1 (by omega)
            refine ⟨dv, ?_⟩
            rw [hdv]
            have e2 : appendOps dst recs.length ((w, t) :: copies look k rest)
                = appendOps dst recs.length [(w, t)] ++ appendOps dst (recs.length + 1)
                    (copies look k rest) := by
              simp [appendOps]
            rw [e2, applyOps_append, List.append_assoc]
          · exact ih2.2 (by omega)
        · have hlen : recs.length = cfg.slots := by have := hm.2.2.2.1; omega
          have hv := VPF_full hg ({ flash := s.flash, DataVar := w, ops := s.ops } : EE) t w
            recs (by rw [hwp']; exact page_ne_sentinel hp hdst)
            (by rw [hwp']; show hw s.flash dst 0 ≠ 0xFFFF; rw [hm.2.2.1]; decide)
            (by rw [hwp']; exact hm.2.2.2) hlen
          rw [hv]
          simp only [List.length_cons]
          refine ⟨fun hfit => by omega, fun _ => ?_⟩
          simp [PAGE_FULL, FLASH_COMPLETE]

/-! ## A write that finds room on the valid page -/

theorem erased_hw {cfg : Cfg} (hg : cfg.Geom) {fl : Flash} {q : Nat} (h : PageErased cfg fl q) :
    hw fl q 0 = 0xFFFF := h 0 (by unfold Cfg.Geom at hg; omega)

theorem steady_find_write {cfg : Cfg} (hg : cfg.Geom) (hp : cfg.PagesOk) {fl : Flash} {p : Nat}
    {recs : List (Nat × Nat)} (h : Steady cfg fl p recs) :
    EE_FindValidPage cfg fl WRITE_IN_VALID_PAGE = p := by
  rw [find_write h.1]
  have := erased_hw hg (h.2.2 _ (next_lt hp p) (next_ne hp h.1.1))
  rw [this, if_neg (by decide)]

theorem steady_append {cfg : Cfg} {fl : Flash} {p : Nat} {recs : List (Nat × Nat)}
    (h : Steady cfg fl p recs) (hlen : recs.length < cfg.slots) (r : Nat × Nat) (hr : RecOk r) :
    Steady cfg (applyOps (appendOps p recs.length [r]) fl) p (recs ++ [r]) := by
  obtain ⟨h1, h2, h3⟩ := h
  refine ⟨uniqueValid_congr h1 (fun q => appendOps_frame _ _ _ _ _ _ (by omega)),
    holds_append_one h2 hlen r hr, ?_⟩
  intro q hq hne o ho
  rw [appendOps_frame _ _ _ _ _ _ (Or.inl hne)]
  exact h3 q hq hne o ho

theorem write_append {cfg : Cfg} (hd : cfg.FlashOk) (hg : cfg.Geom) (hp : cfg.PagesOk)
    (s : EE) (k v : Nat) {p : Nat} {recs : List (Nat × Nat)}
    (h : Steady cfg s.flash p recs) (hlen : recs.length < cfg.slots) :
    EE_WriteVariable cfg s k v
      = (FLASH_COMPLETE,
          { flash := applyOps (appendOps p recs.length [(v, k)]) s.flash,
            DataVar := s.DataVar,
            ops := s.ops ++ appendOps p recs.length [(v, k)] }) := by
  have hwp := steady_find_write hg hp h
  have hv := VPF_append hd hg s k v recs
    (by rw [hwp]; exact page_ne_sentinel hp h.1.1)
    (by rw [hwp, h.1.2.1]; decide) (by rw [hwp]; exact h.2.1) hlen
  rw [hwp] at hv
  unfold EE_WriteVariable
  simp only [hv]
  rw [if_neg (by decide)]

/-! ## A write that finds the valid page full: rotation -/

theorem hw_receive {cfg : Cfg} (hg : cfg.Geom) {fl : Flash} {dst : Nat}
    (he : PageErased cfg fl dst) (p o : Nat) :
    hw (FlashOp.apply (.program dst 0 RECEIVE_DATA) fl) p o
      = if p = dst ∧ o = 0 then RECEIVE_DATA else hw fl p o := by
  rw [hw_program, erased_hw hg he]
  by_cases h : p = dst ∧ o = 0
  · rw [if_pos h, if_pos h]; decide
  · rw [if_neg h, if_neg h]

theorem mid_start {cfg : Cfg} (hg : cfg.Geom) (hp : cfg.PagesOk) {fl : Flash} {src : Nat}
    {recs : List (Nat × Nat)} (h : Steady cfg fl src recs) :
    Mid cfg (FlashOp.apply (.program ((src + 1) % cfg.PAGE_NUM) 0 RECEIVE_DATA) fl) src
      ((src + 1) % cfg.PAGE_NUM) [] := by
  have hne := next_ne hp h.1.1
  have he := h.2.2 _ (next_lt hp src) hne
  refine ⟨⟨h.1.1, ?_, ?_⟩, rfl, ?_, ?_⟩
  · rw [hw_receive hg he, if_neg (by intro hc; exact hne hc.1.symm)]
    exact h.1.2.1
  · intro q hq hv
    rw [hw_receive hg he] at hv
    by_cases hc : q = (src + 1) % cfg.PAGE_NUM ∧ 0 = 0
    · rw [if_pos hc] at hv; exact absurd hv (by decide)
    · rw [if_neg hc] at hv; exact h.1.2.2 q hq hv
  · rw [hw_receive hg he, if_pos ⟨rfl, rfl⟩]
  · refine ⟨Nat.zero_le _, fun j hj => absurd hj (by simp), fun r hr => absurd hr (by simp), ?_⟩
    intro j hj _
    have hge := geom_end hg
    rw [hw_receive hg he, hw_receive hg he, if_neg (by omega), if_neg (by omega)]
    exact ⟨he _ (by omega), he _ (by omega)⟩

theorem steady_rotate {cfg : Cfg} (hg : cfg.Geom) (hp : cfg.PagesOk) {fl : Flash} {src : Nat}
    {recs : List (Nat × Nat)} (h : Steady cfg fl src recs) (new : List (Nat × Nat))
    (hfit : new.length ≤ cfg.slots) (hok : ∀ r ∈ new, RecOk r) :
    Steady cfg (applyOps (rotateOps src ((src + 1) % cfg.PAGE_NUM) new) fl)
      ((src + 1) % cfg.PAGE_NUM) new := by
  have hne := next_ne hp h.1.1
  have he := h.2.2 _ (next_lt hp src) hne
  have hm := mid_append (mid_start hg hp h) new (by simpa using hfit) hok
  simp only [List.length_nil, List.nil_append] at hm
  have key : ∀ p o, hw (applyOps (rotateOps src ((src + 1) % cfg.PAGE_NUM) new) fl) p o
      = if p = (src + 1) % cfg.PAGE_NUM ∧ o = 0 then 0
        else if p = src then 0xFFFF
        else hw (applyOps (appendOps ((src + 1) % cfg.PAGE_NUM) 0 new)
              (FlashOp.apply (.program ((src + 1) % cfg.PAGE_NUM) 0 RECEIVE_DATA) fl)) p o := by
    intro p o
    simp only [rotateOps, applyOps, applyOps_append]
    by_cases h1 : p = (src + 1) % cfg.PAGE_NUM ∧ o = 0
    · rw [hw_program, if_pos h1, if_pos h1]
      simp [VALID_PAGE]
    · rw [hw_program, if_neg h1, if_neg h1, hw_erase]
  refine ⟨⟨next_lt hp src, ?_, ?_⟩, ?_, ?_⟩
  · rw [key, if_pos ⟨rfl, rfl⟩]; rfl
  · intro q hq hv
    by_contra hc
    rw [key, if_neg (by intro h1; exact hc h1.1)] at hv
    by_cases h2 : q = src
    · rw [if_pos h2] at hv; exact absurd hv (by decide)
    · rw [if_neg h2, appendOps_frame _ _ _ _ _ _ (Or.inl hc), hw_receive hg he,
        if_neg (by intro h1; exact hc h1.1), erased_hw hg (h.2.2 q hq h2)] at hv
      exact absurd hv (by decide)
  · apply holds_congr hm.2.2.2
    intro o ho
    rw [key, if_neg (by omega), if_neg hne]
  · intro q hq hc o ho
    rw [key, if_neg (by intro h1; exact hc h1.1)]
    by_cases h2 : q = src
    · rw [if_pos h2]
    · rw [if_neg h2, appendOps_frame _ _ _ _ _ _ (Or.inl hc), hw_receive hg he,
        if_neg (by intro h1; exact hc h1.1)]
      exact h.2.2 q hq h2 o ho

theorem write_rotate {cfg : Cfg} (hd : cfg.FlashOk) (hg : cfg.Geom) (hp : cfg.PagesOk)
    (s : EE) (k v : Nat) {src : Nat} {recs : List (Nat × Nat)}
    (h : Steady cfg s.flash src recs) (hfull : recs.length = cfg.slots) (hr : RecOk (v, k))
    (hne : ∀ r ∈ copies (latest cfg s.flash src) k cfg.VirtAddVarTab, r.2 ≠ 0xFFFF) :
    (1 + (copies (latest cfg s.flash src) k cfg.VirtAddVarTab).length ≤ cfg.slots →
      ∃ dv, EE_WriteVariable cfg s k v
        = (FLASH_COMPLETE,
            { flash := applyOps (rotateOps src ((src + 1) % cfg.PAGE_NUM)
                          ((v, k) :: copies (latest cfg s.flash src) k cfg.VirtAddVarTab)) s.flash,
              DataVar := dv,
              ops := s.ops ++ rotateOps src ((src + 1) % cfg.PAGE_NUM)
                          ((v, k) :: copies (latest cfg s.flash src) k cfg.VirtAddVarTab) })) ∧
    (¬ 1 + (copies (latest cfg s.flash src) k cfg.VirtAddVarTab).length ≤ cfg.slots →
      (EE_WriteVariable cfg s k v).1 = PAGE_FULL) := by
  have hwp := steady_find_write hg hp h
  have hv := VPF_full hg s k v recs
    (by rw [hwp]; exact page_ne_sentinel hp h.1.1)
    (by rw [hwp, h.1.2.1]; decide) (by rw [hwp]; exact h.2.1) hfull
  unfold EE_WriteVariable
  simp only [hv, if_true]
  unfold EE_PageTransfer
  simp only [find_read h.1, if_pos (page_ne_sentinel hp h.1.1), FLASH_ProgramHalfWord,
    FLASH_ErasePage, flashOp_ok hd, ne_eq, not_true_eq_false, if_false]
  have hm := mid_start hg hp h
  have hdst := next_lt hp src
  have hlatest : ∀ n new t, latest cfg (applyOps (appendOps ((src + 1) % cfg.PAGE_NUM) n new)
      (FlashOp.apply (.program ((src + 1) % cfg.PAGE_NUM) 0 RECEIVE_DATA) s.flash)) src t
      = latest cfg s.flash src t := by
    intro n new t
    rw [mid_latest_src hp hm]
    apply latest_congr
    intro o ho
    rw [hw_program, if_neg (by omega)]
  let s1 : EE := { flash := FlashOp.apply (.program ((src + 1) % cfg.PAGE_NUM) 0 RECEIVE_DATA) s.flash,
                   DataVar := s.DataVar,
                   ops := s.ops ++ [.program ((src + 1) % cfg.PAGE_NUM) 0 RECEIVE_DATA] }
  have hwp1 : EE_FindValidPage cfg s1.flash WRITE_IN_VALID_PAGE = (src + 1) % cfg.PAGE_NUM :=
    mid_find_write hm
  by_cases hslots : 0 < cfg.slots
  · have hv1 := VPF_append hd hg s1 k v []
      (by rw [hwp1]; exact page_ne_sentinel hp hdst)
      (by rw [hwp1]; show hw s1.flash _ 0 ≠ 0xFFFF; rw [hm.2.2.1]; decide)
      (by rw [hwp1]; exact hm.2.2.2) hslots
    rw [hwp1] at hv1
    simp only [List.length_nil] at hv1
    simp only [hv1, ne_eq, not_true_eq_false, if_false]
    have hm2 := mid_append hm [(v, k)] (by simpa using hslots)
      (by intro r hr'; rw [List.mem_singleton] at hr'; rw [hr']; exact hr)
    simp only [List.length_nil] at hm2
    have hl := transfer_loop hd hg hp k (latest cfg s.flash src) cfg.VirtAddVarTab
      { flash := applyOps (appendOps ((src + 1) % cfg.PAGE_NUM) 0 [(v, k)]) s1.flash,
        DataVar := s1.DataVar,
        ops := s1.ops ++ appendOps ((src + 1) % cfg.PAGE_NUM) 0 [(v, k)] }
      src ((src + 1) % cfg.PAGE_NUM) ([] ++ [(v, k)]) hm2 (fun t => hlatest _ _ t) hne
    simp only [List.nil_append, List.length_singleton] at hl
    refine ⟨fun hfit => ?_, fun hfit => ?_⟩
    · obtain ⟨dv, hdv⟩ := hl.1 hfit
      refine ⟨dv, ?_⟩
      simp only [hdv, s1]
      simp [rotateOps, applyOps, applyOps_append, appendOps, FLASH_COMPLETE]
    · have := hl.2 hfit
      revert this
      generalize EE_PageTransfer.loop cfg k cfg.VirtAddVarTab _ = r
      intro hr1
      rw [hr1]
  · have hlen0 : ([] : List (Nat × Nat)).length = cfg.slots := by simp; omega
    have hv1 := VPF_full hg s1 k v []
      (by rw [hwp1]; exact page_ne_sentinel hp hdst)
      (by rw [hwp1]; show hw s1.flash _ 0 ≠ 0xFFFF; rw [hm.2.2.1]; decide)
      (by rw [hwp1]; exact hm.2.2.2) hlen0
    simp only [hv1]
    refine ⟨fun hfit => by omega, fun _ => ?_⟩
    simp [PAGE_FULL, FLASH_COMPLETE]

/-! ## `EE_Format` -/

theorem format_loop {cfg : Cfg} (hd : cfg.FlashOk) (ip : Nat) (fuel : Nat) :
    ∀ (i : Nat) (st : Nat) (s : EE), i + fuel = cfg.PAGE_NUM → st = FLASH_COMPLETE →
      EE_Format.loop cfg ip fuel i st s
        = (FLASH_COMPLETE, { flash := applyOps (formatOps ip fuel i) s.flash,
                             DataVar := s.DataVar,
                             ops := s.ops ++ formatOps ip fuel i }) := by
  induction fuel with
  | zero =>
    intro i st s _ hst
    simp [EE_Format.loop, formatOps, applyOps, hst]
  | succ fuel ih =>
    intro i st s hi _
    rw [EE_Format.loop, if_pos (by omega)]
    simp only [FLASH_ErasePage, FLASH_ProgramHalfWord, flashOp_ok hd, ne_eq, not_true_eq_false,
      if_false]
    by_cases h : i = ip
    · rw [if_pos h, ih (i + 1) _ _ (by omega) rfl]
      simp [formatOps, h, applyOps]
    · rw [if_neg h, ih (i + 1) _ _ (by omega) rfl]
      simp [formatOps, h, applyOps]

theorem format_eq {cfg : Cfg} (hd : cfg.FlashOk) (s : EE) (ip : Nat) :
    EE_Format cfg s ip
      = (FLASH_COMPLETE, { flash := applyOps (formatOps ip cfg.PAGE_NUM 0) s.flash,
                           DataVar := s.DataVar,
                           ops := s.ops ++ formatOps ip cfg.PAGE_NUM 0 }) := by
  unfold EE_Format
  exact format_loop hd ip cfg.PAGE_NUM 0 FLASH_COMPLETE s (by omega) rfl

theorem formatOps_hw (ip : Nat) (n : Nat) :
    ∀ (i : Nat) (fl : Flash) (p o : Nat),
      hw (applyOps (formatOps ip n i) fl) p o
        = if i ≤ p ∧ p < i + n then (if p = ip ∧ o = 0 then VALID_PAGE else 0xFFFF)
          else hw fl p o := by
  induction n with
  | zero =>
    intro i fl p o
    rw [if_neg (by omega)]
    rfl
  | succ n ih =>
    intro i fl p o
    have key : hw (applyOps (formatOps ip (n + 1) i) fl) p o
        = hw (applyOps (formatOps ip n (i + 1))
            (if i = ip then FlashOp.apply (.program i 0 VALID_PAGE) (FlashOp.apply (.erase i) fl)
             else FlashOp.apply (.erase i) fl)) p o := by
      rw [formatOps]
      by_cases h : i = ip
      · rw [if_pos h, if_pos h]; rfl
      · rw [if_neg h, if_neg h]; rfl
    rw [key, ih]
    by_cases h1 : i + 1 ≤ p ∧ p < i + 1 + n
    · have hc : i ≤ p ∧ p < i + (n + 1) := by omega
      rw [if_pos h1, if_pos hc]
    · rw [if_neg h1]
      by_cases h2 : p = i
      · have hc : i ≤ p ∧ p < i + (n + 1) := by omega
        rw [if_pos hc]
        subst h2
        by_cases h : p = ip
        · rw [if_pos h, hw_program, hw_erase]
          by_cases h3 : o = 0
          · simp [h, h3, VALID_PAGE]
          · simp [h3, hw_erase]
        · rw [if_neg h, hw_erase]
          simp [h]
      · have hc : ¬ (i ≤ p ∧ p < i + (n + 1)) := by omega
        rw [if_neg hc]
        by_cases h : i = ip
        · have hc2 : ¬ (p = i ∧ o = 0) := by omega
          rw [if_pos h, hw_program, if_neg hc2, hw_erase, if_neg h2]
        · rw [if_neg h, hw_erase, if_neg h2]

theorem format_formatted (cfg : Cfg) (fl : Flash) (ip : Nat) :
    Formatted cfg (applyOps (formatOps ip cfg.PAGE_NUM 0) fl) ip := by
  intro q hq o _
  rw [formatOps_hw, if_pos (by omega)]

/-! ## The header scans of `EE_Init` -/

theorem scan_cur (cfg : Cfg) (st : Nat → Nat) (tgt cur : Nat) (hc : cur ≠ NO_VALID_PAGE)
    (fuel : Nat) :
    ∀ i, i + fuel = cfg.PAGE_NUM →
      ((∀ q, i ≤ q → q < cfg.PAGE_NUM → st q ≠ tgt) →
        EE_Init.scan cfg st tgt fuel i cur = (cfg.PAGE_NUM, cur, false)) ∧
      (∀ p2, i ≤ p2 → p2 < cfg.PAGE_NUM → st p2 = tgt → (∀ q, i ≤ q → q < p2 → st q ≠ tgt) →
        EE_Init.scan cfg st tgt fuel i cur = (p2, cur, true)) := by
  induction fuel with
  | zero =>
    intro i hi
    refine ⟨fun _ => ?_, fun p2 h1 h2 _ _ => by omega⟩
    rw [EE_Init.scan]
    have : i = cfg.PAGE_NUM := by omega
    rw [this]
  | succ fuel ih =>
    intro i hi
    have ih' := ih (i + 1) (by omega)
    rw [EE_Init.scan, if_pos (by omega)]
    by_cases h : st i = tgt
    · rw [if_pos h, if_neg hc]
      refine ⟨fun hn => absurd h (hn i (le_refl _) (by omega)), fun p2 h1 h2 h3 h4 => ?_⟩
      have : p2 = i := by
        by_contra hne
        exact h4 i (le_refl _) (by omega) h
      rw [this]
    · rw [if_neg h]
      refine ⟨fun hn => ih'.1 (fun q h1 h2 => hn q (by omega) h2), fun p2 h1 h2 h3 h4 => ?_⟩
      have : p2 ≠ i := fun hc2 => h (hc2 ▸ h3)
      exact ih'.2 p2 (by omega) h2 h3 (fun q h5 h6 => h4 q (by omega) h6)

theorem scan_nocur {cfg : Cfg} (hp : cfg.PagesOk) (st : Nat → Nat) (tgt : Nat) (fuel : Nat) :
    ∀ i, i + fuel = cfg.PAGE_NUM →
      ((∀ q, i ≤ q → q < cfg.PAGE_NUM → st q ≠ tgt) →
        EE_Init.scan cfg st tgt fuel i NO_VALID_PAGE = (cfg.PAGE_NUM, NO_VALID_PAGE, false)) ∧
      (∀ p, i ≤ p → p < cfg.PAGE_NUM → st p = tgt →
        (∀ q, i ≤ q → q < cfg.PAGE_NUM → st q = tgt → q = p) →
        EE_Init.scan cfg st tgt fuel i NO_VALID_PAGE = (cfg.PAGE_NUM, p, false)) ∧
      (∀ p1 p2, i ≤ p1 → p1 < p2 → p2 < cfg.PAGE_NUM → st p1 = tgt → st p2 = tgt →
        (∀ q, i ≤ q → q < p2 → st q = tgt → q = p1) →
        EE_Init.scan cfg st tgt fuel i NO_VALID_PAGE = (p2, p1, true)) := by
  induction fuel with
  | zero =>
    intro i hi
    refine ⟨fun _ => ?_, fun p h1 h2 _ _ => by omega, fun p1 p2 h1 h2 h3 _ _ _ => by omega⟩
    rw [EE_Init.scan]
    have : i = cfg.PAGE_NUM := by omega
    rw [this]
  | succ fuel ih =>
    intro i hi
    have ih' := ih (i + 1) (by omega)
    have hc := scan_cur cfg st tgt i (page_ne_sentinel hp (by omega)) fuel (i + 1) (by omega)
    rw [EE_Init.scan, if_pos (by omega)]
    by_cases h : st i = tgt
    · rw [if_pos h, if_pos rfl]
      refine ⟨fun hn => absurd h (hn i (le_refl _) (by omega)), fun p h1 h2 h3 h4 => ?_,
        fun p1 p2 h1 h2 h3 h4 h5 h6 => ?_⟩
      · have e : p = i := (h4 i (le_refl _) (by omega) h).symm
        rw [e]
        apply hc.1
        intro q h5 h6 h7
        have := h4 q (by omega) h6 h7
        omega
      · have e : p1 = i := (h6 i (le_refl _) (by omega) h).symm
        rw [e]
        apply hc.2 p2 (by omega) h3 h5
        intro q h7 h8 h9
        have := h6 q (by omega) h8 h9
        omega
    · rw [if_neg h]
      refine ⟨fun hn => ih'.1 (fun q h1 h2 => hn q (by omega) h2), fun p h1 h2 h3 h4 => ?_,
        fun p1 p2 h1 h2 h3 h4 h5 h6 => ?_⟩
      · have : p ≠ i := fun hc2 => h (hc2 ▸ h3)
        exact ih'.2.1 p (by omega) h2 h3 (fun q h5 h6 h7 => h4 q (by omega) h6 h7)
      · have : p1 ≠ i := fun hc2 => h (hc2 ▸ h4)
        exact ih'.2.2 p1 p2 (by omega) h2 h3 h4 h5 (fun q h7 h8 h9 => h6 q (by omega) h8 h9)

/-! ## The cases of `EE_Init` -/

theorem init_fresh {cfg : Cfg} (hd : cfg.FlashOk) (hp : cfg.PagesOk) (s : EE)
    (hv : ∀ q, q < cfg.PAGE_NUM → hw s.flash q 0 ≠ VALID_PAGE)
    (hr : ∀ q, q < cfg.PAGE_NUM → hw s.flash q 0 ≠ RECEIVE_DATA) :
    EE_Init cfg s
      = (FLASH_COMPLETE, { flash := applyOps (formatOps 0 cfg.PAGE_NUM 0) s.flash,
                           DataVar := s.DataVar,
                           ops := s.ops ++ formatOps 0 cfg.PAGE_NUM 0 }) := by
  have hl1 := (scan_nocur hp (fun page_idx => hw s.flash page_idx 0) VALID_PAGE cfg.PAGE_NUM 0
    (by omega)).1 (fun q _ h => hv q h)
  have hl2 := (scan_nocur hp (fun page_idx => hw s.flash page_idx 0) RECEIVE_DATA cfg.PAGE_NUM 0
    (by omega)).1 (fun q _ h => hr q h)
  unfold EE_Init
  simp only [hl1, hl2, format_eq hd]
  simp [PAGE0]

theorem init_two_valid {cfg : Cfg} (hd : cfg.FlashOk) (hp : cfg.PagesOk) (s : EE) (p1 p2 : Nat)
    (h12 : p1 < p2) (h2 : p2 < cfg.PAGE_NUM)
    (hv1 : hw s.flash p1 0 = VALID_PAGE) (hv2 : hw s.flash p2 0 = VALID_PAGE)
    (hmin : ∀ q, q < p2 → hw s.flash q 0 = VALID_PAGE → q = p1) :
    EE_Init cfg s
      = (FLASH_COMPLETE, { flash := applyOps (formatOps p2 cfg.PAGE_NUM 0) s.flash,
                           DataVar := s.DataVar,
                           ops := s.ops ++ formatOps p2 cfg.PAGE_NUM 0 }) := by
  have hl1 := (scan_nocur hp (fun page_idx => hw s.flash page_idx 0) VALID_PAGE cfg.PAGE_NUM 0
    (by omega)).2.2 p1 p2 (by omega) h12 h2 hv1 hv2 (fun q _ h => hmin q h)
  unfold EE_Init
  simp only [hl1, format_eq hd]
  simp

theorem init_two_receive {cfg : Cfg} (hd : cfg.FlashOk) (hp : cfg.PagesOk) (s : EE) (p1 p2 : Nat)
    (hv : ∀ q, q < cfg.PAGE_NUM → hw s.flash q 0 ≠ VALID_PAGE)
    (h12 : p1 < p2) (h2 : p2 < cfg.PAGE_NUM)
    (hv1 : hw s.flash p1 0 = RECEIVE_DATA) (hv2 : hw s.flash p2 0 = RECEIVE_DATA)
    (hmin : ∀ q, q < p2 → hw s.flash q 0 = RECEIVE_DATA → q = p1) :
    EE_Init cfg s
      = (FLASH_COMPLETE, { flash := applyOps (formatOps p2 cfg.PAGE_NUM 0) s.flash,
                           DataVar := s.DataVar,
                           ops := s.ops ++ formatOps p2 cfg.PAGE_NUM 0 }) := by
  have hl1 := (scan_nocur hp (fun page_idx => hw s.flash page_idx 0) VALID_PAGE cfg.PAGE_NUM 0
    (by omega)).1 (fun q _ h => hv q h)
  have hl2 := (scan_nocur hp (fun page_idx => hw s.flash page_idx 0) RECEIVE_DATA cfg.PAGE_NUM 0
    (by omega)).2.2 p1 p2 (by omega) h12 h2 hv1 hv2 (fun q _ h => hmin q h)
  unfold EE_Init
  simp only [hl1, hl2, format_eq hd]
  simp

theorem init_promote {cfg : Cfg} (hd : cfg.FlashOk) (hp : cfg.PagesOk) (s : EE) (p : Nat)
    (hv : ∀ q, q < cfg.PAGE_NUM → hw s.flash q 0 ≠ VALID_PAGE)
    (hlt : p < cfg.PAGE_NUM) (hr : hw s.flash p 0 = RECEIVE_DATA)
    (hu : ∀ q, q < cfg.PAGE_NUM → hw s.flash q 0 = RECEIVE_DATA → q = p) :
    EE_Init cfg s
      = (FLASH_COMPLETE,
          { flash := applyOps [.program p 0 VALID_PAGE, .erase ((p + 1) % cfg.PAGE_NUM)] s.flash,
            DataVar := s.DataVar,
            ops := s.ops ++ [.program p 0 VALID_PAGE, .erase ((p + 1) % cfg.PAGE_NUM)] }) := by
  have hl1 := (scan_nocur hp (fun page_idx => hw s.flash page_idx 0) VALID_PAGE cfg.PAGE_NUM 0
    (by omega)).1 (fun q _ h => hv q h)
  have hl2 := (scan_nocur hp (fun page_idx => hw s.flash page_idx 0) RECEIVE_DATA cfg.PAGE_NUM 0
    (by omega)).2.1 p (by omega) hlt hr (fun q _ h => hu q h)
  have hr' : hw s.flash p 0 = 61166 := hr
  unfold EE_Init
  simp only [hl1, hl2, FLASH_ProgramHalfWord, FLASH_ErasePage, flashOp_ok hd]
  simp [page_ne_sentinel hp hlt, hr', RECEIVE_DATA, ERASED, VALID_PAGE, applyOps]

theorem init_scan_valid {cfg : Cfg} (hp : cfg.PagesOk) {fl : Flash} {p : Nat}
    (h : UniqueValid cfg fl p) :
    EE_Init.scan cfg (fun page_idx => hw fl page_idx 0) VALID_PAGE cfg.PAGE_NUM 0 NO_VALID_PAGE
      = (cfg.PAGE_NUM, p, false) :=
  (scan_nocur hp (fun page_idx => hw fl page_idx 0) VALID_PAGE cfg.PAGE_NUM 0
    (by omega)).2.1 p (by omega) h.1 h.2.1 (fun q _ h1 h2 => h.2.2 q h1 h2)

theorem init_valid_erased {cfg : Cfg} (hd : cfg.FlashOk) (hp : cfg.PagesOk) (s : EE) {p : Nat}
    (h : UniqueValid cfg s.flash p) (hn : hw s.flash ((p + 1) % cfg.PAGE_NUM) 0 = ERASED) :
    EE_Init cfg s
      = (FLASH_COMPLETE,
          { flash := applyOps [.erase ((p + 1) % cfg.PAGE_NUM)] s.flash,
            DataVar := s.DataVar,
            ops := s.ops ++ [.erase ((p + 1) % cfg.PAGE_NUM)] }) := by
  have hn' : hw s.flash ((p + 1) % cfg.PAGE_NUM) 0 = 65535 := hn
  have hv' : hw s.flash p 0 = 0 := h.2.1
  unfold EE_Init
  simp only [init_scan_valid hp h, FLASH_ProgramHalfWord, FLASH_ErasePage, flashOp_ok hd]
  simp [page_ne_sentinel hp h.1, hv', hn', RECEIVE_DATA, ERASED, VALID_PAGE, applyOps]

theorem init_valid_other {cfg : Cfg} (hp : cfg.PagesOk) (s : EE) {p : Nat}
    (h : UniqueValid cfg s.flash p) (hn : hw s.flash ((p + 1) % cfg.PAGE_NUM) 0 ≠ ERASED)
    (hn2 : hw s.flash ((p + 1) % cfg.PAGE_NUM) 0 ≠ RECEIVE_DATA) :
    EE_Init cfg s = (FLASH_COMPLETE, s) := by
  have hn' : hw s.flash ((p + 1) % cfg.PAGE_NUM) 0 ≠ 65535 := hn
  have hn2' : hw s.flash ((p + 1) % cfg.PAGE_NUM) 0 ≠ 61166 := hn2
  have hv' : hw s.flash p 0 = 0 := h.2.1
  unfold EE_Init
  simp only [init_scan_valid hp h]
  simp [page_ne_sentinel hp h.1, hv', hn', hn2', RECEIVE_DATA, ERASED, VALID_PAGE]

theorem init_valid_receive {cfg : Cfg} (hd : cfg.FlashOk) (hp : cfg.PagesOk) (s : EE) {p : Nat}
    (h : UniqueValid cfg s.flash p) (hn : hw s.flash ((p + 1) % cfg.PAGE_NUM) 0 = RECEIVE_DATA) :
    (∀ st, (EE_Init.transfer cfg ((p + 1) % cfg.PAGE_NUM) cfg.VirtAddVarTab 0 (-1) s).1 = some st →
      EE_Init cfg s
        = (st, (EE_Init.transfer cfg ((p + 1) % cfg.PAGE_NUM) cfg.VirtAddVarTab 0 (-1) s).2)) ∧
    ((EE_Init.transfer cfg ((p + 1) % cfg.PAGE_NUM) cfg.VirtAddVarTab 0 (-1) s).1 = none →
      EE_Init cfg s
        = (FLASH_COMPLETE,
            { flash := applyOps [.erase p, .program ((p + 1) % cfg.PAGE_NUM) 0 VALID_PAGE]
                (EE_Init.transfer cfg ((p + 1) % cfg.PAGE_NUM) cfg.VirtAddVarTab 0 (-1) s).2.flash,
              DataVar := (EE_Init.transfer cfg ((p + 1) % cfg.PAGE_NUM) cfg.VirtAddVarTab 0 (-1) s).2.DataVar,
              ops := (EE_Init.transfer cfg ((p + 1) % cfg.PAGE_NUM) cfg.VirtAddVarTab 0 (-1) s).2.ops
                      ++ [.erase p, .program ((p + 1) % cfg.PAGE_NUM) 0 VALID_PAGE] })) := by
  have hn' : hw s.flash ((p + 1) % cfg.PAGE_NUM) 0 = 61166 := hn
  have hv' : hw s.flash p 0 = 0 := h.2.1
  unfold EE_Init
  simp only [init_scan_valid hp h, FLASH_ProgramHalfWord, FLASH_ErasePage, flashOp_ok hd]
  refine ⟨fun st hst => ?_, fun hst => ?_⟩
  · simp [page_ne_sentinel hp h.1, hv', hn', RECEIVE_DATA, ERASED, VALID_PAGE, applyOps, hst]
  · simp [page_ne_sentinel hp h.1, hv', hn', RECEIVE_DATA, ERASED, VALID_PAGE, applyOps, hst]

/-! ## Classifying the page headers -/

theorem headers_cases (n : Nat) (st : Nat → Nat) (tgt : Nat) :
    (∀ q, q < n → st q ≠ tgt) ∨
    (∃ p, p < n ∧ st p = tgt ∧ ∀ q, q < n → st q = tgt → q = p) ∨
    (∃ p1 p2, p1 < p2 ∧ p2 < n ∧ st p1 = tgt ∧ st p2 = tgt ∧
      ∀ q, q < p2 → st q = tgt → q = p1) := by
  by_cases h : ∃ p, p < n ∧ st p = tgt
  · right
    have hs := Nat.find_spec h
    have hm : ∀ q, q < Nat.find h → q < n → st q ≠ tgt := fun q hq hn hc =>
      Nat.find_min h hq ⟨hn, hc⟩
    by_cases h2 : ∃ p, Nat.find h < p ∧ p < n ∧ st p = tgt
    · right
      have hs2 := Nat.find_spec h2
      refine ⟨Nat.find h, Nat.find h2, hs2.1, hs2.2.1, hs.2, hs2.2.2, ?_⟩
      intro q hq hc
      rcases Nat.lt_trichotomy q (Nat.find h) with h3 | h3 | h3
      · exact absurd hc (hm q h3 (by omega))
      · exact h3
      · exact absurd ⟨h3, by omega, hc⟩ (Nat.find_min h2 hq)
    · left
      refine ⟨Nat.find h, hs.1, hs.2, ?_⟩
      intro q hq hc
      rcases Nat.lt_trichotomy q (Nat.find h) with h3 | h3 | h3
      · exact absurd hc (hm q h3 hq)
      · exact h3
      · exact absurd ⟨q, h3, hq, hc⟩ h2
  · left
    intro q hq hc
    exact h ⟨q, hq, hc⟩

/-! ## Reading in a steady or formatted state -/

theorem steady_read {cfg : Cfg} (hg : cfg.Geom) (hp : cfg.PagesOk) {fl : Flash} {p : Nat}
    {recs : List (Nat × Nat)} (h : Steady cfg fl p recs) {t : Nat} (ht : t ≠ 0xFFFF) (d : Nat) :
    EE_ReadVariable cfg fl t d = readResult (lookupRec recs t) d := by
  rw [read_eq hg hp h.1, latest_holds h.2.1 ht]

theorem formatted_steady {cfg : Cfg} (hg : cfg.Geom) {fl : Flash} {p : Nat}
    (hlt : p < cfg.PAGE_NUM) (h : Formatted cfg fl p) : Steady cfg fl p [] := by
  have hge := geom_end hg
  have hS : 0 < cfg.PAGE_SIZE := by unfold Cfg.Geom at hg; omega
  refine ⟨⟨hlt, ?_, ?_⟩, ⟨Nat.zero_le _, fun j hj => absurd hj (by simp),
    fun r hr => absurd hr (by simp), ?_⟩, ?_⟩
  · rw [h p hlt 0 hS, if_pos ⟨rfl, rfl⟩]
  · intro q hq hv
    by_contra hc
    rw [h q hq 0 hS, if_neg (by intro h1; exact hc h1.1)] at hv
    exact absurd hv (by decide)
  · intro j hj _
    rw [h p hlt _ (by omega), h p hlt _ (by omega), if_neg (by omega), if_neg (by omega)]
    exact ⟨rfl, rfl⟩
  · intro q hq hne o ho
    rw [h q hq o ho, if_neg (by intro h1; exact hne h1.1)]

theorem formatted_read {cfg : Cfg} (hg : cfg.Geom) (hp : cfg.PagesOk) {fl : Flash} {p : Nat}
    (hlt : p < cfg.PAGE_NUM) (h : Formatted cfg fl p) {t : Nat} (ht : t ≠ 0xFFFF) (d : Nat) :
    EE_ReadVariable cfg fl t d = (1, d) := by
  rw [steady_read hg hp (formatted_steady hg hlt h) ht]
  rfl

/-- C8: when no page header is `VALID_PAGE` and none is `RECEIVE_DATA`,
`EE_Init` returns success, page 0 gets the header `VALID_PAGE`, every other
half-word of every page is `0xFFFF`, and every key other than `0xFFFF` reads
as not found (status 1, caller's variable untouched). -/
theorem C8_format_fresh {cfg : Cfg} (hd : cfg.FlashOk) (hg : cfg.Geom) (hp : cfg.PagesOk) (s : EE)
    (hv : ∀ q, q < cfg.PAGE_NUM → hw s.flash q 0 ≠ VALID_PAGE)
    (hr : ∀ q, q < cfg.PAGE_NUM → hw s.flash q 0 ≠ RECEIVE_DATA) :
    (EE_Init cfg s).1 = FLASH_COMPLETE ∧
    hw (EE_Init cfg s).2.flash 0 0 = VALID_PAGE ∧
    (∀ q o, q < cfg.PAGE_NUM → o < cfg.PAGE_SIZE → ¬ (q = 0 ∧ o = 0) →
      hw (EE_Init cfg s).2.flash q o = 0xFFFF) ∧
    (∀ k d, k ≠ 0xFFFF → EE_ReadVariable cfg (EE_Init cfg s).2.flash k d = (1, d)) := by
  rw [init_fresh hd hp s hv hr]
  have hF := format_formatted cfg s.flash 0
  have h0 : 0 < cfg.PAGE_NUM := by unfold Cfg.PagesOk at hp; omega
  have hS : 0 < cfg.PAGE_SIZE := by unfold Cfg.Geom at hg; omega
  refine ⟨rfl, ?_, ?_, ?_⟩
  · have := hF 0 h0 0 hS
    rw [if_pos ⟨rfl, rfl⟩] at this
    exact this
  · intro q o hq ho hne
    have := hF q hq o ho
    rw [if_neg hne] at this
    exact this
  · intro k d hk
    exact formatted_read hg hp h0 hF hk d

/-- Witness for C8: the repository configuration on a fully erased region. -/
theorem C8_format_fresh_witness :
    (EE_Init (repoCfg sampleTab) (stateOf [])).1 = FLASH_COMPLETE ∧
    hw (EE_Init (repoCfg sampleTab) (stateOf [])).2.flash 0 0 = VALID_PAGE ∧
    (∀ q o, q < (repoCfg sampleTab).PAGE_NUM → o < (repoCfg sampleTab).PAGE_SIZE →
      ¬ (q = 0 ∧ o = 0) → hw (EE_Init (repoCfg sampleTab) (stateOf [])).2.flash q o = 0xFFFF) ∧
    (∀ k d, k ≠ 0xFFFF →
      EE_ReadVariable (repoCfg sampleTab) (EE_Init (repoCfg sampleTab) (stateOf [])).2.flash k d
        = (1, d)) :=
  C8_format_fresh (fun _ => rfl) (by decide) (by decide) (stateOf []) (by decide) (by decide)

/-- C9: when at least two page headers are `VALID_PAGE`, `EE_Init` returns
success and formats the region around the page `p2` at which the scan met the
second `VALID_PAGE` header (the second-lowest such index): afterwards the
header of `p2` is `VALID_PAGE`, every other half-word of every page is
`0xFFFF`, and every key other than `0xFFFF` reads as not found. -/
theorem C9_format_two_valid {cfg : Cfg} (hd : cfg.FlashOk) (hg : cfg.Geom) (hp : cfg.PagesOk)
    (s : EE) (a b : Nat) (ha : a < cfg.PAGE_NUM) (hb : b < cfg.PAGE_NUM) (hab : a ≠ b)
    (hva : hw s.flash a 0 = VALID_PAGE) (hvb : hw s.flash b 0 = VALID_PAGE) :
    (EE_Init cfg s).1 = FLASH_COMPLETE ∧
    ∃ p2, p2 < cfg.PAGE_NUM ∧ hw s.flash p2 0 = VALID_PAGE ∧
      (∃ p1, p1 < p2 ∧ hw s.flash p1 0 = VALID_PAGE ∧
        ∀ q, q < p2 → hw s.flash q 0 = VALID_PAGE → q = p1) ∧
      (∀ q o, q < cfg.PAGE_NUM → o < cfg.PAGE_SIZE →
        hw (EE_Init cfg s).2.flash q o = if q = p2 ∧ o = 0 then VALID_PAGE else 0xFFFF) ∧
      (∀ k d, k ≠ 0xFFFF → EE_ReadVariable cfg (EE_Init cfg s).2.flash k d = (1, d)) := by
  rcases headers_cases cfg.PAGE_NUM (fun q => hw s.flash q 0) VALID_PAGE with h | h | h
  · exact absurd hva (h a ha)
  · obtain ⟨p, _, _, hu⟩ := h
    exact absurd ((hu a ha hva).trans (hu b hb hvb).symm) hab
  · obtain ⟨p1, p2, h12, h2, hv1, hv2, hmin⟩ := h
    rw [init_two_valid hd hp s p1 p2 h12 h2 hv1 hv2 hmin]
    have hF := format_formatted cfg s.flash p2
    exact ⟨rfl, p2, h2, hv2, ⟨p1, h12, hv1, hmin⟩, fun q o hq ho => hF q hq o ho,
      fun k d hk => formatted_read hg hp h2 hF hk d⟩

/-- Witness for C9: pages 0 and 1 both carry the header `0x0000`. -/
theorem C9_format_two_valid_witness :
    (0 < (repoCfg sampleTab).PAGE_NUM ∧ 1 < (repoCfg sampleTab).PAGE_NUM ∧
      hw (stateOf [[0], [0]]).flash 0 0 = VALID_PAGE ∧
      hw (stateOf [[0], [0]]).flash 1 0 = VALID_PAGE) ∧
    (EE_Init (repoCfg sampleTab) (stateOf [[0], [0]])).1 = FLASH_COMPLETE ∧
    ∃ p2, p2 < (repoCfg sampleTab).PAGE_NUM ∧ hw (stateOf [[0], [0]]).flash p2 0 = VALID_PAGE ∧
      (∃ p1, p1 < p2 ∧ hw (stateOf [[0], [0]]).flash p1 0 = VALID_PAGE ∧
        ∀ q, q < p2 → hw (stateOf [[0], [0]]).flash q 0 = VALID_PAGE → q = p1) ∧
      (∀ q o, q < (repoCfg sampleTab).PAGE_NUM → o < (repoCfg sampleTab).PAGE_SIZE →
        hw (EE_Init (repoCfg sampleTab) (stateOf [[0], [0]])).2.flash q o
          = if q = p2 ∧ o = 0 then VALID_PAGE else 0xFFFF) ∧
      (∀ k d, k ≠ 0xFFFF →
        EE_ReadVariable (repoCfg sampleTab)
          (EE_Init (repoCfg sampleTab) (stateOf [[0], [0]])).2.flash k d = (1, d)) :=
  ⟨by decide,
   C9_format_two_valid (fun _ => rfl) (by decide) (by decide) (stateOf [[0], [0]]) 0 1
     (by decide) (by decide) (by decide) (by decide) (by decide)⟩

/-- C10, as stated, fails: with page 0 valid and an unknown header `0x1234` on
page 1 (repository configuration), `EE_Init` does not format the region: no
page `p` exists such that the region is erased except for a valid header on `p`. -/
theorem C10_counterexample :
    (∃ q, q < (repoCfg sampleTab).PAGE_NUM ∧
      hw (stateOf [[0], [0x1234]]).flash q 0 ≠ ERASED ∧
      hw (stateOf [[0], [0x1234]]).flash q 0 ≠ RECEIVE_DATA ∧
      hw (stateOf [[0], [0x1234]]).flash q 0 ≠ VALID_PAGE) ∧
    (EE_Init (repoCfg sampleTab) (stateOf [[0], [0x1234]])).1 = FLASH_COMPLETE ∧
    ¬ ∃ p, p < (repoCfg sampleTab).PAGE_NUM ∧
      ∀ q o, q < (repoCfg sampleTab).PAGE_NUM → o < (repoCfg sampleTab).PAGE_SIZE →
        hw (EE_Init (repoCfg sampleTab) (stateOf [[0], [0x1234]])).2.flash q o
          = if q = p ∧ o = 0 then VALID_PAGE else 0xFFFF := by
  refine ⟨⟨1, by decide⟩, by decide, ?_⟩
  rintro ⟨p, _, hF⟩
  have h1 := hF 1 0 (by decide) (by decide)
  have h2 : hw (EE_Init (repoCfg sampleTab) (stateOf [[0], [0x1234]])).2.flash 1 0 = 0x1234 := by
    decide
  rw [h2] at h1
  by_cases hc : 1 = p ∧ 0 = 0
  · rw [if_pos hc] at h1; exact absurd h1 (by decide)
  · rw [if_neg hc] at h1; exact absurd h1 (by decide)

/-- C10 amended: an unknown page header leads to a format exactly through the
counting of `VALID_PAGE` and `RECEIVE_DATA` headers.  If some header is
unknown and the headers are neither "exactly one `VALID_PAGE`" nor "no
`VALID_PAGE` and exactly one `RECEIVE_DATA`", then `EE_Init` returns success
and formats the region: every page is fully erased except one page whose
header is `VALID_PAGE`. -/
theorem C10_unknown_header_amended {cfg : Cfg} (hd : cfg.FlashOk) (hp : cfg.PagesOk) (s : EE)
    (_hunk : ∃ q, q < cfg.PAGE_NUM ∧ hw s.flash q 0 ≠ ERASED ∧
      hw s.flash q 0 ≠ RECEIVE_DATA ∧ hw s.flash q 0 ≠ VALID_PAGE)
    (h1 : ¬ ∃ p, p < cfg.PAGE_NUM ∧ UniqueValid cfg s.flash p)
    (h2 : ¬ ((∀ q, q < cfg.PAGE_NUM → hw s.flash q 0 ≠ VALID_PAGE) ∧
      ∃ p, p < cfg.PAGE_NUM ∧ hw s.flash p 0 = RECEIVE_DATA ∧
        ∀ q, q < cfg.PAGE_NUM → hw s.flash q 0 = RECEIVE_DATA → q = p)) :
    (EE_Init cfg s).1 = FLASH_COMPLETE ∧
    ∃ p, p < cfg.PAGE_NUM ∧
      ∀ q o, q < cfg.PAGE_NUM → o < cfg.PAGE_SIZE →
        hw (EE_Init cfg s).2.flash q o = if q = p ∧ o = 0 then VALID_PAGE else 0xFFFF := by
  have h0 : 0 < cfg.PAGE_NUM := by unfold Cfg.PagesOk at hp; omega
  rcases headers_cases cfg.PAGE_NUM (fun q => hw s.flash q 0) VALID_PAGE with h | h | h
  · rcases headers_cases cfg.PAGE_NUM (fun q => hw s.flash q 0) RECEIVE_DATA with h' | h' | h'
    · rw [init_fresh hd hp s h h']
      exact ⟨rfl, 0, h0, fun q o hq ho => format_formatted cfg s.flash 0 q hq o ho⟩
    · exact absurd ⟨h, h'⟩ h2
    · obtain ⟨p1, p2, h12, hlt, hv1, hv2, hmin⟩ := h'
      rw [init_two_receive hd hp s p1 p2 h h12 hlt hv1 hv2 hmin]
      exact ⟨rfl, p2, hlt, fun q o hq ho => format_formatted cfg s.flash p2 q hq o ho⟩
  · obtain ⟨p, hlt, hv, hu⟩ := h
    exact absurd ⟨p, hlt, hlt, hv, hu⟩ h1
  · obtain ⟨p1, p2, h12, hlt, hv1, hv2, hmin⟩ := h
    rw [init_two_valid hd hp s p1 p2 h12 hlt hv1 hv2 hmin]
    exact ⟨rfl, p2, hlt, fun q o hq ho => format_formatted cfg s.flash p2 q hq o ho⟩

/-- Witness for the amended C10: an unknown header `0x1234` on page 2 and no
valid or receiving page. -/
theorem C10_unknown_header_amended_witness :
    (∃ q, q < (repoCfg sampleTab).PAGE_NUM ∧
      hw (stateOf [[], [], [0x1234]]).flash q 0 ≠ ERASED ∧
      hw (stateOf [[], [], [0x1234]]).flash q 0 ≠ RECEIVE_DATA ∧
      hw (stateOf [[], [], [0x1234]]).flash q 0 ≠ VALID_PAGE) ∧
    (EE_Init (repoCfg sampleTab) (stateOf [[], [], [0x1234]])).1 = FLASH_COMPLETE ∧
    ∃ p, p < (repoCfg sampleTab).PAGE_NUM ∧
      ∀ q o, q < (repoCfg sampleTab).PAGE_NUM → o < (repoCfg sampleTab).PAGE_SIZE →
        hw (EE_Init (repoCfg sampleTab) (stateOf [[], [], [0x1234]])).2.flash q o
          = if q = p ∧ o = 0 then VALID_PAGE else 0xFFFF :=
  ⟨⟨2, by decide⟩,
   C10_unknown_header_amended (fun _ => rfl) (by decide) (stateOf [[], [], [0x1234]])
     ⟨2, by decide⟩ (by decide) (by decide)⟩

/-- C6: when no page is valid, page `p` is the only `RECEIVE_DATA` page and all
other pages are erased, `EE_Init` returns success, sets the header of `p` to
`VALID_PAGE`, leaves the body of `p` unchanged and its ring successor erased;
afterwards a read of any key `t` reports the value of the last record with
address `t` on `p`, or not found when there is none. -/
theorem C6_recover_receive {cfg : Cfg} (hd : cfg.FlashOk) (hg : cfg.Geom) (hp : cfg.PagesOk)
    (s : EE) (p : Nat) (hlt : p < cfg.PAGE_NUM) (hr : hw s.flash p 0 = RECEIVE_DATA)
    (he : ∀ q, q < cfg.PAGE_NUM → q ≠ p → PageErased cfg s.flash q) :
    (EE_Init cfg s).1 = FLASH_COMPLETE ∧
    hw (EE_Init cfg s).2.flash p 0 = VALID_PAGE ∧
    (∀ o, 0 < o → hw (EE_Init cfg s).2.flash p o = hw s.flash p o) ∧
    PageErased cfg (EE_Init cfg s).2.flash ((p + 1) % cfg.PAGE_NUM) ∧
    (∀ t d, EE_ReadVariable cfg (EE_Init cfg s).2.flash t d
      = readResult (latest cfg s.flash p t) d) := by
  have hne := next_ne hp hlt
  have hv : ∀ q, q < cfg.PAGE_NUM → hw s.flash q 0 ≠ VALID_PAGE := by
    intro q hq
    by_cases hqp : q = p
    · rw [hqp, hr]; decide
    · rw [erased_hw hg (he q hq hqp)]; decide
  have hu : ∀ q, q < cfg.PAGE_NUM → hw s.flash q 0 = RECEIVE_DATA → q = p := by
    intro q hq hq2
    by_contra hqp
    rw [erased_hw hg (he q hq hqp)] at hq2
    exact absurd hq2 (by decide)
  rw [init_promote hd hp s p hv hlt hr hu]
  have key : ∀ q o, hw (applyOps [.program p 0 VALID_PAGE, .erase ((p + 1) % cfg.PAGE_NUM)]
      s.flash) q o
      = if q = (p + 1) % cfg.PAGE_NUM then 0xFFFF
        else if q = p ∧ o = 0 then VALID_PAGE else hw s.flash q o := by
    intro q o
    simp only [applyOps]
    rw [hw_erase, hw_program]
    by_cases h1 : q = (p + 1) % cfg.PAGE_NUM
    · rw [if_pos h1, if_pos h1]
    · rw [if_neg h1, if_neg h1]
      by_cases h2 : q = p ∧ o = 0
      · rw [if_pos h2, if_pos h2]; simp [VALID_PAGE]
      · rw [if_neg h2, if_neg h2]
  have hpn : ¬ p = (p + 1) % cfg.PAGE_NUM := fun hc => hne hc.symm
  have huv : UniqueValid cfg (applyOps [.program p 0 VALID_PAGE,
      .erase ((p + 1) % cfg.PAGE_NUM)] s.flash) p := by
    refine ⟨hlt, ?_, ?_⟩
    · rw [key, if_neg hpn, if_pos ⟨rfl, rfl⟩]
    · intro q hq hq2
      by_contra hqp
      rw [key] at hq2
      by_cases h1 : q = (p + 1) % cfg.PAGE_NUM
      · rw [if_pos h1] at hq2; exact absurd hq2 (by decide)
      · rw [if_neg h1, if_neg (by intro hc; exact hqp hc.1)] at hq2
        exact hv q hq hq2
  refine ⟨rfl, ?_, ?_, ?_, ?_⟩
  · exact huv.2.1
  · intro o ho
    show hw (applyOps _ s.flash) p o = _
    rw [key, if_neg hpn, if_neg (by omega)]
  · intro o _
    show hw (applyOps _ s.flash) _ o = _
    rw [key, if_pos rfl]
  · intro t d
    show EE_ReadVariable cfg (applyOps _ s.flash) t d = _
    rw [read_eq hg hp huv]
    congr 1
    apply latest_congr
    intro o ho
    rw [key, if_neg hpn, if_neg (by omega)]

/-- Witness for C6: page 1 is `RECEIVE_DATA` and holds the records `(7, 1)` and
`(9, 2)`; pages 0 and 2 are erased. -/
theorem C6_recover_receive_witness :
    (1 < demoCfg.PAGE_NUM ∧ hw (stateOf [[], [0xEEEE, 0xFFFF, 7, 1, 9, 2]]).flash 1 0 = RECEIVE_DATA ∧
      ∀ q, q < demoCfg.PAGE_NUM → q ≠ 1 →
        PageErased demoCfg (stateOf [[], [0xEEEE, 0xFFFF, 7, 1, 9, 2]]).flash q) ∧
    (EE_Init demoCfg (stateOf [[], [0xEEEE, 0xFFFF, 7, 1, 9, 2]])).1 = FLASH_COMPLETE ∧
    hw (EE_Init demoCfg (stateOf [[], [0xEEEE, 0xFFFF, 7, 1, 9, 2]])).2.flash 1 0 = VALID_PAGE ∧
    (∀ o, 0 < o → hw (EE_Init demoCfg (stateOf [[], [0xEEEE, 0xFFFF, 7, 1, 9, 2]])).2.flash 1 o
      = hw (stateOf [[], [0xEEEE, 0xFFFF, 7, 1, 9, 2]]).flash 1 o) ∧
    PageErased demoCfg (EE_Init demoCfg (stateOf [[], [0xEEEE, 0xFFFF, 7, 1, 9, 2]])).2.flash
      ((1 + 1) % demoCfg.PAGE_NUM) ∧
    (∀ t d, EE_ReadVariable demoCfg
        (EE_Init demoCfg (stateOf [[], [0xEEEE, 0xFFFF, 7, 1, 9, 2]])).2.flash t d
      = readResult (latest demoCfg (stateOf [[], [0xEEEE, 0xFFFF, 7, 1, 9, 2]]).flash 1 t) d) :=
  ⟨by decide,
   C6_recover_receive (fun _ => rfl) (by decide) (by decide)
     (stateOf [[], [0xEEEE, 0xFFFF, 7, 1, 9, 2]]) 1 (by decide) (by decide) (by decide)⟩

/-! ## Appending never touches a page header -/

theorem write_scan_cases {cfg : Cfg} (hd : cfg.FlashOk) (s : EE) (pg e k v : Nat) (fuel : Nat) :
    ∀ i, EE_VerifyPageFullWriteVariable.scan cfg s pg e k v fuel (4 * i) = (PAGE_FULL, s) ∨
      ∃ j, i ≤ j ∧ read32 s.flash pg (4 * j) = 0xFFFFFFFF ∧
        EE_VerifyPageFullWriteVariable.scan cfg s pg e k v fuel (4 * i)
          = (FLASH_COMPLETE,
              { flash := applyOps [.program pg (4 * j) v, .program pg (4 * j + 2) k] s.flash,
                DataVar := s.DataVar,
                ops := s.ops ++ [.program pg (4 * j) v, .program pg (4 * j + 2) k] }) := by
  induction fuel with
  | zero => intro i; left; rfl
  | succ fuel ih =>
    intro i
    rw [EE_VerifyPageFullWriteVariable.scan]
    by_cases h : 4 * i < e
    · rw [if_pos h]
      by_cases hf : read32 s.flash pg (4 * i) = 0xFFFFFFFF
      · rw [if_pos hf]
        right
        refine ⟨i, le_refl _, hf, ?_⟩
        simp [FLASH_ProgramHalfWord, flashOp_ok hd, applyOps]
      · rw [if_neg hf]
        have e4 : 4 * i + 4 = 4 * (i + 1) := by omega
        rw [e4]
        rcases ih (i + 1) with h1 | ⟨j, hj, hfree, h1⟩
        · left; exact h1
        · right; exact ⟨j, by omega, hfree, h1⟩
    · rw [if_neg h]
      left; rfl

theorem VPF_headers {cfg : Cfg} (hd : cfg.FlashOk) (s : EE) (k v : Nat)
    (hh : hw s.flash (EE_FindValidPage cfg s.flash WRITE_IN_VALID_PAGE) 0 ≠ 0xFFFF) (q : Nat) :
    hw (EE_VerifyPageFullWriteVariable cfg s k v).2.flash q 0 = hw s.flash q 0 := by
  unfold EE_VerifyPageFullWriteVariable
  by_cases hwp : EE_FindValidPage cfg s.flash WRITE_IN_VALID_PAGE = NO_VALID_PAGE
  · simp only [if_pos hwp]
  · simp only [if_neg hwp]
    have hc := write_scan_cases hd s (EE_FindValidPage cfg s.flash WRITE_IN_VALID_PAGE)
      (cfg.PAGE_SIZE - 2) k v cfg.PAGE_SIZE 0
    rw [Nat.mul_zero] at hc
    rcases hc with h1 | ⟨j, _, hfree, h1⟩
    · rw [h1]
    · rw [h1]
      have hj : j ≠ 0 := by
        intro h0
        rw [h0, read32_free] at hfree
        exact hh hfree.1
      simp only [applyOps]
      rw [hw_program, if_neg (by omega), hw_program, if_neg (by omega)]

theorem VPF_status {cfg : Cfg} (hd : cfg.FlashOk) (s : EE) (k v : Nat) :
    (EE_VerifyPageFullWriteVariable cfg s k v).1 = FLASH_COMPLETE ∨
    (EE_VerifyPageFullWriteVariable cfg s k v).1 = PAGE_FULL ∨
    (EE_VerifyPageFullWriteVariable cfg s k v).1 = NO_VALID_PAGE := by
  unfold EE_VerifyPageFullWriteVariable
  by_cases hwp : EE_FindValidPage cfg s.flash WRITE_IN_VALID_PAGE = NO_VALID_PAGE
  · simp only [if_pos hwp]; right; right; trivial
  · simp only [if_neg hwp]
    have hc := write_scan_cases hd s (EE_FindValidPage cfg s.flash WRITE_IN_VALID_PAGE)
      (cfg.PAGE_SIZE - 2) k v cfg.PAGE_SIZE 0
    rw [Nat.mul_zero] at hc
    rcases hc with h1 | ⟨j, _, _, h1⟩
    · rw [h1]; right; left; trivial
    · rw [h1]; left; trivial

theorem init_transfer_headers {cfg : Cfg} (hd : cfg.FlashOk) (fl0 : Flash) {p : Nat}
    (h : UniqueValid cfg fl0 p) (hn : hw fl0 ((p + 1) % cfg.PAGE_NUM) 0 = RECEIVE_DATA)
    (l : List Nat) :
    ∀ (idx : Nat) (x : Int) (s : EE), (∀ q, hw s.flash q 0 = hw fl0 q 0) →
      (∀ q, hw (EE_Init.transfer cfg ((p + 1) % cfg.PAGE_NUM) l idx x s).2.flash q 0 = hw fl0 q 0) ∧
      (∀ st, (EE_Init.transfer cfg ((p + 1) % cfg.PAGE_NUM) l idx x s).1 = some st →
        st ≠ FLASH_COMPLETE) := by
  induction l with
  | nil =>
    intro idx x s hs
    rw [EE_Init.transfer]
    exact ⟨hs, fun st hst => by simp at hst⟩
  | cons t rest ih =>
    intro idx x s hs
    rw [EE_Init.transfer]
    dsimp only
    generalize (if hw s.flash ((p + 1) % cfg.PAGE_NUM) 6 = t then (idx : Int) else x) = x1
    by_cases h1 : (idx : Int) ≠ x1
    · rw [if_pos h1]
      by_cases h2 : (EE_ReadVariable cfg s.flash t s.DataVar).1 ≠ 1
      · rw [if_pos h2]
        have hwp : EE_FindValidPage cfg s.flash WRITE_IN_VALID_PAGE = (p + 1) % cfg.PAGE_NUM := by
          rw [find_write (uniqueValid_congr h hs), hs, if_pos hn]
        have hh : hw s.flash (EE_FindValidPage cfg s.flash WRITE_IN_VALID_PAGE) 0 ≠ 0xFFFF := by
          rw [hwp, hs, hn]; decide
        have hfr := VPF_headers hd
          ({ flash := s.flash, DataVar := (EE_ReadVariable cfg s.flash t s.DataVar).2,
             ops := s.ops } : EE) t (EE_ReadVariable cfg s.flash t s.DataVar).2 hh
        by_cases h3 : (EE_VerifyPageFullWriteVariable cfg
            ({ flash := s.flash, DataVar := (EE_ReadVariable cfg s.flash t s.DataVar).2,
               ops := s.ops } : EE) t (EE_ReadVariable cfg s.flash t s.DataVar).2).1
              ≠ FLASH_COMPLETE
        · rw [if_pos h3]
          refine ⟨fun q => (hfr q).trans (hs q), fun st hst => ?_⟩
          simp only [Option.some.injEq] at hst
          rw [← hst]
          exact h3
        · rw [if_neg h3]
          exact ih _ _ _ (fun q => (hfr q).trans (hs q))
      · rw [if_neg h2]
        exact ih _ _ _ hs
    · rw [if_neg h1]
      exact ih _ _ _ hs

/-! ## After a successful `EE_Init` exactly one page is valid -/

theorem formatted_unique {cfg : Cfg} (hg : cfg.Geom) {fl : Flash} {p : Nat}
    (hlt : p < cfg.PAGE_NUM) (h : Formatted cfg fl p) : UniqueValid cfg fl p :=
  (formatted_steady hg hlt h).1

theorem init_unique {cfg : Cfg} (hd : cfg.FlashOk) (hg : cfg.Geom) (hp : cfg.PagesOk) (s : EE)
    (hs : (EE_Init cfg s).1 = FLASH_COMPLETE) :
    ∃ p, UniqueValid cfg (EE_Init cfg s).2.flash p := by
  have h0 : 0 < cfg.PAGE_NUM := by unfold Cfg.PagesOk at hp; omega
  rcases headers_cases cfg.PAGE_NUM (fun q => hw s.flash q 0) VALID_PAGE with h | h | h
  · rcases headers_cases cfg.PAGE_NUM (fun q => hw s.flash q 0) RECEIVE_DATA with h' | h' | h'
    · rw [init_fresh hd hp s h h']
      exact ⟨0, formatted_unique hg h0 (format_formatted cfg s.flash 0)⟩
    · obtain ⟨p, hlt, hr, hu⟩ := h'
      rw [init_promote hd hp s p h hlt hr hu]
      have hne := next_ne hp hlt
      refine ⟨p, hlt, ?_, ?_⟩
      · show hw (applyOps _ s.flash) p 0 = _
        simp only [applyOps]
        rw [hw_erase, if_neg (fun hc => hne hc.symm), hw_program, if_pos ⟨rfl, rfl⟩]
        simp [VALID_PAGE]
      · intro q hq hv
        by_contra hqp
        have hv' : hw (applyOps [.program p 0 VALID_PAGE, .erase ((p + 1) % cfg.PAGE_NUM)]
            s.flash) q 0 = VALID_PAGE := hv
        simp only [applyOps] at hv'
        rw [hw_erase] at hv'
        by_cases h1 : q = (p + 1) % cfg.PAGE_NUM
        · rw [if_pos h1] at hv'; exact absurd hv' (by decide)
        · rw [if_neg h1, hw_program, if_neg (fun hc => hqp hc.1)] at hv'
          exact h q hq hv'
    · obtain ⟨p1, p2, h12, hlt, hv1, hv2, hmin⟩ := h'
      rw [init_two_receive hd hp s p1 p2 h h12 hlt hv1 hv2 hmin]
      exact ⟨p2, formatted_unique hg hlt (format_formatted cfg s.flash p2)⟩
  · obtain ⟨p, hlt, hv, hu⟩ := h
    have huv : UniqueValid cfg s.flash p := ⟨hlt, hv, hu⟩
    have hne := next_ne hp hlt
    by_cases hn1 : hw s.flash ((p + 1) % cfg.PAGE_NUM) 0 = RECEIVE_DATA
    · have hi := init_valid_receive hd hp s huv hn1
      have hh := init_transfer_headers hd s.flash huv hn1 cfg.VirtAddVarTab 0 (-1) s (fun _ => rfl)
      cases hst : (EE_Init.transfer cfg ((p + 1) % cfg.PAGE_NUM) cfg.VirtAddVarTab 0 (-1) s).1 with
      | some st =>
        rw [hi.1 st hst] at hs
        exact absurd hs (hh.2 st hst)
      | none =>
        rw [hi.2 hst]
        refine ⟨(p + 1) % cfg.PAGE_NUM, next_lt hp p, ?_, ?_⟩
        · show hw (applyOps _ _) _ 0 = _
          simp only [applyOps]
          rw [hw_program, if_pos ⟨rfl, rfl⟩]
          simp [VALID_PAGE]
        · intro q hq hv2
          by_contra hqn
          have hv' : hw (applyOps [.erase p, .program ((p + 1) % cfg.PAGE_NUM) 0 VALID_PAGE]
              (EE_Init.transfer cfg ((p + 1) % cfg.PAGE_NUM) cfg.VirtAddVarTab 0 (-1) s).2.flash)
              q 0 = VALID_PAGE := hv2
          simp only [applyOps] at hv'
          rw [hw_program, if_neg (fun hc => hqn hc.1), hw_erase] at hv'
          by_cases h1 : q = p
          · rw [if_pos h1] at hv'; exact absurd hv' (by decide)
          · rw [if_neg h1, hh.1 q] at hv'
            exact h1 (hu q hq hv')
    · by_cases hn2 : hw s.flash ((p + 1) % cfg.PAGE_NUM) 0 = ERASED
      · rw [init_valid_erased hd hp s huv hn2]
        refine ⟨p, hlt, ?_, ?_⟩
        · show hw (applyOps _ s.flash) p 0 = _
          simp only [applyOps]
          rw [hw_erase, if_neg (fun hc => hne hc.symm)]
          exact hv
        · intro q hq hv2
          have hv' : hw (applyOps [.erase ((p + 1) % cfg.PAGE_NUM)] s.flash) q 0
              = VALID_PAGE := hv2
          simp only [applyOps] at hv'
          rw [hw_erase] at hv'
          by_cases h1 : q = (p + 1) % cfg.PAGE_NUM
          · rw [if_pos h1] at hv'; exact absurd hv' (by decide)
          · rw [if_neg h1] at hv'; exact hu q hq hv'
      · rw [init_valid_other hp s huv hn2 hn1]
        exact ⟨p, huv⟩
  · obtain ⟨p1, p2, h12, hlt, hv1, hv2, hmin⟩ := h
    rw [init_two_valid hd hp s p1 p2 h12 hlt hv1 hv2 hmin]
    exact ⟨p2, formatted_unique hg hlt (format_formatted cfg s.flash p2)⟩

/-- C3: for every initial content of the flash region, if `EE_Init` returns
success (all flash operations succeeding), then afterwards exactly one page has
the header `VALID_PAGE`, and a following `EE_ReadVariable` never returns
`NO_VALID_PAGE`. -/
theorem C3_init_exactly_one_valid {cfg : Cfg} (hd : cfg.FlashOk) (hg : cfg.Geom)
    (hp : cfg.PagesOk) (s : EE) (hs : (EE_Init cfg s).1 = FLASH_COMPLETE) :
    (∃ p, p < cfg.PAGE_NUM ∧ hw (EE_Init cfg s).2.flash p 0 = VALID_PAGE ∧
      ∀ q, q < cfg.PAGE_NUM → hw (EE_Init cfg s).2.flash q 0 = VALID_PAGE → q = p) ∧
    (∀ k d, (EE_ReadVariable cfg (EE_Init cfg s).2.flash k d).1 ≠ NO_VALID_PAGE) := by
  obtain ⟨p, hu⟩ := init_unique hd hg hp s hs
  refine ⟨⟨p, hu⟩, fun k d => ?_⟩
  rw [read_eq hg hp hu]
  cases latest cfg (EE_Init cfg s).2.flash p k <;> simp [readResult, NO_VALID_PAGE]

/-- Witness for C3: an interrupted transfer (page 0 valid with records, page 1
receiving) in the small configuration. -/
theorem C3_init_exactly_one_valid_witness :
    (EE_Init demoCfg (stateOf [[0, 0xFFFF, 7, 1, 9, 2, 8, 1], [0xEEEE, 0xFFFF, 5, 2]])).1
      = FLASH_COMPLETE ∧
    (∃ p, p < demoCfg.PAGE_NUM ∧
      hw (EE_Init demoCfg
        (stateOf [[0, 0xFFFF, 7, 1, 9, 2, 8, 1], [0xEEEE, 0xFFFF, 5, 2]])).2.flash p 0 = VALID_PAGE ∧
      ∀ q, q < demoCfg.PAGE_NUM →
        hw (EE_Init demoCfg
          (stateOf [[0, 0xFFFF, 7, 1, 9, 2, 8, 1], [0xEEEE, 0xFFFF, 5, 2]])).2.flash q 0 = VALID_PAGE →
        q = p) ∧
    (∀ k d, (EE_ReadVariable demoCfg (EE_Init demoCfg
        (stateOf [[0, 0xFFFF, 7, 1, 9, 2, 8, 1], [0xEEEE, 0xFFFF, 5, 2]])).2.flash k d).1
      ≠ NO_VALID_PAGE) :=
  ⟨by decide,
   C3_init_exactly_one_valid (fun _ => rfl) (by decide) (by decide)
     (stateOf [[0, 0xFFFF, 7, 1, 9, 2, 8, 1], [0xEEEE, 0xFFFF, 5, 2]]) (by decide)⟩

/-! ## The records copied by a transfer -/

theorem copies_mem {look : Nat → Option Nat} {k : Nat} {tab : List Nat} {r : Nat × Nat}
    (h : r ∈ copies look k tab) : r.2 ∈ tab ∧ r.2 ≠ k ∧ look r.2 = some r.1 := by
  unfold copies at h
  rw [List.mem_filterMap] at h
  obtain ⟨t, ht, hr⟩ := h
  rw [List.mem_filter] at ht
  rw [Option.map_eq_some'] at hr
  obtain ⟨w, hw1, hw2⟩ := hr
  rw [← hw2]
  simp only [decide_eq_true_eq] at ht
  exact ⟨ht.1, ht.2, hw1⟩

theorem mem_copies {look : Nat → Option Nat} {k : Nat} {tab : List Nat} {t w : Nat}
    (ht : t ∈ tab) (hk : t ≠ k) (hl : look t = some w) : (w, t) ∈ copies look k tab := by
  unfold copies
  rw [List.mem_filterMap]
  refine ⟨t, ?_, by rw [hl]; rfl⟩
  rw [List.mem_filter]
  exact ⟨ht, by simpa using hk⟩

theorem copies_length_le (look : Nat → Option Nat) (k : Nat) (tab : List Nat) :
    (copies look k tab).length ≤ tab.length := by
  unfold copies
  exact le_trans (List.length_filterMap_le _ _) (List.length_filter_le _ _)

theorem copies_length_lt (look : Nat → Option Nat) {k : Nat} {tab : List Nat} (hk : k ∈ tab) :
    (copies look k tab).length < tab.length := by
  unfold copies
  refine lt_of_le_of_lt (List.length_filterMap_le _ _) ?_
  rw [List.length_filter_lt_length_iff_exists]
  exact ⟨k, hk, by simp⟩

theorem copies_congr {look look' : Nat → Option Nat} (k : Nat) (tab : List Nat)
    (h : ∀ t ∈ tab, look t = look' t) : copies look k tab = copies look' k tab := by
  unfold copies
  apply List.filterMap_congr
  intro t ht
  rw [h t (List.mem_of_mem_filter ht)]

theorem lookupRec_unique {recs : List (Nat × Nat)} {t w : Nat} (hm : (w, t) ∈ recs)
    (hu : ∀ r ∈ recs, r.2 = t → r.1 = w) : lookupRec recs t = some w := by
  cases h : lookupRec recs t with
  | none =>
    rw [lookupRec_none] at h
    exact absurd rfl (h (w, t) hm)
  | some w' =>
    have := hu (w', t) (lookupRec_mem h) rfl
    simp only at this
    rw [this]

theorem lookup_rotated_key (look : Nat → Option Nat) (k v : Nat) (tab : List Nat) :
    lookupRec ((v, k) :: copies look k tab) k = some v := by
  apply lookupRec_unique (List.mem_cons_self _ _)
  intro r hr hk
  rcases List.mem_cons.mp hr with h | h
  · rw [h]
  · exact absurd hk (copies_mem h).2.1

theorem lookup_rotated_other (look : Nat → Option Nat) (k v : Nat) (tab : List Nat) {t : Nat}
    (ht : t ∈ tab) (hk : t ≠ k) : lookupRec ((v, k) :: copies look k tab) t = look t := by
  cases hl : look t with
  | none =>
    rw [lookupRec_none]
    intro r hr hrt
    rcases List.mem_cons.mp hr with h | h
    · rw [h] at hrt; exact hk hrt.symm
    · have := (copies_mem h).2.2
      rw [hrt, hl] at this
      exact absurd this (by simp)
  | some w =>
    apply lookupRec_unique (List.mem_cons_of_mem _ (mem_copies ht hk hl))
    intro r hr hrt
    rcases List.mem_cons.mp hr with h | h
    · rw [h] at hrt; exact absurd hrt.symm hk
    · have := (copies_mem h).2.2
      rw [hrt, hl] at this
      exact (Option.some.inj this).symm

theorem lookup_rotated_absent (look : Nat → Option Nat) (k v : Nat) (tab : List Nat) {t : Nat}
    (ht : t ∉ tab) (hk : t ≠ k) : lookupRec ((v, k) :: copies look k tab) t = none := by
  rw [lookupRec_none]
  intro r hr hrt
  rcases List.mem_cons.mp hr with h | h
  · rw [h] at hrt; exact hk hrt.symm
  · exact ht (hrt ▸ (copies_mem h).1)

/-! ## A complete write on a full page -/

theorem rotate_result {cfg : Cfg} (hd : cfg.FlashOk) (hg : cfg.Geom) (hp : cfg.PagesOk)
    (s : EE) (k v : Nat) {src : Nat} {recs : List (Nat × Nat)}
    (h : Steady cfg s.flash src recs) (hfull : recs.length = cfg.slots) (hr : RecOk (v, k))
    (hne : ∀ r ∈ copies (latest cfg s.flash src) k cfg.VirtAddVarTab, r.2 ≠ 0xFFFF)
    (hfit : 1 + (copies (latest cfg s.flash src) k cfg.VirtAddVarTab).length ≤ cfg.slots) :
    (EE_WriteVariable cfg s k v).1 = FLASH_COMPLETE ∧
    Steady cfg (EE_WriteVariable cfg s k v).2.flash ((src + 1) % cfg.PAGE_NUM)
      ((v, k) :: copies (latest cfg s.flash src) k cfg.VirtAddVarTab) ∧
    (EE_WriteVariable cfg s k v).2.ops
      = s.ops ++ rotateOps src ((src + 1) % cfg.PAGE_NUM)
          ((v, k) :: copies (latest cfg s.flash src) k cfg.VirtAddVarTab) := by
  obtain ⟨dv, hdv⟩ := (write_rotate hd hg hp s k v h hfull hr hne).1 hfit
  rw [hdv]
  refine ⟨rfl, ?_, rfl⟩
  apply steady_rotate hg hp h
  · simpa [Nat.add_comm] using hfit
  · intro r hr'
    rcases List.mem_cons.mp hr' with h1 | h1
    · rw [h1]; exact hr
    · have hm := copies_mem h1
      have hlt := latest_some_lt hm.2.2
      exact ⟨hlt.1, hlt.2, Or.inr (hne r h1)⟩

theorem steady_no_receive {cfg : Cfg} (hg : cfg.Geom) {fl : Flash} {p : Nat}
    {recs : List (Nat × Nat)} (h : Steady cfg fl p recs) :
    ∀ q, q < cfg.PAGE_NUM → hw fl q 0 ≠ RECEIVE_DATA := by
  intro q hq
  by_cases hqp : q = p
  · rw [hqp, h.1.2.1]; decide
  · rw [erased_hw hg (h.2.2 q hq hqp)]; decide

theorem full_latest_mem {cfg : Cfg} {fl : Flash} {p : Nat} {recs : List (Nat × Nat)}
    (h : PageHolds cfg fl p recs) (hfull : recs.length = cfg.slots) {t w : Nat}
    (hl : latest cfg fl p t = some w) : (w, t) ∈ recs := by
  have := lookupRec_mem hl
  unfold pageRecords at this
  rw [← hfull, holds_records h] at this
  exact this

/-- C5: rotation on a full page.  In a steady state whose valid page `src`
has no fully erased record slot left (all other pages erased), a write of
`(k, v)` returns success; afterwards `src` is fully erased, its ring successor
`dst` carries the header `VALID_PAGE`, and the body of `dst` is exactly the
record `(v, k)` followed, in key-table order, by one record
`(latest value on src, t)` for each table entry `t ≠ k` that had a record on
`src`, followed by erased slots.  Hence `k` reads `v` and every other table key
reads as before (a key absent from `src` stays absent). -/
theorem C5_rotation {cfg : Cfg} (hd : cfg.FlashOk) (hg : cfg.Geom) (hp : cfg.PagesOk)
    (ht : cfg.TableOk) (hcap : cfg.NB_OF_VAR + 1 ≤ cfg.slots)
    (s : EE) (src : Nat) (recs : List (Nat × Nat))
    (h : Steady cfg s.flash src recs) (hfull : recs.length = cfg.slots)
    (k v : Nat) (hk : k < 0xFFFF) (hv : v < 65536) :
    (EE_WriteVariable cfg s k v).1 = FLASH_COMPLETE ∧
    PageErased cfg (EE_WriteVariable cfg s k v).2.flash src ∧
    hw (EE_WriteVariable cfg s k v).2.flash ((src + 1) % cfg.PAGE_NUM) 0 = VALID_PAGE ∧
    PageHolds cfg (EE_WriteVariable cfg s k v).2.flash ((src + 1) % cfg.PAGE_NUM)
      ((v, k) :: copies (latest cfg s.flash src) k cfg.VirtAddVarTab) ∧
    (∀ d, EE_ReadVariable cfg (EE_WriteVariable cfg s k v).2.flash k d = (0, v)) ∧
    (∀ t d, t ∈ cfg.VirtAddVarTab → t ≠ k →
      EE_ReadVariable cfg (EE_WriteVariable cfg s k v).2.flash t d
        = EE_ReadVariable cfg s.flash t d) := by
  have hne : ∀ r ∈ copies (latest cfg s.flash src) k cfg.VirtAddVarTab, r.2 ≠ 0xFFFF := by
    intro r hr
    have := ht r.2 (copies_mem hr).1
    omega
  have hfit : 1 + (copies (latest cfg s.flash src) k cfg.VirtAddVarTab).length ≤ cfg.slots := by
    have := copies_length_le (latest cfg s.flash src) k cfg.VirtAddVarTab
    unfold Cfg.NB_OF_VAR at hcap
    omega
  have hr : RecOk (v, k) := ⟨hv, by show k < 65536; omega, Or.inr (by show k ≠ 0xFFFF; omega)⟩
  obtain ⟨h1, h2, _⟩ := rotate_result hd hg hp s k v h hfull hr hne hfit
  refine ⟨h1, ?_, h2.1.2.1, h2.2.1, ?_, ?_⟩
  · exact h2.2.2 src h.1.1 (fun hc => next_ne hp h.1.1 hc.symm)
  · intro d
    rw [steady_read hg hp h2 (by omega), lookup_rotated_key]
    rfl
  · intro t d htab htk
    have htf : t ≠ 0xFFFF := by have := ht t htab; omega
    rw [steady_read hg hp h2 htf, lookup_rotated_other _ _ _ _ htab htk, read_eq hg hp h.1]

/-- Witness for C5: page 0 is full with the records `(7,1)`, `(9,2)`, `(8,1)`;
the write of `(2, 0xAAAA)` rotates to page 1. -/
theorem C5_rotation_witness :
    (Steady demoCfg (stateOf [[0, 0xFFFF, 7, 1, 9, 2, 8, 1]]).flash 0 [(7, 1), (9, 2), (8, 1)] ∧
      [(7, 1), (9, 2), (8, 1)].length = demoCfg.slots) ∧
    (EE_WriteVariable demoCfg (stateOf [[0, 0xFFFF, 7, 1, 9, 2, 8, 1]]) 2 0xAAAA).1
      = FLASH_COMPLETE ∧
    PageErased demoCfg
      (EE_WriteVariable demoCfg (stateOf [[0, 0xFFFF, 7, 1, 9, 2, 8, 1]]) 2 0xAAAA).2.flash 0 ∧
    hw (EE_WriteVariable demoCfg (stateOf [[0, 0xFFFF, 7, 1, 9, 2, 8, 1]]) 2 0xAAAA).2.flash
      ((0 + 1) % demoCfg.PAGE_NUM) 0 = VALID_PAGE ∧
    PageHolds demoCfg
      (EE_WriteVariable demoCfg (stateOf [[0, 0xFFFF, 7, 1, 9, 2, 8, 1]]) 2 0xAAAA).2.flash
      ((0 + 1) % demoCfg.PAGE_NUM)
      ((0xAAAA, 2) :: copies (latest demoCfg (stateOf [[0, 0xFFFF, 7, 1, 9, 2, 8, 1]]).flash 0) 2
        demoCfg.VirtAddVarTab) ∧
    (∀ d, EE_ReadVariable demoCfg
        (EE_WriteVariable demoCfg (stateOf [[0, 0xFFFF, 7, 1, 9, 2, 8, 1]]) 2 0xAAAA).2.flash 2 d
      = (0, 0xAAAA)) ∧
    (∀ t d, t ∈ demoCfg.VirtAddVarTab → t ≠ 2 →
      EE_ReadVariable demoCfg
        (EE_WriteVariable demoCfg (stateOf [[0, 0xFFFF, 7, 1, 9, 2, 8, 1]]) 2 0xAAAA).2.flash t d
        = EE_ReadVariable demoCfg (stateOf [[0, 0xFFFF, 7, 1, 9, 2, 8, 1]]).flash t d) :=
  ⟨by decide,
   C5_rotation (fun _ => rfl) (by decide) (by decide) (by decide) (by decide)
     (stateOf [[0, 0xFFFF, 7, 1, 9, 2, 8, 1]]) 0 [(7, 1), (9, 2), (8, 1)] (by decide) (by decide)
     2 0xAAAA (by decide) (by decide)⟩

/-- C4: `EE_WriteVariable` preserves the invariant between calls.  If exactly
one page is `VALID_PAGE`, no page is `RECEIVE_DATA`, every other page is fully
erased and the valid page consists of well-formed records followed only by
fully erased slots, then after a write of a key `k ≠ 0xFFFF` that returns
success (with or without a rotation) the same four conditions hold again. -/
theorem C4_write_preserves_invariant {cfg : Cfg} (hd : cfg.FlashOk) (hg : cfg.Geom)
    (hp : cfg.PagesOk) (s : EE) (k v : Nat) (hk : k < 0xFFFF) (hv : v < 65536)
    (hinv : BetweenCalls cfg s.flash)
    (hs : (EE_WriteVariable cfg s k v).1 = FLASH_COMPLETE) :
    BetweenCalls cfg (EE_WriteVariable cfg s k v).2.flash := by
  obtain ⟨p, hu, _, he, recs, hh, hwf⟩ := hinv
  have hst : Steady cfg s.flash p recs := ⟨hu, hh, he⟩
  have hr : RecOk (v, k) := ⟨hv, by show k < 65536; omega, Or.inr (by show k ≠ 0xFFFF; omega)⟩
  by_cases hlen : recs.length < cfg.slots
  · rw [write_append hd hg hp s k v hst hlen]
    have h2 := steady_append hst hlen (v, k) hr
    refine ⟨p, h2.1, steady_no_receive hg h2, h2.2.2, recs ++ [(v, k)], h2.2.1, ?_⟩
    intro r hr'
    rcases List.mem_append.mp hr' with h3 | h3
    · exact hwf r h3
    · rw [List.mem_singleton] at h3
      rw [h3]
      show k ≠ 0xFFFF
      omega
  · have hfull : recs.length = cfg.slots := by have := hh.1; omega
    have hne : ∀ r ∈ copies (latest cfg s.flash p) k cfg.VirtAddVarTab, r.2 ≠ 0xFFFF := by
      intro r hr'
      have hm := full_latest_mem hh hfull (copies_mem hr').2.2
      exact hwf _ hm
    by_cases hfit : 1 + (copies (latest cfg s.flash p) k cfg.VirtAddVarTab).length ≤ cfg.slots
    · obtain ⟨_, h2, _⟩ := rotate_result hd hg hp s k v hst hfull hr hne hfit
      refine ⟨(p + 1) % cfg.PAGE_NUM, h2.1, steady_no_receive hg h2, h2.2.2, _, h2.2.1, ?_⟩
      intro r hr'
      rcases List.mem_cons.mp hr' with h3 | h3
      · rw [h3]
        show k ≠ 0xFFFF
        omega
      · exact hne r h3
    · have := (write_rotate hd hg hp s k v hst hfull hr hne).2 hfit
      rw [this] at hs
      exact absurd hs (by decide)

/-- Witness for C4: a state with two records on page 0 and room for one more. -/
theorem C4_write_preserves_invariant_witness :
    (BetweenCalls demoCfg (stateOf [[0, 0xFFFF, 7, 1, 9, 2]]).flash ∧
      (EE_WriteVariable demoCfg (stateOf [[0, 0xFFFF, 7, 1, 9, 2]]) 1 8).1 = FLASH_COMPLETE) ∧
    BetweenCalls demoCfg (EE_WriteVariable demoCfg (stateOf [[0, 0xFFFF, 7, 1, 9, 2]]) 1 8).2.flash :=
  ⟨⟨⟨0, by decide, by decide, by decide, [(7, 1), (9, 2)], by decide, by decide⟩, by decide⟩,
   C4_write_preserves_invariant (fun _ => rfl) (by decide) (by decide)
     (stateOf [[0, 0xFFFF, 7, 1, 9, 2]]) 1 8 (by decide) (by decide)
     ⟨0, by decide, by decide, by decide, [(7, 1), (9, 2)], by decide, by decide⟩ (by decide)⟩

/-! ## Sequences of writes -/

theorem lastWrite_cons (w : Nat × Nat) (ws : List (Nat × Nat)) (t : Nat) :
    lastWrite (w :: ws) t
      = match lastWrite ws t with
        | some v => some v
        | none => if w.1 = t then some w.2 else none := by
  unfold lastWrite
  rw [List.reverse_cons, List.find?_append]
  cases h : List.find? (fun w => decide (w.1 = t)) ws.reverse with
  | some a => simp
  | none =>
    by_cases hw : w.1 = t
    · simp [List.find?, hw]
    · simp [List.find?, hw]

theorem lastWrite_mem {ws : List (Nat × Nat)} {k v : Nat} (h : lastWrite ws k = some v) :
    (k, v) ∈ ws := by
  unfold lastWrite at h
  rw [Option.map_eq_some'] at h
  obtain ⟨r, hr, hv⟩ := h
  have h1 := List.find?_some hr
  have h2 := List.mem_of_find?_eq_some hr
  simp only [decide_eq_true_eq] at h1
  rw [List.mem_reverse] at h2
  have : r = (k, v) := Prod.ext h1 hv
  rw [← this]
  exact h2

theorem writeAll_inv {cfg : Cfg} (hd : cfg.FlashOk) (hg : cfg.Geom) (hp : cfg.PagesOk)
    (ht : cfg.TableOk) (hcap : cfg.NB_OF_VAR ≤ cfg.slots) (ws : List (Nat × Nat)) :
    ∀ (s : EE) (p : Nat) (recs : List (Nat × Nat)) (M : Nat → Option Nat),
      Steady cfg s.flash p recs → (∀ r ∈ recs, r.2 ∈ cfg.VirtAddVarTab) →
      (∀ t, lookupRec recs t = M t) →
      (∀ w ∈ ws, w.1 ∈ cfg.VirtAddVarTab ∧ w.2 < 65536) →
      (∀ st ∈ (writeAll cfg s ws).1, st = FLASH_COMPLETE) ∧
      ∃ p' recs', Steady cfg (writeAll cfg s ws).2.flash p' recs' ∧
        ∀ t, lookupRec recs' t = match lastWrite ws t with
          | some v => some v
          | none => M t := by
  induction ws with
  | nil =>
    intro s p recs M hst _ hM _
    refine ⟨fun st h => absurd h (by simp [writeAll]), p, recs, hst, ?_⟩
    intro t
    simpa [lastWrite] using hM t
  | cons w ws ih =>
    intro s p recs M hst htab hM hws
    have hw1 := (hws w (List.mem_cons_self _ _)).1
    have hw2 := (hws w (List.mem_cons_self _ _)).2
    have hk := ht w.1 hw1
    have hr : RecOk (w.2, w.1) :=
      ⟨hw2, by show w.1 < 65536; omega, Or.inr (by show w.1 ≠ 0xFFFF; omega)⟩
    have hws' : ∀ x ∈ ws, x.1 ∈ cfg.VirtAddVarTab ∧ x.2 < 65536 :=
      fun x hx => hws x (List.mem_cons_of_mem _ hx)
    -- the first write
    have step : (EE_WriteVariable cfg s w.1 w.2).1 = FLASH_COMPLETE ∧
        ∃ p1 recs1, Steady cfg (EE_WriteVariable cfg s w.1 w.2).2.flash p1 recs1 ∧
          (∀ r ∈ recs1, r.2 ∈ cfg.VirtAddVarTab) ∧
          ∀ t, lookupRec recs1 t = if w.1 = t then some w.2 else M t := by
      by_cases hlen : recs.length < cfg.slots
      · rw [write_append hd hg hp s w.1 w.2 hst hlen]
        refine ⟨rfl, p, recs ++ [(w.2, w.1)], steady_append hst hlen _ hr, ?_, ?_⟩
        · intro r hr'
          rcases List.mem_append.mp hr' with h3 | h3
          · exact htab r h3
          · rw [List.mem_singleton] at h3; rw [h3]; exact hw1
        · intro t
          rw [lookupRec_append_one, hM]
      · have hfull : recs.length = cfg.slots := by have := hst.2.1.1; omega
        have hne : ∀ r ∈ copies (latest cfg s.flash p) w.1 cfg.VirtAddVarTab, r.2 ≠ 0xFFFF := by
          intro r hr'
          have := ht r.2 (copies_mem hr').1
          omega
        have hfit : 1 + (copies (latest cfg s.flash p) w.1 cfg.VirtAddVarTab).length
            ≤ cfg.slots := by
          have := copies_length_lt (latest cfg s.flash p) hw1
          unfold Cfg.NB_OF_VAR at hcap
          omega
        obtain ⟨h1, h2, _⟩ := rotate_result hd hg hp s w.1 w.2 hst hfull hr hne hfit
        refine ⟨h1, _, _, h2, ?_, ?_⟩
        · intro r hr'
          rcases List.mem_cons.mp hr' with h3 | h3
          · rw [h3]; exact hw1
          · exact (copies_mem h3).1
        · intro t
          by_cases htk : w.1 = t
          · rw [if_pos htk, ← htk, lookup_rotated_key]
          · rw [if_neg htk]
            by_cases htt : t ∈ cfg.VirtAddVarTab
            · have htf : t ≠ 0xFFFF := by have := ht t htt; omega
              rw [lookup_rotated_other _ _ _ _ htt (fun hc => htk hc.symm),
                latest_holds hst.2.1 htf, hM]
            · rw [lookup_rotated_absent _ _ _ _ htt (fun hc => htk hc.symm), ← hM,
                eq_comm, lookupRec_none]
              intro r hr' hrt
              exact htt (hrt ▸ htab r hr')
    obtain ⟨hs1, p1, recs1, hst1, htab1, hM1⟩ := step
    obtain ⟨ha, p', recs', hst', hM'⟩ := ih (EE_WriteVariable cfg s w.1 w.2).2 p1 recs1
      (fun t => if w.1 = t then some w.2 else M t) hst1 htab1 hM1 hws'
    refine ⟨?_, p', recs', hst', ?_⟩
    · intro st hmem
      rw [writeAll] at hmem
      rcases List.mem_cons.mp hmem with h3 | h3
      · rw [h3]; exact hs1
      · exact ha st h3
    · intro t
      rw [hM' t, lastWrite_cons]
      cases lastWrite ws t with
      | some v => rfl
      | none =>
        by_cases htk : w.1 = t
        · simp [htk]
        · simp [htk]

/-- C1: last write wins.  Start from the state `EE_Init` produces on a fully
erased flash region, with every flash operation succeeding.  For every finite
sequence of `EE_WriteVariable` calls whose keys all belong to the key table
(which holds no `0xFFFF`), `EE_Init` and every write return success, and for
every key written at least once a final `EE_ReadVariable` returns "found" (0)
with the value of the last write to that key, however many page rotations the
sequence caused. -/
theorem C1_last_write_wins {cfg : Cfg} (hd : cfg.FlashOk) (hg : cfg.Geom) (hp : cfg.PagesOk)
    (ht : cfg.TableOk) (hcap : cfg.NB_OF_VAR ≤ cfg.slots)
    (s : EE) (he : ∀ q, q < cfg.PAGE_NUM → PageErased cfg s.flash q)
    (ws : List (Nat × Nat)) (hws : ∀ w ∈ ws, w.1 ∈ cfg.VirtAddVarTab ∧ w.2 < 65536) :
    (EE_Init cfg s).1 = FLASH_COMPLETE ∧
    (∀ st ∈ (writeAll cfg (EE_Init cfg s).2 ws).1, st = FLASH_COMPLETE) ∧
    (∀ k v d, lastWrite ws k = some v →
      EE_ReadVariable cfg (writeAll cfg (EE_Init cfg s).2 ws).2.flash k d = (0, v)) := by
  have h0 : 0 < cfg.PAGE_NUM := by unfold Cfg.PagesOk at hp; omega
  have hv : ∀ q, q < cfg.PAGE_NUM → hw s.flash q 0 ≠ VALID_PAGE := by
    intro q hq; rw [erased_hw hg (he q hq)]; decide
  have hr : ∀ q, q < cfg.PAGE_NUM → hw s.flash q 0 ≠ RECEIVE_DATA := by
    intro q hq; rw [erased_hw hg (he q hq)]; decide
  have hinit := init_fresh hd hp s hv hr
  have hst := formatted_steady hg h0 (format_formatted cfg s.flash 0)
  rw [hinit]
  obtain ⟨ha, p', recs', hst', hM'⟩ := writeAll_inv hd hg hp ht hcap ws
    { flash := applyOps (formatOps 0 cfg.PAGE_NUM 0) s.flash, DataVar := s.DataVar,
      ops := s.ops ++ formatOps 0 cfg.PAGE_NUM 0 } 0 [] (fun _ => none) hst
    (fun r hr' => absurd hr' (by simp)) (fun t => rfl) hws
  refine ⟨rfl, ha, ?_⟩
  intro k v d hl
  have hk : k ≠ 0xFFFF := by
    have := ht k (hws (k, v) (lastWrite_mem hl)).1
    omega
  rw [steady_read hg hp hst' hk, hM' k, hl]
  rfl

/-- Witness for C1: five writes in the small configuration (3 record slots per
page), which rotate once. -/
theorem C1_last_write_wins_witness :
    (∀ q, q < demoCfg.PAGE_NUM → PageErased demoCfg (stateOf []).flash q) ∧
    (∀ w ∈ [(1, 7), (2, 9), (1, 8), (2, 0xAAAA), (1, 3)],
      w.1 ∈ demoCfg.VirtAddVarTab ∧ w.2 < 65536) ∧
    (EE_Init demoCfg (stateOf [])).1 = FLASH_COMPLETE ∧
    (∀ st ∈ (writeAll demoCfg (EE_Init demoCfg (stateOf [])).2
        [(1, 7), (2, 9), (1, 8), (2, 0xAAAA), (1, 3)]).1, st = FLASH_COMPLETE) ∧
    (∀ k v d, lastWrite [(1, 7), (2, 9), (1, 8), (2, 0xAAAA), (1, 3)] k = some v →
      EE_ReadVariable demoCfg (writeAll demoCfg (EE_Init demoCfg (stateOf [])).2
        [(1, 7), (2, 9), (1, 8), (2, 0xAAAA), (1, 3)]).2.flash k d = (0, v)) :=
  ⟨by decide, by decide,
   C1_last_write_wins (fun _ => rfl) (by decide) (by decide) (by decide) (by decide)
     (stateOf []) (by decide) [(1, 7), (2, 9), (1, 8), (2, 0xAAAA), (1, 3)] (by decide)⟩

/-! ## The copy loop of `EE_Init` -/

theorem holds_first {cfg : Cfg} {fl : Flash} {pg : Nat} {recs : List (Nat × Nat)}
    (h : PageHolds cfg fl pg recs) (hs : 1 ≤ cfg.slots) : hw fl pg 6 = firstAddr recs := by
  cases recs with
  | nil => exact (h.2.2.2 0 (by omega) (by simp)).2
  | cons r rest => exact (h.2.1 0 (by simp)).2

theorem initAdd_length_le (look : Nat → Option Nat) (l : List Nat) :
    ∀ recs, (initAdd look l recs).length ≤ l.length := by
  induction l with
  | nil => intro recs; simp [initAdd]
  | cons t rest ih =>
    intro recs
    rw [initAdd]
    by_cases hf : firstAddr recs = t
    · rw [if_pos hf]
      exact le_trans (ih recs) (by simp)
    · rw [if_neg hf]
      cases hl : look t with
      | none => exact le_trans (ih recs) (by simp)
      | some w =>
        simp only [List.length_cons]
        exact Nat.succ_le_succ (ih _)

theorem initAdd_mem {look : Nat → Option Nat} {l : List Nat} :
    ∀ {recs : List (Nat × Nat)} {r : Nat × Nat}, r ∈ initAdd look l recs →
      r.2 ∈ l ∧ look r.2 = some r.1 := by
  induction l with
  | nil => intro recs r h; simp [initAdd] at h
  | cons t rest ih =>
    intro recs r h
    rw [initAdd] at h
    by_cases hf : firstAddr recs = t
    · rw [if_pos hf] at h
      exact ⟨List.mem_cons_of_mem _ (ih h).1, (ih h).2⟩
    · rw [if_neg hf] at h
      cases hl : look t with
      | none =>
        rw [hl] at h
        exact ⟨List.mem_cons_of_mem _ (ih h).1, (ih h).2⟩
      | some w =>
        rw [hl] at h
        rcases List.mem_cons.mp h with h1 | h1
        · rw [h1]; exact ⟨List.mem_cons_self _ _, hl⟩
        · exact ⟨List.mem_cons_of_mem _ (ih h1).1, (ih h1).2⟩

theorem init_transfer_loop {cfg : Cfg} (hd : cfg.FlashOk) (hg : cfg.Geom) (hp : cfg.PagesOk)
    (look : Nat → Option Nat) (src dst : Nat) (l : List Nat) :
    ∀ (s : EE) (recs : List (Nat × Nat)) (idx : Nat) (x : Int),
      Mid cfg s.flash src dst recs → x < (idx : Int) →
      (∀ t, latest cfg s.flash src t = look t) → (∀ t ∈ l, t ≠ 0xFFFF) →
      recs.length + l.length ≤ cfg.slots →
      ∃ dv, EE_Init.transfer cfg dst l idx x s
        = (none, { flash := applyOps (appendOps dst recs.length (initAdd look l recs)) s.flash,
                   DataVar := dv,
                   ops := s.ops ++ appendOps dst recs.length (initAdd look l recs) }) := by
  induction l with
  | nil =>
    intro s recs idx x _ _ _ _ _
    exact ⟨s.DataVar, by simp [EE_Init.transfer, initAdd, appendOps, applyOps]⟩
  | cons t rest ih =>
    intro s recs idx x hm hx hlook hne hfit
    simp only [List.length_cons] at hfit
    have hs1 : 1 ≤ cfg.slots := by omega
    have hne' : ∀ t' ∈ rest, t' ≠ 0xFFFF := fun t' h' => hne t' (List.mem_cons_of_mem _ h')
    rw [EE_Init.transfer, initAdd]
    dsimp only
    rw [holds_first hm.2.2.2 hs1]
    by_cases hf : firstAddr recs = t
    · rw [if_pos hf, if_pos hf, if_neg (by simp)]
      exact ih s recs (idx + 1) idx hm (by push_cast; omega) hlook hne' (by omega)
    · rw [if_neg hf, if_neg hf, if_pos (by omega)]
      simp only [read_eq hg hp hm.1, hlook]
      cases hl : look t with
      | none =>
        simp only [readResult, ne_eq, not_true_eq_false, if_false]
        exact ih s recs (idx + 1) x hm (by push_cast; omega) hlook hne' (by omega)
      | some w =>
        have e01 : ((0 : Nat) ≠ 1) := by decide
        simp only [readResult, if_pos e01]
        have hlt := latest_some_lt ((hlook t).trans hl)
        have hrec : RecOk (w, t) := ⟨hlt.1, hlt.2, Or.inr (hne t (List.mem_cons_self _ _))⟩
        have hwp' : EE_FindValidPage cfg
            ({ flash := s.flash, DataVar := w, ops := s.ops } : EE).flash WRITE_IN_VALID_PAGE = dst :=
          mid_find_write hm
        have hdst : dst < cfg.PAGE_NUM := by rw [hm.2.1]; exact next_lt hp src
        have hv := VPF_append hd hg ({ flash := s.flash, DataVar := w, ops := s.ops } : EE) t w
          recs (by rw [hwp']; exact page_ne_sentinel hp hdst)
          (by rw [hwp']; show hw s.flash dst 0 ≠ 0xFFFF; rw [hm.2.2.1]; decide)
          (by rw [hwp']; exact hm.2.2.2) (by omega)
        rw [hwp'] at hv
        rw [hv]
        simp only [ne_eq, not_true_eq_false, if_false]
        have hm2 := mid_append hm [(w, t)] (by simp; omega)
          (by intro r hr; rw [List.mem_singleton] at hr; rw [hr]; exact hrec)
        obtain ⟨dv, hdv⟩ := ih
          { flash := applyOps (appendOps dst recs.length [(w, t)]) s.flash,
            DataVar := w, ops := s.ops ++ appendOps dst recs.length [(w, t)] }
          (recs ++ [(w, t)]) (idx + 1) x hm2 (by push_cast; omega)
          (fun t' => by rw [← hlook t']; exact mid_latest_src hp hm _ _ t') hne'
          (by simp; omega)
        refine ⟨dv, ?_⟩
        rw [hdv]
        have elen : (recs ++ [(w, t)]).length = recs.length + 1 := by simp
        have e2 : appendOps dst recs.length ((w, t) :: initAdd look rest (recs ++ [(w, t)]))
            = appendOps dst recs.length [(w, t)] ++ appendOps dst (recs.length + 1)
                (initAdd look rest (recs ++ [(w, t)])) := by
          simp [appendOps]
        rw [e2, applyOps_append, List.append_assoc, elen]

/-! ## What the receiving page holds after the copy loop of `EE_Init` -/

theorem lookupRec_append_absent (recs new : List (Nat × Nat)) (t : Nat)
    (h : ∀ r ∈ new, r.2 ≠ t) : lookupRec (recs ++ new) t = lookupRec recs t := by
  unfold lookupRec
  rw [List.reverse_append, List.find?_append]
  have : List.find? (fun r => decide (r.2 = t)) new.reverse = none := by
    rw [List.find?_eq_none]
    intro r hr
    simpa using h r (List.mem_reverse.mp hr)
  rw [this]
  rfl

theorem firstAddr_append {recs : List (Nat × Nat)} (hne : recs ≠ []) (new : List (Nat × Nat)) :
    firstAddr (recs ++ new) = firstAddr recs := by
  cases recs with
  | nil => exact absurd rfl hne
  | cons r rest => rfl

theorem initAdd_skips_first (look : Nat → Option Nat) (l : List Nat) :
    ∀ (recs : List (Nat × Nat)), recs ≠ [] → ∀ r ∈ initAdd look l recs, r.2 ≠ firstAddr recs := by
  induction l with
  | nil => intro recs _ r h; simp [initAdd] at h
  | cons t rest ih =>
    intro recs hne r h
    rw [initAdd] at h
    by_cases hf : firstAddr recs = t
    · rw [if_pos hf] at h
      exact ih recs hne r h
    · rw [if_neg hf] at h
      cases hl : look t with
      | none =>
        rw [hl] at h
        exact ih recs hne r h
      | some w =>
        rw [hl] at h
        rcases List.mem_cons.mp h with h1 | h1
        · rw [h1]; exact fun hc => hf hc.symm
        · have := ih (recs ++ [(w, t)]) (by simp) r h1
          rw [firstAddr_append hne] at this
          exact this

theorem initAdd_copied (look : Nat → Option Nat) {t w : Nat} (hl : look t = some w)
    (l : List Nat) :
    ∀ (recs : List (Nat × Nat)),
      ((t ∈ l ∧ firstAddr recs ≠ t) ∨ lookupRec recs t = some w) →
      lookupRec (recs ++ initAdd look l recs) t = some w := by
  induction l with
  | nil =>
    intro recs h
    rcases h with ⟨h1, _⟩ | h
    · simp at h1
    · simpa [initAdd] using h
  | cons a rest ih =>
    intro recs h
    rw [initAdd]
    by_cases hf : firstAddr recs = a
    · rw [if_pos hf]
      apply ih
      rcases h with ⟨h1, h2⟩ | h
      · left
        rcases List.mem_cons.mp h1 with h3 | h3
        · exact absurd (hf.trans h3.symm) h2
        · exact ⟨h3, h2⟩
      · right; exact h
    · rw [if_neg hf]
      cases hla : look a with
      | none =>
        apply ih
        rcases h with ⟨h1, h2⟩ | h
        · left
          rcases List.mem_cons.mp h1 with h3 | h3
          · rw [h3, hla] at hl; exact absurd hl (by simp)
          · exact ⟨h3, h2⟩
        · right; exact h
      | some w' =>
        have e : recs ++ (w', a) :: initAdd look rest (recs ++ [(w', a)])
            = (recs ++ [(w', a)]) ++ initAdd look rest (recs ++ [(w', a)]) := by simp
        show lookupRec (recs ++ (w', a) :: initAdd look rest (recs ++ [(w', a)])) t = some w
        rw [e]
        apply ih
        by_cases hat : a = t
        · right
          rw [lookupRec_append_one, if_pos hat]
          rw [hat, hl] at hla
          exact hla.symm
        · rcases h with ⟨h1, h2⟩ | h
          · left
            rcases List.mem_cons.mp h1 with h3 | h3
            · exact absurd h3.symm hat
            · refine ⟨h3, ?_⟩
              cases recs with
              | nil => exact hat
              | cons r0 rs => exact h2
          · right
            rw [lookupRec_append_one, if_neg hat]
            exact h

theorem initAdd_absent (look : Nat → Option Nat) {t : Nat} (hl : look t = none)
    (l : List Nat) (recs : List (Nat × Nat)) :
    lookupRec (recs ++ initAdd look l recs) t = lookupRec recs t := by
  apply lookupRec_append_absent
  intro r hr hrt
  have := (initAdd_mem hr).2
  rw [hrt, hl] at this
  exact absurd this (by simp)

/-! ## `EE_Init` completes an interrupted transfer -/

theorem init_recover {cfg : Cfg} (hd : cfg.FlashOk) (hg : cfg.Geom) (hp : cfg.PagesOk)
    (s : EE) {src dst : Nat} {recs : List (Nat × Nat)} (hm : Mid cfg s.flash src dst recs)
    (hne : ∀ t ∈ cfg.VirtAddVarTab, t ≠ 0xFFFF)
    (hroom : recs.length + cfg.VirtAddVarTab.length ≤ cfg.slots) :
    (EE_Init cfg s).1 = FLASH_COMPLETE ∧
    UniqueValid cfg (EE_Init cfg s).2.flash dst ∧
    PageHolds cfg (EE_Init cfg s).2.flash dst
      (recs ++ initAdd (latest cfg s.flash src) cfg.VirtAddVarTab recs) ∧
    PageErased cfg (EE_Init cfg s).2.flash src ∧
    (∀ q o, q ≠ src → q ≠ dst → hw (EE_Init cfg s).2.flash q o = hw s.flash q o) := by
  obtain ⟨hu, hdst, hn, hh⟩ := hm
  have hm : Mid cfg s.flash src dst recs := ⟨hu, hdst, hn, hh⟩
  have hne2 := next_ne hp hu.1
  rw [← hdst] at hne2
  obtain ⟨dv, hdv⟩ := init_transfer_loop hd hg hp (latest cfg s.flash src) src dst
    cfg.VirtAddVarTab s recs 0 (-1) hm (by decide) (fun _ => rfl) hne hroom
  have hn' : hw s.flash ((src + 1) % cfg.PAGE_NUM) 0 = RECEIVE_DATA := by rw [← hdst]; exact hn
  have hi := (init_valid_receive hd hp s hu hn').2
  rw [← hdst, hdv] at hi
  rw [hi rfl]
  have hfit : recs.length + (initAdd (latest cfg s.flash src) cfg.VirtAddVarTab recs).length
      ≤ cfg.slots :=
    le_trans (Nat.add_le_add_left (initAdd_length_le _ _ _) _) hroom
  have hok : ∀ r ∈ initAdd (latest cfg s.flash src) cfg.VirtAddVarTab recs, RecOk r := by
    intro r hr
    have hm1 := initAdd_mem hr
    have hlt := latest_some_lt hm1.2
    exact ⟨hlt.1, hlt.2, Or.inr (hne _ hm1.1)⟩
  have hm2 := mid_append hm _ hfit hok
  have key : ∀ q o, hw (applyOps [.erase src, .program dst 0 VALID_PAGE]
      (applyOps (appendOps dst recs.length
        (initAdd (latest cfg s.flash src) cfg.VirtAddVarTab recs)) s.flash)) q o
      = if q = dst ∧ o = 0 then VALID_PAGE
        else if q = src then 0xFFFF
        else hw (applyOps (appendOps dst recs.length
          (initAdd (latest cfg s.flash src) cfg.VirtAddVarTab recs)) s.flash) q o := by
    intro q o
    simp only [applyOps]
    by_cases h1 : q = dst ∧ o = 0
    · rw [hw_program, if_pos h1, if_pos h1]; simp [VALID_PAGE]
    · rw [hw_program, if_neg h1, if_neg h1, hw_erase]
  refine ⟨rfl, ⟨by rw [hdst]; exact next_lt hp src, ?_, ?_⟩, ?_, ?_, ?_⟩
  · show hw (applyOps _ _) dst 0 = _
    rw [key, if_pos ⟨rfl, rfl⟩]
  · intro q hq hv
    by_contra hqd
    have hv' : hw (applyOps [.erase src, .program dst 0 VALID_PAGE] _) q 0 = VALID_PAGE := hv
    rw [key, if_neg (fun hc => hqd hc.1)] at hv'
    by_cases h1 : q = src
    · rw [if_pos h1] at hv'; exact absurd hv' (by decide)
    · rw [if_neg h1] at hv'
      exact h1 (hm2.1.2.2 q hq hv')
  · apply holds_congr hm2.2.2.2
    intro o ho
    show hw (applyOps [.erase src, .program dst 0 VALID_PAGE] _) dst o = _
    rw [key, if_neg (by omega), if_neg hne2]
  · intro o _
    show hw (applyOps [.erase src, .program dst 0 VALID_PAGE] _) src o = _
    rw [key, if_neg (fun hc => hne2 hc.1.symm), if_pos rfl]
  · intro q o h1 h2
    show hw (applyOps [.erase src, .program dst 0 VALID_PAGE] _) q o = _
    rw [key, if_neg (fun hc => h2 hc.1), if_neg h1, appendOps_frame _ _ _ _ _ _ (Or.inl h2)]

/-- C7: recovery of an interrupted transfer.  With exactly one valid page
`src` whose ring successor `dst` is `RECEIVE_DATA` and holds a run of record
slots followed by erased slots with room for `NB_OF_VAR` more records,
`EE_Init` returns success; afterwards `src` is fully erased and `dst` has the
header `VALID_PAGE`.  For every key `t` of the table: if `t` is the address
stored in the first record slot of `dst`, a read of `t` returns the latest
value `dst` held for `t` before the call; otherwise, if `t` had a record on
`src`, a read of `t` returns the latest value `src` held for `t`. -/
theorem C7_recover_transfer {cfg : Cfg} (hd : cfg.FlashOk) (hg : cfg.Geom) (hp : cfg.PagesOk)
    (ht : cfg.TableOk) (s : EE) (src : Nat) (recs : List (Nat × Nat))
    (hu : UniqueValid cfg s.flash src)
    (hn : hw s.flash ((src + 1) % cfg.PAGE_NUM) 0 = RECEIVE_DATA)
    (hh : PageHolds cfg s.flash ((src + 1) % cfg.PAGE_NUM) recs)
    (hroom : recs.length + cfg.NB_OF_VAR ≤ cfg.slots) :
    (EE_Init cfg s).1 = FLASH_COMPLETE ∧
    PageErased cfg (EE_Init cfg s).2.flash src ∧
    hw (EE_Init cfg s).2.flash ((src + 1) % cfg.PAGE_NUM) 0 = VALID_PAGE ∧
    (∀ t d, t ∈ cfg.VirtAddVarTab →
      (hw s.flash ((src + 1) % cfg.PAGE_NUM) 6 = t →
        EE_ReadVariable cfg (EE_Init cfg s).2.flash t d
          = readResult (latest cfg s.flash ((src + 1) % cfg.PAGE_NUM) t) d) ∧
      (hw s.flash ((src + 1) % cfg.PAGE_NUM) 6 ≠ t →
        ∀ w, latest cfg s.flash src t = some w →
          EE_ReadVariable cfg (EE_Init cfg s).2.flash t d = (0, w))) := by
  have hm : Mid cfg s.flash src ((src + 1) % cfg.PAGE_NUM) recs := ⟨hu, rfl, hn, hh⟩
  have hne : ∀ t ∈ cfg.VirtAddVarTab, t ≠ 0xFFFF := by
    intro t h; have := ht t h; omega
  obtain ⟨h1, h2, h3, h4, _⟩ := init_recover hd hg hp s hm hne hroom
  refine ⟨h1, h4, h2.2.1, ?_⟩
  intro t d htab
  have htf := hne t htab
  have hread : EE_ReadVariable cfg (EE_Init cfg s).2.flash t d
      = readResult (lookupRec (recs ++ initAdd (latest cfg s.flash src) cfg.VirtAddVarTab recs) t)
          d := by
    rw [read_eq hg hp h2, latest_holds h3 htf]
  have hs1 : 1 ≤ cfg.slots := by
    unfold Cfg.NB_OF_VAR at hroom
    have : 0 < cfg.VirtAddVarTab.length := List.length_pos_of_mem htab
    omega
  have hfirst := holds_first hh hs1
  refine ⟨fun h6 => ?_, fun h6 w hw' => ?_⟩
  · have hrne : recs ≠ [] := by
      intro hc
      rw [hc] at hfirst
      rw [hfirst] at h6
      exact htf h6.symm
    rw [hread, lookupRec_append_absent, latest_holds hh htf]
    intro r hr
    have := initAdd_skips_first _ _ recs hrne r hr
    rw [← hfirst, h6] at this
    exact this
  · rw [hread, initAdd_copied _ hw' _ recs (Or.inl ⟨htab, by rw [← hfirst]; exact h6⟩)]
    rfl

/-- Witness for C7: page 0 valid with `(7,1)`, `(9,2)`, `(8,1)`; page 1
receiving with the first record `(5,2)` already written (7 record slots). -/
theorem C7_recover_transfer_witness :
    (UniqueValid wideCfg
        (stateOf [[0, 0xFFFF, 7, 1, 9, 2, 8, 1], [0xEEEE, 0xFFFF, 5, 2]]).flash 0 ∧
      hw (stateOf [[0, 0xFFFF, 7, 1, 9, 2, 8, 1], [0xEEEE, 0xFFFF, 5, 2]]).flash
        ((0 + 1) % wideCfg.PAGE_NUM) 0 = RECEIVE_DATA ∧
      PageHolds wideCfg
        (stateOf [[0, 0xFFFF, 7, 1, 9, 2, 8, 1], [0xEEEE, 0xFFFF, 5, 2]]).flash
        ((0 + 1) % wideCfg.PAGE_NUM) [(5, 2)]) ∧
    (EE_Init wideCfg
        (stateOf [[0, 0xFFFF, 7, 1, 9, 2, 8, 1], [0xEEEE, 0xFFFF, 5, 2]])).1 = FLASH_COMPLETE ∧
    PageErased wideCfg
      (EE_Init wideCfg
        (stateOf [[0, 0xFFFF, 7, 1, 9, 2, 8, 1], [0xEEEE, 0xFFFF, 5, 2]])).2.flash 0 ∧
    hw (EE_Init wideCfg
        (stateOf [[0, 0xFFFF, 7, 1, 9, 2, 8, 1], [0xEEEE, 0xFFFF, 5, 2]])).2.flash
      ((0 + 1) % wideCfg.PAGE_NUM) 0 = VALID_PAGE ∧
    (∀ t d, t ∈ wideCfg.VirtAddVarTab →
      (hw (stateOf [[0, 0xFFFF, 7, 1, 9, 2, 8, 1], [0xEEEE, 0xFFFF, 5, 2]]).flash
          ((0 + 1) % wideCfg.PAGE_NUM) 6 = t →
        EE_ReadVariable wideCfg
          (EE_Init wideCfg
            (stateOf [[0, 0xFFFF, 7, 1, 9, 2, 8, 1], [0xEEEE, 0xFFFF, 5, 2]])).2.flash t d
          = readResult (latest wideCfg
              (stateOf [[0, 0xFFFF, 7, 1, 9, 2, 8, 1], [0xEEEE, 0xFFFF, 5, 2]]).flash
              ((0 + 1) % wideCfg.PAGE_NUM) t) d) ∧
      (hw (stateOf [[0, 0xFFFF, 7, 1, 9, 2, 8, 1], [0xEEEE, 0xFFFF, 5, 2]]).flash
          ((0 + 1) % wideCfg.PAGE_NUM) 6 ≠ t →
        ∀ w, latest wideCfg
            (stateOf [[0, 0xFFFF, 7, 1, 9, 2, 8, 1], [0xEEEE, 0xFFFF, 5, 2]]).flash 0 t = some w →
          EE_ReadVariable wideCfg
            (EE_Init wideCfg
              (stateOf [[0, 0xFFFF, 7, 1, 9, 2, 8, 1], [0xEEEE, 0xFFFF, 5, 2]])).2.flash t d
            = (0, w))) :=
  ⟨by decide,
   C7_recover_transfer (fun _ => rfl) (by decide) (by decide) (by decide)
     (stateOf [[0, 0xFFFF, 7, 1, 9, 2, 8, 1], [0xEEEE, 0xFFFF, 5, 2]]) 0 [(5, 2)]
     (by decide) (by decide) (by decide) (by decide)⟩

/-! ## Recovery of the states a write can be interrupted in -/

theorem holds_congr_in {cfg : Cfg} (hg : cfg.Geom) {fl fl' : Flash} {pg : Nat}
    {recs : List (Nat × Nat)} (h : PageHolds cfg fl pg recs)
    (he : ∀ o, 4 ≤ o → o < cfg.PAGE_SIZE → hw fl' pg o = hw fl pg o) :
    PageHolds cfg fl' pg recs := by
  obtain ⟨h1, h2, h3, h4⟩ := h
  have hge := geom_end hg
  refine ⟨h1, ?_, h3, ?_⟩
  · intro j hj
    rw [he _ (by omega) (by omega), he _ (by omega) (by omega)]
    exact h2 j hj
  · intro j hj hle
    rw [he _ (by omega) (by omega), he _ (by omega) (by omega)]
    exact h4 j hj hle

theorem steady_congr {cfg : Cfg} (hg : cfg.Geom) {fl fl' : Flash} {p : Nat}
    {recs : List (Nat × Nat)} (h : Steady cfg fl p recs)
    (he : ∀ q o, o < cfg.PAGE_SIZE → hw fl' q o = hw fl q o) : Steady cfg fl' p recs := by
  have hS : 0 < cfg.PAGE_SIZE := by unfold Cfg.Geom at hg; omega
  refine ⟨uniqueValid_congr h.1 (fun q => he q 0 hS),
    holds_congr_in hg h.2.1 (fun o _ ho => he p o ho), ?_⟩
  intro q hq hne o ho
  rw [he q o ho]
  exact h.2.2 q hq hne o ho

theorem mid_congr {cfg : Cfg} (hg : cfg.Geom) {fl fl' : Flash} {src dst : Nat}
    {recs : List (Nat × Nat)} (h : Mid cfg fl src dst recs)
    (he : ∀ q o, o < cfg.PAGE_SIZE → hw fl' q o = hw fl q o) :
    Mid cfg fl' src dst recs := by
  have hS : 0 < cfg.PAGE_SIZE := by unfold Cfg.Geom at hg; omega
  exact ⟨uniqueValid_congr h.1 (fun q => he q 0 hS), h.2.1, by rw [he _ _ hS]; exact h.2.2.1,
    holds_congr_in hg h.2.2.2 (fun o _ ho => he dst o ho)⟩

theorem init_steady {cfg : Cfg} (hd : cfg.FlashOk) (hg : cfg.Geom) (hp : cfg.PagesOk) (s : EE)
    {p : Nat} {recs : List (Nat × Nat)} (h : Steady cfg s.flash p recs) :
    (EE_Init cfg s).1 = FLASH_COMPLETE ∧ Steady cfg (EE_Init cfg s).2.flash p recs := by
  have hne := next_ne hp h.1.1
  have he := h.2.2 _ (next_lt hp p) hne
  rw [init_valid_erased hd hp s h.1 (erased_hw hg he)]
  refine ⟨rfl, steady_congr hg h ?_⟩
  intro q o ho
  show hw (applyOps [.erase ((p + 1) % cfg.PAGE_NUM)] s.flash) q o = _
  simp only [applyOps]
  rw [hw_erase]
  by_cases h1 : q = (p + 1) % cfg.PAGE_NUM
  · rw [if_pos h1, h1]
    exact (he o ho).symm
  · rw [if_neg h1]

/-- After the old page is erased and before the new one is promoted: no valid
page, `dst` receiving and holding `recs`, every other page erased. -/
theorem init_promote_steady {cfg : Cfg} (hd : cfg.FlashOk) (hg : cfg.Geom) (hp : cfg.PagesOk)
    (s : EE) {dst : Nat} {recs : List (Nat × Nat)} (hlt : dst < cfg.PAGE_NUM)
    (hr : hw s.flash dst 0 = RECEIVE_DATA) (hh : PageHolds cfg s.flash dst recs)
    (he : ∀ q, q < cfg.PAGE_NUM → q ≠ dst → PageErased cfg s.flash q) :
    (EE_Init cfg s).1 = FLASH_COMPLETE ∧ Steady cfg (EE_Init cfg s).2.flash dst recs := by
  have hne := next_ne hp hlt
  have hv : ∀ q, q < cfg.PAGE_NUM → hw s.flash q 0 ≠ VALID_PAGE := by
    intro q hq
    by_cases hqp : q = dst
    · rw [hqp, hr]; decide
    · rw [erased_hw hg (he q hq hqp)]; decide
  have hu : ∀ q, q < cfg.PAGE_NUM → hw s.flash q 0 = RECEIVE_DATA → q = dst := by
    intro q hq hq2
    by_contra hqp
    rw [erased_hw hg (he q hq hqp)] at hq2
    exact absurd hq2 (by decide)
  rw [init_promote hd hp s dst hv hlt hr hu]
  have key : ∀ q o, hw (applyOps [.program dst 0 VALID_PAGE, .erase ((dst + 1) % cfg.PAGE_NUM)]
      s.flash) q o
      = if q = (dst + 1) % cfg.PAGE_NUM then 0xFFFF
        else if q = dst ∧ o = 0 then VALID_PAGE else hw s.flash q o := by
    intro q o
    simp only [applyOps]
    rw [hw_erase, hw_program]
    by_cases h1 : q = (dst + 1) % cfg.PAGE_NUM
    · rw [if_pos h1, if_pos h1]
    · rw [if_neg h1, if_neg h1]
      by_cases h2 : q = dst ∧ o = 0
      · rw [if_pos h2, if_pos h2]; simp [VALID_PAGE]
      · rw [if_neg h2, if_neg h2]
  have hpn : ¬ dst = (dst + 1) % cfg.PAGE_NUM := fun hc => hne hc.symm
  refine ⟨rfl, ⟨hlt, ?_, ?_⟩, ?_, ?_⟩
  · show hw (applyOps _ s.flash) dst 0 = _
    rw [key, if_neg hpn, if_pos ⟨rfl, rfl⟩]
  · intro q hq hq2
    by_contra hqp
    have hq3 : hw (applyOps [.program dst 0 VALID_PAGE, .erase ((dst + 1) % cfg.PAGE_NUM)]
      s.flash) q 0 = VALID_PAGE := hq2
    rw [key] at hq3
    by_cases h1 : q = (dst + 1) % cfg.PAGE_NUM
    · rw [if_pos h1] at hq3; exact absurd hq3 (by decide)
    · rw [if_neg h1, if_neg (by intro hc; exact hqp hc.1)] at hq3
      exact hv q hq hq3
  · apply holds_congr hh
    intro o ho
    show hw (applyOps _ s.flash) dst o = _
    rw [key, if_neg hpn, if_neg (by omega)]
  · intro q hq hqd o ho
    show hw (applyOps _ s.flash) q o = _
    rw [key]
    by_cases h1 : q = (dst + 1) % cfg.PAGE_NUM
    · rw [if_pos h1]
    · rw [if_neg h1, if_neg (fun hc => hqd hc.1)]
      exact he q hq hqd o ho

/-- An interrupted transfer with every page other than `src` and `dst` erased
is completed by `EE_Init` into a steady state on `dst`. -/
theorem init_recover_steady {cfg : Cfg} (hd : cfg.FlashOk) (hg : cfg.Geom) (hp : cfg.PagesOk)
    (s : EE) {src dst : Nat} {recs : List (Nat × Nat)} (hm : Mid cfg s.flash src dst recs)
    (he : ∀ q, q < cfg.PAGE_NUM → q ≠ src → q ≠ dst → PageErased cfg s.flash q)
    (hne : ∀ t ∈ cfg.VirtAddVarTab, t ≠ 0xFFFF)
    (hroom : recs.length + cfg.VirtAddVarTab.length ≤ cfg.slots) :
    (EE_Init cfg s).1 = FLASH_COMPLETE ∧
    Steady cfg (EE_Init cfg s).2.flash dst
      (recs ++ initAdd (latest cfg s.flash src) cfg.VirtAddVarTab recs) := by
  obtain ⟨h1, h2, h3, h4, h5⟩ := init_recover hd hg hp s hm hne hroom
  refine ⟨h1, h2, h3, ?_⟩
  intro q hq hqd
  by_cases hqs : q = src
  · rw [hqs]; exact h4
  · intro o ho
    rw [h5 q o hqs hqd]
    exact he q hq hqs hqd o ho

/-! ## A half-written record -/

theorem hw_value_only (fl : Flash) (pg n w : Nat) (q o : Nat) :
    hw (FlashOp.apply (.program pg (4 * n + 4) w) fl) q o
      = hw (applyOps (appendOps pg n [(w, 0xFFFF)]) fl) q o := by
  rw [appendOne_hw, hw_program]
  by_cases h1 : q = pg ∧ o = 4 * n + 4
  · rw [if_pos h1, if_pos h1]
  · rw [if_neg h1, if_neg h1]
    by_cases h2 : q = pg ∧ o = 4 * n + 6
    · rw [if_pos h2, h2.1, h2.2]
      have := land_ffff _ (hw_lt fl pg (4 * n + 6))
      rw [Nat.and_comm] at this
      exact this.symm
    · rw [if_neg h2]

theorem hw_program_ffff (fl : Flash) (pg off : Nat) (q o : Nat) :
    hw (FlashOp.apply (.program pg off 0xFFFF) fl) q o = hw fl q o := by
  rw [hw_program]
  by_cases h1 : q = pg ∧ o = off
  · rw [if_pos h1, h1.1, h1.2]
    have := land_ffff _ (hw_lt fl pg off)
    rw [Nat.and_comm] at this
    exact this
  · rw [if_neg h1]

theorem mid_value_only {cfg : Cfg} (hg : cfg.Geom) {fl : Flash} {src dst : Nat}
    {recs : List (Nat × Nat)} (h : Mid cfg fl src dst recs) (hlen : recs.length < cfg.slots)
    (w : Nat) (hw1 : w < 65536) :
    ∃ dead, (dead = [] ∨ dead = [(w, 0xFFFF)]) ∧
      Mid cfg (FlashOp.apply (.program dst (4 * recs.length + 4) w) fl) src dst (recs ++ dead) := by
  by_cases hf : w = 0xFFFF
  · refine ⟨[], Or.inl rfl, ?_⟩
    rw [List.append_nil, hf]
    exact mid_congr hg h (fun q o _ => hw_program_ffff fl dst _ q o)
  · refine ⟨[(w, 0xFFFF)], Or.inr rfl, ?_⟩
    have hm := mid_append h [(w, 0xFFFF)] (by simp; omega)
      (by
        intro r hr
        rw [List.mem_singleton] at hr
        rw [hr]
        exact ⟨hw1, by show (65535 : Nat) < 65536; decide, Or.inl hf⟩)
    exact mid_congr hg hm (fun q o _ => hw_value_only fl dst recs.length w q o)

theorem steady_value_only {cfg : Cfg} (hg : cfg.Geom) {fl : Flash} {p : Nat}
    {recs : List (Nat × Nat)} (h : Steady cfg fl p recs) (hlen : recs.length < cfg.slots)
    (w : Nat) (hw1 : w < 65536) :
    ∃ dead, (dead = [] ∨ dead = [(w, 0xFFFF)]) ∧
      Steady cfg (FlashOp.apply (.program p (4 * recs.length + 4) w) fl) p (recs ++ dead) := by
  by_cases hf : w = 0xFFFF
  · refine ⟨[], Or.inl rfl, ?_⟩
    rw [List.append_nil, hf]
    exact steady_congr hg h (fun q o _ => hw_program_ffff fl p _ q o)
  · refine ⟨[(w, 0xFFFF)], Or.inr rfl, ?_⟩
    have hm := steady_append h hlen (w, 0xFFFF)
      ⟨hw1, by show (65535 : Nat) < 65536; decide, Or.inl hf⟩
    exact steady_congr hg hm (fun q o _ => hw_value_only fl p recs.length w q o)

theorem lookupRec_dead (recs dead : List (Nat × Nat)) {w : Nat}
    (hdead : dead = [] ∨ dead = [(w, 0xFFFF)]) {t : Nat} (ht : t ≠ 0xFFFF) :
    lookupRec (recs ++ dead) t = lookupRec recs t := by
  apply lookupRec_append_absent
  intro r hr
  rcases hdead with h | h
  · rw [h] at hr; simp at hr
  · rw [h, List.mem_singleton] at hr
    rw [hr]
    exact fun hc => ht hc.symm

/-! ## Prefixes of a run of appends -/

theorem appendOps_take_even (pg : Nat) (recs : List (Nat × Nat)) :
    ∀ (n i : Nat), (appendOps pg n recs).take (2 * i) = appendOps pg n (recs.take i) := by
  induction recs with
  | nil => intro n i; simp [appendOps]
  | cons r rest ih =>
    intro n i
    cases i with
    | zero => simp [appendOps]
    | succ i =>
      have e : 2 * (i + 1) = 2 * i + 1 + 1 := by omega
      rw [e]
      simp only [appendOps, List.take_succ_cons]
      rw [ih]

theorem appendOps_take_odd (pg : Nat) (recs : List (Nat × Nat)) :
    ∀ (n i : Nat), i < recs.length →
      (appendOps pg n recs).take (2 * i + 1)
        = appendOps pg n (recs.take i) ++ [.program pg (4 * (n + i) + 4) (recs.getD i (0, 0)).1] := by
  induction recs with
  | nil => intro n i h; simp at h
  | cons r rest ih =>
    intro n i h
    cases i with
    | zero => simp [appendOps]
    | succ i =>
      have e : 2 * (i + 1) + 1 = (2 * i + 1) + 1 + 1 := by omega
      rw [e]
      simp only [appendOps, List.take_succ_cons, List.getD_cons_succ]
      rw [ih (n + 1) i (by simpa using h)]
      have e2 : n + 1 + i = n + (i + 1) := by omega
      rw [e2]
      rfl

theorem prefix_mid {cfg : Cfg} (hg : cfg.Geom) {fl : Flash} {src dst : Nat}
    (h : Mid cfg fl src dst []) (full : List (Nat × Nat)) (hok : ∀ r ∈ full, RecOk r)
    (hfit : full.length ≤ cfg.slots) (m : Nat) (hm : m ≤ 2 * full.length) :
    ∃ dead w, (dead = [] ∨ dead = [(w, 0xFFFF)]) ∧
      Mid cfg (applyOps ((appendOps dst 0 full).take m) fl) src dst (full.take (m / 2) ++ dead) ∧
      (full.take (m / 2) ++ dead).length ≤ full.length ∧
      (∀ q o, q ≠ dst → hw (applyOps ((appendOps dst 0 full).take m) fl) q o = hw fl q o) := by
  have hmid : ∀ i, i ≤ full.length →
      Mid cfg (applyOps (appendOps dst 0 (full.take i)) fl) src dst (full.take i) := by
    intro i hi
    have := mid_append h (full.take i) (by simp; omega)
      (fun r hr => hok r (List.mem_of_mem_take hr))
    simpa using this
  rcases Nat.even_or_odd' m with ⟨i, hi | hi⟩
  · have e : m / 2 = i := by omega
    rw [e, hi, appendOps_take_even]
    refine ⟨[], 0, Or.inl rfl, ?_, ?_, ?_⟩
    · rw [List.append_nil]; exact hmid i (by omega)
    · simp
    · intro q o hq
      exact appendOps_frame _ _ _ _ _ _ (Or.inl hq)
  · have e : m / 2 = i := by omega
    have hilt : i < full.length := by omega
    rw [e, hi, appendOps_take_odd _ _ _ _ hilt, applyOps_append]
    simp only [applyOps, Nat.zero_add]
    have hlen : (full.take i).length = i := by simp; omega
    have hw1 : (full.getD i (0, 0)).1 < 65536 := by
      have := hok (full.getD i (0, 0)) (by
        rw [List.getD_eq_getElem _ _ hilt]; exact List.getElem_mem _)
      exact this.1
    obtain ⟨dead, hdead, hmv⟩ := mid_value_only hg (hmid i (by omega)) (by rw [hlen]; omega)
      (full.getD i (0, 0)).1 hw1
    rw [hlen] at hmv
    refine ⟨dead, (full.getD i (0, 0)).1, hdead, hmv, ?_, ?_⟩
    · rcases hdead with hd' | hd'
      · rw [hd']; simp
      · rw [hd']; simp; omega
    · intro q o hq
      rw [hw_program, if_neg (fun hc => hq hc.1)]
      exact appendOps_frame _ _ _ _ _ _ (Or.inl hq)

/-! ## A write cut short, then `EE_Init` -/

theorem crash_append {cfg : Cfg} (hd : cfg.FlashOk) (hg : cfg.Geom) (hp : cfg.PagesOk)
    (s' : EE) (fl : Flash) {p : Nat} {recs : List (Nat × Nat)} (h : Steady cfg fl p recs)
    (hlen : recs.length < cfg.slots) (k v : Nat) (hk : k < 0xFFFF) (hv : v < 65536) (n : Nat)
    (hs' : s'.flash = applyOps ((appendOps p recs.length [(v, k)]).take n) fl) :
    (EE_Init cfg s').1 = FLASH_COMPLETE ∧
    ∃ p2 recs2, Steady cfg (EE_Init cfg s').2.flash p2 recs2 ∧
      (∀ t, t ≠ 0xFFFF → t ≠ k → lookupRec recs2 t = lookupRec recs t) ∧
      lookupRec recs2 k = if 2 ≤ n then some v else lookupRec recs k := by
  have hkf : k ≠ 0xFFFF := by omega
  rcases Nat.lt_or_ge n 2 with hn | hn
  · rw [if_neg (by omega)]
    rcases Nat.eq_zero_or_pos n with h0 | h0
    · rw [h0] at hs'
      have hst : Steady cfg s'.flash p recs := by rw [hs']; exact h
      obtain ⟨h1, h2⟩ := init_steady hd hg hp s' hst
      exact ⟨h1, p, recs, h2, fun _ _ _ => rfl, rfl⟩
    · have h1 : n = 1 := by omega
      rw [h1] at hs'
      obtain ⟨dead, hdead, hsv⟩ := steady_value_only hg h hlen v hv
      have hst : Steady cfg s'.flash p (recs ++ dead) := by
        rw [hs']
        simpa [appendOps, applyOps] using hsv
      obtain ⟨h1, h2⟩ := init_steady hd hg hp s' hst
      exact ⟨h1, p, recs ++ dead, h2, fun t ht _ => lookupRec_dead recs dead hdead ht,
        lookupRec_dead recs dead hdead hkf⟩
  · rw [if_pos hn]
    have e : (appendOps p recs.length [(v, k)]).take n = appendOps p recs.length [(v, k)] := by
      apply List.take_of_length_le
      rw [appendOps_length]
      simpa using hn
    rw [e] at hs'
    have hst : Steady cfg s'.flash p (recs ++ [(v, k)]) := by
      rw [hs']
      exact steady_append h hlen (v, k)
        ⟨hv, by show k < 65536; omega, Or.inr hkf⟩
    obtain ⟨h1, h2⟩ := init_steady hd hg hp s' hst
    refine ⟨h1, p, recs ++ [(v, k)], h2, ?_, ?_⟩
    · intro t _ htk
      rw [lookupRec_append_one, if_neg (fun hc => htk hc.symm)]
    · rw [lookupRec_append_one, if_pos rfl]

theorem recover_reads {cfg : Cfg} (hd : cfg.FlashOk) (hg : cfg.Geom) (hp : cfg.PagesOk)
    (ht : cfg.TableOk) (s' : EE) {src dst : Nat} (look : Nat → Option Nat) (k v : Nat)
    (hk : k ∈ cfg.VirtAddVarTab) (recs1 : List (Nat × Nat))
    (hm : Mid cfg s'.flash src dst recs1)
    (he : ∀ q, q < cfg.PAGE_NUM → q ≠ src → q ≠ dst → PageErased cfg s'.flash q)
    (hlook : ∀ t, latest cfg s'.flash src t = look t)
    (hroom : recs1.length + cfg.VirtAddVarTab.length ≤ cfg.slots)
    (hinv : ∀ r ∈ recs1, r = (v, k) ∨ r.2 = 0xFFFF ∨ (r.2 ≠ k ∧ look r.2 = some r.1))
    (hfirst : (firstAddr recs1 = k ∧ (v, k) ∈ recs1) ∨
      (firstAddr recs1 = 0xFFFF ∧ ∀ r ∈ recs1, r.2 ≠ k)) :
    (EE_Init cfg s').1 = FLASH_COMPLETE ∧
    ∃ p2 recs2, Steady cfg (EE_Init cfg s').2.flash p2 recs2 ∧
      (∀ t ∈ cfg.VirtAddVarTab, t ≠ k → lookupRec recs2 t = look t) ∧
      lookupRec recs2 k = if firstAddr recs1 = k then some v else look k := by
  have hne : ∀ t ∈ cfg.VirtAddVarTab, t ≠ 0xFFFF := by
    intro t h; have := ht t h; omega
  have hkf := hne k hk
  obtain ⟨h1, h2⟩ := init_recover_steady hd hg hp s' hm he hne hroom
  have hl : latest cfg s'.flash src = look := funext hlook
  rw [hl] at h2
  refine ⟨h1, dst, _, h2, ?_, ?_⟩
  · intro t htab htk
    have htf := hne t htab
    cases hlt : look t with
    | some w =>
      apply initAdd_copied look hlt
      left
      refine ⟨htab, ?_⟩
      rcases hfirst with ⟨hf, _⟩ | ⟨hf, _⟩
      · rw [hf]; exact fun hc => htk hc.symm
      · rw [hf]; exact fun hc => htf hc.symm
    | none =>
      rw [initAdd_absent look hlt, lookupRec_none]
      intro r hr hrt
      rcases hinv r hr with h3 | h3 | h3
      · rw [h3] at hrt; exact htk hrt.symm
      · exact htf (hrt ▸ h3)
      · rw [hrt, hlt] at h3; exact absurd h3.2 (by simp)
  · by_cases hf : firstAddr recs1 = k
    · rw [if_pos hf]
      rcases hfirst with ⟨_, hmem⟩ | ⟨hf2, _⟩
      · have hrne : recs1 ≠ [] := List.ne_nil_of_mem hmem
        rw [lookupRec_append_absent]
        · apply lookupRec_unique hmem
          intro r hr hrk
          rcases hinv r hr with h3 | h3 | h3
          · rw [h3]
          · exact absurd (hrk ▸ h3) hkf
          · exact absurd hrk h3.1
        · intro r hr
          have := initAdd_skips_first look _ recs1 hrne r hr
          rw [hf] at this
          exact this
      · exact absurd (hf.symm.trans hf2) hkf
    · rw [if_neg hf]
      rcases hfirst with ⟨hf2, _⟩ | ⟨_, hno⟩
      · exact absurd hf2 hf
      · cases hlk : look k with
        | some w => exact initAdd_copied look hlk _ recs1 (Or.inl ⟨hk, hf⟩)
        | none =>
          rw [initAdd_absent look hlk, lookupRec_none]
          exact hno

theorem firstAddr_dead {dead : List (Nat × Nat)} {w : Nat}
    (h : dead = [] ∨ dead = [(w, 0xFFFF)]) : firstAddr dead = 0xFFFF := by
  rcases h with h | h <;> rw [h] <;> rfl

theorem crash_rotate {cfg : Cfg} (hd : cfg.FlashOk) (hg : cfg.Geom) (hp : cfg.PagesOk)
    (ht : cfg.TableOk) (hcap : 2 * cfg.NB_OF_VAR ≤ cfg.slots)
    (s' : EE) (fl : Flash) {src : Nat} {recs : List (Nat × Nat)} (h : Steady cfg fl src recs)
    (k v : Nat) (hk : k ∈ cfg.VirtAddVarTab) (hv : v < 65536) (n : Nat)
    (hs' : s'.flash = applyOps ((rotateOps src ((src + 1) % cfg.PAGE_NUM)
              ((v, k) :: copies (latest cfg fl src) k cfg.VirtAddVarTab)).take n) fl) :
    (EE_Init cfg s').1 = FLASH_COMPLETE ∧
    ∃ p2 recs2, Steady cfg (EE_Init cfg s').2.flash p2 recs2 ∧
      (∀ t ∈ cfg.VirtAddVarTab, t ≠ k → lookupRec recs2 t = latest cfg fl src t) ∧
      lookupRec recs2 k = if 3 ≤ n then some v else latest cfg fl src k := by
  have hne : ∀ t ∈ cfg.VirtAddVarTab, t ≠ 0xFFFF := by
    intro t h'; have := ht t h'; omega
  have hkf := hne k hk
  have hklt := ht k hk
  have hsd := next_ne hp h.1.1
  have hdlt := next_lt hp src
  have hcl := copies_length_lt (latest cfg fl src) hk
  unfold Cfg.NB_OF_VAR at hcap
  have hfullok : ∀ r ∈ (v, k) :: copies (latest cfg fl src) k cfg.VirtAddVarTab, RecOk r := by
    intro r hr
    rcases List.mem_cons.mp hr with h1 | h1
    · rw [h1]; exact ⟨hv, by show k < 65536; omega, Or.inr hkf⟩
    · have hm := copies_mem h1
      have hlt := latest_some_lt hm.2.2
      exact ⟨hlt.1, hlt.2, Or.inr (hne _ hm.1)⟩
  have hfl : ((v, k) :: copies (latest cfg fl src) k cfg.VirtAddVarTab).length
      ≤ cfg.VirtAddVarTab.length := by
    simp only [List.length_cons]; omega
  cases n with
  | zero =>
    rw [List.take_zero] at hs'
    have hst : Steady cfg s'.flash src recs := by rw [hs']; exact h
    obtain ⟨h1, h2⟩ := init_steady hd hg hp s' hst
    refine ⟨h1, src, recs, h2, fun t htab _ => (latest_holds h.2.1 (hne t htab)).symm, ?_⟩
    rw [if_neg (by omega)]
    exact (latest_holds h.2.1 hkf).symm
  | succ m =>
    have hm0 := mid_start hg hp h
    have hs1 : s'.flash = applyOps
        ((appendOps ((src + 1) % cfg.PAGE_NUM) 0
            ((v, k) :: copies (latest cfg fl src) k cfg.VirtAddVarTab)
          ++ [FlashOp.erase src, FlashOp.program ((src + 1) % cfg.PAGE_NUM) 0 VALID_PAGE]).take m)
        (FlashOp.apply (.program ((src + 1) % cfg.PAGE_NUM) 0 RECEIVE_DATA) fl) := by
      rw [hs']; rfl
    by_cases hmA : m ≤ 2 * ((v, k) :: copies (latest cfg fl src) k cfg.VirtAddVarTab).length
    · rw [List.take_append_of_le_length (by rw [appendOps_length]; exact hmA)] at hs1
      obtain ⟨dead, w, hdead, hmid, hlen, hframe⟩ := prefix_mid hg hm0 _ hfullok
        (by omega) m hmA
      rw [← hs1] at hmid hframe
      have hfr2 : ∀ q o, q ≠ (src + 1) % cfg.PAGE_NUM → hw s'.flash q o = hw fl q o := by
        intro q o hq
        rw [hframe q o hq, hw_program, if_neg (fun hc => hq hc.1)]
      have hrr := recover_reads hd hg hp ht s' (latest cfg fl src) k v hk _ hmid
        (fun q hq h1 h2 o ho => by rw [hfr2 q o h2]; exact h.2.2 q hq h1 o ho)
        (fun t => latest_congr (fun o _ => hfr2 src o (fun hc => hsd hc.symm)) t)
        (by omega)
        (by
          intro r hr
          rcases List.mem_append.mp hr with h1 | h1
          · rcases List.mem_cons.mp (List.mem_of_mem_take h1) with h2 | h2
            · left; exact h2
            · right; right
              exact ⟨(copies_mem h2).2.1, (copies_mem h2).2.2⟩
          · right; left
            rcases hdead with h2 | h2
            · rw [h2] at h1; simp at h1
            · rw [h2, List.mem_singleton] at h1; rw [h1])
        (by
          rcases Nat.lt_or_ge m 2 with h2 | h2
          · right
            have e : m / 2 = 0 := by omega
            rw [e, List.take_zero, List.nil_append]
            refine ⟨firstAddr_dead hdead, ?_⟩
            intro r hr
            rcases hdead with h3 | h3
            · rw [h3] at hr; simp at hr
            · rw [h3, List.mem_singleton] at hr
              rw [hr]
              exact fun hc => hkf hc.symm
          · left
            obtain ⟨j, hj⟩ : ∃ j, m / 2 = j + 1 := ⟨m / 2 - 1, by omega⟩
            rw [hj, List.take_succ_cons]
            exact ⟨rfl, List.mem_append_left _ (List.mem_cons_self _ _)⟩)
      obtain ⟨h1, p2, recs2, h2, h3, h4⟩ := hrr
      refine ⟨h1, p2, recs2, h2, h3, ?_⟩
      rw [h4]
      rcases Nat.lt_or_ge m 2 with h5 | h5
      · have e : m / 2 = 0 := by omega
        rw [e, List.take_zero, List.nil_append, firstAddr_dead hdead,
          if_neg (fun hc => hkf hc.symm), if_neg (by omega)]
      · obtain ⟨j, hj⟩ : ∃ j, m / 2 = j + 1 := ⟨m / 2 - 1, by omega⟩
        rw [hj, List.take_succ_cons, if_pos (by rfl), if_pos (by omega)]
    · have hmid := mid_append hm0 ((v, k) :: copies (latest cfg fl src) k cfg.VirtAddVarTab)
        (by simp only [List.length_nil]; omega) hfullok
      simp only [List.length_nil, List.nil_append] at hmid
      have hframe : ∀ q o, q ≠ (src + 1) % cfg.PAGE_NUM →
          hw (applyOps (appendOps ((src + 1) % cfg.PAGE_NUM) 0
            ((v, k) :: copies (latest cfg fl src) k cfg.VirtAddVarTab))
            (FlashOp.apply (.program ((src + 1) % cfg.PAGE_NUM) 0 RECEIVE_DATA) fl)) q o
          = hw fl q o := by
        intro q o hq
        rw [appendOps_frame _ _ _ _ _ _ (Or.inl hq), hw_program, if_neg (fun hc => hq hc.1)]
      have hlk : ∀ t ∈ cfg.VirtAddVarTab, t ≠ k →
          lookupRec ((v, k) :: copies (latest cfg fl src) k cfg.VirtAddVarTab) t
            = latest cfg fl src t :=
        fun t htab htk => lookup_rotated_other _ _ _ _ htab htk
      by_cases hm1 : m = 2 * ((v, k) :: copies (latest cfg fl src) k cfg.VirtAddVarTab).length + 1
      · have e : (appendOps ((src + 1) % cfg.PAGE_NUM) 0
            ((v, k) :: copies (latest cfg fl src) k cfg.VirtAddVarTab)
            ++ [FlashOp.erase src, FlashOp.program ((src + 1) % cfg.PAGE_NUM) 0 VALID_PAGE]).take m
            = appendOps ((src + 1) % cfg.PAGE_NUM) 0
                ((v, k) :: copies (latest cfg fl src) k cfg.VirtAddVarTab)
              ++ [FlashOp.erase src] := by
          rw [hm1, ← appendOps_length ((src + 1) % cfg.PAGE_NUM) _ 0, List.take_append]
          rfl
        have hs2 : s'.flash = FlashOp.apply (.erase src)
            (applyOps (appendOps ((src + 1) % cfg.PAGE_NUM) 0
              ((v, k) :: copies (latest cfg fl src) k cfg.VirtAddVarTab))
              (FlashOp.apply (.program ((src + 1) % cfg.PAGE_NUM) 0 RECEIVE_DATA) fl)) := by
          rw [hs1, e, applyOps_append]; rfl
        have hpr := @init_promote_steady cfg hd hg hp s' ((src + 1) % cfg.PAGE_NUM)
          ((v, k) :: copies (latest cfg fl src) k cfg.VirtAddVarTab) hdlt
          (by rw [hs2, hw_erase, if_neg hsd]; exact hmid.2.2.1)
          (by
            rw [hs2]
            apply holds_congr hmid.2.2.2
            intro o _
            rw [hw_erase, if_neg hsd])
          (by
            intro q hq hqd o ho
            rw [hs2, hw_erase]
            by_cases hqs : q = src
            · rw [if_pos hqs]
            · rw [if_neg hqs, hframe q o hqd]
              exact h.2.2 q hq hqs o ho)
        refine ⟨hpr.1, _, _, hpr.2, hlk, ?_⟩
        simp only [List.length_cons] at hm1
        rw [if_pos (by omega), lookup_rotated_key]
      · have e : (appendOps ((src + 1) % cfg.PAGE_NUM) 0
            ((v, k) :: copies (latest cfg fl src) k cfg.VirtAddVarTab)
            ++ [FlashOp.erase src, FlashOp.program ((src + 1) % cfg.PAGE_NUM) 0 VALID_PAGE]).take m
            = appendOps ((src + 1) % cfg.PAGE_NUM) 0
                ((v, k) :: copies (latest cfg fl src) k cfg.VirtAddVarTab)
              ++ [FlashOp.erase src, FlashOp.program ((src + 1) % cfg.PAGE_NUM) 0 VALID_PAGE] := by
          apply List.take_of_length_le
          rw [List.length_append, appendOps_length]
          simp only [List.length_cons, List.length_nil] at hmA hm1 ⊢
          omega
        have hst := steady_rotate hg hp h
          ((v, k) :: copies (latest cfg fl src) k cfg.VirtAddVarTab) (by omega) hfullok
        have hst' : Steady cfg s'.flash ((src + 1) % cfg.PAGE_NUM)
            ((v, k) :: copies (latest cfg fl src) k cfg.VirtAddVarTab) := by
          rw [hs1, e]
          exact hst
        obtain ⟨h1, h2⟩ := init_steady hd hg hp s' hst'
        refine ⟨h1, _, _, h2, hlk, ?_⟩
        simp only [List.length_cons] at hmA
        rw [if_pos (by omega), lookup_rotated_key]

/-! ## Which prefixes of a write contain the address half-word of its record -/

theorem any_take_append (p n0 k v n : Nat) :
    ((appendOps p n0 [(v, k)]).take n).any (programsAddress k) = decide (2 ≤ n) := by
  have e0 : (4 * n0 + 4) % 4 = 0 := by omega
  have e2 : (4 * n0 + 6) % 4 = 2 := by omega
  match n with
  | 0 => simp
  | 1 => simp [appendOps, programsAddress, e0]
  | n + 2 => simp [appendOps, programsAddress, e2]

theorem any_take_rotate (src dst k v : Nat) (cps : List (Nat × Nat)) (n : Nat) :
    ((rotateOps src dst ((v, k) :: cps)).take n).any (programsAddress k) = decide (3 ≤ n) := by
  match n with
  | 0 => simp
  | 1 => simp [rotateOps, programsAddress]
  | 2 => simp [rotateOps, appendOps, programsAddress]
  | n + 3 => simp [rotateOps, appendOps, programsAddress]

/-- C2: crash safety of a write.  Let `S` be a steady state (exactly one valid
page holding record slots followed by erased slots, every other page fully
erased) and `k` a key of the table.  Apply any prefix (the first `n`, for any
`n`) of the flash operations that `EE_WriteVariable(k, v)` issues to `S`, then
run `EE_Init`: it returns success, exactly one page is `VALID_PAGE` and none is
`RECEIVE_DATA`, every table key other than `k` reads the same result as in `S`,
and `k` reads `v` if the prefix includes the programming of the address
half-word of the `(k, v)` record and reads its result in `S` otherwise. -/
theorem C2_crash_safe_write {cfg : Cfg} (hd : cfg.FlashOk) (hg : cfg.Geom) (hp : cfg.PagesOk)
    (ht : cfg.TableOk) (hcap : 2 * cfg.NB_OF_VAR ≤ cfg.slots)
    (s : EE) (src : Nat) (recs : List (Nat × Nat)) (h : Steady cfg s.flash src recs)
    (k v : Nat) (hk : k ∈ cfg.VirtAddVarTab) (hv : v < 65536)
    (n : Nat) (s' : EE) (hs' : s'.flash = applyOps ((issuedOps cfg s k v).take n) s.flash) :
    (EE_Init cfg s').1 = FLASH_COMPLETE ∧
    (∃ p, p < cfg.PAGE_NUM ∧ hw (EE_Init cfg s').2.flash p 0 = VALID_PAGE ∧
      ∀ q, q < cfg.PAGE_NUM → hw (EE_Init cfg s').2.flash q 0 = VALID_PAGE → q = p) ∧
    (∀ q, q < cfg.PAGE_NUM → hw (EE_Init cfg s').2.flash q 0 ≠ RECEIVE_DATA) ∧
    (∀ t d, t ∈ cfg.VirtAddVarTab → t ≠ k →
      EE_ReadVariable cfg (EE_Init cfg s').2.flash t d = EE_ReadVariable cfg s.flash t d) ∧
    (∀ d, EE_ReadVariable cfg (EE_Init cfg s').2.flash k d
      = if ((issuedOps cfg s k v).take n).any (programsAddress k) then (0, v)
        else EE_ReadVariable cfg s.flash k d) := by
  have hne : ∀ t ∈ cfg.VirtAddVarTab, t ≠ 0xFFFF := by
    intro t h'; have := ht t h'; omega
  have hkf := hne k hk
  have hklt := ht k hk
  have hr : RecOk (v, k) := ⟨hv, by show k < 65536; omega, Or.inr hkf⟩
  -- both kinds of write lead to a steady state with the expected lookups
  have main : (EE_Init cfg s').1 = FLASH_COMPLETE ∧
      ∃ p2 recs2, Steady cfg (EE_Init cfg s').2.flash p2 recs2 ∧
        (∀ t ∈ cfg.VirtAddVarTab, t ≠ k → lookupRec recs2 t = lookupRec recs t) ∧
        lookupRec recs2 k
          = if ((issuedOps cfg s k v).take n).any (programsAddress k) then some v
            else lookupRec recs k := by
    by_cases hlen : recs.length < cfg.slots
    · have hops : issuedOps cfg s k v = appendOps src recs.length [(v, k)] := by
        unfold issuedOps
        rw [write_append hd hg hp s k v h hlen]
        exact List.drop_left _ _
      rw [hops] at hs' ⊢
      obtain ⟨h1, p2, recs2, h2, h3, h4⟩ := crash_append hd hg hp s' s.flash h hlen k v hklt hv n hs'
      refine ⟨h1, p2, recs2, h2, fun t htab htk => h3 t (hne t htab) htk, ?_⟩
      rw [h4, any_take_append]
      by_cases hn : 2 ≤ n <;> simp [hn]
    · have hfull : recs.length = cfg.slots := by have := h.2.1.1; omega
      have hne2 : ∀ r ∈ copies (latest cfg s.flash src) k cfg.VirtAddVarTab, r.2 ≠ 0xFFFF :=
        fun r hr' => hne _ (copies_mem hr').1
      have hfit : 1 + (copies (latest cfg s.flash src) k cfg.VirtAddVarTab).length
          ≤ cfg.slots := by
        have := copies_length_lt (latest cfg s.flash src) hk
        unfold Cfg.NB_OF_VAR at hcap
        omega
      have hops : issuedOps cfg s k v = rotateOps src ((src + 1) % cfg.PAGE_NUM)
          ((v, k) :: copies (latest cfg s.flash src) k cfg.VirtAddVarTab) := by
        unfold issuedOps
        rw [(rotate_result hd hg hp s k v h hfull hr hne2 hfit).2.2]
        exact List.drop_left _ _
      rw [hops] at hs' ⊢
      obtain ⟨h1, p2, recs2, h2, h3, h4⟩ :=
        crash_rotate hd hg hp ht hcap s' s.flash h k v hk hv n hs'
      refine ⟨h1, p2, recs2, h2, ?_, ?_⟩
      · intro t htab htk
        rw [h3 t htab htk, latest_holds h.2.1 (hne t htab)]
      · rw [h4, any_take_rotate, latest_holds h.2.1 hkf]
        by_cases hn : 3 ≤ n <;> simp [hn]
  obtain ⟨h1, p2, recs2, h2, h3, h4⟩ := main
  refine ⟨h1, ⟨p2, h2.1⟩, steady_no_receive hg h2, ?_, ?_⟩
  · intro t d htab htk
    rw [steady_read hg hp h2 (hne t htab), steady_read hg hp h (hne t htab), h3 t htab htk]
  · intro d
    rw [steady_read hg hp h2 hkf, steady_read hg hp h hkf, h4]
    cases ((issuedOps cfg s k v).take n).any (programsAddress k) <;> simp [readResult]

/-- Witness for C2: page 0 is full (7 records), the write of `(2, 0xAAAA)`
rotates and is cut after 4 flash operations, in the middle of the first copy. -/
theorem C2_crash_safe_write_witness :
    (Steady wideCfg fullState.flash 0 [(7, 1), (9, 2), (8, 1), (3, 2), (4, 1), (5, 2), (6, 1)] ∧
      2 ∈ wideCfg.VirtAddVarTab ∧
      cutState.flash = applyOps ((issuedOps wideCfg fullState 2 0xAAAA).take 4) fullState.flash) ∧
    (EE_Init wideCfg cutState).1 = FLASH_COMPLETE ∧
    (∃ p, p < wideCfg.PAGE_NUM ∧ hw (EE_Init wideCfg cutState).2.flash p 0 = VALID_PAGE ∧
      ∀ q, q < wideCfg.PAGE_NUM → hw (EE_Init wideCfg cutState).2.flash q 0 = VALID_PAGE → q = p) ∧
    (∀ q, q < wideCfg.PAGE_NUM → hw (EE_Init wideCfg cutState).2.flash q 0 ≠ RECEIVE_DATA) ∧
    (∀ t d, t ∈ wideCfg.VirtAddVarTab → t ≠ 2 →
      EE_ReadVariable wideCfg (EE_Init wideCfg cutState).2.flash t d
        = EE_ReadVariable wideCfg fullState.flash t d) ∧
    (∀ d, EE_ReadVariable wideCfg (EE_Init wideCfg cutState).2.flash 2 d
      = if ((issuedOps wideCfg fullState 2 0xAAAA).take 4).any (programsAddress 2) then (0, 0xAAAA)
        else EE_ReadVariable wideCfg fullState.flash 2 d) :=
  ⟨⟨by decide, by decide, rfl⟩,
   C2_crash_safe_write (fun _ => rfl) (by decide) (by decide) (by decide) (by decide)
     fullState 0 [(7, 1), (9, 2), (8, 1), (3, 2), (4, 1), (5, 2), (6, 1)] (by decide) 2 0xAAAA
     (by decide) (by decide) 4 cutState rfl⟩

/-! ## The repository configuration meets the assumptions -/

/-- With `PAGE_NUM = 6`, `PAGE_SIZE = 0x400` and `NB_OF_VAR = 22` every page has
255 record slots, enough for a transfer and for the recovery of an interrupted
one. -/
theorem repoCfg_ok (tab : List Nat) (h : tab.length = 22) :
    (repoCfg tab).Geom ∧ (repoCfg tab).PagesOk ∧ (repoCfg tab).FlashOk ∧
    (repoCfg tab).slots = 255 ∧ 2 * (repoCfg tab).NB_OF_VAR ≤ (repoCfg tab).slots := by
  have e1 : (repoCfg tab).PAGE_SIZE = 1024 := rfl
  have e2 : (repoCfg tab).PAGE_NUM = 6 := rfl
  have e3 : (repoCfg tab).VirtAddVarTab = tab := rfl
  unfold Cfg.Geom Cfg.PagesOk Cfg.slots Cfg.NB_OF_VAR
  rw [e1, e2, e3, h]
  exact ⟨⟨by omega, by omega⟩, ⟨by omega, by omega⟩, fun _ => rfl, by omega, by omega⟩

/-! ## The loops never run out of fuel

Each loop is modelled with a round counter; with the counter the callers pass
(`PAGE_SIZE` rounds for the append scan, `PAGE_NUM` rounds for the page loops)
the loop condition fails before the counter does, so more rounds change
nothing. -/

theorem write_scan_fuel (cfg : Cfg) (s : EE) (pg e k v : Nat) (extra : Nat) (fuel : Nat) :
    ∀ a, e ≤ a + 4 * fuel →
      EE_VerifyPageFullWriteVariable.scan cfg s pg e k v (fuel + extra) a
        = EE_VerifyPageFullWriteVariable.scan cfg s pg e k v fuel a := by
  induction fuel with
  | zero =>
    intro a ha
    cases extra with
    | zero => rfl
    | succ x =>
      have h0 : ¬ a < e := by omega
      simp [EE_VerifyPageFullWriteVariable.scan, h0]
  | succ fuel ih =>
    intro a ha
    have e1 : fuel + 1 + extra = (fuel + extra) + 1 := by omega
    rw [e1, EE_VerifyPageFullWriteVariable.scan, EE_VerifyPageFullWriteVariable.scan,
      ih (a + 4) (by omega)]

theorem write_fuel (cfg : Cfg) (s : EE) (pg k v : Nat) (extra : Nat) :
    EE_VerifyPageFullWriteVariable.scan cfg s pg (cfg.PAGE_SIZE - 2) k v (cfg.PAGE_SIZE + extra) 0
      = EE_VerifyPageFullWriteVariable.scan cfg s pg (cfg.PAGE_SIZE - 2) k v cfg.PAGE_SIZE 0 :=
  write_scan_fuel cfg s pg _ k v extra cfg.PAGE_SIZE 0 (by omega)

theorem format_loop_fuel (cfg : Cfg) (ip : Nat) (extra : Nat) (fuel : Nat) :
    ∀ (i st : Nat) (s : EE), cfg.PAGE_NUM ≤ i + fuel →
      EE_Format.loop cfg ip (fuel + extra) i st s = EE_Format.loop cfg ip fuel i st s := by
  induction fuel with
  | zero =>
    intro i st s hi
    cases extra with
    | zero => rfl
    | succ x =>
      have h0 : ¬ i < cfg.PAGE_NUM := by omega
      simp [EE_Format.loop, h0]
  | succ fuel ih =>
    intro i st s hi
    have e1 : fuel + 1 + extra = (fuel + extra) + 1 := by omega
    rw [e1, EE_Format.loop, EE_Format.loop]
    simp only [ih _ _ _ (show cfg.PAGE_NUM ≤ i + 1 + fuel by omega)]

theorem init_scan_fuel (cfg : Cfg) (st : Nat → Nat) (tgt : Nat) (extra : Nat) (fuel : Nat) :
    ∀ (i cur : Nat), cfg.PAGE_NUM ≤ i + fuel →
      EE_Init.scan cfg st tgt (fuel + extra) i cur = EE_Init.scan cfg st tgt fuel i cur := by
  induction fuel with
  | zero =>
    intro i cur hi
    cases extra with
    | zero => rfl
    | succ x =>
      have h0 : ¬ i < cfg.PAGE_NUM := by omega
      simp [EE_Init.scan, h0]
  | succ fuel ih =>
    intro i cur hi
    have e1 : fuel + 1 + extra = (fuel + extra) + 1 := by omega
    rw [e1, EE_Init.scan, EE_Init.scan]
    simp only [ih _ _ (show cfg.PAGE_NUM ≤ i + 1 + fuel by omega)]

/-! ## The first valid page -/

theorem find_cases (cfg : Cfg) (fl : Flash) :
    ((List.range cfg.PAGE_NUM).find? (fun page_idx => hw fl page_idx 0 = VALID_PAGE) = none ∧
        ∀ q, q < cfg.PAGE_NUM → hw fl q 0 ≠ VALID_PAGE) ∨
    ∃ p, (List.range cfg.PAGE_NUM).find? (fun page_idx => hw fl page_idx 0 = VALID_PAGE) = some p ∧
        p < cfg.PAGE_NUM ∧ hw fl p 0 = VALID_PAGE ∧ ∀ q, q < p → hw fl q 0 ≠ VALID_PAGE := by
  cases hf : (List.range cfg.PAGE_NUM).find? (fun page_idx => hw fl page_idx 0 = VALID_PAGE) with
  | none =>
    left
    refine ⟨rfl, fun q hq => ?_⟩
    rw [List.find?_eq_none] at hf
    simpa using hf q (List.mem_range.mpr hq)
  | some p =>
    right
    rw [List.find?_range_eq_some] at hf
    obtain ⟨h1, h2, h3⟩ := hf
    refine ⟨p, rfl, List.mem_range.mp h2, by simpa using h1, fun q hq => ?_⟩
    simpa using h3 q hq

theorem find_first_valid {cfg : Cfg} {fl : Flash} {p : Nat} (hlt : p < cfg.PAGE_NUM)
    (hv : hw fl p 0 = VALID_PAGE) (hfirst : ∀ q, q < p → hw fl q 0 ≠ VALID_PAGE) :
    (List.range cfg.PAGE_NUM).find? (fun page_idx => hw fl page_idx 0 = VALID_PAGE) = some p := by
  rw [List.find?_range_eq_some]
  refine ⟨by simpa using hv, List.mem_range.mpr hlt, fun j hj => ?_⟩
  simpa using hfirst j hj

theorem read_first {cfg : Cfg} (hg : cfg.Geom) (hp : cfg.PagesOk) {fl : Flash} {p : Nat}
    (hlt : p < cfg.PAGE_NUM) (hv : hw fl p 0 = VALID_PAGE)
    (hfirst : ∀ q, q < p → hw fl q 0 ≠ VALID_PAGE) (t d : Nat) :
    EE_ReadVariable cfg fl t d = readResult (lastRec fl p t cfg.slots) d := by
  have e : EE_FindValidPage cfg fl READ_FROM_VALID_PAGE = p := by
    unfold EE_FindValidPage
    simp only [find_first_valid hlt hv hfirst]
    simp [READ_FROM_VALID_PAGE, WRITE_IN_VALID_PAGE]
  unfold EE_ReadVariable
  simp only [e]
  rw [if_neg (page_ne_sentinel hp hlt), geom_end hg, read_scan_eq]

theorem read_scan_status (fl : Flash) (pg t d : Nat) :
    ∀ n, (EE_ReadVariable.scan fl pg t d n).1 = 0 ∨ (EE_ReadVariable.scan fl pg t d n).1 = 1 := by
  intro n
  induction n using Nat.strong_induction_on with
  | _ n ih =>
    match n with
    | 0 => right; rfl
    | 1 => right; rfl
    | 2 => right; rfl
    | 3 => right; rfl
    | a + 4 =>
      rw [EE_ReadVariable.scan]
      by_cases h : hw fl pg (a + 4) = t
      · rw [if_pos h]; left; rfl
      · rw [if_neg h]; exact ih a (by omega)

theorem lastRec_none (fl : Flash) (pg t : Nat) :
    ∀ n, lastRec fl pg t n = none ↔ ∀ j, j < n → hw fl pg (4 * j + 6) ≠ t := by
  intro n
  induction n with
  | zero => simp [lastRec]
  | succ n ih =>
    rw [lastRec]
    by_cases h : hw fl pg (4 * n + 6) = t
    · rw [if_pos h]
      constructor
      · intro hc; cases hc
      · intro hc; exact absurd h (hc n (by omega))
    · rw [if_neg h, ih]
      constructor
      · intro hc j hj
        by_cases e : j = n
        · subst e; exact h
        · exact hc j (by omega)
      · intro hc j hj
        exact hc j (by omega)

theorem lastRec_some (fl : Flash) (pg t : Nat) :
    ∀ n w, lastRec fl pg t n = some w →
      ∃ j, j < n ∧ hw fl pg (4 * j + 6) = t ∧ w = hw fl pg (4 * j + 4) ∧
        ∀ i, j < i → i < n → hw fl pg (4 * i + 6) ≠ t := by
  intro n
  induction n with
  | zero => intro w h; simp [lastRec] at h
  | succ n ih =>
    intro w h
    rw [lastRec] at h
    by_cases hc : hw fl pg (4 * n + 6) = t
    · rw [if_pos hc] at h
      refine ⟨n, by omega, hc, ?_, fun i h1 h2 => by omega⟩
      exact (Option.some.inj h).symm
    · rw [if_neg hc] at h
      obtain ⟨j, hj, h1, h2, h3⟩ := ih w h
      refine ⟨j, by omega, h1, h2, fun i hi1 hi2 => ?_⟩
      by_cases e : i = n
      · subst e; exact hc
      · exact h3 i hi1 (by omega)

/-- C20: write election.  In a state with at most one `VALID_PAGE` header,
`EE_FindValidPage(READ_FROM_VALID_PAGE)` returns the valid page whatever the
other headers are, `EE_FindValidPage(WRITE_IN_VALID_PAGE)` returns the ring
successor of the valid page when that successor is `RECEIVE_DATA` and the valid
page itself otherwise, and both return `NO_VALID_PAGE` when no page is valid. -/
theorem C20_write_election (cfg : Cfg) (fl : Flash)
    (hone : ∀ a, a < cfg.PAGE_NUM → ∀ b, b < cfg.PAGE_NUM →
      hw fl a 0 = VALID_PAGE → hw fl b 0 = VALID_PAGE → a = b) :
    (∀ p, p < cfg.PAGE_NUM → hw fl p 0 = VALID_PAGE →
      EE_FindValidPage cfg fl READ_FROM_VALID_PAGE = p ∧
      (hw fl ((p + 1) % cfg.PAGE_NUM) 0 = RECEIVE_DATA →
        EE_FindValidPage cfg fl WRITE_IN_VALID_PAGE = (p + 1) % cfg.PAGE_NUM) ∧
      (hw fl ((p + 1) % cfg.PAGE_NUM) 0 ≠ RECEIVE_DATA →
        EE_FindValidPage cfg fl WRITE_IN_VALID_PAGE = p)) ∧
    ((∀ q, q < cfg.PAGE_NUM → hw fl q 0 ≠ VALID_PAGE) →
      EE_FindValidPage cfg fl READ_FROM_VALID_PAGE = NO_VALID_PAGE ∧
      EE_FindValidPage cfg fl WRITE_IN_VALID_PAGE = NO_VALID_PAGE) := by
  refine ⟨fun p hlt hv => ?_, fun hno => ⟨find_read_none hno, find_write_none hno⟩⟩
  have hu : UniqueValid cfg fl p := ⟨hlt, hv, fun q hq hqv => hone q hq p hlt hqv hv⟩
  refine ⟨find_read hu, fun hr => ?_, fun hr => ?_⟩
  · rw [find_write hu, if_pos hr]
  · rw [find_write hu, if_neg hr]

theorem C20_write_election_witness :
    (∀ a, a < demoCfg.PAGE_NUM → ∀ b, b < demoCfg.PAGE_NUM →
      hw (stateOf [[], [0, 0xFFFF, 7, 1], [0xEEEE]]).flash a 0 = VALID_PAGE →
      hw (stateOf [[], [0, 0xFFFF, 7, 1], [0xEEEE]]).flash b 0 = VALID_PAGE → a = b) ∧
    EE_FindValidPage demoCfg (stateOf [[], [0, 0xFFFF, 7, 1], [0xEEEE]]).flash
      READ_FROM_VALID_PAGE = 1 ∧
    EE_FindValidPage demoCfg (stateOf [[], [0, 0xFFFF, 7, 1], [0xEEEE]]).flash
      WRITE_IN_VALID_PAGE = 2 :=
  have h : ∀ a, a < demoCfg.PAGE_NUM → ∀ b, b < demoCfg.PAGE_NUM →
      hw (stateOf [[], [0, 0xFFFF, 7, 1], [0xEEEE]]).flash a 0 = VALID_PAGE →
      hw (stateOf [[], [0, 0xFFFF, 7, 1], [0xEEEE]]).flash b 0 = VALID_PAGE → a = b := by
    decide
  ⟨h,
   ((C20_write_election demoCfg (stateOf [[], [0, 0xFFFF, 7, 1], [0xEEEE]]).flash h).1 1
      (by decide) (by decide)).1,
   ((C20_write_election demoCfg (stateOf [[], [0, 0xFFFF, 7, 1], [0xEEEE]]).flash h).1 1
      (by decide) (by decide)).2.1 (by decide)⟩

/-- C17: no valid page.  `EE_ReadVariable` returns `NO_VALID_PAGE` exactly when
no page header equals `VALID_PAGE`; in that case `EE_WriteVariable` returns
`NO_VALID_PAGE` too, and both calls leave the flash region, the variable behind
`Data` and the rest of the machine state unchanged. -/
theorem C17_no_valid_page {cfg : Cfg} (hp : cfg.PagesOk) (s : EE) (k v d : Nat) :
    ((EE_ReadVariable cfg s.flash k d).1 = NO_VALID_PAGE ↔
      ∀ q, q < cfg.PAGE_NUM → hw s.flash q 0 ≠ VALID_PAGE) ∧
    ((∀ q, q < cfg.PAGE_NUM → hw s.flash q 0 ≠ VALID_PAGE) →
      EE_ReadVariable cfg s.flash k d = (NO_VALID_PAGE, d) ∧
      EE_WriteVariable cfg s k v = (NO_VALID_PAGE, s)) := by
  refine ⟨⟨fun hr => ?_, fun hno => by rw [read_none hno]⟩, fun hno => ⟨read_none hno _ _, ?_⟩⟩
  · rcases find_cases cfg s.flash with ⟨_, hno⟩ | ⟨p, hf, hlt, _, _⟩
    · exact hno
    · exfalso
      have e : EE_FindValidPage cfg s.flash READ_FROM_VALID_PAGE = p := by
        unfold EE_FindValidPage
        simp only [hf]
        simp [READ_FROM_VALID_PAGE, WRITE_IN_VALID_PAGE]
      unfold EE_ReadVariable at hr
      simp only [e] at hr
      rw [if_neg (page_ne_sentinel hp hlt)] at hr
      rcases read_scan_status s.flash p k d (cfg.PAGE_SIZE - 2) with h0 | h1
      · rw [h0] at hr; exact absurd hr (by decide)
      · rw [h1] at hr; exact absurd hr (by decide)
  · unfold EE_WriteVariable EE_VerifyPageFullWriteVariable
    simp only [find_write_none hno]
    simp [NO_VALID_PAGE, PAGE_FULL]

theorem C17_no_valid_page_witness :
    demoCfg.PagesOk ∧
    ((EE_ReadVariable demoCfg (stateOf [[0xEEEE, 0xFFFF, 7, 1]]).flash 1 5).1 = NO_VALID_PAGE ↔
      ∀ q, q < demoCfg.PAGE_NUM → hw (stateOf [[0xEEEE, 0xFFFF, 7, 1]]).flash q 0 ≠ VALID_PAGE) ∧
    ((∀ q, q < demoCfg.PAGE_NUM → hw (stateOf [[0xEEEE, 0xFFFF, 7, 1]]).flash q 0 ≠ VALID_PAGE) →
      EE_ReadVariable demoCfg (stateOf [[0xEEEE, 0xFFFF, 7, 1]]).flash 1 5 = (NO_VALID_PAGE, 5) ∧
      EE_WriteVariable demoCfg (stateOf [[0xEEEE, 0xFFFF, 7, 1]]) 1 8
        = (NO_VALID_PAGE, stateOf [[0xEEEE, 0xFFFF, 7, 1]])) :=
  ⟨by decide, C17_no_valid_page (by decide) (stateOf [[0xEEEE, 0xFFFF, 7, 1]]) 1 8 5⟩

/-- C18: not found leaves the output untouched.  Let `p` be the valid page the
read elects (the first page whose header is `VALID_PAGE`).  If no record slot
of `p` has address half-word `k`, `EE_ReadVariable(k, &d)` returns 1 and `d`
keeps its value; when it returns 0, `d` is the value half-word of the record
slot with address `k` closest to the end of the page. -/
theorem C18_not_found_untouched {cfg : Cfg} (hg : cfg.Geom) (hp : cfg.PagesOk) (fl : Flash)
    (p : Nat) (hlt : p < cfg.PAGE_NUM) (hv : hw fl p 0 = VALID_PAGE)
    (hfirst : ∀ q, q < p → hw fl q 0 ≠ VALID_PAGE) (k d : Nat) :
    ((∀ j, j < cfg.slots → hw fl p (4 * j + 6) ≠ k) → EE_ReadVariable cfg fl k d = (1, d)) ∧
    ((EE_ReadVariable cfg fl k d).1 = 0 →
      ∃ j, j < cfg.slots ∧ hw fl p (4 * j + 6) = k ∧
        (EE_ReadVariable cfg fl k d).2 = hw fl p (4 * j + 4) ∧
        ∀ i, j < i → i < cfg.slots → hw fl p (4 * i + 6) ≠ k) := by
  rw [read_first hg hp hlt hv hfirst]
  constructor
  · intro hno
    rw [(lastRec_none fl p k cfg.slots).mpr hno]
    rfl
  · intro h0
    cases hl : lastRec fl p k cfg.slots with
    | none => rw [hl] at h0; simp [readResult] at h0
    | some w =>
      obtain ⟨j, hj, h1, h2, h3⟩ := lastRec_some fl p k cfg.slots w hl
      exact ⟨j, hj, h1, h2, h3⟩

theorem C18_not_found_untouched_witness :
    (demoCfg.Geom ∧ demoCfg.PagesOk ∧ 1 < demoCfg.PAGE_NUM ∧
      hw (stateOf [[], [0, 0xFFFF, 7, 1, 9, 1]]).flash 1 0 = VALID_PAGE ∧
      ∀ q, q < 1 → hw (stateOf [[], [0, 0xFFFF, 7, 1, 9, 1]]).flash q 0 ≠ VALID_PAGE) ∧
    ((∀ j, j < demoCfg.slots → hw (stateOf [[], [0, 0xFFFF, 7, 1, 9, 1]]).flash 1 (4 * j + 6) ≠ 2) →
      EE_ReadVariable demoCfg (stateOf [[], [0, 0xFFFF, 7, 1, 9, 1]]).flash 2 5 = (1, 5)) ∧
    ((EE_ReadVariable demoCfg (stateOf [[], [0, 0xFFFF, 7, 1, 9, 1]]).flash 2 5).1 = 0 →
      ∃ j, j < demoCfg.slots ∧ hw (stateOf [[], [0, 0xFFFF, 7, 1, 9, 1]]).flash 1 (4 * j + 6) = 2 ∧
        (EE_ReadVariable demoCfg (stateOf [[], [0, 0xFFFF, 7, 1, 9, 1]]).flash 2 5).2
          = hw (stateOf [[], [0, 0xFFFF, 7, 1, 9, 1]]).flash 1 (4 * j + 4) ∧
        ∀ i, j < i → i < demoCfg.slots →
          hw (stateOf [[], [0, 0xFFFF, 7, 1, 9, 1]]).flash 1 (4 * i + 6) ≠ 2) :=
  ⟨by decide,
   C18_not_found_untouched (by decide) (by decide) (stateOf [[], [0, 0xFFFF, 7, 1, 9, 1]]).flash 1
     (by decide) (by decide) (by decide) 2 5⟩

/-! ## The append with a flash driver that may fail -/

theorem write_scan_at (cfg : Cfg) (s : EE) (pg k v n : Nat)
    (fuel i j : Nat) (hij : i ≤ j) (hj : j ≤ n) (hfuel : j < i + fuel)
    (hocc : ∀ j', i ≤ j' → j' < j → read32 s.flash pg (4 * j') ≠ 0xFFFFFFFF)
    (hfree : read32 s.flash pg (4 * j) = 0xFFFFFFFF) :
    EE_VerifyPageFullWriteVariable.scan cfg s pg (4 * n + 2) k v fuel (4 * i)
      = if (FLASH_ProgramHalfWord cfg s pg (4 * j) v).1 ≠ FLASH_COMPLETE then
          FLASH_ProgramHalfWord cfg s pg (4 * j) v
        else FLASH_ProgramHalfWord cfg (FLASH_ProgramHalfWord cfg s pg (4 * j) v).2 pg
          (4 * j + 2) k := by
  induction fuel generalizing i with
  | zero => omega
  | succ fuel ih =>
    rw [EE_VerifyPageFullWriteVariable.scan]
    have h : 4 * i < 4 * n + 2 := by omega
    rw [if_pos h]
    by_cases hi : i = j
    · subst hi
      rw [if_pos hfree]
    · rw [if_neg (hocc i (le_refl _) (by omega))]
      have e : 4 * i + 4 = 4 * (i + 1) := by omega
      rw [e]
      exact ih (i + 1) (by omega) (by omega) (fun j' h1 h2 => hocc j' (by omega) h2)

theorem VPF_at {cfg : Cfg} (hg : cfg.Geom) (s : EE) (k v : Nat)
    (recs : List (Nat × Nat))
    (hwp : EE_FindValidPage cfg s.flash WRITE_IN_VALID_PAGE ≠ NO_VALID_PAGE)
    (hh : hw s.flash (EE_FindValidPage cfg s.flash WRITE_IN_VALID_PAGE) 0 ≠ 0xFFFF)
    (h : PageHolds cfg s.flash (EE_FindValidPage cfg s.flash WRITE_IN_VALID_PAGE) recs)
    (hlen : recs.length < cfg.slots) :
    EE_VerifyPageFullWriteVariable cfg s k v
      = if (FLASH_ProgramHalfWord cfg s (EE_FindValidPage cfg s.flash WRITE_IN_VALID_PAGE)
              (4 * recs.length + 4) v).1 ≠ FLASH_COMPLETE then
          FLASH_ProgramHalfWord cfg s (EE_FindValidPage cfg s.flash WRITE_IN_VALID_PAGE)
            (4 * recs.length + 4) v
        else FLASH_ProgramHalfWord cfg
          (FLASH_ProgramHalfWord cfg s (EE_FindValidPage cfg s.flash WRITE_IN_VALID_PAGE)
            (4 * recs.length + 4) v).2
          (EE_FindValidPage cfg s.flash WRITE_IN_VALID_PAGE) (4 * recs.length + 6) k := by
  unfold EE_VerifyPageFullWriteVariable
  simp only [if_neg hwp]
  rw [geom_end hg]
  have e1 : 4 * (recs.length + 1) = 4 * recs.length + 4 := by omega
  have e2 : 4 * (recs.length + 1) + 2 = 4 * recs.length + 6 := by omega
  have hfree : read32 s.flash (EE_FindValidPage cfg s.flash WRITE_IN_VALID_PAGE)
      (4 * (recs.length + 1)) = 0xFFFFFFFF := by
    rw [read32_free, e2, e1]
    exact h.2.2.2 recs.length hlen (le_refl _)
  have hfuel : recs.length + 1 < 0 + cfg.PAGE_SIZE := by
    unfold Cfg.slots at hlen
    unfold Cfg.Geom at hg
    omega
  have := write_scan_at cfg s (EE_FindValidPage cfg s.flash WRITE_IN_VALID_PAGE) k v cfg.slots
    cfg.PAGE_SIZE 0 (recs.length + 1) (by omega) (by omega) hfuel
    (fun j' _ h2 => slot_occupied h hh j' (by omega)) hfree
  rw [Nat.mul_zero, e2, e1] at this
  exact this

theorem write_success_append {cfg : Cfg} (hdrv : cfg.DriverOk) (hg : cfg.Geom) (hp : cfg.PagesOk)
    (s : EE) (k v : Nat) {p : Nat} {recs : List (Nat × Nat)}
    (h : Steady cfg s.flash p recs) (hlen : recs.length < cfg.slots)
    (hs : (EE_WriteVariable cfg s k v).1 = FLASH_COMPLETE) :
    (EE_WriteVariable cfg s k v).2.flash = applyOps (appendOps p recs.length [(v, k)]) s.flash ∧
    (EE_WriteVariable cfg s k v).2.ops = s.ops ++ appendOps p recs.length [(v, k)] := by
  have hwp := steady_find_write hg hp h
  have hv := VPF_at hg s k v recs
    (by rw [hwp]; exact page_ne_sentinel hp h.1.1)
    (by rw [hwp, h.1.2.1]; decide) (by rw [hwp]; exact h.2.1) hlen
  rw [hwp] at hv
  have hn1 := hdrv s.ops.length
  have hn2 := hdrv (s.ops.length + 1)
  have eA : (FLASH_ProgramHalfWord cfg s p (4 * recs.length + 4) v).1 = cfg.drv s.ops.length := rfl
  have eB : (FLASH_ProgramHalfWord cfg (FLASH_ProgramHalfWord cfg s p (4 * recs.length + 4) v).2
      p (4 * recs.length + 6) k).1 = cfg.drv (s.ops.length + 1) := by
    simp [FLASH_ProgramHalfWord, flashOp]
  by_cases h1 : cfg.drv s.ops.length = FLASH_COMPLETE
  · have c1 : ¬ (FLASH_ProgramHalfWord cfg s p (4 * recs.length + 4) v).1 ≠ FLASH_COMPLETE := by
      rw [eA]; exact fun hc => hc h1
    rw [if_neg c1] at hv
    have c2 : ¬ (EE_VerifyPageFullWriteVariable cfg s k v).1 = PAGE_FULL := by
      rw [hv, eB]; exact hn2
    have hw1 : EE_WriteVariable cfg s k v = EE_VerifyPageFullWriteVariable cfg s k v := by
      unfold EE_WriteVariable
      exact if_neg c2
    rw [hw1, hv] at hs ⊢
    rw [eB] at hs
    simp [FLASH_ProgramHalfWord, flashOp, h1, hs, applyOps, appendOps]
  · exfalso
    have c1 : (FLASH_ProgramHalfWord cfg s p (4 * recs.length + 4) v).1 ≠ FLASH_COMPLETE := by
      rw [eA]; exact h1
    rw [if_pos c1] at hv
    have c2 : ¬ (EE_VerifyPageFullWriteVariable cfg s k v).1 = PAGE_FULL := by
      rw [hv, eA]; exact hn1
    have hw1 : EE_WriteVariable cfg s k v = EE_VerifyPageFullWriteVariable cfg s k v := by
      unfold EE_WriteVariable
      exact if_neg c2
    rw [hw1, hv, eA] at hs
    exact h1 hs

theorem holds_first_free {cfg : Cfg} {fl : Flash} {pg : Nat} {recs : List (Nat × Nat)}
    (h : PageHolds cfg fl pg recs) (hlen : recs.length < cfg.slots) :
    read32 fl pg (4 * recs.length + 4) = 0xFFFFFFFF ∧
    ∀ j, j < recs.length → read32 fl pg (4 * j + 4) ≠ 0xFFFFFFFF := by
  constructor
  · rw [read32_free]
    exact h.2.2.2 recs.length hlen (le_refl _)
  · intro j hj hc
    rw [read32_free] at hc
    have e : 4 * j + 4 + 2 = 4 * j + 6 := by omega
    rw [e] at hc
    have h2 := h.2.1 j hj
    have h3 := h.2.2.1 (recs.getD j (0, 0)) (by
      rw [List.getD_eq_getElem _ _ hj]; exact List.getElem_mem _)
    rw [← h2.1, ← h2.2] at h3
    rcases h3 with h3 | h3
    · exact h3 hc.1
    · exact h3 hc.2

/-- C19: an overwrite is an append that keeps earlier records.  In a
well-formed state (one valid page `p` holding `recs` followed by erased slots,
every other page erased) whose valid page has a fully erased slot left, a
successful `EE_WriteVariable(k, v)` changes no half-word of the flash other
than the value and address half-words of the first fully erased slot of `p`,
which receive `v` and `k`. -/
theorem C19_append_frame {cfg : Cfg} (hdrv : cfg.DriverOk) (hg : cfg.Geom) (hp : cfg.PagesOk)
    (s : EE) (p : Nat) (recs : List (Nat × Nat)) (h : Steady cfg s.flash p recs)
    (hlen : recs.length < cfg.slots) (k v : Nat)
    (hs : (EE_WriteVariable cfg s k v).1 = FLASH_COMPLETE) :
    (read32 s.flash p (4 * recs.length + 4) = 0xFFFFFFFF ∧
      ∀ j, j < recs.length → read32 s.flash p (4 * j + 4) ≠ 0xFFFFFFFF) ∧
    (∀ q o, ¬ (q = p ∧ (o = 4 * recs.length + 4 ∨ o = 4 * recs.length + 6)) →
      hw (EE_WriteVariable cfg s k v).2.flash q o = hw s.flash q o) ∧
    hw (EE_WriteVariable cfg s k v).2.flash p (4 * recs.length + 4) = v % 65536 ∧
    hw (EE_WriteVariable cfg s k v).2.flash p (4 * recs.length + 6) = k % 65536 := by
  have hfl := (write_success_append hdrv hg hp s k v h hlen hs).1
  have hfree := h.2.1.2.2.2 recs.length hlen (le_refl _)
  refine ⟨holds_first_free h.2.1 hlen, fun q o hne => ?_, ?_, ?_⟩
  · rw [hfl, appendOne_hw]
    have c1 : ¬ (q = p ∧ o = 4 * recs.length + 4) := fun hc => hne ⟨hc.1, Or.inl hc.2⟩
    have c2 : ¬ (q = p ∧ o = 4 * recs.length + 6) := fun hc => hne ⟨hc.1, Or.inr hc.2⟩
    rw [if_neg c1, if_neg c2]
  · rw [hfl, appendOne_hw]
    have c1 : p = p ∧ 4 * recs.length + 4 = 4 * recs.length + 4 := ⟨rfl, rfl⟩
    rw [if_pos c1, hfree.1]
    exact land_ffff _ (Nat.mod_lt _ (by decide))
  · rw [hfl, appendOne_hw]
    have c1 : ¬ (p = p ∧ 4 * recs.length + 6 = 4 * recs.length + 4) := fun hc => by omega
    have c2 : p = p ∧ 4 * recs.length + 6 = 4 * recs.length + 6 := ⟨rfl, rfl⟩
    rw [if_neg c1, if_pos c2, hfree.2]
    exact land_ffff _ (Nat.mod_lt _ (by decide))

theorem C19_append_frame_witness :
    (demoCfg.Geom ∧ demoCfg.PagesOk ∧
      Steady demoCfg (stateOf [[0, 0xFFFF, 0x1234, 1]]).flash 0 [(0x1234, 1)] ∧
      [(0x1234, 1)].length < demoCfg.slots ∧
      (EE_WriteVariable demoCfg (stateOf [[0, 0xFFFF, 0x1234, 1]]) 1 0x5678).1 = FLASH_COMPLETE) ∧
    (read32 (stateOf [[0, 0xFFFF, 0x1234, 1]]).flash 0 (4 * [(0x1234, 1)].length + 4) = 0xFFFFFFFF ∧
      ∀ j, j < [(0x1234, 1)].length →
        read32 (stateOf [[0, 0xFFFF, 0x1234, 1]]).flash 0 (4 * j + 4) ≠ 0xFFFFFFFF) ∧
    (∀ q o, ¬ (q = 0 ∧ (o = 4 * [(0x1234, 1)].length + 4 ∨ o = 4 * [(0x1234, 1)].length + 6)) →
      hw (EE_WriteVariable demoCfg (stateOf [[0, 0xFFFF, 0x1234, 1]]) 1 0x5678).2.flash q o
        = hw (stateOf [[0, 0xFFFF, 0x1234, 1]]).flash q o) ∧
    hw (EE_WriteVariable demoCfg (stateOf [[0, 0xFFFF, 0x1234, 1]]) 1 0x5678).2.flash 0
      (4 * [(0x1234, 1)].length + 4) = 0x5678 % 65536 ∧
    hw (EE_WriteVariable demoCfg (stateOf [[0, 0xFFFF, 0x1234, 1]]) 1 0x5678).2.flash 0
      (4 * [(0x1234, 1)].length + 6) = 1 % 65536 :=
  ⟨by decide,
   C19_append_frame (fun _ => by show FLASH_COMPLETE ≠ PAGE_FULL; decide) (by decide) (by decide)
     (stateOf [[0, 0xFFFF, 0x1234, 1]]) 0 [(0x1234, 1)] (by decide) (by decide) 1 0x5678
     (by decide)⟩

/-! ## A run of writes that fit on the valid page -/

theorem stateOf_nil_erased (cfg : Cfg) (q : Nat) : PageErased cfg (stateOf []).flash q := by
  intro o _
  simp [hw, stateOf]

theorem writeAll_fill {cfg : Cfg} (hd : cfg.FlashOk) (hg : cfg.Geom) (hp : cfg.PagesOk)
    (ws : List (Nat × Nat)) :
    ∀ (s : EE) (p : Nat) (recs : List (Nat × Nat)),
      Steady cfg s.flash p recs → (∀ w ∈ ws, w.1 < 0xFFFF ∧ w.2 < 65536) →
      recs.length + ws.length ≤ cfg.slots →
      (∀ st ∈ (writeAll cfg s ws).1, st = FLASH_COMPLETE) ∧
      (writeAll cfg s ws).2.flash = applyOps (appendOps p recs.length (recordsOf ws)) s.flash ∧
      (writeAll cfg s ws).2.ops = s.ops ++ appendOps p recs.length (recordsOf ws) ∧
      Steady cfg (writeAll cfg s ws).2.flash p (recs ++ recordsOf ws) := by
  induction ws with
  | nil =>
    intro s p recs hst _ _
    refine ⟨fun st h => absurd h (by simp [writeAll]), ?_, ?_, ?_⟩
    · simp [writeAll, recordsOf, appendOps, applyOps]
    · simp [writeAll, recordsOf, appendOps]
    · simpa [writeAll, recordsOf] using hst
  | cons w ws ih =>
    intro s p recs hst hws hfit
    have hw1 := (hws w (List.mem_cons_self _ _)).1
    have hw2 := (hws w (List.mem_cons_self _ _)).2
    have hr : RecOk (w.2, w.1) :=
      ⟨hw2, by show w.1 < 65536; omega, Or.inr (by show w.1 ≠ 0xFFFF; omega)⟩
    have hl : (w :: ws).length = ws.length + 1 := List.length_cons _ _
    have hlen : recs.length < cfg.slots := by omega
    have e1 := write_append hd hg hp s w.1 w.2 hst hlen
    have hst1 := steady_append hst hlen _ hr
    have hst1' : Steady cfg (EE_WriteVariable cfg s w.1 w.2).2.flash p (recs ++ [(w.2, w.1)]) := by
      rw [e1]; exact hst1
    have hlen1 : (recs ++ [(w.2, w.1)]).length = recs.length + 1 := by simp
    obtain ⟨i1, i2, i3, i4⟩ := ih (EE_WriteVariable cfg s w.1 w.2).2 p (recs ++ [(w.2, w.1)]) hst1'
      (fun x hx => hws x (List.mem_cons_of_mem _ hx)) (by omega)
    have ea : appendOps p recs.length (recordsOf (w :: ws))
        = appendOps p recs.length [(w.2, w.1)] ++ appendOps p (recs.length + 1) (recordsOf ws) := by
      have := appendOps_append p [(w.2, w.1)] (recordsOf ws) recs.length
      simpa [recordsOf] using this
    have er : recs ++ recordsOf (w :: ws) = (recs ++ [(w.2, w.1)]) ++ recordsOf ws := by
      simp [recordsOf]
    rw [hlen1] at i2 i3
    refine ⟨?_, ?_, ?_, ?_⟩
    · intro st hmem
      simp only [writeAll, List.mem_cons] at hmem
      rcases hmem with h1 | h1
      · rw [h1, e1]
      · exact i1 st h1
    · show (writeAll cfg (EE_WriteVariable cfg s w.1 w.2).2 ws).2.flash = _
      rw [i2, ea, applyOps_append, e1]
    · show (writeAll cfg (EE_WriteVariable cfg s w.1 w.2).2 ws).2.ops = _
      rw [i3, ea, e1, List.append_assoc]
    · show Steady cfg (writeAll cfg (EE_WriteVariable cfg s w.1 w.2).2 ws).2.flash p _
      rw [er]; exact i4

theorem lookup_recordsOf (ws : List (Nat × Nat)) (k : Nat) :
    lookupRec (recordsOf ws) k = lastWrite ws k := by
  induction ws using List.reverseRecOn with
  | nil => rfl
  | append_singleton ws w ih =>
    have e : recordsOf (ws ++ [w]) = recordsOf ws ++ [(w.2, w.1)] := by simp [recordsOf]
    rw [e, lookupRec_append_one, ih]
    unfold lastWrite
    rw [List.reverse_append, List.reverse_singleton, List.singleton_append, List.find?_cons]
    by_cases h : w.1 = k
    · simp [h]
    · simp [h]

theorem getD_recordsOf (ws : List (Nat × Nat)) (i : Nat) (hi : i < ws.length) :
    (recordsOf ws).getD i (0, 0) = ((ws.getD i (0, 0)).2, (ws.getD i (0, 0)).1) := by
  unfold recordsOf
  rw [List.getD_eq_getElem _ _ hi, List.getD_eq_getElem _ _ (by simpa using hi)]
  simp


theorem erased_fresh {cfg : Cfg} (hd : cfg.FlashOk) (hg : cfg.Geom) (hp : cfg.PagesOk) (s : EE)
    (he : ∀ q, q < cfg.PAGE_NUM → PageErased cfg s.flash q) :
    (EE_Init cfg s).1 = FLASH_COMPLETE ∧ Formatted cfg (EE_Init cfg s).2.flash 0 := by
  have hv : ∀ q, q < cfg.PAGE_NUM → hw s.flash q 0 ≠ VALID_PAGE := fun q hq => by
    rw [erased_hw hg (he q hq)]; decide
  have hr : ∀ q, q < cfg.PAGE_NUM → hw s.flash q 0 ≠ RECEIVE_DATA := fun q hq => by
    rw [erased_hw hg (he q hq)]; decide
  rw [init_fresh hd hp s hv hr]
  exact ⟨rfl, format_formatted cfg s.flash 0⟩

/-- C12, counterexample to the offsets as stated: in the scenario of the
specification (3 pages of 1024 bytes), after `EE_Init` on a fully erased region
`EE_WriteVariable(0x0001, 0x1234)` returns success, but offset 2 of page 0 does
not hold `0x1234` (it is still erased) and offset 4 does not hold `0x0001` (it
holds the value `0x1234`; the address `0x0001` is at offset 6). -/
theorem C12_counterexample :
    (EE_WriteVariable scenarioCfg (EE_Init scenarioCfg (stateOf [])).2 1 0x1234).1
      = FLASH_COMPLETE ∧
    hw (EE_WriteVariable scenarioCfg (EE_Init scenarioCfg (stateOf [])).2 1 0x1234).2.flash 0 2
      ≠ 0x1234 ∧
    hw (EE_WriteVariable scenarioCfg (EE_Init scenarioCfg (stateOf [])).2 1 0x1234).2.flash 0 4
      ≠ 0x0001 ∧
    hw (EE_WriteVariable scenarioCfg (EE_Init scenarioCfg (stateOf [])).2 1 0x1234).2.flash 0 2
      = 0xFFFF ∧
    hw (EE_WriteVariable scenarioCfg (EE_Init scenarioCfg (stateOf [])).2 1 0x1234).2.flash 0 4
      = 0x1234 ∧
    hw (EE_WriteVariable scenarioCfg (EE_Init scenarioCfg (stateOf [])).2 1 0x1234).2.flash 0 6
      = 0x0001 := by
  decide

/-- C12 (amended): on-flash record layout.  The append scan starts at the
header word, which is never erased on the elected page, so record slot `i`
(counted from 0) has its value half-word at offset `4 + 4i` and its address
half-word at offset `6 + 4i`; offset 2 is never written.  After `EE_Init` on a
fully erased region, writes that fit on the page all return success, the
`i`-th of them lands in slot `i` of page 0, and a read returns the last value
written for the key. -/
theorem C12_record_layout_amended {cfg : Cfg} (hd : cfg.FlashOk) (hg : cfg.Geom)
    (hp : cfg.PagesOk) (s : EE) (he : ∀ q, q < cfg.PAGE_NUM → PageErased cfg s.flash q)
    (ws : List (Nat × Nat)) (hws : ∀ w ∈ ws, w.1 < 0xFFFF ∧ w.2 < 65536)
    (hfit : ws.length ≤ cfg.slots) :
    (∀ st ∈ (writeAll cfg (EE_Init cfg s).2 ws).1, st = FLASH_COMPLETE) ∧
    hw (writeAll cfg (EE_Init cfg s).2 ws).2.flash 0 0 = VALID_PAGE ∧
    hw (writeAll cfg (EE_Init cfg s).2 ws).2.flash 0 2 = 0xFFFF ∧
    (∀ i, i < ws.length →
      hw (writeAll cfg (EE_Init cfg s).2 ws).2.flash 0 (4 + 4 * i) = (ws.getD i (0, 0)).2 ∧
      hw (writeAll cfg (EE_Init cfg s).2 ws).2.flash 0 (6 + 4 * i) = (ws.getD i (0, 0)).1) ∧
    (∀ k v d, lastWrite ws k = some v →
      EE_ReadVariable cfg (writeAll cfg (EE_Init cfg s).2 ws).2.flash k d = (0, v)) := by
  have hf := (erased_fresh hd hg hp s he).2
  have h0 : 0 < cfg.PAGE_NUM := by unfold Cfg.PagesOk at hp; omega
  have hst := formatted_steady hg h0 hf
  obtain ⟨i1, i2, _, i4⟩ := writeAll_fill hd hg hp ws (EE_Init cfg s).2 0 [] hst hws
    (by simpa using hfit)
  rw [List.nil_append] at i4
  refine ⟨i1, i4.1.2.1, ?_, fun i hi => ?_, fun k v d hl => ?_⟩
  · rw [i2, appendOps_frame _ _ _ _ _ _ (Or.inr (Or.inl (by omega)))]
    have := hf 0 h0 2 (by unfold Cfg.Geom at hg; omega)
    rw [this, if_neg (by omega)]
  · have hlen : (recordsOf ws).length = ws.length := by simp [recordsOf]
    have := i4.2.1.2.1 i (by omega)
    rw [getD_recordsOf ws i hi] at this
    have e1 : 4 + 4 * i = 4 * i + 4 := by omega
    have e2 : 6 + 4 * i = 4 * i + 6 := by omega
    rw [e1, e2]
    exact this
  · have hk : k ≠ 0xFFFF := by
      have := (hws (k, v) (lastWrite_mem hl)).1
      simp only at this
      omega
    rw [steady_read hg hp i4 hk, lookup_recordsOf, hl]
    rfl

theorem C12_record_layout_amended_witness :
    ((∀ q, q < scenarioCfg.PAGE_NUM → PageErased scenarioCfg (stateOf []).flash q) ∧
      (∀ w ∈ [(0x0001, 0x1234)], w.1 < 0xFFFF ∧ w.2 < 65536) ∧
      [(0x0001, 0x1234)].length ≤ scenarioCfg.slots) ∧
    (∀ st ∈ (writeAll scenarioCfg (EE_Init scenarioCfg (stateOf [])).2 [(0x0001, 0x1234)]).1,
      st = FLASH_COMPLETE) ∧
    hw (writeAll scenarioCfg (EE_Init scenarioCfg (stateOf [])).2 [(0x0001, 0x1234)]).2.flash 0 4
      = 0x1234 ∧
    hw (writeAll scenarioCfg (EE_Init scenarioCfg (stateOf [])).2 [(0x0001, 0x1234)]).2.flash 0 6
      = 0x0001 ∧
    (∀ d, EE_ReadVariable scenarioCfg
      (writeAll scenarioCfg (EE_Init scenarioCfg (stateOf [])).2 [(0x0001, 0x1234)]).2.flash
      0x0001 d = (0, 0x1234)) :=
  have H := @C12_record_layout_amended scenarioCfg (fun _ => rfl) (by decide) (by decide)
    (stateOf []) (fun q _ => stateOf_nil_erased scenarioCfg q) [(0x0001, 0x1234)] (by decide)
    (by decide)
  ⟨⟨fun q _ => stateOf_nil_erased scenarioCfg q, by decide, by decide⟩, H.1,
   (H.2.2.2.1 0 (by decide)).1, (H.2.2.2.1 0 (by decide)).2,
   fun d => H.2.2.2.2 0x0001 0x1234 d rfl⟩

/-- C14, counterexample: the reserved virtual address is not rejected.  In the
scenario of the specification, after `EE_Init` on a fully erased region
`EE_WriteVariable(0xFFFF, 0x1234)` returns success and changes the flash (the
half-word at offset 4 of page 0). -/
theorem C14_counterexample :
    (EE_WriteVariable scenarioCfg (EE_Init scenarioCfg (stateOf [])).2 0xFFFF 0x1234).1
      = FLASH_COMPLETE ∧
    hw (EE_WriteVariable scenarioCfg (EE_Init scenarioCfg (stateOf [])).2 0xFFFF 0x1234).2.flash 0 4
      ≠ hw (EE_Init scenarioCfg (stateOf [])).2.flash 0 4 := by
  decide

/-- C14 (amended): `EE_WriteVariable` makes no check of the virtual address.
In a well-formed state whose valid page `p` has a free slot, with every flash
operation succeeding, `EE_WriteVariable(0xFFFF, v)` returns `FLASH_COMPLETE`
and programs `v` into the value half-word of the first free slot; every other
half-word of the flash keeps its content (the slot's address half-word stays
`0xFFFF`). -/
theorem C14_reserved_address_amended {cfg : Cfg} (hd : cfg.FlashOk) (hg : cfg.Geom)
    (hp : cfg.PagesOk) (s : EE) (p : Nat) (recs : List (Nat × Nat))
    (h : Steady cfg s.flash p recs) (hlen : recs.length < cfg.slots) (v : Nat) (hv : v < 65536) :
    (EE_WriteVariable cfg s 0xFFFF v).1 = FLASH_COMPLETE ∧
    hw (EE_WriteVariable cfg s 0xFFFF v).2.flash p (4 * recs.length + 4) = v ∧
    (∀ q o, ¬ (q = p ∧ o = 4 * recs.length + 4) →
      hw (EE_WriteVariable cfg s 0xFFFF v).2.flash q o = hw s.flash q o) := by
  rw [write_append hd hg hp s 0xFFFF v h hlen]
  have hfree := h.2.1.2.2.2 recs.length hlen (le_refl _)
  refine ⟨rfl, ?_, fun q o hne => ?_⟩
  · show hw (applyOps (appendOps p recs.length [(v, 0xFFFF)]) s.flash) p (4 * recs.length + 4) = v
    rw [← hw_value_only, hw_program]
    have c : p = p ∧ 4 * recs.length + 4 = 4 * recs.length + 4 := ⟨rfl, rfl⟩
    rw [if_pos c, hfree.1, Nat.mod_eq_of_lt hv]
    exact land_ffff v hv
  · show hw (applyOps (appendOps p recs.length [(v, 0xFFFF)]) s.flash) q o = hw s.flash q o
    rw [← hw_value_only, hw_program, if_neg hne]

theorem C14_reserved_address_amended_witness :
    (Steady demoCfg (stateOf [[0, 0xFFFF, 7, 1]]).flash 0 [(7, 1)] ∧
      [(7, 1)].length < demoCfg.slots) ∧
    (EE_WriteVariable demoCfg (stateOf [[0, 0xFFFF, 7, 1]]) 0xFFFF 0x1234).1 = FLASH_COMPLETE ∧
    hw (EE_WriteVariable demoCfg (stateOf [[0, 0xFFFF, 7, 1]]) 0xFFFF 0x1234).2.flash 0
      (4 * [(7, 1)].length + 4) = 0x1234 ∧
    (∀ q o, ¬ (q = 0 ∧ o = 4 * [(7, 1)].length + 4) →
      hw (EE_WriteVariable demoCfg (stateOf [[0, 0xFFFF, 7, 1]]) 0xFFFF 0x1234).2.flash q o
        = hw (stateOf [[0, 0xFFFF, 7, 1]]).flash q o) :=
  ⟨by decide,
   C14_reserved_address_amended (fun _ => rfl) (by decide) (by decide)
     (stateOf [[0, 0xFFFF, 7, 1]]) 0 [(7, 1)] (by decide) (by decide) 0x1234 (by decide)⟩

/-- C13: page capacity.  From a freshly formatted region (valid page `p` with an
erased body), `(PAGE_SIZE - 2) / 4` successive `EE_WriteVariable` calls all
return success and issue nothing but the value and address programs of the
record slots `0`, `1`, ... of `p`, in order: no rotation takes place.  For the
write after them the append finds no free slot (`PAGE_FULL`, flash untouched)
and `EE_WriteVariable` still returns success by rotating to the next page,
where the value is read back. -/
theorem C13_page_capacity {cfg : Cfg} (hd : cfg.FlashOk) (hg : cfg.Geom) (hp : cfg.PagesOk)
    (ht : cfg.TableOk) (hcap : cfg.NB_OF_VAR + 1 ≤ cfg.slots) (s : EE) (p : Nat)
    (hlt : p < cfg.PAGE_NUM) (hf : Formatted cfg s.flash p)
    (ws : List (Nat × Nat)) (hws : ∀ w ∈ ws, w.1 < 0xFFFF ∧ w.2 < 65536)
    (hlen : ws.length = (cfg.PAGE_SIZE - 2) / 4)
    (k v : Nat) (hk : k < 0xFFFF) (hv : v < 65536) :
    (∀ st ∈ (writeAll cfg s ws).1, st = FLASH_COMPLETE) ∧
    (writeAll cfg s ws).2.ops = s.ops ++ appendOps p 0 (recordsOf ws) ∧
    (∀ i, i < ws.length →
      hw (writeAll cfg s ws).2.flash p (4 + 4 * i) = (ws.getD i (0, 0)).2 ∧
      hw (writeAll cfg s ws).2.flash p (6 + 4 * i) = (ws.getD i (0, 0)).1) ∧
    UniqueValid cfg (writeAll cfg s ws).2.flash p ∧
    EE_VerifyPageFullWriteVariable cfg (writeAll cfg s ws).2 k v
      = (PAGE_FULL, (writeAll cfg s ws).2) ∧
    (EE_WriteVariable cfg (writeAll cfg s ws).2 k v).1 = FLASH_COMPLETE ∧
    UniqueValid cfg (EE_WriteVariable cfg (writeAll cfg s ws).2 k v).2.flash
      ((p + 1) % cfg.PAGE_NUM) ∧
    PageErased cfg (EE_WriteVariable cfg (writeAll cfg s ws).2 k v).2.flash p ∧
    (∀ d, EE_ReadVariable cfg (EE_WriteVariable cfg (writeAll cfg s ws).2 k v).2.flash k d
      = (0, v)) := by
  have hslots : (cfg.PAGE_SIZE - 2) / 4 = cfg.slots := by
    unfold Cfg.Geom at hg
    unfold Cfg.slots
    omega
  rw [hslots] at hlen
  have hst := formatted_steady hg hlt hf
  obtain ⟨i1, _, i3, i4⟩ := writeAll_fill hd hg hp ws s p [] hst hws (by simp [hlen])
  rw [List.nil_append] at i4
  have hrl : (recordsOf ws).length = ws.length := by simp [recordsOf]
  have hfull : (recordsOf ws).length = cfg.slots := by omega
  have hwp := steady_find_write hg hp i4
  have hr : RecOk (v, k) := ⟨hv, by show k < 65536; omega, Or.inr (by show k ≠ 0xFFFF; omega)⟩
  have hne : ∀ r ∈ copies (latest cfg (writeAll cfg s ws).2.flash p) k cfg.VirtAddVarTab,
      r.2 ≠ 0xFFFF := by
    intro r hr'
    have := ht r.2 (copies_mem hr').1
    omega
  have hfit : 1 + (copies (latest cfg (writeAll cfg s ws).2.flash p) k cfg.VirtAddVarTab).length
      ≤ cfg.slots := by
    have := copies_length_le (latest cfg (writeAll cfg s ws).2.flash p) k cfg.VirtAddVarTab
    unfold Cfg.NB_OF_VAR at hcap
    omega
  obtain ⟨r1, r2, _⟩ := rotate_result hd hg hp (writeAll cfg s ws).2 k v i4 hfull hr hne hfit
  refine ⟨i1, by simpa using i3, fun i hi => ?_, i4.1, ?_, r1, r2.1, ?_, fun d => ?_⟩
  · have := i4.2.1.2.1 i (by omega)
    rw [getD_recordsOf ws i hi] at this
    have e1 : 4 + 4 * i = 4 * i + 4 := by omega
    have e2 : 6 + 4 * i = 4 * i + 6 := by omega
    rw [e1, e2]
    exact this
  · exact VPF_full hg (writeAll cfg s ws).2 k v (recordsOf ws)
      (by rw [hwp]; exact page_ne_sentinel hp hlt)
      (by rw [hwp, i4.1.2.1]; decide) (by rw [hwp]; exact i4.2.1) hfull
  · exact r2.2.2 p hlt (fun hc => next_ne hp hlt hc.symm)
  · rw [steady_read hg hp r2 (by omega), lookup_rotated_key]
    rfl

theorem C13_page_capacity_witness :
    (scenarioCfg.TableOk ∧ scenarioCfg.NB_OF_VAR + 1 ≤ scenarioCfg.slots ∧
      0 < scenarioCfg.PAGE_NUM ∧
      Formatted scenarioCfg (EE_Init scenarioCfg (stateOf [])).2.flash 0 ∧
      (∀ w ∈ fillWrites, w.1 < 0xFFFF ∧ w.2 < 65536) ∧
      fillWrites.length = (scenarioCfg.PAGE_SIZE - 2) / 4 ∧ fillWrites.length = 255) ∧
    (∀ st ∈ (writeAll scenarioCfg (EE_Init scenarioCfg (stateOf [])).2 fillWrites).1,
      st = FLASH_COMPLETE) ∧
    (writeAll scenarioCfg (EE_Init scenarioCfg (stateOf [])).2 fillWrites).2.ops
      = (EE_Init scenarioCfg (stateOf [])).2.ops ++ appendOps 0 0 (recordsOf fillWrites) ∧
    EE_VerifyPageFullWriteVariable scenarioCfg
        (writeAll scenarioCfg (EE_Init scenarioCfg (stateOf [])).2 fillWrites).2 2 0xAAAA
      = (PAGE_FULL, (writeAll scenarioCfg (EE_Init scenarioCfg (stateOf [])).2 fillWrites).2) ∧
    (EE_WriteVariable scenarioCfg
        (writeAll scenarioCfg (EE_Init scenarioCfg (stateOf [])).2 fillWrites).2 2 0xAAAA).1
      = FLASH_COMPLETE ∧
    UniqueValid scenarioCfg (EE_WriteVariable scenarioCfg
        (writeAll scenarioCfg (EE_Init scenarioCfg (stateOf [])).2 fillWrites).2 2 0xAAAA).2.flash
      ((0 + 1) % scenarioCfg.PAGE_NUM) ∧
    (∀ d, EE_ReadVariable scenarioCfg (EE_WriteVariable scenarioCfg
        (writeAll scenarioCfg (EE_Init scenarioCfg (stateOf [])).2 fillWrites).2 2 0xAAAA).2.flash
      2 d = (0, 0xAAAA)) :=
  have hf : Formatted scenarioCfg (EE_Init scenarioCfg (stateOf [])).2.flash 0 :=
    (@erased_fresh scenarioCfg (fun _ => rfl) (by decide) (by decide) (stateOf [])
      (fun q _ => stateOf_nil_erased scenarioCfg q)).2
  have hws : ∀ w ∈ fillWrites, w.1 < 0xFFFF ∧ w.2 < 65536 := by
    intro w hw
    simp only [fillWrites, List.mem_map, List.mem_range] at hw
    obtain ⟨i, hi, rfl⟩ := hw
    exact ⟨by show (1 : Nat) < 0xFFFF; decide, by show i < 65536; omega⟩
  have hl : fillWrites.length = 255 := by simp [fillWrites]
  have H := @C13_page_capacity scenarioCfg (fun _ => rfl) (by decide) (by decide) (by decide)
    (by decide) (EE_Init scenarioCfg (stateOf [])).2 0 (by decide) hf fillWrites hws
    (by rw [hl]; decide) 2 0xAAAA (by decide) (by decide)
  ⟨⟨by decide, by decide, by decide, hf, hws, by rw [hl]; decide, hl⟩, H.1, H.2.1, H.2.2.2.2.1,
   H.2.2.2.2.2.1, H.2.2.2.2.2.2.1, H.2.2.2.2.2.2.2.2⟩

/-! ## Flash errors are returned as they are -/

theorem surf_refl (cfg : Cfg) (s : EE) (c : Nat) : Surfaces cfg s.ops (c, s) :=
  ⟨⟨[], by simp⟩, fun n h1 h2 _ => by
    have : n < s.ops.length := h2
    omega⟩

theorem surfLoop_refl (cfg : Cfg) (s : EE) : SurfacesLoop cfg s.ops (none, s) :=
  ⟨⟨[], by simp⟩, fun n h1 h2 _ => by
    have : n < s.ops.length := h2
    omega⟩

theorem surf_flashOp (cfg : Cfg) (s : EE) (op : FlashOp) : Surfaces cfg s.ops (flashOp cfg s op) := by
  refine ⟨⟨[op], rfl⟩, fun n h1 h2 _ => ?_⟩
  have h3 : n < (s.ops ++ [op]).length := h2
  rw [List.length_append, List.length_singleton] at h3
  have e : n = s.ops.length := by omega
  subst e
  refine ⟨rfl, ?_⟩
  show s.ops.length + 1 = (s.ops ++ [op]).length
  rw [List.length_append, List.length_singleton]

theorem surf_bind {cfg : Cfg} {ops0 : List FlashOp} {r1 r2 : Nat × EE}
    (h1 : Surfaces cfg ops0 r1) (h2 : r1.1 = FLASH_COMPLETE → Surfaces cfg r1.2.ops r2) :
    Surfaces cfg ops0 (if r1.1 ≠ FLASH_COMPLETE then r1 else r2) := by
  by_cases hc : r1.1 ≠ FLASH_COMPLETE
  · rw [if_pos hc]; exact h1
  · rw [if_neg hc]
    have hc' : r1.1 = FLASH_COMPLETE := by
      by_contra h; exact hc h
    obtain ⟨⟨l1, e1⟩, f1⟩ := h1
    obtain ⟨⟨l2, e2⟩, f2⟩ := h2 hc'
    refine ⟨⟨l1 ++ l2, by rw [e2, e1, List.append_assoc]⟩, fun n a b c => ?_⟩
    by_cases hn : n < r1.2.ops.length
    · exact absurd ((f1 n a hn c).1.symm.trans hc') c
    · exact f2 n (by omega) b c

theorem surf_bind_loop {cfg : Cfg} {ops0 : List FlashOp} {r1 : Nat × EE} {r2 : Option Nat × EE}
    (h1 : Surfaces cfg ops0 r1) (h2 : r1.1 = FLASH_COMPLETE → SurfacesLoop cfg r1.2.ops r2) :
    SurfacesLoop cfg ops0 (if r1.1 ≠ FLASH_COMPLETE then (some r1.1, r1.2) else r2) := by
  by_cases hc : r1.1 ≠ FLASH_COMPLETE
  · rw [if_pos hc]
    refine ⟨h1.1, fun n a b c => ?_⟩
    have := h1.2 n a b c
    exact ⟨by rw [this.1], this.2⟩
  · rw [if_neg hc]
    have hc' : r1.1 = FLASH_COMPLETE := by
      by_contra h; exact hc h
    obtain ⟨⟨l1, e1⟩, f1⟩ := h1
    obtain ⟨⟨l2, e2⟩, f2⟩ := h2 hc'
    refine ⟨⟨l1 ++ l2, by rw [e2, e1, List.append_assoc]⟩, fun n a b c => ?_⟩
    by_cases hn : n < r1.2.ops.length
    · exact absurd ((f1 n a hn c).1.symm.trans hc') c
    · exact f2 n (by omega) b c

theorem surf_after_loop {cfg : Cfg} {ops0 : List FlashOp} {r3 : Option Nat × EE} {cont : Nat × EE}
    (h1 : SurfacesLoop cfg ops0 r3) (h2 : r3.1 = none → Surfaces cfg r3.2.ops cont) :
    (∀ st, r3.1 = some st → Surfaces cfg ops0 (st, r3.2)) ∧
    (r3.1 = none → Surfaces cfg ops0 cont) := by
  constructor
  · intro st hst
    refine ⟨h1.1, fun n a b c => ?_⟩
    have := h1.2 n a b c
    rw [hst] at this
    exact ⟨(Option.some.inj this.1), this.2⟩
  · intro hnone
    obtain ⟨⟨l1, e1⟩, f1⟩ := h1
    obtain ⟨⟨l2, e2⟩, f2⟩ := h2 hnone
    refine ⟨⟨l1 ++ l2, by rw [e2, e1, List.append_assoc]⟩, fun n a b c => ?_⟩
    by_cases hn : n < r3.2.ops.length
    · have := (f1 n a hn c).1
      rw [hnone] at this
      cases this
    · exact f2 n (by omega) b c

theorem surf_scan (cfg : Cfg) (pg e k v : Nat) (fuel : Nat) :
    ∀ (s : EE) (a : Nat),
      Surfaces cfg s.ops (EE_VerifyPageFullWriteVariable.scan cfg s pg e k v fuel a) := by
  induction fuel with
  | zero => intro s a; exact surf_refl cfg s _
  | succ fuel ih =>
    intro s a
    rw [EE_VerifyPageFullWriteVariable.scan]
    by_cases h1 : a < e
    · rw [if_pos h1]
      by_cases h2 : read32 s.flash pg a = 0xFFFFFFFF
      · rw [if_pos h2]
        exact surf_bind (surf_flashOp cfg s _) (fun _ => surf_flashOp cfg _ _)
      · rw [if_neg h2]; exact ih s (a + 4)
    · rw [if_neg h1]; exact surf_refl cfg s _

theorem surf_VPF (cfg : Cfg) (s : EE) (k v : Nat) :
    Surfaces cfg s.ops (EE_VerifyPageFullWriteVariable cfg s k v) := by
  unfold EE_VerifyPageFullWriteVariable
  by_cases h : EE_FindValidPage cfg s.flash WRITE_IN_VALID_PAGE = NO_VALID_PAGE
  · simp only [if_pos h]; exact surf_refl cfg s _
  · simp only [if_neg h]; exact surf_scan cfg _ _ _ _ _ s 0

theorem surf_transfer_loop (cfg : Cfg) (k : Nat) (l : List Nat) :
    ∀ s : EE, SurfacesLoop cfg s.ops (EE_PageTransfer.loop cfg k l s) := by
  induction l with
  | nil => intro s; exact surfLoop_refl cfg s
  | cons t rest ih =>
    intro s
    rw [EE_PageTransfer.loop]
    by_cases h1 : t ≠ k
    · rw [if_pos h1]
      by_cases h2 : (EE_ReadVariable cfg s.flash t s.DataVar).1 ≠ 0x1
      · simp only [if_pos h2]
        exact surf_bind_loop
          (surf_VPF cfg { flash := s.flash, DataVar := _, ops := s.ops } t _) (fun _ => ih _)
      · simp only [if_neg h2]
        exact ih { flash := s.flash, DataVar := _, ops := s.ops }
    · rw [if_neg h1]; exact ih s

theorem surf_init_transfer (cfg : Cfg) (np : Nat) (l : List Nat) :
    ∀ (idx : Nat) (x : Int) (s : EE),
      SurfacesLoop cfg s.ops (EE_Init.transfer cfg np l idx x s) := by
  induction l with
  | nil => intro idx x s; exact surfLoop_refl cfg s
  | cons t rest ih =>
    intro idx x s
    rw [EE_Init.transfer]
    dsimp only
    generalize (if hw s.flash np 6 = t then (idx : Int) else x) = x1
    by_cases h1 : (idx : Int) ≠ x1
    · rw [if_pos h1]
      by_cases h2 : (EE_ReadVariable cfg s.flash t s.DataVar).1 ≠ 0x1
      · rw [if_pos h2]
        exact surf_bind_loop
          (surf_VPF cfg { flash := s.flash, DataVar := _, ops := s.ops } t _)
          (fun _ => ih _ _ _)
      · rw [if_neg h2]
        exact ih _ _ { flash := s.flash, DataVar := _, ops := s.ops }
    · rw [if_neg h1]; exact ih _ _ s

theorem surf_format_loop (cfg : Cfg) (ip : Nat) (fuel : Nat) :
    ∀ (i st : Nat) (s : EE), Surfaces cfg s.ops (EE_Format.loop cfg ip fuel i st s) := by
  induction fuel with
  | zero => intro i st s; exact surf_refl cfg s _
  | succ fuel ih =>
    intro i st s
    rw [EE_Format.loop]
    by_cases h1 : i < cfg.PAGE_NUM
    · rw [if_pos h1]
      by_cases h2 : i = ip
      · simp only [if_pos h2]
        exact surf_bind (surf_flashOp cfg s _)
          (fun _ => surf_bind (surf_flashOp cfg _ _) (fun _ => ih _ _ _))
      · simp only [if_neg h2]
        exact surf_bind (surf_flashOp cfg s _) (fun _ => ih _ _ _)
    · rw [if_neg h1]; exact surf_refl cfg s _

theorem surf_tail {cfg : Cfg} {ops0 : List FlashOp} {r : Nat × EE} (h : Surfaces cfg ops0 r) :
    Surfaces cfg ops0 (if r.1 ≠ FLASH_COMPLETE then r else (FLASH_COMPLETE, r.2)) :=
  surf_bind h (fun _ => surf_refl cfg r.2 _)

theorem surf_eta {cfg : Cfg} {ops0 : List FlashOp} {r : Nat × EE} (h : Surfaces cfg ops0 r) :
    Surfaces cfg ops0 (if r.1 ≠ FLASH_COMPLETE then r else (r.1, r.2)) := by
  by_cases hc : r.1 ≠ FLASH_COMPLETE
  · rw [if_pos hc]; exact h
  · rw [if_neg hc]; exact h

theorem surf_pageTransfer (cfg : Cfg) (s : EE) (k v : Nat) :
    Surfaces cfg s.ops (EE_PageTransfer cfg s k v) := by
  unfold EE_PageTransfer
  by_cases h0 : EE_FindValidPage cfg s.flash READ_FROM_VALID_PAGE ≠ NO_VALID_PAGE
  · simp only [if_pos h0]
    refine surf_bind (surf_flashOp cfg s _) (fun _ => ?_)
    refine surf_bind (surf_VPF cfg _ k v) (fun _ => ?_)
    have hl := surf_transfer_loop cfg k cfg.VirtAddVarTab
      (EE_VerifyPageFullWriteVariable cfg (FLASH_ProgramHalfWord cfg s
        ((EE_FindValidPage cfg s.flash READ_FROM_VALID_PAGE + 1) % cfg.PAGE_NUM) 0
        RECEIVE_DATA).2 k v).2
    have hc := surf_after_loop hl (fun _ =>
      surf_bind (surf_flashOp cfg _ (.erase (EE_FindValidPage cfg s.flash READ_FROM_VALID_PAGE)))
        (fun _ => surf_eta (surf_flashOp cfg _
          (.program ((EE_FindValidPage cfg s.flash READ_FROM_VALID_PAGE + 1) % cfg.PAGE_NUM) 0
            VALID_PAGE))))
    cases hr : (EE_PageTransfer.loop cfg k cfg.VirtAddVarTab
      (EE_VerifyPageFullWriteVariable cfg (FLASH_ProgramHalfWord cfg s
        ((EE_FindValidPage cfg s.flash READ_FROM_VALID_PAGE + 1) % cfg.PAGE_NUM) 0
        RECEIVE_DATA).2 k v).2).1 with
    | some st => exact hc.1 st hr
    | none =>
      exact hc.2 hr
  · simp only [if_neg h0]; exact surf_refl cfg s _

theorem surf_write {cfg : Cfg} (hdrv : cfg.DriverOk) (s : EE) (k v : Nat) :
    Surfaces cfg s.ops (EE_WriteVariable cfg s k v) := by
  unfold EE_WriteVariable
  have h1 := surf_VPF cfg s k v
  by_cases hc : (EE_VerifyPageFullWriteVariable cfg s k v).1 = PAGE_FULL
  · simp only [if_pos hc]
    have h2 := surf_pageTransfer cfg (EE_VerifyPageFullWriteVariable cfg s k v).2 k v
    obtain ⟨⟨l1, e1⟩, f1⟩ := h1
    obtain ⟨⟨l2, e2⟩, f2⟩ := h2
    refine ⟨⟨l1 ++ l2, by rw [e2, e1, List.append_assoc]⟩, fun n a b c => ?_⟩
    by_cases hn : n < (EE_VerifyPageFullWriteVariable cfg s k v).2.ops.length
    · exact absurd ((f1 n a hn c).1.symm.trans hc) (hdrv n)
    · exact f2 n (by omega) b c
  · simp only [if_neg hc]; exact h1

theorem surf_format (cfg : Cfg) (s : EE) (ip : Nat) : Surfaces cfg s.ops (EE_Format cfg s ip) :=
  surf_format_loop cfg ip _ _ _ s

theorem surf_init (cfg : Cfg) (s : EE) : Surfaces cfg s.ops (EE_Init cfg s) := by
  unfold EE_Init
  lift_lets
  intro page_status l1 l2 page_idx current_page is_pages_invalid initial_page rf
    current_page_status next_page r1 r2 r3 r4 r5 r6
  by_cases c0 : (is_pages_invalid || decide (current_page = NO_VALID_PAGE)) = true
  · rw [if_pos c0]
    exact surf_tail (surf_format cfg s initial_page)
  rw [if_neg c0]
  by_cases c1 : current_page_status = ERASED
  · rw [if_pos c1]; exact surf_refl cfg s _
  rw [if_neg c1]
  by_cases c2 : current_page_status = RECEIVE_DATA
  · rw [if_pos c2]
    exact surf_bind (surf_flashOp cfg s _) (fun _ => surf_tail (surf_flashOp cfg _ _))
  rw [if_neg c2]
  by_cases c3 : current_page_status = VALID_PAGE
  · rw [if_pos c3]
    by_cases c4 : page_status next_page = RECEIVE_DATA
    · rw [if_pos c4]
      have hl : SurfacesLoop cfg s.ops r3 := surf_init_transfer cfg next_page _ 0 (-1) s
      have hc := surf_after_loop hl (fun _ =>
        surf_bind (surf_flashOp cfg r3.2 (.erase current_page))
          (fun _ => surf_tail (surf_flashOp cfg _ (.program next_page 0 VALID_PAGE))))
      cases hr : r3.1 with
      | some st => exact hc.1 st hr
      | none => exact hc.2 hr
    · rw [if_neg c4]
      by_cases c5 : page_status next_page = ERASED
      · rw [if_pos c5]; exact surf_tail (surf_flashOp cfg s _)
      · rw [if_neg c5]; exact surf_refl cfg s _
  · rw [if_neg c3]; exact surf_refl cfg s _

/-- C16: flash errors are surfaced verbatim and abort the operation.  The flash
driver returns a status per program/erase call (`cfg.drv n` for the `n`-th
operation issued).  For every state, an `EE_WriteVariable` or `EE_Init` call
only appends to the log of issued operations, and if an operation it issued
returned a status other than `FLASH_COMPLETE`, the call returns exactly that
status and that operation is the last one it issued. -/
theorem C16_flash_errors_surfaced {cfg : Cfg} (hdrv : cfg.DriverOk) (s : EE) (k v : Nat) :
    ((∃ issued, (EE_WriteVariable cfg s k v).2.ops = s.ops ++ issued) ∧
      ∀ n, s.ops.length ≤ n → n < (EE_WriteVariable cfg s k v).2.ops.length →
        cfg.drv n ≠ FLASH_COMPLETE →
        (EE_WriteVariable cfg s k v).1 = cfg.drv n ∧
        n + 1 = (EE_WriteVariable cfg s k v).2.ops.length) ∧
    ((∃ issued, (EE_Init cfg s).2.ops = s.ops ++ issued) ∧
      ∀ n, s.ops.length ≤ n → n < (EE_Init cfg s).2.ops.length →
        cfg.drv n ≠ FLASH_COMPLETE →
        (EE_Init cfg s).1 = cfg.drv n ∧ n + 1 = (EE_Init cfg s).2.ops.length) :=
  ⟨surf_write hdrv s k v, surf_init cfg s⟩

theorem C16_flash_errors_surfaced_witness :
    faultyCfg.DriverOk ∧
    ((stateOf [[0, 0xFFFF, 7, 1]]).ops.length ≤ 1 ∧
      1 < (EE_WriteVariable faultyCfg (stateOf [[0, 0xFFFF, 7, 1]]) 1 8).2.ops.length ∧
      faultyCfg.drv 1 ≠ FLASH_COMPLETE) ∧
    (EE_WriteVariable faultyCfg (stateOf [[0, 0xFFFF, 7, 1]]) 1 8).1 = faultyCfg.drv 1 ∧
    1 + 1 = (EE_WriteVariable faultyCfg (stateOf [[0, 0xFFFF, 7, 1]]) 1 8).2.ops.length :=
  have hdrv : faultyCfg.DriverOk := fun n => by
    show (if n = 1 then 2 else FLASH_COMPLETE) ≠ PAGE_FULL
    split <;> decide
  ⟨hdrv, by decide,
   (C16_flash_errors_surfaced hdrv (stateOf [[0, 0xFFFF, 7, 1]]) 1 8).1.2 1 (by decide)
     (by decide) (by decide)⟩

/-! ## Appending to a page whose tail is erased -/

theorem hw_two (fl : Flash) (pg a b x y q o : Nat) (h : q ≠ pg ∨ (o ≠ a ∧ o ≠ b)) :
    hw (applyOps [.program pg a x, .program pg b y] fl) q o = hw fl q o := by
  simp only [applyOps]
  have c1 : ¬ (q = pg ∧ o = b) := fun hc => by
    rcases h with h | h
    · exact h hc.1
    · exact h.2 hc.2
  have c2 : ¬ (q = pg ∧ o = a) := fun hc => by
    rcases h with h | h
    · exact h hc.1
    · exact h.1 hc.2
  rw [hw_program, if_neg c1, hw_program, if_neg c2]

theorem VPF_tail {cfg : Cfg} (hd : cfg.FlashOk) (hg : cfg.Geom) (s : EE) (k v j : Nat)
    (hwp : EE_FindValidPage cfg s.flash WRITE_IN_VALID_PAGE ≠ NO_VALID_PAGE)
    (hh : hw s.flash (EE_FindValidPage cfg s.flash WRITE_IN_VALID_PAGE) 0 ≠ 0xFFFF)
    (ht : TailFree cfg s.flash (EE_FindValidPage cfg s.flash WRITE_IN_VALID_PAGE) j)
    (hj : j < cfg.slots) :
    ∃ m, 1 ≤ m ∧ m ≤ j + 1 ∧
      EE_VerifyPageFullWriteVariable cfg s k v
        = (FLASH_COMPLETE,
            { flash := applyOps
                [.program (EE_FindValidPage cfg s.flash WRITE_IN_VALID_PAGE) (4 * m) v,
                 .program (EE_FindValidPage cfg s.flash WRITE_IN_VALID_PAGE) (4 * m + 2) k]
                s.flash,
              DataVar := s.DataVar,
              ops := s.ops ++
                [.program (EE_FindValidPage cfg s.flash WRITE_IN_VALID_PAGE) (4 * m) v,
                 .program (EE_FindValidPage cfg s.flash WRITE_IN_VALID_PAGE) (4 * m + 2) k] }) := by
  have hex : ∃ m, read32 s.flash (EE_FindValidPage cfg s.flash WRITE_IN_VALID_PAGE) (4 * m)
      = 0xFFFFFFFF := by
    refine ⟨j + 1, ?_⟩
    rw [read32_free]
    have e1 : 4 * (j + 1) = 4 * j + 4 := by omega
    have e2 : 4 * (j + 1) + 2 = 4 * j + 6 := by omega
    rw [e2, e1]
    exact ht j (le_refl _) hj
  have hle : Nat.find hex ≤ j + 1 := Nat.find_min' hex (by
    rw [read32_free]
    have e1 : 4 * (j + 1) = 4 * j + 4 := by omega
    have e2 : 4 * (j + 1) + 2 = 4 * j + 6 := by omega
    rw [e2, e1]
    exact ht j (le_refl _) hj)
  have hpos : 1 ≤ Nat.find hex := by
    rcases Nat.eq_zero_or_pos (Nat.find hex) with h0 | h0
    · exfalso
      have := Nat.find_spec hex
      rw [h0, read32_free] at this
      exact hh this.1
    · exact h0
  refine ⟨Nat.find hex, hpos, hle, ?_⟩
  unfold EE_VerifyPageFullWriteVariable
  simp only [if_neg hwp]
  rw [geom_end hg]
  have hfuel : Nat.find hex < 0 + cfg.PAGE_SIZE := by
    unfold Cfg.slots at hj
    unfold Cfg.Geom at hg
    omega
  have := write_scan_found hd s (EE_FindValidPage cfg s.flash WRITE_IN_VALID_PAGE) k v cfg.slots
    cfg.PAGE_SIZE 0 (Nat.find hex) (Nat.zero_le _) (by omega) hfuel
    (fun j' _ h2 => Nat.find_min hex h2) (Nat.find_spec hex)
  rw [Nat.mul_zero] at this
  exact this

theorem receiving_find_write {cfg : Cfg} {fl : Flash} {src dst j : Nat}
    (h : Receiving cfg fl src dst j) : EE_FindValidPage cfg fl WRITE_IN_VALID_PAGE = dst := by
  obtain ⟨h1, h2, h3, _⟩ := h
  rw [find_write h1]
  rw [h2] at h3
  rw [if_pos h3, h2]

theorem receiving_append {cfg : Cfg} (hd : cfg.FlashOk) (hg : cfg.Geom) (hp : cfg.PagesOk)
    (s : EE) (src dst j : Nat) (h : Receiving cfg s.flash src dst j) (hj : j < cfg.slots)
    (k v : Nat) :
    (EE_VerifyPageFullWriteVariable cfg s k v).1 = FLASH_COMPLETE ∧
    Receiving cfg (EE_VerifyPageFullWriteVariable cfg s k v).2.flash src dst (j + 1) := by
  have hwp := receiving_find_write h
  have hdst : dst < cfg.PAGE_NUM := by rw [h.2.1]; exact next_lt hp src
  obtain ⟨m, hm1, hm2, hv⟩ := VPF_tail hd hg s k v j
    (by rw [hwp]; exact page_ne_sentinel hp hdst)
    (by rw [hwp, h.2.2.1]; decide) (by rw [hwp]; exact h.2.2.2) hj
  rw [hwp] at hv
  rw [hv]
  refine ⟨rfl, ?_, h.2.1, ?_, ?_⟩
  · exact uniqueValid_congr h.1 (fun q => hw_two _ _ _ _ _ _ _ _ (Or.inr ⟨by omega, by omega⟩))
  · show hw (applyOps _ s.flash) dst 0 = RECEIVE_DATA
    rw [hw_two _ _ _ _ _ _ _ _ (Or.inr ⟨by omega, by omega⟩)]
    exact h.2.2.1
  · intro i hi1 hi2
    show hw (applyOps _ s.flash) dst (4 * i + 4) = 0xFFFF ∧
      hw (applyOps _ s.flash) dst (4 * i + 6) = 0xFFFF
    rw [hw_two _ _ _ _ _ _ _ _ (Or.inr ⟨by omega, by omega⟩),
      hw_two _ _ _ _ _ _ _ _ (Or.inr ⟨by omega, by omega⟩)]
    exact h.2.2.2 i (by omega) hi2

theorem receiving_loop {cfg : Cfg} (hd : cfg.FlashOk) (hg : cfg.Geom) (hp : cfg.PagesOk)
    (k : Nat) (src dst : Nat) (l : List Nat) :
    ∀ (s : EE) (j : Nat), Receiving cfg s.flash src dst j → j + l.length ≤ cfg.slots →
      (EE_PageTransfer.loop cfg k l s).1 = none ∧
      ∃ j', Receiving cfg (EE_PageTransfer.loop cfg k l s).2.flash src dst j' := by
  induction l with
  | nil =>
    intro s j h _
    exact ⟨rfl, j, h⟩
  | cons t rest ih =>
    intro s j h hfit
    have hl : (t :: rest).length = rest.length + 1 := List.length_cons _ _
    rw [EE_PageTransfer.loop]
    by_cases h1 : t ≠ k
    · rw [if_pos h1]
      by_cases h2 : (EE_ReadVariable cfg s.flash t s.DataVar).1 ≠ 0x1
      · simp only [if_pos h2]
        have ha := receiving_append hd hg hp
          { flash := s.flash, DataVar := (EE_ReadVariable cfg s.flash t s.DataVar).2, ops := s.ops }
          src dst j h (by omega) t (EE_ReadVariable cfg s.flash t s.DataVar).2
        have c : ¬ (EE_VerifyPageFullWriteVariable cfg
            { flash := s.flash, DataVar := (EE_ReadVariable cfg s.flash t s.DataVar).2,
              ops := s.ops } t (EE_ReadVariable cfg s.flash t s.DataVar).2).1
            ≠ FLASH_COMPLETE := fun hc => hc ha.1
        rw [if_neg c]
        exact ih _ (j + 1) ha.2 (by omega)
      · simp only [if_neg h2]
        exact ih { flash := s.flash, DataVar := _, ops := s.ops } j h (by omega)
    · rw [if_neg h1]
      exact ih s j h (by omega)

theorem receiving_start {cfg : Cfg} (hg : cfg.Geom) (hp : cfg.PagesOk) {fl : Flash} {p : Nat}
    (hu : UniqueValid cfg fl p) (he : PageErased cfg fl ((p + 1) % cfg.PAGE_NUM)) :
    Receiving cfg (FlashOp.apply (.program ((p + 1) % cfg.PAGE_NUM) 0 RECEIVE_DATA) fl) p
      ((p + 1) % cfg.PAGE_NUM) 0 := by
  have hne := next_ne hp hu.1
  refine ⟨⟨hu.1, ?_, ?_⟩, rfl, ?_, ?_⟩
  · rw [hw_receive hg he, if_neg (fun hc => hne hc.1.symm)]
    exact hu.2.1
  · intro q hq hv
    rw [hw_receive hg he] at hv
    by_cases hc : q = (p + 1) % cfg.PAGE_NUM ∧ 0 = 0
    · rw [if_pos hc] at hv
      exact absurd hv (by decide)
    · rw [if_neg hc] at hv
      exact hu.2.2 q hq hv
  · rw [hw_receive hg he, if_pos ⟨rfl, rfl⟩]
  · intro i _ hi
    have c1 : ¬ ((p + 1) % cfg.PAGE_NUM = (p + 1) % cfg.PAGE_NUM ∧ 4 * i + 4 = 0) :=
      fun hc => by omega
    have c2 : ¬ ((p + 1) % cfg.PAGE_NUM = (p + 1) % cfg.PAGE_NUM ∧ 4 * i + 6 = 0) :=
      fun hc => by omega
    rw [hw_receive hg he, if_neg c1, hw_receive hg he, if_neg c2]
    unfold Cfg.slots at hi
    unfold Cfg.Geom at hg
    exact ⟨he _ (by omega), he _ (by omega)⟩

theorem transfer_completes {cfg : Cfg} (hd : cfg.FlashOk) (hg : cfg.Geom) (hp : cfg.PagesOk)
    (hcap : cfg.NB_OF_VAR + 1 ≤ cfg.slots) (s : EE) (p : Nat)
    (hu : UniqueValid cfg s.flash p) (he : PageErased cfg s.flash ((p + 1) % cfg.PAGE_NUM))
    (k v : Nat) :
    (EE_PageTransfer cfg s k v).1 = FLASH_COMPLETE ∧
    UniqueValid cfg (EE_PageTransfer cfg s k v).2.flash ((p + 1) % cfg.PAGE_NUM) ∧
    PageErased cfg (EE_PageTransfer cfg s k v).2.flash p := by
  unfold EE_PageTransfer
  lift_lets
  intro ValidPage NewPage OldPage r1 r2 r3 r4 r5
  have hV : ValidPage = p := find_read hu
  have hN : NewPage = (p + 1) % cfg.PAGE_NUM := by
    show (ValidPage + 1) % cfg.PAGE_NUM = _
    rw [hV]
  have hO : OldPage = p := hV
  have c0 : ValidPage ≠ NO_VALID_PAGE := by rw [hV]; exact page_ne_sentinel hp hu.1
  rw [if_pos c0]
  have f1 : r1.1 = FLASH_COMPLETE := hd _
  have g1 : r1.2.flash = FlashOp.apply (.program ((p + 1) % cfg.PAGE_NUM) 0 RECEIVE_DATA) s.flash := by
    show (if cfg.drv s.ops.length = FLASH_COMPLETE then
      FlashOp.apply (.program NewPage 0 RECEIVE_DATA) s.flash else s.flash) = _
    rw [if_pos (hd _), hN]
  have c1 : ¬ r1.1 ≠ FLASH_COMPLETE := fun hc => hc f1
  rw [if_neg c1]
  have hslots : 0 < cfg.slots := by omega
  have hr1 : Receiving cfg r1.2.flash p ((p + 1) % cfg.PAGE_NUM) 0 := by
    rw [g1]; exact receiving_start hg hp hu he
  have h2 := receiving_append hd hg hp r1.2 p _ 0 hr1 hslots k v
  have c2 : ¬ r2.1 ≠ FLASH_COMPLETE := fun hc => hc h2.1
  rw [if_neg c2]
  have h3 := receiving_loop hd hg hp k p _ cfg.VirtAddVarTab r2.2 1 h2.2
    (by unfold Cfg.NB_OF_VAR at hcap; omega)
  have h3n : r3.1 = none := h3.1
  obtain ⟨j', h3r⟩ := h3.2
  have h3r' : Receiving cfg r3.2.flash p ((p + 1) % cfg.PAGE_NUM) j' := h3r
  simp only [h3n]
  have f4 : r4.1 = FLASH_COMPLETE := hd _
  have g4 : r4.2.flash = FlashOp.apply (.erase p) r3.2.flash := by
    show (if cfg.drv r3.2.ops.length = FLASH_COMPLETE then
      FlashOp.apply (.erase OldPage) r3.2.flash else r3.2.flash) = _
    rw [if_pos (hd _), hO]
  have c4 : ¬ r4.1 ≠ FLASH_COMPLETE := fun hc => hc f4
  rw [if_neg c4]
  have f5 : r5.1 = FLASH_COMPLETE := hd _
  have g5 : r5.2.flash
      = FlashOp.apply (.program ((p + 1) % cfg.PAGE_NUM) 0 VALID_PAGE) r4.2.flash := by
    show (if cfg.drv r4.2.ops.length = FLASH_COMPLETE then
      FlashOp.apply (.program NewPage 0 VALID_PAGE) r4.2.flash else r4.2.flash) = _
    rw [if_pos (hd _), hN]
  have c5 : ¬ r5.1 ≠ FLASH_COMPLETE := fun hc => hc f5
  rw [if_neg c5]
  have hne := next_ne hp hu.1
  have hfin : ∀ q o, hw r5.2.flash q o
      = if q = (p + 1) % cfg.PAGE_NUM ∧ o = 0 then VALID_PAGE
        else if q = p then 0xFFFF else hw r3.2.flash q o := by
    intro q o
    rw [g5, hw_program, g4, hw_erase, hw_erase]
    by_cases hc : q = (p + 1) % cfg.PAGE_NUM ∧ o = 0
    · rw [if_pos hc, if_pos hc]
      simp [VALID_PAGE]
    · rw [if_neg hc, if_neg hc]
  refine ⟨f5, ⟨next_lt hp p, ?_, ?_⟩, ?_⟩
  · show hw r5.2.flash _ 0 = VALID_PAGE
    rw [hfin, if_pos ⟨rfl, rfl⟩]
  · intro q hq hv
    have hv' : hw r5.2.flash q 0 = VALID_PAGE := hv
    rw [hfin] at hv'
    by_cases hc : q = (p + 1) % cfg.PAGE_NUM ∧ 0 = 0
    · exact hc.1
    · rw [if_neg hc] at hv'
      by_cases hqp : q = p
      · rw [if_pos hqp] at hv'
        exact absurd hv' (by decide)
      · rw [if_neg hqp] at hv'
        exact absurd (h3r'.1.2.2 q hq hv') hqp
  · intro o _
    show hw r5.2.flash p o = 0xFFFF
    rw [hfin, if_neg (fun hc => hne hc.1.symm), if_pos rfl]

theorem write_never_full {cfg : Cfg} (hd : cfg.FlashOk) (hg : cfg.Geom) (hp : cfg.PagesOk)
    (hcap : cfg.NB_OF_VAR + 1 ≤ cfg.slots) (s : EE) (p : Nat)
    (hu : UniqueValid cfg s.flash p)
    (he : ∀ q, q < cfg.PAGE_NUM → q ≠ p → PageErased cfg s.flash q) (k v : Nat) :
    (EE_WriteVariable cfg s k v).1 = FLASH_COMPLETE ∧
    ((EE_VerifyPageFullWriteVariable cfg s k v).1 = PAGE_FULL →
      UniqueValid cfg (EE_WriteVariable cfg s k v).2.flash ((p + 1) % cfg.PAGE_NUM) ∧
      PageErased cfg (EE_WriteVariable cfg s k v).2.flash p) := by
  have hsucc := he _ (next_lt hp p) (next_ne hp hu.1)
  have hwp : EE_FindValidPage cfg s.flash WRITE_IN_VALID_PAGE = p := by
    rw [find_write hu, erased_hw hg hsucc, if_neg (by decide)]
  have hV : EE_VerifyPageFullWriteVariable cfg s k v = (PAGE_FULL, s) ∨
      (EE_VerifyPageFullWriteVariable cfg s k v).1 = FLASH_COMPLETE := by
    unfold EE_VerifyPageFullWriteVariable
    simp only [hwp]
    rw [if_neg (page_ne_sentinel hp hu.1)]
    have hc := write_scan_cases hd s p (cfg.PAGE_SIZE - 2) k v cfg.PAGE_SIZE 0
    rw [Nat.mul_zero] at hc
    rcases hc with h1 | ⟨j, _, _, h1⟩
    · left; exact h1
    · right; rw [h1]
  rcases hV with h1 | h1
  · have hW : EE_WriteVariable cfg s k v = EE_PageTransfer cfg s k v := by
      unfold EE_WriteVariable
      simp only [h1]
      rfl
    rw [hW]
    have := transfer_completes hd hg hp hcap s p hu hsucc k v
    exact ⟨this.1, fun _ => this.2⟩
  · have c : ¬ (EE_VerifyPageFullWriteVariable cfg s k v).1 = PAGE_FULL := by
      rw [h1]; decide
    have hW : EE_WriteVariable cfg s k v = EE_VerifyPageFullWriteVariable cfg s k v := by
      unfold EE_WriteVariable
      exact if_neg c
    rw [hW]
    exact ⟨h1, fun hc => absurd hc c⟩

theorem fresh_fill_steady {cfg : Cfg} (hd : cfg.FlashOk) (hg : cfg.Geom) (hp : cfg.PagesOk)
    (s : EE) (he : ∀ q, q < cfg.PAGE_NUM → PageErased cfg s.flash q)
    (ws : List (Nat × Nat)) (hws : ∀ w ∈ ws, w.1 < 0xFFFF ∧ w.2 < 65536)
    (hfit : ws.length ≤ cfg.slots) :
    Steady cfg (writeAll cfg (EE_Init cfg s).2 ws).2.flash 0 (recordsOf ws) := by
  have hf := (erased_fresh hd hg hp s he).2
  have h0 : 0 < cfg.PAGE_NUM := by unfold Cfg.PagesOk at hp; omega
  have hst := formatted_steady hg h0 hf
  have := (writeAll_fill hd hg hp ws (EE_Init cfg s).2 0 [] hst hws (by simpa using hfit)).2.2.2
  rw [List.nil_append] at this
  exact this

theorem fillWrites_ok : (∀ w ∈ fillWrites, w.1 < 0xFFFF ∧ w.2 < 65536) ∧ fillWrites.length = 255 := by
  constructor
  · intro w hw
    simp only [fillWrites, List.mem_map, List.mem_range] at hw
    obtain ⟨i, hi, rfl⟩ := hw
    exact ⟨by show (1 : Nat) < 0xFFFF; decide, by show i < 65536; omega⟩
  · simp [fillWrites]

/-- C15: `PAGE_FULL` is never surfaced.  With the configuration of the
repository (6 pages of 1024 bytes, a key table of `NB_OF_VAR = 22` entries) and
every flash operation succeeding, in every state with exactly one `VALID_PAGE`
page and all other pages erased, `EE_WriteVariable(k, v)` returns
`FLASH_COMPLETE`, hence never `PAGE_FULL`; when the append finds the valid
page full, the call ends in a completed transfer: the next page is the only
valid page and the old page is erased. -/
theorem C15_page_full_never_surfaced (tab : List Nat) (htab : tab.length = 22) (s : EE)
    (p : Nat) (hu : UniqueValid (repoCfg tab) s.flash p)
    (he : ∀ q, q < (repoCfg tab).PAGE_NUM → q ≠ p → PageErased (repoCfg tab) s.flash q)
    (k v : Nat) :
    (EE_WriteVariable (repoCfg tab) s k v).1 ≠ PAGE_FULL ∧
    (EE_WriteVariable (repoCfg tab) s k v).1 = FLASH_COMPLETE ∧
    ((EE_VerifyPageFullWriteVariable (repoCfg tab) s k v).1 = PAGE_FULL →
      UniqueValid (repoCfg tab) (EE_WriteVariable (repoCfg tab) s k v).2.flash
        ((p + 1) % (repoCfg tab).PAGE_NUM) ∧
      PageErased (repoCfg tab) (EE_WriteVariable (repoCfg tab) s k v).2.flash p) := by
  obtain ⟨hg, hp, hd, hs, hc⟩ := repoCfg_ok tab htab
  have h := write_never_full hd hg hp (by omega) s p hu he k v
  refine ⟨?_, h.1, h.2⟩
  rw [h.1]
  decide

theorem C15_page_full_never_surfaced_witness :
    (sampleTab.length = 22 ∧
      UniqueValid (repoCfg sampleTab)
        (writeAll (repoCfg sampleTab) (EE_Init (repoCfg sampleTab) (stateOf [])).2
          fillWrites).2.flash 0 ∧
      (∀ q, q < (repoCfg sampleTab).PAGE_NUM → q ≠ 0 → PageErased (repoCfg sampleTab)
        (writeAll (repoCfg sampleTab) (EE_Init (repoCfg sampleTab) (stateOf [])).2
          fillWrites).2.flash q)) ∧
    (EE_WriteVariable (repoCfg sampleTab)
      (writeAll (repoCfg sampleTab) (EE_Init (repoCfg sampleTab) (stateOf [])).2 fillWrites).2
      2 0xAAAA).1 ≠ PAGE_FULL ∧
    (EE_WriteVariable (repoCfg sampleTab)
      (writeAll (repoCfg sampleTab) (EE_Init (repoCfg sampleTab) (stateOf [])).2 fillWrites).2
      2 0xAAAA).1 = FLASH_COMPLETE :=
  have hst := @fresh_fill_steady (repoCfg sampleTab) (fun _ => rfl) (by decide) (by decide)
    (stateOf []) (fun q _ => stateOf_nil_erased _ q) fillWrites fillWrites_ok.1
    (by rw [fillWrites_ok.2]; decide)
  have H := C15_page_full_never_surfaced sampleTab (by decide)
    (writeAll (repoCfg sampleTab) (EE_Init (repoCfg sampleTab) (stateOf [])).2 fillWrites).2 0
    hst.1 hst.2.2 2 0xAAAA
  ⟨⟨by decide, hst.1, hst.2.2⟩, H.1, H.2.1⟩

/-! ## Running `EE_Init` a second time -/

theorem VPF_frame {cfg : Cfg} (hd : cfg.FlashOk) (s : EE) (k v : Nat) (q o : Nat)
    (hq : q ≠ EE_FindValidPage cfg s.flash WRITE_IN_VALID_PAGE) :
    hw (EE_VerifyPageFullWriteVariable cfg s k v).2.flash q o = hw s.flash q o := by
  unfold EE_VerifyPageFullWriteVariable
  by_cases hwp : EE_FindValidPage cfg s.flash WRITE_IN_VALID_PAGE = NO_VALID_PAGE
  · simp only [if_pos hwp]
  · simp only [if_neg hwp]
    have hc := write_scan_cases hd s (EE_FindValidPage cfg s.flash WRITE_IN_VALID_PAGE)
      (cfg.PAGE_SIZE - 2) k v cfg.PAGE_SIZE 0
    rw [Nat.mul_zero] at hc
    rcases hc with h1 | ⟨j, _, _, h1⟩
    · rw [h1]
    · rw [h1]
      exact hw_two _ _ _ _ _ _ _ _ (Or.inl hq)

theorem init_transfer_frame {cfg : Cfg} (hd : cfg.FlashOk) (fl0 : Flash) {p : Nat}
    (h : UniqueValid cfg fl0 p) (hn : hw fl0 ((p + 1) % cfg.PAGE_NUM) 0 = RECEIVE_DATA)
    (l : List Nat) :
    ∀ (idx : Nat) (x : Int) (s : EE), (∀ q, hw s.flash q 0 = hw fl0 q 0) →
      (∀ q o, q ≠ (p + 1) % cfg.PAGE_NUM → hw s.flash q o = hw fl0 q o) →
      ∀ q o, q ≠ (p + 1) % cfg.PAGE_NUM →
        hw (EE_Init.transfer cfg ((p + 1) % cfg.PAGE_NUM) l idx x s).2.flash q o = hw fl0 q o := by
  induction l with
  | nil =>
    intro idx x s _ hs
    rw [EE_Init.transfer]
    exact hs
  | cons t rest ih =>
    intro idx x s hh hs
    rw [EE_Init.transfer]
    dsimp only
    generalize (if hw s.flash ((p + 1) % cfg.PAGE_NUM) 6 = t then (idx : Int) else x) = x1
    by_cases h1 : (idx : Int) ≠ x1
    · rw [if_pos h1]
      by_cases h2 : (EE_ReadVariable cfg s.flash t s.DataVar).1 ≠ 1
      · rw [if_pos h2]
        have hwp : EE_FindValidPage cfg s.flash WRITE_IN_VALID_PAGE = (p + 1) % cfg.PAGE_NUM := by
          rw [find_write (uniqueValid_congr h hh), hh, if_pos hn]
        have hne : hw s.flash (EE_FindValidPage cfg s.flash WRITE_IN_VALID_PAGE) 0 ≠ 0xFFFF := by
          rw [hwp, hh, hn]; decide
        have hfh := VPF_headers hd
          ({ flash := s.flash, DataVar := (EE_ReadVariable cfg s.flash t s.DataVar).2,
             ops := s.ops } : EE) t (EE_ReadVariable cfg s.flash t s.DataVar).2 hne
        have hfr : ∀ q o, q ≠ (p + 1) % cfg.PAGE_NUM →
            hw (EE_VerifyPageFullWriteVariable cfg
              ({ flash := s.flash, DataVar := (EE_ReadVariable cfg s.flash t s.DataVar).2,
                 ops := s.ops } : EE) t (EE_ReadVariable cfg s.flash t s.DataVar).2).2.flash q o
              = hw s.flash q o := by
          intro q o hq
          exact VPF_frame hd _ t _ q o (by
            show q ≠ EE_FindValidPage cfg s.flash WRITE_IN_VALID_PAGE
            rw [hwp]; exact hq)
        by_cases h3 : (EE_VerifyPageFullWriteVariable cfg
            ({ flash := s.flash, DataVar := (EE_ReadVariable cfg s.flash t s.DataVar).2,
               ops := s.ops } : EE) t (EE_ReadVariable cfg s.flash t s.DataVar).2).1
              ≠ FLASH_COMPLETE
        · rw [if_pos h3]
          exact fun q o hq => (hfr q o hq).trans (hs q o hq)
        · rw [if_neg h3]
          exact ih _ _ _ (fun q => (hfh q).trans (hh q))
            (fun q o hq => (hfr q o hq).trans (hs q o hq))
      · rw [if_neg h2]
        exact ih _ _ _ hh hs
    · rw [if_neg h1]
      exact ih _ _ _ hh hs

theorem init_again {cfg : Cfg} (hd : cfg.FlashOk) (hp : cfg.PagesOk) (s : EE) {p : Nat}
    (h : Settled cfg s.flash p) :
    (EE_Init cfg s).1 = FLASH_COMPLETE ∧
    ∀ q o, o < cfg.PAGE_SIZE → hw (EE_Init cfg s).2.flash q o = hw s.flash q o := by
  obtain ⟨hu, hn, he⟩ := h
  by_cases hc : hw s.flash ((p + 1) % cfg.PAGE_NUM) 0 = ERASED
  · rw [init_valid_erased hd hp s hu hc]
    refine ⟨rfl, fun q o ho => ?_⟩
    show hw (applyOps [.erase ((p + 1) % cfg.PAGE_NUM)] s.flash) q o = hw s.flash q o
    simp only [applyOps]
    rw [hw_erase]
    by_cases hq : q = (p + 1) % cfg.PAGE_NUM
    · rw [if_pos hq, hq, he hc o ho]
    · rw [if_neg hq]
  · rw [init_valid_other hp s hu hc hn]
    exact ⟨rfl, fun _ _ _ => rfl⟩

theorem formatted_settled {cfg : Cfg} (hg : cfg.Geom) (hp : cfg.PagesOk) {fl : Flash} {p : Nat}
    (hlt : p < cfg.PAGE_NUM) (h : Formatted cfg fl p) : Settled cfg fl p := by
  have hst := formatted_steady hg hlt h
  have he := hst.2.2 _ (next_lt hp p) (next_ne hp hlt)
  refine ⟨hst.1, ?_, fun _ => he⟩
  rw [erased_hw hg he]
  decide

theorem settled_of {cfg : Cfg} {fl : Flash} (hu : ∃ p', UniqueValid cfg fl p') (p : Nat)
    (hlt : p < cfg.PAGE_NUM) (hv : hw fl p 0 = VALID_PAGE)
    (hn : hw fl ((p + 1) % cfg.PAGE_NUM) 0 ≠ RECEIVE_DATA)
    (he : hw fl ((p + 1) % cfg.PAGE_NUM) 0 = ERASED → PageErased cfg fl ((p + 1) % cfg.PAGE_NUM)) :
    Settled cfg fl p := by
  obtain ⟨p', hu'⟩ := hu
  have e : p = p' := hu'.2.2 p hlt hv
  subst e
  exact ⟨hu', hn, he⟩

theorem init_settles {cfg : Cfg} (hd : cfg.FlashOk) (hg : cfg.Geom) (hp : cfg.PagesOk) (s : EE)
    (h1 : (EE_Init cfg s).1 = FLASH_COMPLETE)
    (hT : ∀ p, p < cfg.PAGE_NUM → UniqueValid cfg s.flash p →
      hw s.flash ((p + 1) % cfg.PAGE_NUM) 0 = RECEIVE_DATA →
      ((p + 1) % cfg.PAGE_NUM + 1) % cfg.PAGE_NUM = p ∨
      (hw s.flash (((p + 1) % cfg.PAGE_NUM + 1) % cfg.PAGE_NUM) 0 ≠ RECEIVE_DATA ∧
        (hw s.flash (((p + 1) % cfg.PAGE_NUM + 1) % cfg.PAGE_NUM) 0 = ERASED →
          PageErased cfg s.flash (((p + 1) % cfg.PAGE_NUM + 1) % cfg.PAGE_NUM)))) :
    ∃ p, Settled cfg (EE_Init cfg s).2.flash p := by
  have h0 : 0 < cfg.PAGE_NUM := by unfold Cfg.PagesOk at hp; omega
  have hu' := init_unique hd hg hp s h1
  rcases headers_cases cfg.PAGE_NUM (fun q => hw s.flash q 0) VALID_PAGE with h | h | h
  · rcases headers_cases cfg.PAGE_NUM (fun q => hw s.flash q 0) RECEIVE_DATA with h' | h' | h'
    · rw [init_fresh hd hp s h h']
      exact ⟨0, formatted_settled hg hp h0 (format_formatted cfg s.flash 0)⟩
    · obtain ⟨p, hlt, hr, hu⟩ := h'
      rw [init_promote hd hp s p h hlt hr hu] at hu' ⊢
      have hne := next_ne hp hlt
      have hF : ∀ q o, hw (applyOps [.program p 0 VALID_PAGE, .erase ((p + 1) % cfg.PAGE_NUM)]
          s.flash) q o = if q = (p + 1) % cfg.PAGE_NUM then 0xFFFF
            else if q = p ∧ o = 0 then hw s.flash p 0 &&& (VALID_PAGE % 65536)
            else hw s.flash q o := by
        intro q o
        simp only [applyOps]
        rw [hw_erase, hw_program]
      refine ⟨p, settled_of hu' p hlt ?_ ?_ (fun _ o _ => ?_)⟩
      · show hw (applyOps _ s.flash) p 0 = VALID_PAGE
        rw [hF, if_neg (fun hc => hne hc.symm), if_pos ⟨rfl, rfl⟩]
        simp [VALID_PAGE]
      · show hw (applyOps _ s.flash) _ 0 ≠ RECEIVE_DATA
        rw [hF, if_pos rfl]
        decide
      · show hw (applyOps _ s.flash) _ o = 0xFFFF
        rw [hF, if_pos rfl]
    · obtain ⟨p1, p2, h12, hlt, hv1, hv2, hmin⟩ := h'
      rw [init_two_receive hd hp s p1 p2 h h12 hlt hv1 hv2 hmin]
      exact ⟨p2, formatted_settled hg hp hlt (format_formatted cfg s.flash p2)⟩
  · obtain ⟨p, hlt, hv, hu⟩ := h
    have huv : UniqueValid cfg s.flash p := ⟨hlt, hv, hu⟩
    have hne := next_ne hp hlt
    by_cases hn1 : hw s.flash ((p + 1) % cfg.PAGE_NUM) 0 = RECEIVE_DATA
    · have hi := init_valid_receive hd hp s huv hn1
      have hh := init_transfer_headers hd s.flash huv hn1 cfg.VirtAddVarTab 0 (-1) s (fun _ => rfl)
      have hfr := init_transfer_frame hd s.flash huv hn1 cfg.VirtAddVarTab 0 (-1) s
        (fun _ => rfl) (fun _ _ _ => rfl)
      cases hst : (EE_Init.transfer cfg ((p + 1) % cfg.PAGE_NUM) cfg.VirtAddVarTab 0 (-1) s).1 with
      | some st =>
        rw [hi.1 st hst] at h1
        exact absurd h1 (hh.2 st hst)
      | none =>
        rw [hi.2 hst] at hu' ⊢
        have hd2 := next_lt hp p
        have hne2 := next_ne hp hd2
        have hF : ∀ q o, hw (applyOps [.erase p, .program ((p + 1) % cfg.PAGE_NUM) 0 VALID_PAGE]
            (EE_Init.transfer cfg ((p + 1) % cfg.PAGE_NUM) cfg.VirtAddVarTab 0 (-1) s).2.flash) q o
            = if q = (p + 1) % cfg.PAGE_NUM ∧ o = 0 then VALID_PAGE
              else if q = p then 0xFFFF
              else hw (EE_Init.transfer cfg ((p + 1) % cfg.PAGE_NUM) cfg.VirtAddVarTab 0 (-1)
                s).2.flash q o := by
          intro q o
          simp only [applyOps]
          rw [hw_program, hw_erase, hw_erase]
          by_cases hc : q = (p + 1) % cfg.PAGE_NUM ∧ o = 0
          · rw [if_pos hc, if_pos hc]
            simp [VALID_PAGE]
          · rw [if_neg hc, if_neg hc]
        refine ⟨(p + 1) % cfg.PAGE_NUM, settled_of hu' _ hd2 ?_ ?_ ?_⟩
        · show hw (applyOps _ _) _ 0 = VALID_PAGE
          rw [hF, if_pos ⟨rfl, rfl⟩]
        · show hw (applyOps _ _) _ 0 ≠ RECEIVE_DATA
          rw [hF, if_neg (fun hc => hne2 hc.1)]
          by_cases hq : ((p + 1) % cfg.PAGE_NUM + 1) % cfg.PAGE_NUM = p
          · rw [if_pos hq]; decide
          · rw [if_neg hq, hfr _ _ hne2]
            rcases hT p hlt huv hn1 with hc | hc
            · exact absurd hc hq
            · exact hc.1
        · intro her o ho
          show hw (applyOps _ _) _ o = 0xFFFF
          have her' : hw (applyOps [.erase p, .program ((p + 1) % cfg.PAGE_NUM) 0 VALID_PAGE]
            (EE_Init.transfer cfg ((p + 1) % cfg.PAGE_NUM) cfg.VirtAddVarTab 0 (-1) s).2.flash)
            (((p + 1) % cfg.PAGE_NUM + 1) % cfg.PAGE_NUM) 0 = ERASED := her
          rw [hF, if_neg (fun hc => hne2 hc.1)] at her' ⊢
          by_cases hq : ((p + 1) % cfg.PAGE_NUM + 1) % cfg.PAGE_NUM = p
          · rw [if_pos hq]
          · rw [if_neg hq, hfr _ _ hne2] at her' ⊢
            rcases hT p hlt huv hn1 with hc | hc
            · exact absurd hc hq
            · exact hc.2 her' o ho
    · by_cases hn2 : hw s.flash ((p + 1) % cfg.PAGE_NUM) 0 = ERASED
      · rw [init_valid_erased hd hp s huv hn2] at hu' ⊢
        have hF : ∀ q o, hw (applyOps [.erase ((p + 1) % cfg.PAGE_NUM)] s.flash) q o
            = if q = (p + 1) % cfg.PAGE_NUM then 0xFFFF else hw s.flash q o := by
          intro q o
          simp only [applyOps]
          rw [hw_erase]
        refine ⟨p, settled_of hu' p hlt ?_ ?_ (fun _ o _ => ?_)⟩
        · show hw (applyOps _ s.flash) p 0 = VALID_PAGE
          rw [hF, if_neg (fun hc => hne hc.symm)]
          exact hv
        · show hw (applyOps _ s.flash) _ 0 ≠ RECEIVE_DATA
          rw [hF, if_pos rfl]
          decide
        · show hw (applyOps _ s.flash) _ o = 0xFFFF
          rw [hF, if_pos rfl]
      · rw [init_valid_other hp s huv hn2 hn1]
        exact ⟨p, huv, hn1, fun hc => absurd hc hn2⟩
  · obtain ⟨p1, p2, h12, hlt, hv1, hv2, hmin⟩ := h
    rw [init_two_valid hd hp s p1 p2 h12 hlt hv1 hv2 hmin]
    exact ⟨p2, formatted_settled hg hp hlt (format_formatted cfg s.flash p2)⟩

/-! ### A first run that stops with `PAGE_FULL` -/

theorem scan_full_indep {cfg : Cfg} (hd : cfg.FlashOk) (pg e : Nat) (fuel : Nat) :
    ∀ (a : Nat) (s s' : EE) (k v k' v' : Nat), s'.flash = s.flash →
      EE_VerifyPageFullWriteVariable.scan cfg s pg e k v fuel a = (PAGE_FULL, s) →
      EE_VerifyPageFullWriteVariable.scan cfg s' pg e k' v' fuel a = (PAGE_FULL, s') := by
  induction fuel with
  | zero => intro a s s' k v k' v' _ _; rfl
  | succ fuel ih =>
    intro a s s' k v k' v' hfl h
    rw [EE_VerifyPageFullWriteVariable.scan] at h ⊢
    by_cases h1 : a < e
    · rw [if_pos h1] at h ⊢
      by_cases h2 : read32 s.flash pg a = 0xFFFFFFFF
      · rw [if_pos h2] at h
        exfalso
        simp [FLASH_ProgramHalfWord, flashOp_ok hd, FLASH_COMPLETE, PAGE_FULL] at h
      · rw [if_neg h2] at h
        rw [hfl, if_neg h2]
        exact ih _ s s' k v k' v' hfl h
    · rw [if_neg h1]

theorem VPF_full_indep {cfg : Cfg} (hd : cfg.FlashOk) (s : EE) (k v : Nat)
    (h : EE_VerifyPageFullWriteVariable cfg s k v = (PAGE_FULL, s)) : DstFull cfg s.flash := by
  intro s' hfl k' v'
  unfold EE_VerifyPageFullWriteVariable at h ⊢
  rw [hfl]
  by_cases hwp : EE_FindValidPage cfg s.flash WRITE_IN_VALID_PAGE = NO_VALID_PAGE
  · simp only [if_pos hwp] at h
    exfalso
    simp [NO_VALID_PAGE, PAGE_FULL] at h
  · simp only [if_neg hwp] at h ⊢
    exact scan_full_indep hd _ _ _ _ s s' k v k' v' hfl h

theorem VPF_fail {cfg : Cfg} (hd : cfg.FlashOk) (s : EE) (k v : Nat)
    (hwp : EE_FindValidPage cfg s.flash WRITE_IN_VALID_PAGE ≠ NO_VALID_PAGE)
    (h : (EE_VerifyPageFullWriteVariable cfg s k v).1 ≠ FLASH_COMPLETE) :
    EE_VerifyPageFullWriteVariable cfg s k v = (PAGE_FULL, s) := by
  unfold EE_VerifyPageFullWriteVariable at h ⊢
  simp only [if_neg hwp] at h ⊢
  have hc := write_scan_cases hd s (EE_FindValidPage cfg s.flash WRITE_IN_VALID_PAGE)
    (cfg.PAGE_SIZE - 2) k v cfg.PAGE_SIZE 0
  rw [Nat.mul_zero] at hc
  rcases hc with h1 | ⟨j, _, _, h1⟩
  · exact h1
  · rw [h1] at h
    exact absurd rfl h

theorem read_scan_indep (fl : Flash) (pg t d d' : Nat) :
    ∀ n, (EE_ReadVariable.scan fl pg t d n).1 = (EE_ReadVariable.scan fl pg t d' n).1 := by
  intro n
  induction n using Nat.strong_induction_on with
  | _ n ih =>
    match n with
    | 0 => rfl
    | 1 => rfl
    | 2 => rfl
    | 3 => rfl
    | a + 4 =>
      rw [EE_ReadVariable.scan, EE_ReadVariable.scan]
      by_cases h : hw fl pg (a + 4) = t
      · rw [if_pos h, if_pos h]
      · rw [if_neg h, if_neg h]; exact ih a (by omega)

theorem read_status_indep (cfg : Cfg) (fl : Flash) (t d d' : Nat) :
    (EE_ReadVariable cfg fl t d).1 = (EE_ReadVariable cfg fl t d').1 := by
  unfold EE_ReadVariable
  by_cases h : EE_FindValidPage cfg fl READ_FROM_VALID_PAGE = NO_VALID_PAGE
  · simp only [if_pos h]
  · simp only [if_neg h]
    exact read_scan_indep fl _ t d d' _

theorem init_transfer_fail {cfg : Cfg} (hd : cfg.FlashOk) (hp : cfg.PagesOk) (fl0 : Flash)
    {p : Nat} (h : UniqueValid cfg fl0 p)
    (hn : hw fl0 ((p + 1) % cfg.PAGE_NUM) 0 = RECEIVE_DATA) (l : List Nat) :
    ∀ (idx : Nat) (x : Int) (s : EE), (∀ q, hw s.flash q 0 = hw fl0 q 0) →
      ∀ st, (EE_Init.transfer cfg ((p + 1) % cfg.PAGE_NUM) l idx x s).1 = some st →
        st = PAGE_FULL ∧
        DstFull cfg (EE_Init.transfer cfg ((p + 1) % cfg.PAGE_NUM) l idx x s).2.flash ∧
        ∃ t ∈ l,
          hw (EE_Init.transfer cfg ((p + 1) % cfg.PAGE_NUM) l idx x s).2.flash
            ((p + 1) % cfg.PAGE_NUM) 6 ≠ t ∧
          ∀ dv, (EE_ReadVariable cfg
            (EE_Init.transfer cfg ((p + 1) % cfg.PAGE_NUM) l idx x s).2.flash t dv).1 ≠ 1 := by
  induction l with
  | nil =>
    intro idx x s _ st hst
    rw [EE_Init.transfer] at hst
    cases hst
  | cons t rest ih =>
    intro idx x s hh st
    rw [EE_Init.transfer]
    dsimp only
    generalize hx1 : (if hw s.flash ((p + 1) % cfg.PAGE_NUM) 6 = t then (idx : Int) else x) = x1
    have lift : ∀ r : Option Nat × EE,
        (r.1 = some st → st = PAGE_FULL ∧ DstFull cfg r.2.flash ∧
          ∃ t' ∈ rest, hw r.2.flash ((p + 1) % cfg.PAGE_NUM) 6 ≠ t' ∧
            ∀ dv, (EE_ReadVariable cfg r.2.flash t' dv).1 ≠ 1) →
        (r.1 = some st → st = PAGE_FULL ∧ DstFull cfg r.2.flash ∧
          ∃ t' ∈ t :: rest, hw r.2.flash ((p + 1) % cfg.PAGE_NUM) 6 ≠ t' ∧
            ∀ dv, (EE_ReadVariable cfg r.2.flash t' dv).1 ≠ 1) := by
      intro r hr hst
      obtain ⟨a, b, t', ht', c⟩ := hr hst
      exact ⟨a, b, t', List.mem_cons_of_mem _ ht', c⟩
    by_cases h1 : (idx : Int) ≠ x1
    · rw [if_pos h1]
      by_cases h2 : (EE_ReadVariable cfg s.flash t s.DataVar).1 ≠ 1
      · rw [if_pos h2]
        have hwp : EE_FindValidPage cfg s.flash WRITE_IN_VALID_PAGE = (p + 1) % cfg.PAGE_NUM := by
          rw [find_write (uniqueValid_congr h hh), hh, if_pos hn]
        have hne : hw s.flash (EE_FindValidPage cfg s.flash WRITE_IN_VALID_PAGE) 0 ≠ 0xFFFF := by
          rw [hwp, hh, hn]; decide
        have hfh := VPF_headers hd
          ({ flash := s.flash, DataVar := (EE_ReadVariable cfg s.flash t s.DataVar).2,
             ops := s.ops } : EE) t (EE_ReadVariable cfg s.flash t s.DataVar).2 hne
        by_cases h3 : (EE_VerifyPageFullWriteVariable cfg
            ({ flash := s.flash, DataVar := (EE_ReadVariable cfg s.flash t s.DataVar).2,
               ops := s.ops } : EE) t (EE_ReadVariable cfg s.flash t s.DataVar).2).1
              ≠ FLASH_COMPLETE
        · rw [if_pos h3]
          intro hst
          have hv := VPF_fail hd
            ({ flash := s.flash, DataVar := (EE_ReadVariable cfg s.flash t s.DataVar).2,
               ops := s.ops } : EE) t (EE_ReadVariable cfg s.flash t s.DataVar).2
            (by
              show EE_FindValidPage cfg s.flash WRITE_IN_VALID_PAGE ≠ NO_VALID_PAGE
              rw [hwp]; exact page_ne_sentinel hp (next_lt hp p)) h3
          have hfull := VPF_full_indep hd _ _ _ hv
          rw [hv] at hst ⊢
          refine ⟨(Option.some.inj hst).symm, hfull, t, List.mem_cons_self _ _, ?_, ?_⟩
          · show hw s.flash ((p + 1) % cfg.PAGE_NUM) 6 ≠ t
            intro hc
            rw [if_pos hc] at hx1
            exact h1 hx1
          · intro dv
            show (EE_ReadVariable cfg s.flash t dv).1 ≠ 1
            rw [read_status_indep cfg s.flash t dv s.DataVar]
            exact h2
        · rw [if_neg h3]
          exact lift _ (ih _ _ _ (fun q => (hfh q).trans (hh q)) st)
      · rw [if_neg h2]
        exact lift _ (ih _ _
          ({ flash := s.flash, DataVar := (EE_ReadVariable cfg s.flash t s.DataVar).2,
             ops := s.ops } : EE) hh st)
    · rw [if_neg h1]
      exact lift _ (ih _ _ s hh st)

theorem init_transfer_full {cfg : Cfg} (fl0 : Flash) (d : Nat) (hfull : DstFull cfg fl0)
    (l : List Nat) :
    ∀ (idx : Nat) (x : Int) (s : EE), s.flash = fl0 → x < (idx : Int) →
      (EE_Init.transfer cfg d l idx x s).2.flash = fl0 ∧
      ((∃ t ∈ l, hw fl0 d 6 ≠ t ∧ ∀ dv, (EE_ReadVariable cfg fl0 t dv).1 ≠ 1) →
        (EE_Init.transfer cfg d l idx x s).1 = some PAGE_FULL) := by
  induction l with
  | nil =>
    intro idx x s hs _
    rw [EE_Init.transfer]
    exact ⟨hs, fun ⟨t, ht, _⟩ => absurd ht (List.not_mem_nil t)⟩
  | cons t rest ih =>
    intro idx x s hs hx
    rw [EE_Init.transfer]
    dsimp only
    generalize hx1 : (if hw s.flash d 6 = t then (idx : Int) else x) = x1
    have hx1' : x1 < (idx : Int) + 1 := by
      by_cases hc : hw s.flash d 6 = t
      · rw [if_pos hc] at hx1; omega
      · rw [if_neg hc] at hx1; omega
    have hx1'' : x1 < ((idx + 1 : Nat) : Int) := by push_cast; exact hx1'
    by_cases h1 : (idx : Int) ≠ x1
    · rw [if_pos h1]
      by_cases h2 : (EE_ReadVariable cfg s.flash t s.DataVar).1 ≠ 1
      · rw [if_pos h2]
        have hv := hfull
          ({ flash := s.flash, DataVar := (EE_ReadVariable cfg s.flash t s.DataVar).2,
             ops := s.ops } : EE) hs t (EE_ReadVariable cfg s.flash t s.DataVar).2
        have h3 : (EE_VerifyPageFullWriteVariable cfg
            ({ flash := s.flash, DataVar := (EE_ReadVariable cfg s.flash t s.DataVar).2,
               ops := s.ops } : EE) t (EE_ReadVariable cfg s.flash t s.DataVar).2).1
              ≠ FLASH_COMPLETE := by
          rw [hv]; show PAGE_FULL ≠ FLASH_COMPLETE; decide
        rw [if_pos h3, hv]
        exact ⟨hs, fun _ => rfl⟩
      · rw [if_neg h2]
        have := ih (idx + 1) x1
          ({ flash := s.flash, DataVar := (EE_ReadVariable cfg s.flash t s.DataVar).2,
             ops := s.ops } : EE) hs hx1''
        refine ⟨this.1, fun ⟨t', ht', hc1, hc2⟩ => ?_⟩
        rcases List.mem_cons.mp ht' with e | e
        · exfalso
          rw [e, ← hs] at hc2
          exact h2 (hc2 _)
        · exact this.2 ⟨t', e, hc1, hc2⟩
    · rw [if_neg h1]
      have := ih (idx + 1) x1 s hs hx1''
      refine ⟨this.1, fun ⟨t', ht', hc1, hc2⟩ => ?_⟩
      rcases List.mem_cons.mp ht' with e | e
      · exfalso
        rw [e, ← hs] at hc1
        rw [if_neg hc1] at hx1
        apply h1
        by_contra _
        omega
      · exact this.2 ⟨t', e, hc1, hc2⟩

theorem init_status_cases {cfg : Cfg} (hd : cfg.FlashOk) (hp : cfg.PagesOk) (s : EE) :
    (EE_Init cfg s).1 = FLASH_COMPLETE ∨
    ∃ p st, UniqueValid cfg s.flash p ∧ hw s.flash ((p + 1) % cfg.PAGE_NUM) 0 = RECEIVE_DATA ∧
      (EE_Init.transfer cfg ((p + 1) % cfg.PAGE_NUM) cfg.VirtAddVarTab 0 (-1) s).1 = some st := by
  rcases headers_cases cfg.PAGE_NUM (fun q => hw s.flash q 0) VALID_PAGE with h | h | h
  · rcases headers_cases cfg.PAGE_NUM (fun q => hw s.flash q 0) RECEIVE_DATA with h' | h' | h'
    · left; rw [init_fresh hd hp s h h']
    · obtain ⟨p, hlt, hr, hu⟩ := h'
      left; rw [init_promote hd hp s p h hlt hr hu]
    · obtain ⟨p1, p2, h12, hlt, hv1, hv2, hmin⟩ := h'
      left; rw [init_two_receive hd hp s p1 p2 h h12 hlt hv1 hv2 hmin]
  · obtain ⟨p, hlt, hv, hu⟩ := h
    have huv : UniqueValid cfg s.flash p := ⟨hlt, hv, hu⟩
    by_cases hn1 : hw s.flash ((p + 1) % cfg.PAGE_NUM) 0 = RECEIVE_DATA
    · have hi := init_valid_receive hd hp s huv hn1
      cases hst : (EE_Init.transfer cfg ((p + 1) % cfg.PAGE_NUM) cfg.VirtAddVarTab 0 (-1) s).1 with
      | some st => right; exact ⟨p, st, huv, hn1, hst⟩
      | none => left; rw [hi.2 hst]
    · by_cases hn2 : hw s.flash ((p + 1) % cfg.PAGE_NUM) 0 = ERASED
      · left; rw [init_valid_erased hd hp s huv hn2]
      · left; rw [init_valid_other hp s huv hn2 hn1]
  · obtain ⟨p1, p2, h12, hlt, hv1, hv2, hmin⟩ := h
    left; rw [init_two_valid hd hp s p1 p2 h12 hlt hv1 hv2 hmin]

theorem init_fail_again {cfg : Cfg} (hd : cfg.FlashOk) (hp : cfg.PagesOk) (s : EE) {p : Nat}
    (hu : UniqueValid cfg s.flash p) (hn : hw s.flash ((p + 1) % cfg.PAGE_NUM) 0 = RECEIVE_DATA)
    (st : Nat)
    (hst : (EE_Init.transfer cfg ((p + 1) % cfg.PAGE_NUM) cfg.VirtAddVarTab 0 (-1) s).1 = some st) :
    (EE_Init cfg (EE_Init cfg s).2).1 = (EE_Init cfg s).1 ∧
    (EE_Init cfg (EE_Init cfg s).2).2.flash = (EE_Init cfg s).2.flash := by
  have hi := (init_valid_receive hd hp s hu hn).1 st hst
  have hh := (init_transfer_headers hd s.flash hu hn cfg.VirtAddVarTab 0 (-1) s (fun _ => rfl)).1
  obtain ⟨e1, hfull, hex⟩ := init_transfer_fail hd hp s.flash hu hn cfg.VirtAddVarTab 0 (-1) s
    (fun _ => rfl) st hst
  rw [hi]
  have hu1 : UniqueValid cfg
      (EE_Init.transfer cfg ((p + 1) % cfg.PAGE_NUM) cfg.VirtAddVarTab 0 (-1) s).2.flash p :=
    uniqueValid_congr hu hh
  have hn1 : hw (EE_Init.transfer cfg ((p + 1) % cfg.PAGE_NUM) cfg.VirtAddVarTab 0 (-1) s).2.flash
      ((p + 1) % cfg.PAGE_NUM) 0 = RECEIVE_DATA := by rw [hh]; exact hn
  have h2 := init_transfer_full
    (EE_Init.transfer cfg ((p + 1) % cfg.PAGE_NUM) cfg.VirtAddVarTab 0 (-1) s).2.flash
    ((p + 1) % cfg.PAGE_NUM) hfull cfg.VirtAddVarTab 0 (-1)
    (EE_Init.transfer cfg ((p + 1) % cfg.PAGE_NUM) cfg.VirtAddVarTab 0 (-1) s).2 rfl (by decide)
  have hi2 := (init_valid_receive hd hp
    (EE_Init.transfer cfg ((p + 1) % cfg.PAGE_NUM) cfg.VirtAddVarTab 0 (-1) s).2 hu1 hn1).1
    PAGE_FULL (h2.2 hex)
  show (EE_Init cfg (EE_Init.transfer cfg ((p + 1) % cfg.PAGE_NUM) cfg.VirtAddVarTab 0 (-1) s).2).1
      = st ∧
    (EE_Init cfg (EE_Init.transfer cfg ((p + 1) % cfg.PAGE_NUM) cfg.VirtAddVarTab 0 (-1)
      s).2).2.flash
      = (EE_Init.transfer cfg ((p + 1) % cfg.PAGE_NUM) cfg.VirtAddVarTab 0 (-1) s).2.flash
  rw [hi2]
  exact ⟨e1.symm, h2.1⟩

/-- C11, counterexample: `EE_Init` is not idempotent on every flash content.
With 3 pages, page 0 `VALID_PAGE` holding one record and pages 1 and 2 both
`RECEIVE_DATA`, the first run completes the transfer into page 1 and leaves
page 2 marked `RECEIVE_DATA`; the second run transfers again into page 2.  Both
runs return success, and the headers of pages 1 and 2 differ afterwards. -/
theorem C11_counterexample :
    (EE_Init demoCfg (stateOf [[0, 0xFFFF, 7, 1], [0xEEEE], [0xEEEE]])).1 = FLASH_COMPLETE ∧
    (EE_Init demoCfg
      (EE_Init demoCfg (stateOf [[0, 0xFFFF, 7, 1], [0xEEEE], [0xEEEE]])).2).1 = FLASH_COMPLETE ∧
    hw (EE_Init demoCfg (stateOf [[0, 0xFFFF, 7, 1], [0xEEEE], [0xEEEE]])).2.flash 1 0
      = VALID_PAGE ∧
    hw (EE_Init demoCfg (stateOf [[0, 0xFFFF, 7, 1], [0xEEEE], [0xEEEE]])).2.flash 2 0
      = RECEIVE_DATA ∧
    hw (EE_Init demoCfg
      (EE_Init demoCfg (stateOf [[0, 0xFFFF, 7, 1], [0xEEEE], [0xEEEE]])).2).2.flash 1 0
      = ERASED ∧
    hw (EE_Init demoCfg
      (EE_Init demoCfg (stateOf [[0, 0xFFFF, 7, 1], [0xEEEE], [0xEEEE]])).2).2.flash 2 0
      = VALID_PAGE ∧
    ¬ (∀ q o, q < demoCfg.PAGE_NUM → o < demoCfg.PAGE_SIZE →
      hw (EE_Init demoCfg
        (EE_Init demoCfg (stateOf [[0, 0xFFFF, 7, 1], [0xEEEE], [0xEEEE]])).2).2.flash q o
        = hw (EE_Init demoCfg (stateOf [[0, 0xFFFF, 7, 1], [0xEEEE], [0xEEEE]])).2.flash q o) := by
  refine ⟨by decide, by decide, by decide, by decide, by decide, by decide, fun h => ?_⟩
  exact absurd (h 2 0 (by decide) (by decide)) (by decide)

/-- C11 (amended): `EE_Init` is idempotent except after a completed transfer
into a page with a stale successor.  With all flash operations succeeding, for
every content of the flash region such that, if exactly one page `p` is
`VALID_PAGE` and its ring successor is `RECEIVE_DATA` (the case in which
`EE_Init` resumes a transfer), the page after the receiving page is `p` itself
or is neither `RECEIVE_DATA` nor an `ERASED` header over a body that is not
erased: running `EE_Init` twice returns what one run returns and leaves the
flash content of one run. -/
theorem C11_init_idempotent_amended {cfg : Cfg} (hd : cfg.FlashOk) (hg : cfg.Geom)
    (hp : cfg.PagesOk) (s : EE)
    (hT : ∀ p, p < cfg.PAGE_NUM → UniqueValid cfg s.flash p →
      hw s.flash ((p + 1) % cfg.PAGE_NUM) 0 = RECEIVE_DATA →
      ((p + 1) % cfg.PAGE_NUM + 1) % cfg.PAGE_NUM = p ∨
      (hw s.flash (((p + 1) % cfg.PAGE_NUM + 1) % cfg.PAGE_NUM) 0 ≠ RECEIVE_DATA ∧
        (hw s.flash (((p + 1) % cfg.PAGE_NUM + 1) % cfg.PAGE_NUM) 0 = ERASED →
          PageErased cfg s.flash (((p + 1) % cfg.PAGE_NUM + 1) % cfg.PAGE_NUM)))) :
    (EE_Init cfg (EE_Init cfg s).2).1 = (EE_Init cfg s).1 ∧
    ∀ q o, o < cfg.PAGE_SIZE →
      hw (EE_Init cfg (EE_Init cfg s).2).2.flash q o = hw (EE_Init cfg s).2.flash q o := by
  rcases init_status_cases hd hp s with h1 | ⟨p, st, hu, hn, hst⟩
  · obtain ⟨p, hset⟩ := init_settles hd hg hp s h1 hT
    have := init_again hd hp (EE_Init cfg s).2 hset
    exact ⟨this.1.trans h1.symm, this.2⟩
  · have := init_fail_again hd hp s hu hn st hst
    exact ⟨this.1, fun q o _ => by rw [this.2]⟩

theorem C11_init_idempotent_amended_witness :
    (∀ p, p < demoCfg.PAGE_NUM →
      UniqueValid demoCfg (stateOf [[0, 0xFFFF, 7, 1, 9, 2, 8, 1], [0xEEEE, 0xFFFF, 5, 2]]).flash p →
      hw (stateOf [[0, 0xFFFF, 7, 1, 9, 2, 8, 1], [0xEEEE, 0xFFFF, 5, 2]]).flash
        ((p + 1) % demoCfg.PAGE_NUM) 0 = RECEIVE_DATA →
      ((p + 1) % demoCfg.PAGE_NUM + 1) % demoCfg.PAGE_NUM = p ∨
      (hw (stateOf [[0, 0xFFFF, 7, 1, 9, 2, 8, 1], [0xEEEE, 0xFFFF, 5, 2]]).flash
          (((p + 1) % demoCfg.PAGE_NUM + 1) % demoCfg.PAGE_NUM) 0 ≠ RECEIVE_DATA ∧
        (hw (stateOf [[0, 0xFFFF, 7, 1, 9, 2, 8, 1], [0xEEEE, 0xFFFF, 5, 2]]).flash
            (((p + 1) % demoCfg.PAGE_NUM + 1) % demoCfg.PAGE_NUM) 0 = ERASED →
          PageErased demoCfg (stateOf [[0, 0xFFFF, 7, 1, 9, 2, 8, 1], [0xEEEE, 0xFFFF, 5, 2]]).flash
            (((p + 1) % demoCfg.PAGE_NUM + 1) % demoCfg.PAGE_NUM)))) ∧
    (EE_Init demoCfg
      (EE_Init demoCfg (stateOf [[0, 0xFFFF, 7, 1, 9, 2, 8, 1], [0xEEEE, 0xFFFF, 5, 2]])).2).1
      = (EE_Init demoCfg (stateOf [[0, 0xFFFF, 7, 1, 9, 2, 8, 1], [0xEEEE, 0xFFFF, 5, 2]])).1 ∧
    ∀ q o, o < demoCfg.PAGE_SIZE →
      hw (EE_Init demoCfg
        (EE_Init demoCfg
          (stateOf [[0, 0xFFFF, 7, 1, 9, 2, 8, 1], [0xEEEE, 0xFFFF, 5, 2]])).2).2.flash q o
        = hw (EE_Init demoCfg
          (stateOf [[0, 0xFFFF, 7, 1, 9, 2, 8, 1], [0xEEEE, 0xFFFF, 5, 2]])).2.flash q o :=
  have hT : ∀ p, p < demoCfg.PAGE_NUM →
      UniqueValid demoCfg (stateOf [[0, 0xFFFF, 7, 1, 9, 2, 8, 1], [0xEEEE, 0xFFFF, 5, 2]]).flash p →
      hw (stateOf [[0, 0xFFFF, 7, 1, 9, 2, 8, 1], [0xEEEE, 0xFFFF, 5, 2]]).flash
        ((p + 1) % demoCfg.PAGE_NUM) 0 = RECEIVE_DATA →
      ((p + 1) % demoCfg.PAGE_NUM + 1) % demoCfg.PAGE_NUM = p ∨
      (hw (stateOf [[0, 0xFFFF, 7, 1, 9, 2, 8, 1], [0xEEEE, 0xFFFF, 5, 2]]).flash
          (((p + 1) % demoCfg.PAGE_NUM + 1) % demoCfg.PAGE_NUM) 0 ≠ RECEIVE_DATA ∧
        (hw (stateOf [[0, 0xFFFF, 7, 1, 9, 2, 8, 1], [0xEEEE, 0xFFFF, 5, 2]]).flash
            (((p + 1) % demoCfg.PAGE_NUM + 1) % demoCfg.PAGE_NUM) 0 = ERASED →
          PageErased demoCfg (stateOf [[0, 0xFFFF, 7, 1, 9, 2, 8, 1], [0xEEEE, 0xFFFF, 5, 2]]).flash
            (((p + 1) % demoCfg.PAGE_NUM + 1) % demoCfg.PAGE_NUM))) := by
    decide
  ⟨hT, @C11_init_idempotent_amended demoCfg (fun _ => rfl) (by decide) (by decide)
    (stateOf [[0, 0xFFFF, 7, 1, 9, 2, 8, 1], [0xEEEE, 0xFFFF, 5, 2]]) hT⟩

/-! ## A write while a transfer is unfinished -/

theorem mid_write {cfg : Cfg} (hd : cfg.FlashOk) (hg : cfg.Geom) (hp : cfg.PagesOk)
    (s : EE) {src dst : Nat} {recs : List (Nat × Nat)} (h : Mid cfg s.flash src dst recs)
    (hlen : recs.length < cfg.slots) (k v : Nat) :
    EE_WriteVariable cfg s k v
      = (FLASH_COMPLETE,
          { flash := applyOps (appendOps dst recs.length [(v, k)]) s.flash,
            DataVar := s.DataVar,
            ops := s.ops ++ appendOps dst recs.length [(v, k)] }) := by
  have hwp := mid_find_write h
  have hdst : dst < cfg.PAGE_NUM := by rw [h.2.1]; exact next_lt hp src
  have hv := VPF_append hd hg s k v recs
    (by rw [hwp]; exact page_ne_sentinel hp hdst)
    (by rw [hwp, h.2.2.1]; decide) (by rw [hwp]; exact h.2.2.2) hlen
  rw [hwp] at hv
  unfold EE_WriteVariable
  simp only [hv]
  rw [if_neg (by decide)]

theorem mid_write_reads {cfg : Cfg} (hd : cfg.FlashOk) (hg : cfg.Geom) (hp : cfg.PagesOk)
    (s : EE) {src dst : Nat} {recs : List (Nat × Nat)} (h : Mid cfg s.flash src dst recs)
    (hlen : recs.length < cfg.slots) (k v t d : Nat) :
    EE_ReadVariable cfg (EE_WriteVariable cfg s k v).2.flash t d = EE_ReadVariable cfg s.flash t d := by
  rw [mid_write hd hg hp s h hlen k v]
  have hu : UniqueValid cfg (applyOps (appendOps dst recs.length [(v, k)]) s.flash) src :=
    uniqueValid_congr h.1 (fun q => appendOps_frame _ _ _ _ _ _ (Or.inr (Or.inl (by omega))))
  show EE_ReadVariable cfg (applyOps (appendOps dst recs.length [(v, k)]) s.flash) t d = _
  rw [read_eq hg hp hu, read_eq hg hp h.1, mid_latest_src hp h]

theorem stateOf_beyond (pages : List (List Nat)) (q o : Nat)
    (h : (pages.getD q []).length ≤ o / 2) : hw (stateOf pages).flash q o = 0xFFFF := by
  unfold hw stateOf
  by_cases h2 : o % 2 = 0
  · simp only [if_pos h2]
    rw [List.getD_eq_default _ _ h]
  · simp only [if_neg h2]

/-- C22: value-before-address atomicity.  In a well-formed state whose valid
page `p` has a free slot, `EE_WriteVariable(k, v)` issues exactly two flash
operations: the program of the value half-word of the first free slot, then
the program of its address half-word.  In the state in which only the first of
them has taken place the address half-word is still `0xFFFF`, and
`EE_ReadVariable(t)` returns for every key `t` other than `0xFFFF` what it
returned before the write started. -/
theorem C22_value_before_address {cfg : Cfg} (hd : cfg.FlashOk) (hg : cfg.Geom)
    (hp : cfg.PagesOk) (s : EE) (p : Nat) (recs : List (Nat × Nat))
    (h : Steady cfg s.flash p recs) (hlen : recs.length < cfg.slots) (k v : Nat)
    (hv : v < 65536) :
    issuedOps cfg s k v
      = [.program p (4 * recs.length + 4) v, .program p (4 * recs.length + 6) k] ∧
    (read32 s.flash p (4 * recs.length + 4) = 0xFFFFFFFF ∧
      ∀ j, j < recs.length → read32 s.flash p (4 * j + 4) ≠ 0xFFFFFFFF) ∧
    hw (applyOps ((issuedOps cfg s k v).take 1) s.flash) p (4 * recs.length + 4) = v ∧
    hw (applyOps ((issuedOps cfg s k v).take 1) s.flash) p (4 * recs.length + 6) = 0xFFFF ∧
    (∀ t d, t ≠ 0xFFFF →
      EE_ReadVariable cfg (applyOps ((issuedOps cfg s k v).take 1) s.flash) t d
        = EE_ReadVariable cfg s.flash t d) := by
  have hops : issuedOps cfg s k v
      = [.program p (4 * recs.length + 4) v, .program p (4 * recs.length + 6) k] := by
    unfold issuedOps
    rw [write_append hd hg hp s k v h hlen]
    show (s.ops ++ appendOps p recs.length [(v, k)]).drop s.ops.length = _
    rw [List.drop_left]
    rfl
  have hfree := h.2.1.2.2.2 recs.length hlen (le_refl _)
  have htake : applyOps ((issuedOps cfg s k v).take 1) s.flash
      = FlashOp.apply (.program p (4 * recs.length + 4) v) s.flash := by
    rw [hops]; rfl
  refine ⟨hops, holds_first_free h.2.1 hlen, ?_, ?_, fun t d ht => ?_⟩
  · rw [htake, hw_program]
    have c : p = p ∧ 4 * recs.length + 4 = 4 * recs.length + 4 := ⟨rfl, rfl⟩
    rw [if_pos c, hfree.1, Nat.mod_eq_of_lt hv]
    exact land_ffff v hv
  · rw [htake, hw_program]
    have c : ¬ (p = p ∧ 4 * recs.length + 6 = 4 * recs.length + 4) := fun hc => by omega
    rw [if_neg c]
    exact hfree.2
  · rw [htake]
    obtain ⟨dead, hdead, hst⟩ := steady_value_only hg h hlen v hv
    rw [steady_read hg hp hst ht, steady_read hg hp h ht, lookupRec_dead recs dead hdead ht]

theorem C22_value_before_address_witness :
    (Steady demoCfg (stateOf [[0, 0xFFFF, 7, 1]]).flash 0 [(7, 1)] ∧
      [(7, 1)].length < demoCfg.slots ∧ 8 < 65536) ∧
    issuedOps demoCfg (stateOf [[0, 0xFFFF, 7, 1]]) 1 8
      = [.program 0 (4 * [(7, 1)].length + 4) 8, .program 0 (4 * [(7, 1)].length + 6) 1] ∧
    hw (applyOps ((issuedOps demoCfg (stateOf [[0, 0xFFFF, 7, 1]]) 1 8).take 1)
      (stateOf [[0, 0xFFFF, 7, 1]]).flash) 0 (4 * [(7, 1)].length + 6) = 0xFFFF ∧
    (∀ t d, t ≠ 0xFFFF →
      EE_ReadVariable demoCfg (applyOps ((issuedOps demoCfg (stateOf [[0, 0xFFFF, 7, 1]]) 1 8).take 1)
        (stateOf [[0, 0xFFFF, 7, 1]]).flash) t d
        = EE_ReadVariable demoCfg (stateOf [[0, 0xFFFF, 7, 1]]).flash t d) :=
  have H := @C22_value_before_address demoCfg (fun _ => rfl) (by decide) (by decide)
    (stateOf [[0, 0xFFFF, 7, 1]]) 0 [(7, 1)] (by decide) (by decide) 1 8 (by decide)
  ⟨by decide, H.1, H.2.2.2.1, H.2.2.2.2⟩

/-- C23: a write during an unfinished transfer is not readable.  There is a
state with exactly one `VALID_PAGE` page, its ring successor `RECEIVE_DATA`
with free slots and every other page erased, a key `k` and a value `v` such
that `EE_WriteVariable(k, v)` returns success, its two flash operations go to
the `RECEIVE_DATA` page, and the following `EE_ReadVariable(k)` does not return
`v`: it returns what it returned before the write. -/
theorem C23_write_during_transfer_unreadable :
    ∃ (s : EE) (src k v : Nat),
      (UniqueValid scenarioCfg s.flash src ∧
        hw s.flash ((src + 1) % scenarioCfg.PAGE_NUM) 0 = RECEIVE_DATA ∧
        (∃ recs, PageHolds scenarioCfg s.flash ((src + 1) % scenarioCfg.PAGE_NUM) recs ∧
          recs.length < scenarioCfg.slots) ∧
        (∀ q, q < scenarioCfg.PAGE_NUM → q ≠ src → q ≠ (src + 1) % scenarioCfg.PAGE_NUM →
          PageErased scenarioCfg s.flash q)) ∧
      (EE_WriteVariable scenarioCfg s k v).1 = FLASH_COMPLETE ∧
      (∀ op ∈ issuedOps scenarioCfg s k v,
        ∃ off val, op = FlashOp.program ((src + 1) % scenarioCfg.PAGE_NUM) off val) ∧
      (∀ d, EE_ReadVariable scenarioCfg (EE_WriteVariable scenarioCfg s k v).2.flash k d ≠ (0, v)) ∧
      (∀ d, EE_ReadVariable scenarioCfg (EE_WriteVariable scenarioCfg s k v).2.flash k d
        = EE_ReadVariable scenarioCfg s.flash k d) := by
  have hh : PageHolds scenarioCfg (stateOf [[0, 0xFFFF, 7, 1], [0xEEEE]]).flash 1 [] := by
    refine ⟨by decide, fun j hj => absurd hj (Nat.not_lt_zero j), fun r hr => absurd hr (by simp),
      fun j _ _ => ⟨?_, ?_⟩⟩
    · exact stateOf_beyond _ _ _ (by
        show 1 ≤ (4 * j + 4) / 2
        omega)
    · exact stateOf_beyond _ _ _ (by
        show 1 ≤ (4 * j + 6) / 2
        omega)
  have hm : Mid scenarioCfg (stateOf [[0, 0xFFFF, 7, 1], [0xEEEE]]).flash 0 1 [] :=
    ⟨by decide, rfl, by decide, hh⟩
  have hothers : ∀ q, q < scenarioCfg.PAGE_NUM → q ≠ 0 → q ≠ (0 + 1) % scenarioCfg.PAGE_NUM →
      PageErased scenarioCfg (stateOf [[0, 0xFFFF, 7, 1], [0xEEEE]]).flash q := by
    intro q hq h0 h1 o _
    have h1' : q ≠ 1 := h1
    have hq' : q < 3 := hq
    have e : q = 2 := by omega
    subst e
    exact stateOf_beyond _ _ _ (Nat.zero_le _)
  have hd : scenarioCfg.FlashOk := fun _ => rfl
  have hw1 := mid_write hd (by decide) (by decide) (stateOf [[0, 0xFFFF, 7, 1], [0xEEEE]]) hm
    (by decide) 1 8
  have hr := fun d => mid_write_reads hd (by decide) (by decide)
    (stateOf [[0, 0xFFFF, 7, 1], [0xEEEE]]) hm (by decide) 1 8 1 d
  have hold : ∀ d, EE_ReadVariable scenarioCfg (stateOf [[0, 0xFFFF, 7, 1], [0xEEEE]]).flash 1 d
      = (0, 7) := by
    intro d
    rw [read_eq (by decide) (by decide) hm.1]
    have : latest scenarioCfg (stateOf [[0, 0xFFFF, 7, 1], [0xEEEE]]).flash 0 1 = some 7 := by
      decide
    rw [this]
    rfl
  refine ⟨stateOf [[0, 0xFFFF, 7, 1], [0xEEEE]], 0, 1, 8,
    ⟨hm.1, hm.2.2.1, ⟨[], hm.2.2.2, by decide⟩, hothers⟩, ?_, ?_, ?_, hr⟩
  · rw [hw1]
  · intro op hop
    unfold issuedOps at hop
    rw [hw1] at hop
    have hop' : op ∈ ((stateOf [[0, 0xFFFF, 7, 1], [0xEEEE]]).ops ++
        appendOps 1 ([] : List (Nat × Nat)).length [(8, 1)]).drop
          (stateOf [[0, 0xFFFF, 7, 1], [0xEEEE]]).ops.length := hop
    rw [List.drop_left] at hop'
    simp only [appendOps, List.mem_cons, List.mem_singleton, List.not_mem_nil, or_false] at hop'
    rcases hop' with e | e
    · exact ⟨_, _, e⟩
    · exact ⟨_, _, e⟩
  · intro d
    rw [hr d, hold d]
    decide

theorem copies_keys_sublist (look : Nat → Option Nat) (k : Nat) (tab : List Nat) :
    List.Sublist ((copies look k tab).map Prod.snd) tab := by
  induction tab with
  | nil => exact List.Sublist.slnil
  | cons t rest ih =>
    rw [copies_cons]
    by_cases h : t = k
    · rw [if_pos h]; exact List.Sublist.cons _ ih
    · rw [if_neg h]
      cases hl : look t with
      | none => exact List.Sublist.cons _ ih
      | some w => exact List.Sublist.cons₂ _ ih

theorem copies_fit {recs : List (Nat × Nat)} (look : Nat → Option Nat) (k2 k : Nat)
    (tab : List Nat) (hnd : tab.Nodup) (hlook : ∀ t w, look t = some w → (w, t) ∈ recs)
    (hk : k ∉ tab) (w : Nat) (hkrec : (w, k) ∈ recs) :
    1 + (copies look k2 tab).length ≤ recs.length := by
  have hsub := copies_keys_sublist look k2 tab
  have hnd2 : (k :: (copies look k2 tab).map Prod.snd).Nodup :=
    List.nodup_cons.2 ⟨fun hm => hk (hsub.subset hm), hnd.sublist hsub⟩
  have hss : (k :: (copies look k2 tab).map Prod.snd) ⊆ recs.map Prod.snd := by
    intro x hx
    rw [List.mem_cons] at hx
    rcases hx with hx | hx
    · rw [hx]; exact List.mem_map.2 ⟨(w, k), hkrec, rfl⟩
    · obtain ⟨r, hr, e⟩ := List.mem_map.1 hx
      have := (copies_mem hr).2.2
      rw [← e]
      exact List.mem_map.2 ⟨(r.1, r.2), hlook _ _ this, rfl⟩
  have := (List.subperm_of_subset hnd2 hss).length_le
  rw [List.length_cons, List.length_map, List.length_map] at this
  omega

/-- C24: keys outside the key table do not survive a rotation.  In a
well-formed state whose valid page is full, let `k` be a key other than
`0xFFFF` that is not in `VirtAddVarTab` and whose latest record on the valid
page holds `w`, so that `EE_ReadVariable(k)` returns `w`.  Every write
`EE_WriteVariable(k2, v2)` with `k2 ≠ k` returns success, and afterwards
`EE_ReadVariable(k)` returns 1 (not found) with the output untouched.  The key
table has no duplicates, or `NB_OF_VAR + 1` records fit in a page. -/
theorem C24_untabled_key_lost {cfg : Cfg} (hd : cfg.FlashOk) (hg : cfg.Geom) (hp : cfg.PagesOk)
    (ht : cfg.TableOk) (hcap : cfg.VirtAddVarTab.Nodup ∨ cfg.NB_OF_VAR + 1 ≤ cfg.slots)
    (s : EE) (src : Nat)
    (recs : List (Nat × Nat)) (h : Steady cfg s.flash src recs) (hfull : recs.length = cfg.slots)
    (k w : Nat) (hk : k ∉ cfg.VirtAddVarTab) (hk1 : k ≠ 0xFFFF)
    (hrec : latest cfg s.flash src k = some w)
    (k2 v2 : Nat) (hr : RecOk (v2, k2)) (hne : k2 ≠ k) :
    (∀ d, EE_ReadVariable cfg s.flash k d = (0, w)) ∧
    (EE_WriteVariable cfg s k2 v2).1 = FLASH_COMPLETE ∧
    (∀ d, EE_ReadVariable cfg (EE_WriteVariable cfg s k2 v2).2.flash k d = (1, d)) := by
  have hne2 : ∀ r ∈ copies (latest cfg s.flash src) k2 cfg.VirtAddVarTab, r.2 ≠ 0xFFFF := by
    intro r hr2
    have := ht r.2 (copies_mem hr2).1
    omega
  have hfit : 1 + (copies (latest cfg s.flash src) k2 cfg.VirtAddVarTab).length ≤ cfg.slots := by
    rcases hcap with hnd | hcap
    · rw [← hfull]
      exact copies_fit _ k2 k _ hnd (fun t w2 hl => full_latest_mem h.2.1 hfull hl) hk w
        (full_latest_mem h.2.1 hfull hrec)
    · have := copies_length_le (latest cfg s.flash src) k2 cfg.VirtAddVarTab
      unfold Cfg.NB_OF_VAR at hcap
      omega
  obtain ⟨r1, r2, _⟩ := rotate_result hd hg hp s k2 v2 h hfull hr hne2 hfit
  refine ⟨fun d => ?_, r1, fun d => ?_⟩
  · rw [read_eq hg hp h.1, hrec]
    rfl
  · rw [steady_read hg hp r2 hk1,
      lookup_rotated_absent (latest cfg s.flash src) k2 v2 cfg.VirtAddVarTab hk
        (fun hc => hne hc.symm)]
    rfl

theorem C24_untabled_key_lost_witness :
    (demoCfg.TableOk ∧ (demoCfg.VirtAddVarTab.Nodup ∨ demoCfg.NB_OF_VAR + 1 ≤ demoCfg.slots) ∧
      Steady demoCfg (stateOf [[0, 0xFFFF, 7, 1, 9, 5, 8, 1]]).flash 0 [(7, 1), (9, 5), (8, 1)] ∧
      [(7, 1), (9, 5), (8, 1)].length = demoCfg.slots ∧
      5 ∉ demoCfg.VirtAddVarTab ∧
      latest demoCfg (stateOf [[0, 0xFFFF, 7, 1, 9, 5, 8, 1]]).flash 0 5 = some 9 ∧
      RecOk (0xAAAA, 2)) ∧
    (∀ d, EE_ReadVariable demoCfg (stateOf [[0, 0xFFFF, 7, 1, 9, 5, 8, 1]]).flash 5 d = (0, 9)) ∧
    (EE_WriteVariable demoCfg (stateOf [[0, 0xFFFF, 7, 1, 9, 5, 8, 1]]) 2 0xAAAA).1
      = FLASH_COMPLETE ∧
    (∀ d, EE_ReadVariable demoCfg
      (EE_WriteVariable demoCfg (stateOf [[0, 0xFFFF, 7, 1, 9, 5, 8, 1]]) 2 0xAAAA).2.flash 5 d
        = (1, d)) :=
  ⟨by decide,
    @C24_untabled_key_lost demoCfg (fun _ => rfl) (by decide) (by decide) (by decide)
      (Or.inl (by decide))
      (stateOf [[0, 0xFFFF, 7, 1, 9, 5, 8, 1]]) 0 [(7, 1), (9, 5), (8, 1)] (by decide) (by decide)
      5 9 (by decide) (by decide) (by decide) 2 0xAAAA (by decide) (by decide)⟩

/-! ## Intermediate flash contents of a call -/

theorem applyDrv_append (cfg : Cfg) (a b : List FlashOp) :
    ∀ (n : Nat) (fl : Flash),
      applyDrv cfg n (a ++ b) fl = applyDrv cfg (n + a.length) b (applyDrv cfg n a fl) := by
  induction a with
  | nil => intro n fl; rfl
  | cons op rest ih =>
    intro n fl
    show applyDrv cfg (n + 1) (rest ++ b) _ = _
    rw [ih]
    have e : n + 1 + rest.length = n + (op :: rest).length := by
      rw [List.length_cons]; omega
    rw [e]
    rfl

theorem run_refl (cfg : Cfg) {P : Flash → Prop} (R : Flash → FlashOp → Prop) (s : EE)
    (h : P s.flash) : Run cfg P R s s :=
  ⟨[], by simp, rfl, fun n => by rw [List.take_nil]; exact h, fun i op hi => by simp at hi⟩

theorem run_final {cfg : Cfg} {P : Flash → Prop} {R : Flash → FlashOp → Prop} {s r : EE}
    (h : Run cfg P R s r) : P r.flash := by
  obtain ⟨issued, _, e2, hP, _⟩ := h
  have := hP issued.length
  rw [List.take_length] at this
  rw [e2]; exact this

theorem run_mono {cfg : Cfg} {P P2 : Flash → Prop} {R R2 : Flash → FlashOp → Prop} {s r : EE}
    (hP : ∀ fl, P fl → P2 fl) (hR : ∀ fl op, R fl op → R2 fl op) (h : Run cfg P R s r) :
    Run cfg P2 R2 s r := by
  obtain ⟨issued, e1, e2, h1, h2⟩ := h
  exact ⟨issued, e1, e2, fun n => hP _ (h1 n), fun i op hi => hR _ _ (h2 i op hi)⟩

theorem run_flashOp (cfg : Cfg) {P : Flash → Prop} {R : Flash → FlashOp → Prop} (s : EE)
    (op : FlashOp) (h0 : P s.flash) (h1 : P (flashOp cfg s op).2.flash) (hR : R s.flash op) :
    Run cfg P R s (flashOp cfg s op).2 := by
  refine ⟨[op], rfl, rfl, fun n => ?_, fun i op2 hi => ?_⟩
  · cases n with
    | zero => exact h0
    | succ n =>
      have e : List.take (n + 1) [op] = [op] := by simp
      rw [e]; exact h1
  · cases i with
    | zero =>
      have : op = op2 := by simpa using hi
      subst this
      exact hR
    | succ i => simp at hi

theorem run_trans {cfg : Cfg} {P : Flash → Prop} {R : Flash → FlashOp → Prop} {s r t : EE}
    (h1 : Run cfg P R s r) (h2 : Run cfg P R r t) : Run cfg P R s t := by
  obtain ⟨i1, a1, b1, c1, d1⟩ := h1
  obtain ⟨i2, a2, b2, c2, d2⟩ := h2
  have hlen : r.ops.length = s.ops.length + i1.length := by rw [a1, List.length_append]
  rw [hlen, b1] at b2 c2 d2
  refine ⟨i1 ++ i2, by rw [a2, a1, List.append_assoc], ?_, fun n => ?_, fun i op hi => ?_⟩
  · rw [applyDrv_append]; exact b2
  · by_cases hn : n ≤ i1.length
    · rw [List.take_append_of_le_length hn]; exact c1 n
    · have e : n = i1.length + (n - i1.length) := by omega
      rw [e, List.take_append, applyDrv_append]
      exact c2 _
  · by_cases hn : i < i1.length
    · rw [List.getElem?_append_left hn] at hi
      rw [List.take_append_of_le_length (Nat.le_of_lt hn)]
      exact d1 i op hi
    · have hge : i1.length ≤ i := Nat.le_of_not_lt hn
      rw [List.getElem?_append_right hge] at hi
      have e : i = i1.length + (i - i1.length) := by omega
      rw [e, List.take_append, applyDrv_append]
      exact d2 _ op hi

theorem find_write_header (cfg : Cfg) (fl : Flash) :
    EE_FindValidPage cfg fl WRITE_IN_VALID_PAGE = NO_VALID_PAGE ∨
    hw fl (EE_FindValidPage cfg fl WRITE_IN_VALID_PAGE) 0 = VALID_PAGE ∨
    hw fl (EE_FindValidPage cfg fl WRITE_IN_VALID_PAGE) 0 = RECEIVE_DATA := by
  unfold EE_FindValidPage
  simp only [if_pos rfl]
  rcases find_cases cfg fl with ⟨h, _⟩ | ⟨p, h, _, hv, _⟩
  · rw [h]; exact Or.inl rfl
  · rw [h]
    by_cases hc : hw fl ((p + 1) % cfg.PAGE_NUM) 0 = RECEIVE_DATA
    · simp only [if_pos hc]; exact Or.inr (Or.inr hc)
    · simp only [if_neg hc]; exact Or.inr (Or.inl hv)

theorem sameHeaders_program (cfg : Cfg) (s : EE) (fl : Flash) (pg off val : Nat) (ho : off ≠ 0)
    (h : SameHeaders fl s.flash) :
    SameHeaders fl (flashOp cfg s (.program pg off val)).2.flash := by
  intro q
  show hw (if cfg.drv s.ops.length = FLASH_COMPLETE then
    FlashOp.apply (.program pg off val) s.flash else s.flash) q 0 = _
  by_cases hc : cfg.drv s.ops.length = FLASH_COMPLETE
  · rw [if_pos hc, hw_program, if_neg (fun hx => ho hx.2.symm)]; exact h q
  · rw [if_neg hc]; exact h q

theorem run_scan (cfg : Cfg) (s : EE) (pg e k v : Nat) (hh : hw s.flash pg 0 ≠ 0xFFFF)
    (fuel : Nat) :
    ∀ a, Run cfg (SameHeaders s.flash) (fun _ op => BodyProgram op) s
      (EE_VerifyPageFullWriteVariable.scan cfg s pg e k v fuel a).2 := by
  have h0 : SameHeaders s.flash s.flash := fun _ => rfl
  induction fuel with
  | zero => intro a; exact run_refl cfg _ s h0
  | succ fuel ih =>
    intro a
    rw [EE_VerifyPageFullWriteVariable.scan]
    by_cases h1 : a < e
    · rw [if_pos h1]
      by_cases h2 : read32 s.flash pg a = 0xFFFFFFFF
      · rw [if_pos h2]
        have ha : a ≠ 0 := by
          intro ha0
          rw [ha0] at h2
          exact hh ((read32_free s.flash pg 0).1 h2).1
        have hs1 := sameHeaders_program cfg s s.flash pg a v ha h0
        have r1 : Run cfg (SameHeaders s.flash) (fun _ op => BodyProgram op) s
            (FLASH_ProgramHalfWord cfg s pg a v).2 :=
          run_flashOp cfg s _ h0 hs1 ⟨pg, a, v, rfl, ha⟩
        by_cases hc : (FLASH_ProgramHalfWord cfg s pg a v).1 ≠ FLASH_COMPLETE
        · simp only [if_pos hc]; exact r1
        · simp only [if_neg hc]
          have ha2 : a + 2 ≠ 0 := by omega
          exact run_trans r1 (run_flashOp cfg _ _ hs1
            (sameHeaders_program cfg _ s.flash pg (a + 2) k ha2 hs1) ⟨pg, a + 2, k, rfl, ha2⟩)
      · rw [if_neg h2]; exact ih (a + 4)
    · rw [if_neg h1]; exact run_refl cfg _ s h0

theorem run_VPF (cfg : Cfg) (s : EE) (k v : Nat) :
    Run cfg (SameHeaders s.flash) (fun _ op => BodyProgram op) s
      (EE_VerifyPageFullWriteVariable cfg s k v).2 := by
  unfold EE_VerifyPageFullWriteVariable
  by_cases h : EE_FindValidPage cfg s.flash WRITE_IN_VALID_PAGE = NO_VALID_PAGE
  · simp only [if_pos h]; exact run_refl cfg _ s (fun _ => rfl)
  · simp only [if_neg h]
    refine run_scan cfg s _ _ k v ?_ _ 0
    rcases find_write_header cfg s.flash with h1 | h1 | h1
    · exact absurd h1 h
    · rw [h1]; decide
    · rw [h1]; decide

theorem sameHeaders_trans {a b c : Flash} (h1 : SameHeaders a b) (h2 : SameHeaders b c) :
    SameHeaders a c := fun q => (h2 q).trans (h1 q)

theorem run_transfer_loop (cfg : Cfg) (k : Nat) (l : List Nat) :
    ∀ s : EE, Run cfg (SameHeaders s.flash) (fun _ op => BodyProgram op) s
      (EE_PageTransfer.loop cfg k l s).2 := by
  induction l with
  | nil => intro s; exact run_refl cfg _ s (fun _ => rfl)
  | cons t rest ih =>
    intro s
    rw [EE_PageTransfer.loop]
    by_cases h1 : t ≠ k
    · simp only [if_pos h1]
      by_cases h2 : (EE_ReadVariable cfg s.flash t s.DataVar).1 ≠ 0x1
      · simp only [if_pos h2]
        have hw1 : Run cfg (SameHeaders s.flash) (fun _ op => BodyProgram op) s
            (EE_VerifyPageFullWriteVariable cfg
              { flash := s.flash, DataVar := (EE_ReadVariable cfg s.flash t s.DataVar).2,
                ops := s.ops } t (EE_ReadVariable cfg s.flash t s.DataVar).2).2 :=
          run_VPF cfg
            { flash := s.flash, DataVar := (EE_ReadVariable cfg s.flash t s.DataVar).2,
              ops := s.ops } t _
        by_cases h3 : (EE_VerifyPageFullWriteVariable cfg
              { flash := s.flash, DataVar := (EE_ReadVariable cfg s.flash t s.DataVar).2,
                ops := s.ops } t (EE_ReadVariable cfg s.flash t s.DataVar).2).1 ≠ FLASH_COMPLETE
        · simp only [if_pos h3]; exact hw1
        · simp only [if_neg h3]
          exact run_trans hw1
            (run_mono (fun fl h => sameHeaders_trans (run_final hw1) h) (fun _ _ h => h) (ih _))
      · simp only [if_neg h2]
        exact ih { flash := s.flash, DataVar := (EE_ReadVariable cfg s.flash t s.DataVar).2,
                   ops := s.ops }
    · simp only [if_neg h1]; exact ih s

theorem amo_of_unique {cfg : Cfg} {fl : Flash} {p : Nat} (h : UniqueValid cfg fl p) :
    AtMostOneValid cfg fl :=
  fun a ha b hb va vb => (h.2.2 a ha va).trans (h.2.2 b hb vb).symm

theorem body_not_promote {p : Nat} (fl : Flash) (op : FlashOp) (h : BodyProgram op) :
    ∀ d, op = .program d 0 VALID_PAGE → hw fl p 0 = ERASED := by
  obtain ⟨pg, off, val, e, ho⟩ := h
  intro d hd
  rw [e] at hd
  injection hd with _ h2 _
  exact absurd h2 ho

theorem run_body_unique {cfg : Cfg} {s r : EE} {p : Nat} (hu : UniqueValid cfg s.flash p)
    (h : Run cfg (SameHeaders s.flash) (fun _ op => BodyProgram op) s r) :
    Run cfg (fun fl => UniqueValid cfg fl p)
      (fun fl op => ∀ d, op = .program d 0 VALID_PAGE → hw fl p 0 = ERASED) s r :=
  run_mono (fun _ hfl => uniqueValid_congr hu hfl) (fun fl op hb => body_not_promote fl op hb) h

theorem run_transfer {cfg : Cfg} (hp : cfg.PagesOk) (s : EE) (p : Nat)
    (hu : UniqueValid cfg s.flash p) (hn : hw s.flash ((p + 1) % cfg.PAGE_NUM) 0 = ERASED)
    (k v : Nat) :
    Run cfg (AtMostOneValid cfg)
      (fun fl op => ∀ d, op = .program d 0 VALID_PAGE → hw fl p 0 = ERASED) s
      (EE_PageTransfer cfg s k v).2 := by
  unfold EE_PageTransfer
  lift_lets
  intro ValidPage NewPage OldPage r1 r2 r3 r4 r5
  have hV : ValidPage = p := find_read hu
  have hN : NewPage = (p + 1) % cfg.PAGE_NUM := by
    show (ValidPage + 1) % cfg.PAGE_NUM = _
    rw [hV]
  have hO : OldPage = p := hV
  have c0 : ValidPage ≠ NO_VALID_PAGE := by rw [hV]; exact page_ne_sentinel hp hu.1
  rw [if_pos c0]
  have hne := next_ne hp hu.1
  -- marking the destination `RECEIVE_DATA`
  have hdr1 : ∀ q, hw r1.2.flash q 0 = VALID_PAGE ↔ hw s.flash q 0 = VALID_PAGE := by
    intro q
    show hw (if cfg.drv s.ops.length = FLASH_COMPLETE then
      FlashOp.apply (.program NewPage 0 RECEIVE_DATA) s.flash else s.flash) q 0 = VALID_PAGE ↔ _
    by_cases hc : cfg.drv s.ops.length = FLASH_COMPLETE
    · rw [if_pos hc, hw_program]
      by_cases hq : q = NewPage ∧ 0 = 0
      · rw [if_pos hq, hq.1, hN, hn]
        decide
      · rw [if_neg hq]
    · rw [if_neg hc]
  have u1 : UniqueValid cfg r1.2.flash p :=
    ⟨hu.1, (hdr1 p).2 hu.2.1, fun q hq hv => hu.2.2 q hq ((hdr1 q).1 hv)⟩
  have A1 : Run cfg (fun fl => UniqueValid cfg fl p)
      (fun fl op => ∀ d, op = .program d 0 VALID_PAGE → hw fl p 0 = ERASED) s r1.2 :=
    run_flashOp cfg s _ hu u1 (fun d hd => by
      injection hd with _ _ h3
      exact absurd h3 (by decide))
  by_cases c1 : r1.1 ≠ FLASH_COMPLETE
  · rw [if_pos c1]; exact run_mono (fun _ h => amo_of_unique h) (fun _ _ h => h) A1
  rw [if_neg c1]
  have A2 := run_trans A1 (run_body_unique u1 (run_VPF cfg r1.2 k v))
  by_cases c2 : r2.1 ≠ FLASH_COMPLETE
  · rw [if_pos c2]; exact run_mono (fun _ h => amo_of_unique h) (fun _ _ h => h) A2
  rw [if_neg c2]
  have A3 := run_trans A2 (run_body_unique (run_final A2)
    (run_transfer_loop cfg k cfg.VirtAddVarTab r2.2))
  have u3 : UniqueValid cfg r3.2.flash p := run_final A3
  cases hr : r3.1 with
  | some st => exact run_mono (fun _ h => amo_of_unique h) (fun _ _ h => h) A3
  | none =>
    show Run cfg _ _ s (if r4.1 ≠ FLASH_COMPLETE then r4
      else if r5.1 ≠ FLASH_COMPLETE then r5 else (r5.1, r5.2)).2
    -- erasing the old page
    have hdr4 : cfg.drv r3.2.ops.length = FLASH_COMPLETE →
        ∀ q, hw r4.2.flash q 0 = if q = p then 0xFFFF else hw r3.2.flash q 0 := by
      intro hc q
      show hw (if cfg.drv r3.2.ops.length = FLASH_COMPLETE then
        FlashOp.apply (.erase OldPage) r3.2.flash else r3.2.flash) q 0 = _
      rw [if_pos hc, hw_erase, hO]
    have nov4 : cfg.drv r3.2.ops.length = FLASH_COMPLETE →
        ∀ q, q < cfg.PAGE_NUM → hw r4.2.flash q 0 ≠ VALID_PAGE := by
      intro hc q hq hv
      rw [hdr4 hc q] at hv
      by_cases hqp : q = p
      · rw [if_pos hqp] at hv; exact absurd hv (by decide)
      · rw [if_neg hqp] at hv; exact hqp (u3.2.2 q hq hv)
    have amo4 : AtMostOneValid cfg r4.2.flash := by
      by_cases hc : cfg.drv r3.2.ops.length = FLASH_COMPLETE
      · exact fun a ha b _ va _ => absurd va (nov4 hc a ha)
      · show AtMostOneValid cfg (if cfg.drv r3.2.ops.length = FLASH_COMPLETE then
          FlashOp.apply (.erase OldPage) r3.2.flash else r3.2.flash)
        rw [if_neg hc]; exact amo_of_unique u3
    have A4 : Run cfg (AtMostOneValid cfg)
        (fun fl op => ∀ d, op = .program d 0 VALID_PAGE → hw fl p 0 = ERASED) s r4.2 :=
      run_trans (run_mono (fun _ h => amo_of_unique h) (fun _ _ h => h) A3)
        (run_flashOp cfg r3.2 _ (amo_of_unique u3) amo4 (fun d hd => by cases hd))
    by_cases c4 : r4.1 ≠ FLASH_COMPLETE
    · rw [if_pos c4]; exact A4
    rw [if_neg c4]
    have hc4 : cfg.drv r3.2.ops.length = FLASH_COMPLETE := by
      by_contra hx; exact c4 hx
    -- promoting the destination
    have amo5 : AtMostOneValid cfg r5.2.flash := by
      show AtMostOneValid cfg (if cfg.drv r4.2.ops.length = FLASH_COMPLETE then
        FlashOp.apply (.program NewPage 0 VALID_PAGE) r4.2.flash else r4.2.flash)
      by_cases hc : cfg.drv r4.2.ops.length = FLASH_COMPLETE
      · rw [if_pos hc]
        have key : ∀ a, a < cfg.PAGE_NUM →
            hw (FlashOp.apply (.program NewPage 0 VALID_PAGE) r4.2.flash) a 0 = VALID_PAGE →
            a = NewPage := by
          intro a ha va
          by_contra hx
          rw [hw_program, if_neg (fun hy => hx hy.1)] at va
          exact nov4 hc4 a ha va
        exact fun a ha b hb va vb => (key a ha va).trans (key b hb vb).symm
      · rw [if_neg hc]; exact amo4
    have e4 : hw r4.2.flash p 0 = ERASED := by
      rw [hdr4 hc4 p, if_pos rfl]; rfl
    have A5 : Run cfg (AtMostOneValid cfg)
        (fun fl op => ∀ d, op = .program d 0 VALID_PAGE → hw fl p 0 = ERASED) s r5.2 :=
      run_trans A4 (run_flashOp cfg r4.2 _ amo4 amo5 (fun _ _ => e4))
    by_cases c5 : r5.1 ≠ FLASH_COMPLETE
    · rw [if_pos c5]; exact A5
    · rw [if_neg c5]; exact A5

theorem run_write {cfg : Cfg} (hp : cfg.PagesOk) (s : EE) (p : Nat)
    (hu : UniqueValid cfg s.flash p) (hn : hw s.flash ((p + 1) % cfg.PAGE_NUM) 0 = ERASED)
    (k v : Nat) :
    Run cfg (AtMostOneValid cfg)
      (fun fl op => ∀ d, op = .program d 0 VALID_PAGE → hw fl p 0 = ERASED) s
      (EE_WriteVariable cfg s k v).2 := by
  unfold EE_WriteVariable
  have h1 := run_VPF cfg s k v
  have B1 := run_body_unique hu h1
  by_cases hc : (EE_VerifyPageFullWriteVariable cfg s k v).1 = PAGE_FULL
  · simp only [if_pos hc]
    have hs : SameHeaders s.flash (EE_VerifyPageFullWriteVariable cfg s k v).2.flash :=
      run_final h1
    exact run_trans (run_mono (fun _ h => amo_of_unique h) (fun _ _ h => h) B1)
      (run_transfer hp _ p (run_final B1) (by rw [hs]; exact hn) k v)
  · simp only [if_neg hc]
    exact run_mono (fun _ h => amo_of_unique h) (fun _ _ h => h) B1

theorem init_erases_next {cfg : Cfg} (hp : cfg.PagesOk) (s : EE) {p : Nat}
    (h : UniqueValid cfg s.flash p) (hn : hw s.flash ((p + 1) % cfg.PAGE_NUM) 0 = ERASED) :
    (EE_Init cfg s).2 = (FLASH_ErasePage cfg s ((p + 1) % cfg.PAGE_NUM)).2 := by
  have hn' : hw s.flash ((p + 1) % cfg.PAGE_NUM) 0 = 65535 := hn
  have hv' : hw s.flash p 0 = 0 := h.2.1
  unfold EE_Init
  simp only [init_scan_valid hp h]
  by_cases hc : (FLASH_ErasePage cfg s ((p + 1) % cfg.PAGE_NUM)).1 = FLASH_COMPLETE
  · simp [hc, page_ne_sentinel hp h.1, hv', hn', RECEIVE_DATA, ERASED, VALID_PAGE]
  · simp [hc, page_ne_sentinel hp h.1, hv', hn', RECEIVE_DATA, ERASED, VALID_PAGE]

/-- C21: never two valid pages.  Let `s` be a well-formed state: page `p` is
the only page with header `VALID_PAGE` and every other page is erased.  For
every call `EE_WriteVariable(k, v)` from `s`, whatever statuses the flash
driver returns, the operations the call issues account for the final flash
content, after each of them (and before the first) at most one page has header
`VALID_PAGE`, and whenever the call issues the program of a page header with
`VALID_PAGE`, the header of the old page `p` is `ERASED` at that point.  A
call of `EE_Init` from `s` issues the single operation that erases the page
after `p`, and at most one page has header `VALID_PAGE` before and after it. -/
theorem C21_never_two_valid_pages {cfg : Cfg} (hg : cfg.Geom) (hp : cfg.PagesOk) (s : EE)
    (p : Nat) (hu : UniqueValid cfg s.flash p)
    (he : ∀ q, q < cfg.PAGE_NUM → q ≠ p → PageErased cfg s.flash q) (k v : Nat) :
    ((EE_WriteVariable cfg s k v).2.flash
        = applyDrv cfg s.ops.length (issuedOps cfg s k v) s.flash ∧
      (∀ n, AtMostOneValid cfg
        (applyDrv cfg s.ops.length ((issuedOps cfg s k v).take n) s.flash)) ∧
      (∀ i d, (issuedOps cfg s k v)[i]? = some (.program d 0 VALID_PAGE) →
        hw (applyDrv cfg s.ops.length ((issuedOps cfg s k v).take i) s.flash) p 0 = ERASED)) ∧
    ((EE_Init cfg s).2.flash = applyDrv cfg s.ops.length (initOps cfg s) s.flash ∧
      initOps cfg s = [.erase ((p + 1) % cfg.PAGE_NUM)] ∧
      (∀ n, AtMostOneValid cfg
        (applyDrv cfg s.ops.length ((initOps cfg s).take n) s.flash))) := by
  have hn : hw s.flash ((p + 1) % cfg.PAGE_NUM) 0 = ERASED :=
    erased_hw hg (he _ (next_lt hp p) (next_ne hp hu.1))
  constructor
  · obtain ⟨issued, e1, e2, h1, h2⟩ := run_write hp s p hu hn k v
    have e : issuedOps cfg s k v = issued := by
      unfold issuedOps
      rw [e1, List.drop_left]
    rw [e]
    exact ⟨e2, h1, fun i d hi => h2 i _ hi d rfl⟩
  · have hi := init_erases_next hp s hu hn
    have e : initOps cfg s = [.erase ((p + 1) % cfg.PAGE_NUM)] := by
      unfold initOps
      rw [hi]
      show (s.ops ++ [FlashOp.erase ((p + 1) % cfg.PAGE_NUM)]).drop s.ops.length = _
      rw [List.drop_left]
    have hrun : Run cfg (AtMostOneValid cfg) (fun _ _ => True) s
        (FLASH_ErasePage cfg s ((p + 1) % cfg.PAGE_NUM)).2 := by
      refine run_flashOp cfg s _ (amo_of_unique hu) (amo_of_unique (uniqueValid_congr hu ?_))
        trivial
      intro q
      show hw (if cfg.drv s.ops.length = FLASH_COMPLETE then
        FlashOp.apply (.erase ((p + 1) % cfg.PAGE_NUM)) s.flash else s.flash) q 0 = _
      by_cases hc : cfg.drv s.ops.length = FLASH_COMPLETE
      · rw [if_pos hc, hw_erase]
        by_cases hq : q = (p + 1) % cfg.PAGE_NUM
        · rw [if_pos hq, hq, hn]; rfl
        · rw [if_neg hq]
      · rw [if_neg hc]
    obtain ⟨issued, e1, e2, h1, _⟩ := hrun
    have e3 : issued = [.erase ((p + 1) % cfg.PAGE_NUM)] := by
      have e1' : s.ops ++ [FlashOp.erase ((p + 1) % cfg.PAGE_NUM)] = s.ops ++ issued := e1
      exact (List.append_cancel_left e1').symm
    rw [hi, e, ← e3]
    exact ⟨e2, rfl, h1⟩

theorem C21_never_two_valid_pages_witness :
    (demoCfg.Geom ∧ demoCfg.PagesOk ∧
      UniqueValid demoCfg (stateOf [[0, 0xFFFF, 7, 1, 9, 2, 8, 1]]).flash 0 ∧
      ∀ q, q < demoCfg.PAGE_NUM → q ≠ 0 →
        PageErased demoCfg (stateOf [[0, 0xFFFF, 7, 1, 9, 2, 8, 1]]).flash q) ∧
    issuedOps demoCfg (stateOf [[0, 0xFFFF, 7, 1, 9, 2, 8, 1]]) 2 0xAAAA
      = [.program 1 0 RECEIVE_DATA, .program 1 4 0xAAAA, .program 1 6 2, .program 1 8 8,
          .program 1 10 1, .erase 0, .program 1 0 VALID_PAGE] ∧
    (∀ n, AtMostOneValid demoCfg
      (applyDrv demoCfg (stateOf [[0, 0xFFFF, 7, 1, 9, 2, 8, 1]]).ops.length
        ((issuedOps demoCfg (stateOf [[0, 0xFFFF, 7, 1, 9, 2, 8, 1]]) 2 0xAAAA).take n)
        (stateOf [[0, 0xFFFF, 7, 1, 9, 2, 8, 1]]).flash)) ∧
    initOps demoCfg (stateOf [[0, 0xFFFF, 7, 1, 9, 2, 8, 1]]) = [.erase ((0 + 1) % demoCfg.PAGE_NUM)] :=
  have H := @C21_never_two_valid_pages demoCfg (by decide) (by decide)
    (stateOf [[0, 0xFFFF, 7, 1, 9, 2, 8, 1]]) 0 (by decide) (by decide) 2 0xAAAA
  ⟨by decide, by decide, H.1.2.1, H.2.2.1⟩

end EEPROM
